import Mathlib

/-!
# Pack calculator: a shallow embedding of the optimal pack solver

Source files embedded here:

* `internal/usecases/calculate.go` : `calculateOptimalPacks`, `CalculatePacksUseCase.Execute`
* `internal/usecases/pack_sizes.go` : `PackSizesUseCase.UpdatePackSizes`
* `internal/repository/pack_sizes.go` : `MemoryPackSizeRepository`
* `internal/domain/models.go`, `internal/domain/errors.go`

Modelling conventions.

* A Go `int` is a 64-bit two's complement integer.  Every sum, difference and product that
  the solver computes on the order, the pack sizes and the values derived from them goes
  through `wrap` (`add64`, `sub64`, `mul64`), so that an overflow gives here the value it
  gives in Go.  Quotients are Go's truncated quotients (`Int.tdiv`); the divisors are pack
  sizes, so no quotient overflows, and a zero divisor (a Go panic) is `none`.
* The order and the pack sizes enter the solver as natural numbers, the values below
  `2^63` being the non-negative Go integers.  Indices and cells of the tables `dp` and
  `from` are natural numbers as well: a cell of `dp` holds a number of packs between `0` and
  `inf`, a cell of `from` a pack size or `0`, an index is compared with the table length
  before every read, and no arithmetic on them can overflow (`dp[i-pack]+1` is at most
  `inf`, `i - pack` is taken after `pack > i` failed).
* Slices `dp` and `from` are lists; every read is bounds-checked and a failed check
  (a Go panic) is `none`.  `make([]int, maxTarget+1)` panics on a negative length, which is
  `none` too.  Running out of memory is not part of `calculateOptimalPacks`: there `make`
  succeeds for every non-negative length.  `calculateOptimalPacksWithin` is the solver on
  a machine whose `make` cannot hold more than a given number of cells.
* The `for remaining > 0` loop carries fuel; running out of fuel (a loop that would not
  terminate) is `none`.
* A Go `map[int]int` is an association list with distinct keys, in insertion order.  The
  counts written by the reconstruction start from `best.largePacks`, when that is positive,
  and grow by one for every pack of the walk, at most `maxTarget` times.  They are counted
  in natural numbers and turned into Go integers at the end (`intCounts`), which is exact
  as long as a count stays below `2^63`, as it does on every run for which a returned map
  is described below; the count of the fallback map is a Go integer from the start.
* The slices of `MemoryPackSizeRepository` live in an explicit heap of backing arrays, so
  that two slices over one array are told apart from two arrays with equal contents.
  The mutex of the repository is not modelled: the operations are run one after another.
* The declarations under `Exact` repeat the scalar part of the solver over unbounded
  natural numbers.  They are not the program: they are the reference that the 64-bit
  definitions are compared with, and the two agree on every input on which no operation
  overflows (`calculateOptimalPacks_exact`).
-/

namespace PackCalc

/-! ## Go `int` arithmetic -/

/-- The 64-bit two's complement integer that Go stores for an exact result `x`: the
representative of `x` modulo `2^64` in the range from `-2^63` to `2^63 - 1`. -/
def wrap (x : Int) : Int :=
  (x + 9223372036854775808) % 18446744073709551616 - 9223372036854775808

/-- The Go expression `a + b` on `int` operands. -/
def add64 (a b : Int) : Int := wrap (a + b)

/-- The Go expression `a - b` on `int` operands. -/
def sub64 (a b : Int) : Int := wrap (a - b)

/-- The Go expression `a * b` on `int` operands. -/
def mul64 (a b : Int) : Int := wrap (a * b)

/-! ## The solver `calculateOptimalPacks` -/

/-- The sentinel `const inf = math.MaxInt32`. -/
def inf : Nat := 2147483647

/-- The call `sort.Ints(packSizes)`: the ascending rearrangement of the slice. -/
def sortInts (packSizes : List Nat) : List Nat :=
  packSizes.insertionSort (fun a b => a ≤ b)

/-- The window bound: `dpLimit := minPack * maxPack`, raised to `maxPack + minPack`
when it is smaller. -/
def dpLimit (minPack maxPack : Nat) : Int :=
  if mul64 minPack maxPack < add64 maxPack minPack then add64 maxPack minPack
  else mul64 minPack maxPack

/-- The number of largest packs set aside before the table is built:
`(effOrder - dpLimit) / maxPack` when the order exceeds `dpLimit`, else `0`. -/
def baseLargePacks (orderSize minPack maxPack : Nat) : Int :=
  if (orderSize : Int) > dpLimit minPack maxPack then
    Int.tdiv (sub64 orderSize (dpLimit minPack maxPack)) maxPack
  else 0

/-- The effective order: `orderSize`, lowered to `orderSize - baseLargePacks * maxPack`
when the order exceeds `dpLimit`. -/
def effOrder (orderSize minPack maxPack : Nat) : Int :=
  if (orderSize : Int) > dpLimit minPack maxPack then
    sub64 orderSize (mul64 (baseLargePacks orderSize minPack maxPack) maxPack)
  else orderSize

/-- The last index of the table: `maxTarget := effOrder + minPack - 1`. -/
def maxTarget (orderSize minPack maxPack : Nat) : Int :=
  sub64 (add64 (effOrder orderSize minPack maxPack) minPack) 1

/-- The table `dp` as allocated, for a last index `mt`: `mt + 1` cells holding `inf`, then
`dp[0] = 0`. -/
def initDp (mt : Nat) : List Nat := (List.replicate (mt + 1) inf).set 0 0

/-- The table `from` as allocated: `maxTarget + 1` zero cells. -/
def initFrom (mt : Nat) : List Nat := List.replicate (mt + 1) 0

/-- The inner loop `for _, pack := range packSizes` for one amount `i`: it stops at the
first pack larger than `i`, and writes `dp[i]`, `from[i]` when
`dp[i-pack] < inf && dp[i-pack]+1 < dp[i]`. -/
def relaxPacks (i : Nat) : List Nat → List Nat × List Nat → Option (List Nat × List Nat)
  | [], st => some st
  | pack :: rest, (dp, frm) =>
    if pack > i then some (dp, frm)
    else
      match dp[i - pack]? with
      | none => none
      | some a =>
        if a < inf then
          match dp[i]? with
          | none => none
          | some b =>
            if a + 1 < b then
              if i < frm.length then relaxPacks i rest (dp.set i (a + 1), frm.set i pack)
              else none
            else relaxPacks i rest (dp, frm)
        else relaxPacks i rest (dp, frm)

/-- The outer loop `for i := 1; i <= maxTarget; i++`, as `n` iterations from amount `i`. -/
def fillTable (packSizes : List Nat) : Nat → Nat → List Nat × List Nat →
    Option (List Nat × List Nat)
  | 0, _, st => some st
  | n + 1, i, st =>
    match relaxPacks i packSizes st with
    | none => none
    | some st1 => fillTable packSizes n (i + 1) st1

/-- Both tables after the dynamic-programming loop. -/
def buildTable (packSizes : List Nat) (mt : Nat) : Option (List Nat × List Nat) :=
  fillTable packSizes mt 1 (initDp mt, initFrom mt)

/-- The loop `for t := remainder; t <= searchEnd; t++`, as `n` iterations from `t`:
it returns the first `t` with `dp[t] < inf`, together with `dp[t]`, and leaves at once. -/
def scanWindow (dp : List Nat) : Nat → Nat → Option (Option (Nat × Nat))
  | 0, _ => some none
  | n + 1, t =>
    match dp[t]? with
    | none => none
    | some d => if d < inf then some (some (t, d)) else scanWindow dp n (t + 1)

/-- The local type `solution`: four Go integers. -/
structure solution where
  dpAmount : Int
  largePacks : Int
  totalItems : Int
  totalPacks : Int
  deriving DecidableEq, Repr

/-- The replacement test of the search: the new candidate wins when no candidate is held,
or its `totalItems` is strictly smaller, or equal with a strictly smaller `totalPacks`. -/
def keepBest (best : Option solution) (cand : solution) : Option solution :=
  match best with
  | none => some cand
  | some b =>
    if cand.totalItems < b.totalItems ∨
        (cand.totalItems = b.totalItems ∧ cand.totalPacks < b.totalPacks) then some cand
    else some b

/-- The loop `for extra := 0; extra <= maxExtra; extra++`, as `n` iterations from `extra`.
An iteration leaves the loop when `remainder < 0`, is skipped when `searchEnd > maxTarget`,
and otherwise scans the cells `remainder .. searchEnd` for the first one below `inf`; the
fields of the candidate are computed as Go computes them. -/
def searchLoop (dp : List Nat) (minPack maxPack : Nat) (base eff mt : Int) :
    Nat → Int → Option solution → Option (Option solution)
  | 0, _, best => some best
  | n + 1, extra, best =>
    let remainder := sub64 eff (mul64 extra maxPack)
    if remainder < 0 then some best
    else
      let searchEnd := sub64 (add64 remainder minPack) 1
      if searchEnd > mt then
        searchLoop dp minPack maxPack base eff mt n (add64 extra 1) best
      else
        match scanWindow dp (searchEnd + 1 - remainder).toNat remainder.toNat with
        | none => none
        | some none => searchLoop dp minPack maxPack base eff mt n (add64 extra 1) best
        | some (some (t, d)) =>
          searchLoop dp minPack maxPack base eff mt n (add64 extra 1)
            (keepBest best
              { dpAmount := t, largePacks := add64 base extra,
                totalItems := add64 (mul64 (add64 base extra) maxPack) t,
                totalPacks := add64 (add64 base extra) d })

/-- The statement `result[pack]++` on a map held as an association list. -/
def incr (pack : Nat) : List (Nat × Nat) → List (Nat × Nat)
  | [] => [(pack, 1)]
  | (k, c) :: rest => if k = pack then (k, c + 1) :: rest else (k, c) :: incr pack rest

/-- The loop `for remaining > 0 { pack := from[remaining]; result[pack]++;
remaining -= pack }` with fuel.  When `pack > remaining` Go leaves the loop with a
negative `remaining`; here `remaining` becomes `0`, which leaves the loop as well. -/
def walk (frm : List Nat) : Nat → Nat → List (Nat × Nat) → Option (List (Nat × Nat))
  | 0, remaining, result => if remaining > 0 then none else some result
  | fuel + 1, remaining, result =>
    if remaining > 0 then
      match frm[remaining]? with
      | none => none
      | some pack => walk frm fuel (remaining - pack) (incr pack result)
    else some result

/-- A map whose counts were counted in natural numbers, as the Go map it is. -/
def intCounts (m : List (Nat × Nat)) : List (Nat × Int) :=
  m.map (fun e => (e.1, (e.2 : Int)))

/-- The tail of `calculateOptimalPacks`, from `if best == nil` on: the fallback map with
`count := (orderSize + minPack - 1) / minPack`, or the map with `best.largePacks` packs of
`maxPack`, when positive, after the walk from `best.dpAmount`. -/
def finish (orderSize minPack maxPack : Nat) (frm : List Nat) :
    Option solution → Option (List (Nat × Int))
  | none =>
    if minPack = 0 then none
    else some [(minPack, Int.tdiv (sub64 (add64 orderSize minPack) 1) minPack)]
  | some best =>
    (walk frm best.dpAmount.toNat best.dpAmount.toNat
      (if best.largePacks > 0 then [(maxPack, best.largePacks.toNat)] else [])).map intCounts

/-- The function `calculateOptimalPacks(orderSize, packSizes)`.  `none` stands for a run
that does not return a map (a negative length given to `make`, an index out of range, a
division by zero, an endless loop): `Option.bind` hands a panic on.  The two tables
`dp` and `from` have `maxTarget + 1` cells; with a length of zero the statement
`dp[0] = 0` panics. -/
def calculateOptimalPacks (orderSize : Nat) (packSizes : List Nat) :
    Option (List (Nat × Int)) :=
  let sorted := sortInts packSizes
  match sorted.head?, sorted.getLast? with
  | some minPack, some maxPack =>
    if maxPack = 0 then none
    else
      let base := baseLargePacks orderSize minPack maxPack
      let eff := effOrder orderSize minPack maxPack
      let mt := maxTarget orderSize minPack maxPack
      if add64 mt 1 ≤ 0 then none
      else
        (buildTable sorted mt.toNat).bind fun tables =>
          (searchLoop tables.1 minPack maxPack base eff mt
              (Int.tdiv eff maxPack + 1).toNat 0 none).bind
            fun best => finish orderSize minPack maxPack tables.2 best
  | _, _ => none

/-! ## The use case `CalculatePacksUseCase.Execute` -/

/-- The error values of `internal/domain/errors.go`. -/
inductive DomainError where
  | ErrOrderSizePositive
  | ErrNoPackSizes
  | ErrEmptyPackSizes
  | ErrInvalidPackSize
  | ErrTooManyPackSizes
  deriving DecidableEq, Repr

/-- The type `domain.PackResult`; `Size` is a `domain.PackSize`, an `int`. -/
structure PackResult where
  Size : Int
  Count : Int
  deriving DecidableEq, Repr

/-- A `domain.PackSizeRepository` as `Execute` sees it: the slice that `GetPackSizes`
returns, and a count of the calls of `GetPackSizes` made so far. -/
structure Repository where
  packSizes : List Int
  reads : Nat
  deriving DecidableEq, Repr

/-- The call `uc.repo.GetPackSizes()`: the stored slice, and the repository with the call
counted. -/
def Repository.GetPackSizes (repo : Repository) : List Int × Repository :=
  (repo.packSizes, { repo with reads := repo.reads + 1 })

/-- The loop `for size, count := range result` with its test `count > 0`; the map is
ranged over in the order of the association list. -/
def collectResults (result : List (Nat × Int)) : List PackResult :=
  (result.filter (fun e => e.2 > 0)).map (fun e => { Size := (e.1 : Int), Count := e.2 })

/-- The call `sort.Slice(packResults, ...)` with `less(i, j) = Size[i] > Size[j]`:
descending sizes. -/
def sortBySizeDesc (packResults : List PackResult) : List PackResult :=
  packResults.insertionSort (fun a b => a.Size ≥ b.Size)

/-- The method `Execute(orderSize)`: the pair `(result, error)` it returns, with `[]` for a
nil slice and `none` for a nil error, next to the repository after the call.  The solver is
entered with the order and the sizes as natural numbers: `Int.toNat` is exact on the
positive values that the solver is specified for, and a repository size that is not
positive, which `UpdatePackSizes` never stores, is entered as `0`.  The outer `none` is a
run of the solver that does not return. -/
def Execute (repo : Repository) (orderSize : Int) :
    Option ((List PackResult × Option DomainError) × Repository) :=
  if orderSize ≤ 0 then some (([], some DomainError.ErrOrderSizePositive), repo)
  else
    match repo.GetPackSizes with
    | (packSizes, repo1) =>
      if packSizes.length = 0 then some (([], some DomainError.ErrNoPackSizes), repo1)
      else
        let sizes := packSizes.map Int.toNat
        match calculateOptimalPacks orderSize.toNat sizes with
        | none => none
        | some result => some ((sortBySizeDesc (collectResults result), none), repo1)

/-- The method `Execute` with the order of `for size, count := range result` left open:
`enum result` is the order in which the entries of the map are visited. -/
def ExecuteRanged (enum : List (Nat × Int) → List (Nat × Int)) (repo : Repository)
    (orderSize : Int) : Option ((List PackResult × Option DomainError) × Repository) :=
  if orderSize ≤ 0 then some (([], some DomainError.ErrOrderSizePositive), repo)
  else
    match repo.GetPackSizes with
    | (packSizes, repo1) =>
      if packSizes.length = 0 then some (([], some DomainError.ErrNoPackSizes), repo1)
      else
        let sizes := packSizes.map Int.toNat
        match calculateOptimalPacks orderSize.toNat sizes with
        | none => none
        | some result => some ((sortBySizeDesc (collectResults (enum result)), none), repo1)

/-! ## The use case `PackSizesUseCase.UpdatePackSizes` -/

/-- The constant `maxPackSize = 1_000_000`. -/
def maxPackSize : Int := 1000000

/-- The constant `maxPackCount = 20`. -/
def maxPackCount : Nat := 20

/-- A `domain.PackSizeRepository` as `PackSizesUseCase` sees it: the error that its
`UpdatePackSizes` answers for each argument, and the arguments it was called with so far. -/
structure UpdateRepository where
  answer : List Int → Option DomainError
  calls : List (List Int)

/-- The call `uc.repo.UpdatePackSizes(unique)`: the answer, and the call recorded. -/
def UpdateRepository.UpdatePackSizes (repo : UpdateRepository) (sizes : List Int) :
    Option DomainError × UpdateRepository :=
  (repo.answer sizes, { repo with calls := repo.calls ++ [sizes] })

/-- The loop `for _, size := range sizes` that returns `ErrInvalidPackSize` at the first
size with `size <= 0 || int(size) > maxPackSize`. -/
def checkSizes : List Int → Option DomainError
  | [] => none
  | size :: rest =>
    if size ≤ 0 ∨ size > maxPackSize then some DomainError.ErrInvalidPackSize
    else checkSizes rest

/-- The loop that fills `unique`: a size not yet in `seen` is marked and appended. -/
def dedupLoop : List Int → List Int → List Int → List Int
  | [], _, unique => unique
  | s :: rest, seen, unique =>
    if s ∈ seen then dedupLoop rest seen unique
    else dedupLoop rest (s :: seen) (unique ++ [s])

/-- The call `sort.Slice(unique, ...)` with `less(i, j) = unique[i] < unique[j]`. -/
def sortSizes (unique : List Int) : List Int :=
  unique.insertionSort (fun a b => a ≤ b)

/-- The method `PackSizesUseCase.UpdatePackSizes(sizes)`: the error it returns, next to
the repository after the call. -/
def PackSizesUseCase.UpdatePackSizes (repo : UpdateRepository) (sizes : List Int) :
    Option DomainError × UpdateRepository :=
  if sizes.length = 0 then (some DomainError.ErrEmptyPackSizes, repo)
  else
    match checkSizes sizes with
    | some err => (some err, repo)
    | none =>
      let unique := sortSizes (dedupLoop sizes [] [])
      if unique.length > maxPackCount then (some DomainError.ErrTooManyPackSizes, repo)
      else repo.UpdatePackSizes unique

/-! ## The repository `MemoryPackSizeRepository` -/

/-- The backing arrays of the `[]domain.PackSize` slices on the Go heap: array number `a`
is `arrays[a]`. -/
structure Heap where
  arrays : List (List Int)
  deriving DecidableEq, Repr

/-- A slice value: `none` is the nil slice, `some a` is a slice over the whole of backing
array `a`. -/
abbrev Slice := Option Nat

/-- The elements of a slice. -/
def Heap.contents (h : Heap) : Slice → List Int
  | none => []
  | some a => (h.arrays[a]?).getD []

/-- The two statements `cp := make([]domain.PackSize, len(src))` and `copy(cp, src)`:
a slice over a fresh backing array with the elements of `src`. -/
def Heap.copyOf (h : Heap) (src : Slice) : Slice × Heap :=
  (some h.arrays.length, { arrays := h.arrays ++ [h.contents src] })

/-- The assignment `s[i] = v` by a holder of the slice `s`; `none` is the index panic. -/
def Heap.store (h : Heap) (s : Slice) (i : Nat) (v : Int) : Option Heap :=
  match s with
  | none => none
  | some a =>
    match h.arrays[a]? with
    | none => none
    | some xs => if i < xs.length then some { arrays := h.arrays.set a (xs.set i v) } else none

/-- The struct `MemoryPackSizeRepository`, without its mutex. -/
structure MemoryPackSizeRepository where
  packSizes : Slice
  deriving DecidableEq, Repr

/-- The constructor `NewMemoryPackSizeRepository(packSizes)`. -/
def NewMemoryPackSizeRepository (h : Heap) (packSizes : Slice) :
    MemoryPackSizeRepository × Heap :=
  match h.copyOf packSizes with
  | (cp, h1) => ({ packSizes := cp }, h1)

/-- The method `GetPackSizes()`: the returned slice, and the heap after the call. -/
def MemoryPackSizeRepository.GetPackSizes (r : MemoryPackSizeRepository) (h : Heap) :
    Slice × Heap :=
  h.copyOf r.packSizes

/-- The method `UpdatePackSizes(sizes)`: the returned error and the repository after the
call, and the heap after the call. -/
def MemoryPackSizeRepository.UpdatePackSizes (_r : MemoryPackSizeRepository) (h : Heap)
    (sizes : Slice) : (Option DomainError × MemoryPackSizeRepository) × Heap :=
  match h.copyOf sizes with
  | (cp, h1) => ((none, { packSizes := cp }), h1)

/-- The shipped quantity of a mapping: the sum of `size * count` over its entries. -/
def shipped (m : List (Nat × Nat)) : Nat := (m.map (fun e => e.1 * e.2)).sum

/-- The number of packs of a mapping: the sum of its counts. -/
def packCount (m : List (Nat × Nat)) : Nat := (m.map (fun e => e.2)).sum


/-! ## The solver over unbounded integers

The scalar part of the solver once more, with every sum, difference and product taken
exactly, on natural numbers.  These declarations are the reference that the 64-bit solver
is compared with, not the program. -/

/-- The window bound over unbounded integers: `minPack * maxPack`, raised to
`maxPack + minPack` when it is smaller. -/
def Exact.dpLimit (minPack maxPack : Nat) : Nat :=
  if minPack * maxPack < maxPack + minPack then maxPack + minPack else minPack * maxPack

/-- The number of largest packs set aside before the table is built, over unbounded
integers: `(orderSize - dpLimit) / maxPack` when the order exceeds `dpLimit`, else `0`. -/
def Exact.baseLargePacks (orderSize minPack maxPack : Nat) : Nat :=
  if orderSize > Exact.dpLimit minPack maxPack then
    (orderSize - Exact.dpLimit minPack maxPack) / maxPack
  else 0

/-- The effective order over unbounded integers: `orderSize - baseLargePacks * maxPack`. -/
def Exact.effOrder (orderSize minPack maxPack : Nat) : Nat :=
  orderSize - Exact.baseLargePacks orderSize minPack maxPack * maxPack

/-- The last index of the table over unbounded integers: `effOrder + minPack - 1`. -/
def Exact.maxTarget (orderSize minPack maxPack : Nat) : Nat :=
  Exact.effOrder orderSize minPack maxPack + minPack - 1

/-- A candidate with fields that are unbounded natural numbers. -/
structure Exact.solution where
  dpAmount : Nat
  largePacks : Nat
  totalItems : Nat
  totalPacks : Nat
  deriving DecidableEq, Repr

/-- The replacement test of the search on exact fields: the new candidate wins when no
candidate is held, or it ships strictly fewer items, or as many items in strictly fewer
packs. -/
def Exact.keepBest (best : Option Exact.solution) (cand : Exact.solution) :
    Option Exact.solution :=
  match best with
  | none => some cand
  | some b =>
    if cand.totalItems < b.totalItems ∨
        (cand.totalItems = b.totalItems ∧ cand.totalPacks < b.totalPacks) then some cand
    else some b

/-- The loop `for extra := 0; extra <= maxExtra; extra++` over unbounded integers, as `n`
iterations from `extra`.  `remainder < 0` is `eff < extra * maxPack`; the window
`remainder .. searchEnd` has `minPack` cells, and `searchEnd > mt` skips the iteration. -/
def Exact.searchLoop (dp : List Nat) (minPack maxPack base eff mt : Nat) :
    Nat → Nat → Option Exact.solution → Option (Option Exact.solution)
  | 0, _, best => some best
  | n + 1, extra, best =>
    if eff < extra * maxPack then some best
    else
      let remainder := eff - extra * maxPack
      let searchEnd := remainder + minPack - 1
      if searchEnd > mt then Exact.searchLoop dp minPack maxPack base eff mt n (extra + 1) best
      else
        match scanWindow dp (searchEnd + 1 - remainder) remainder with
        | none => none
        | some none => Exact.searchLoop dp minPack maxPack base eff mt n (extra + 1) best
        | some (some (t, d)) =>
          Exact.searchLoop dp minPack maxPack base eff mt n (extra + 1)
            (Exact.keepBest best
              { dpAmount := t, largePacks := base + extra,
                totalItems := (base + extra) * maxPack + t,
                totalPacks := base + extra + d })

/-- The tail of the solver over unbounded integers, from `if best == nil` on. -/
def Exact.finish (orderSize minPack maxPack : Nat) (frm : List Nat) :
    Option Exact.solution → Option (List (Nat × Nat))
  | none => if minPack = 0 then none else some [(minPack, (orderSize + minPack - 1) / minPack)]
  | some best =>
    walk frm best.dpAmount best.dpAmount
      (if best.largePacks > 0 then [(maxPack, best.largePacks)] else [])

/-- The solver with every sum, difference and product taken exactly.  `none` stands for a
run that does not return a map (index out of range, division by zero, endless loop). -/
def Exact.calculateOptimalPacks (orderSize : Nat) (packSizes : List Nat) :
    Option (List (Nat × Nat)) :=
  let sorted := sortInts packSizes
  match sorted.head?, sorted.getLast? with
  | some minPack, some maxPack =>
    if maxPack = 0 then none
    else
      let base := Exact.baseLargePacks orderSize minPack maxPack
      let eff := Exact.effOrder orderSize minPack maxPack
      let mt := Exact.maxTarget orderSize minPack maxPack
      match buildTable sorted mt with
      | none => none
      | some (dp, frm) =>
        match Exact.searchLoop dp minPack maxPack base eff mt (eff / maxPack + 1) 0 none with
        | none => none
        | some best => Exact.finish orderSize minPack maxPack frm best
  | _, _ => none

/-- The loop `for size, count := range result` on a map of natural-number counts. -/
def Exact.collectResults (result : List (Nat × Nat)) : List PackResult :=
  (result.filter (fun e => e.2 > 0)).map
    (fun e => { Size := (e.1 : Int), Count := (e.2 : Int) })

/-- The method `Execute` around the solver over unbounded integers. -/
def Exact.Execute (repo : Repository) (orderSize : Int) :
    Option ((List PackResult × Option DomainError) × Repository) :=
  if orderSize ≤ 0 then some (([], some DomainError.ErrOrderSizePositive), repo)
  else
    match repo.GetPackSizes with
    | (packSizes, repo1) =>
      if packSizes.length = 0 then some (([], some DomainError.ErrNoPackSizes), repo1)
      else
        let sizes := packSizes.map Int.toNat
        match Exact.calculateOptimalPacks orderSize.toNat sizes with
        | none => none
        | some result => some ((sortBySizeDesc (Exact.collectResults result), none), repo1)

/-! ## Vocabulary of the specification and of the proofs -/

/-- The amount `i` is the total of exactly `k` packs, each of a size in `ps`
(a non-negative integer combination of the pack sizes using `k` packs). -/
def Reach (ps : List Nat) (k i : Nat) : Prop :=
  ∃ c : List Nat, (∀ x ∈ c, x ∈ ps) ∧ c.sum = i ∧ c.length = k

/-- The amount `i` is a non-negative integer combination of the pack sizes. -/
def Reachable (ps : List Nat) (i : Nat) : Prop :=
  ∃ c : List Nat, (∀ x ∈ c, x ∈ ps) ∧ c.sum = i

/-- What the finished loop guarantees about cell `i` of `dp` and `from`:
the value `v = dp[i]` never exceeds `inf`; a value below `inf` is the number of packs of a
combination totalling `i`; no combination totalling `i` has fewer than `v` packs; and for a
value below `inf` at `i > 0`, `from[i]` is a pack size `p ≤ i` with `dp[i-p] + 1 = dp[i]`,
the first such in ascending order. -/
def CellOK (ps dp frm : List Nat) (i : Nat) : Prop :=
  ∃ v, dp[i]? = some v ∧ v ≤ inf ∧ (v < inf → Reach ps v i) ∧ (∀ k, Reach ps k i → v ≤ k) ∧
    (v < inf → 0 < i → ∃ p, frm[i]? = some p ∧ p ∈ ps ∧ 0 < p ∧ p ≤ i ∧
      (∃ u, dp[i - p]? = some u ∧ u + 1 = v) ∧
      (∀ q ∈ ps, q < p → ∀ u, dp[i - q]? = some u → v < u + 1))

/-- Both tables have `mt + 1` cells and every cell satisfies `CellOK`. -/
def TableOK (ps : List Nat) (mt : Nat) (dp frm : List Nat) : Prop :=
  dp.length = mt + 1 ∧ frm.length = mt + 1 ∧ ∀ i, i ≤ mt → CellOK ps dp frm i

/-- The state of the inner loop for amount `i` after the packs `done` were tried, relative
to the tables `dp0`, `frm0` at its start. -/
def RelaxInv (i : Nat) (dp0 frm0 : List Nat) (done : List Nat) (dp frm : List Nat) : Prop :=
  dp.length = dp0.length ∧ frm.length = frm0.length ∧
  (∀ j, j ≠ i → dp[j]? = dp0[j]? ∧ frm[j]? = frm0[j]?) ∧
  ∃ b, dp[i]? = some b ∧ b ≤ inf ∧
    (∀ q ∈ done, ∀ u, dp0[i - q]? = some u → u < inf → b ≤ u + 1) ∧
    (b < inf → ∃ f, frm[i]? = some f ∧ f ∈ done ∧
      (∃ u, dp0[i - f]? = some u ∧ u + 1 = b) ∧
      (∀ q ∈ done, q < f → ∀ u, dp0[i - q]? = some u → b < u + 1))

/-- The candidate that iteration `extra` of the search builds: the window
`remainder .. remainder + minPack - 1` lies inside the table, `dpAmount` is the first
amount of the window whose cell is below `inf`, and the four fields are filled from it. -/
def CandAt (dp : List Nat) (minPack maxPack base eff mt extra : Nat) (s : Exact.solution) : Prop :=
  extra * maxPack ≤ eff ∧ eff - extra * maxPack + minPack - 1 ≤ mt ∧
  eff - extra * maxPack ≤ s.dpAmount ∧ s.dpAmount ≤ eff - extra * maxPack + minPack - 1 ∧
  (∀ j, eff - extra * maxPack ≤ j → j < s.dpAmount → ∀ v, dp[j]? = some v → inf ≤ v) ∧
  s.largePacks = base + extra ∧ s.totalItems = (base + extra) * maxPack + s.dpAmount ∧
  ∃ d, dp[s.dpAmount]? = some d ∧ d < inf ∧ s.totalPacks = base + extra + d

/-- The order in which the search ranks candidates: fewer items first, then fewer packs. -/
def LexLE (a b : Exact.solution) : Prop :=
  a.totalItems < b.totalItems ∨ (a.totalItems = b.totalItems ∧ a.totalPacks ≤ b.totalPacks)

/-- The map after `result[pack]++` was run for each pack of `w` in turn. -/
def applyPacks (w : List Nat) (m : List (Nat × Nat)) : List (Nat × Nat) :=
  w.foldl (fun acc p => incr p acc) m

/-- What one run of `Exact.calculateOptimalPacks` on a positive order and a non-empty slice of
positive pack sizes goes through: the two ends of the sorted slice, the finished tables,
and the value of `best` after the search. -/
structure Run (orderSize : Nat) (packSizes : List Nat) (minPack maxPack : Nat)
    (dp frm : List Nat) (best : Option Exact.solution) : Prop where
  headEq : (sortInts packSizes).head? = some minPack
  lastEq : (sortInts packSizes).getLast? = some maxPack
  minPos : 0 < minPack
  minMem : minPack ∈ packSizes
  maxMem : maxPack ∈ packSizes
  bounds : ∀ x ∈ packSizes, minPack ≤ x ∧ x ≤ maxPack
  table : TableOK (sortInts packSizes) (Exact.maxTarget orderSize minPack maxPack) dp frm
  isCand : best = none ∨ ∃ s e, best = some s ∧
    CandAt dp minPack maxPack (Exact.baseLargePacks orderSize minPack maxPack)
      (Exact.effOrder orderSize minPack maxPack) (Exact.maxTarget orderSize minPack maxPack) e s
  isLeast : ∀ e s1,
    CandAt dp minPack maxPack (Exact.baseLargePacks orderSize minPack maxPack)
      (Exact.effOrder orderSize minPack maxPack) (Exact.maxTarget orderSize minPack maxPack) e s1 →
    ∃ s, best = some s ∧ LexLE s s1
  result : Exact.calculateOptimalPacks orderSize packSizes =
      Exact.finish orderSize minPack maxPack frm best

/-- The map that `Exact.finish` starts the walk from. -/
def startMap (maxPack : Nat) (s : Exact.solution) : List (Nat × Nat) :=
  if s.largePacks > 0 then [(maxPack, s.largePacks)] else []

/-- The entry of the returned slice that a map entry becomes. -/
def toPackResult (e : Nat × Nat) : PackResult := { Size := (e.1 : Int), Count := (e.2 : Int) }

/-- The count that a map holds for the key `key` (the Go expression `result[key]`, which
is `0` for an absent key). -/
def countOf : List (Nat × Nat) → Nat → Nat
  | [], _ => 0
  | (k, c) :: rest, key => (if k = key then c else 0) + countOf rest key

/-- A slice is valid in a heap when it is nil or its backing array has been allocated. -/
def Heap.Valid (h : Heap) (s : Slice) : Prop := ∀ a, s = some a → a < h.arrays.length

/-- The solver without the sweep over extra largest packs, as the simplified solver is
described: the tables are built as in `Exact.calculateOptimalPacks`, the window
`Exact.effOrder .. Exact.effOrder + minPack - 1` is scanned once, and the map is reconstructed
from the first amount found, with `Exact.baseLargePacks` largest packs; when the scan finds
nothing the fallback map is returned. -/
def Exact.calculateOptimalPacksNoSweep (orderSize : Nat) (packSizes : List Nat) :
    Option (List (Nat × Nat)) :=
  let sorted := sortInts packSizes
  match sorted.head?, sorted.getLast? with
  | some minPack, some maxPack =>
    if maxPack = 0 then none
    else
      let base := Exact.baseLargePacks orderSize minPack maxPack
      let eff := Exact.effOrder orderSize minPack maxPack
      let mt := Exact.maxTarget orderSize minPack maxPack
      match buildTable sorted mt with
      | none => none
      | some (dp, frm) =>
        match scanWindow dp minPack eff with
        | none => none
        | some none => Exact.finish orderSize minPack maxPack frm none
        | some (some (t, d)) =>
          Exact.finish orderSize minPack maxPack frm
            (some { dpAmount := t, largePacks := base,
                    totalItems := base * maxPack + t, totalPacks := base + d })
  | _, _ => none

/-- The inputs on which no operation of the solver overflows, in terms of the smallest and
the largest pack size: the table length stays below `2^63`, and so does the order with
`minPack - 1` added to it. -/
def NoOverflow (orderSize minPack maxPack : Nat) : Prop :=
  minPack * maxPack + maxPack + 2 * minPack ≤ 9223372036854775808 ∧
    orderSize + minPack ≤ 9223372036854775808

/-- A candidate of the solver over unbounded integers, as the Go value with the same
fields. -/
def toGo (s : Exact.solution) : solution :=
  { dpAmount := s.dpAmount, largePacks := s.largePacks, totalItems := s.totalItems,
    totalPacks := s.totalPacks }

/-- The function `calculateOptimalPacks` on a machine whose `make` allocates slices of at
most `cells` elements: `none` also when the table length `maxTarget + 1` exceeds
`cells`. -/
def calculateOptimalPacksWithin (cells : Nat) (orderSize : Nat) (packSizes : List Nat) :
    Option (List (Nat × Int)) :=
  match (sortInts packSizes).head?, (sortInts packSizes).getLast? with
  | some minPack, some maxPack =>
    if (cells : Int) < add64 (maxTarget orderSize minPack maxPack) 1 then none
    else calculateOptimalPacks orderSize packSizes
  | _, _ => none

/-- The body of the search loop for one value of `extra`: the candidate that the iteration
builds, `none` when the iteration leaves the loop (`remainder < 0`), is skipped
(`searchEnd > maxTarget`) or finds no cell below `inf` in its window. -/
def iteration (dp : List Nat) (minPack maxPack : Nat) (base eff mt extra : Int) :
    Option solution :=
  let remainder := sub64 eff (mul64 extra maxPack)
  if remainder < 0 then none
  else
    let searchEnd := sub64 (add64 remainder minPack) 1
    if searchEnd > mt then none
    else
      (scanWindow dp (searchEnd + 1 - remainder).toNat remainder.toNat).join.map fun td =>
        { dpAmount := td.1, largePacks := add64 base extra,
          totalItems := add64 (mul64 (add64 base extra) maxPack) td.1,
          totalPacks := add64 (add64 base extra) td.2 }

/-- The solver without the sweep over extra largest packs, as the simplified solver is
described: the tables are built as in `calculateOptimalPacks`, the window
`effOrder .. effOrder + minPack - 1` is scanned once, and the map is reconstructed from the
first amount found, with `baseLargePacks` largest packs; when the scan finds nothing the
fallback map is returned. -/
def calculateOptimalPacksNoSweep (orderSize : Nat) (packSizes : List Nat) :
    Option (List (Nat × Int)) :=
  let sorted := sortInts packSizes
  match sorted.head?, sorted.getLast? with
  | some minPack, some maxPack =>
    if maxPack = 0 then none
    else
      let base := baseLargePacks orderSize minPack maxPack
      let eff := effOrder orderSize minPack maxPack
      let mt := maxTarget orderSize minPack maxPack
      if add64 mt 1 ≤ 0 then none
      else
        (buildTable sorted mt.toNat).bind fun tables =>
          (scanWindow tables.1 minPack eff.toNat).bind fun found =>
            finish orderSize minPack maxPack tables.2
              (found.map fun td =>
                { dpAmount := td.1, largePacks := base,
                  totalItems := add64 (mul64 base maxPack) td.1,
                  totalPacks := add64 base td.2 })
  | _, _ => none

/-! # Theorems

The tables, the reconstruction walk and the solver over unbounded integers come first.
From `wrap_eq` on, the 64-bit solver is compared with the solver over unbounded integers,
and the theorems about the program itself follow. -/

/-! ## Combinations of packs -/

theorem Reach.zero (ps : List Nat) : Reach ps 0 0 := ⟨[], by simp, rfl, rfl⟩

theorem Reach.cons {ps : List Nat} {k i p : Nat} (hp : p ∈ ps) (h : Reach ps k i) :
    Reach ps (k + 1) (p + i) := by
  obtain ⟨c, hc, hs, hl⟩ := h
  refine ⟨p :: c, ?_, by simp [hs], by simp [hl]⟩
  intro x hx
  rcases List.mem_cons.1 hx with rfl | hx
  · exact hp
  · exact hc x hx

theorem Reach.reachable {ps : List Nat} {k i : Nat} (h : Reach ps k i) : Reachable ps i := by
  obtain ⟨c, hc, hs, _⟩ := h
  exact ⟨c, hc, hs⟩

theorem Reach.uncons {ps : List Nat} {k i : Nat} (h : Reach ps k i) (hi : 0 < i) :
    ∃ p, p ∈ ps ∧ p ≤ i ∧ 1 ≤ k ∧ Reach ps (k - 1) (i - p) := by
  obtain ⟨c, hc, hs, hl⟩ := h
  cases c with
  | nil => simp at hs; omega
  | cons p c =>
    simp only [List.sum_cons] at hs
    simp only [List.length_cons] at hl
    refine ⟨p, hc p (List.mem_cons_self _ _), by omega, by omega, c, ?_, by omega, by omega⟩
    intro x hx
    exact hc x (List.mem_cons_of_mem _ hx)

/-- A total of `k` packs is at least `k` times the smallest size. -/
theorem Reach.le_sum {ps : List Nat} {lo : Nat} (hlo : ∀ x ∈ ps, lo ≤ x) {k i : Nat}
    (h : Reach ps k i) : lo * k ≤ i := by
  obtain ⟨c, hc, hs, hl⟩ := h
  subst hs hl
  induction c with
  | nil => simp
  | cons p c ih =>
    have h1 : lo ≤ p := hlo p (hc p (List.mem_cons_self _ _))
    have h2 := ih (fun x hx => hc x (List.mem_cons_of_mem _ hx))
    simp only [List.sum_cons, List.length_cons]
    rw [Nat.mul_add]
    omega

/-- A total of `k` packs is at most `k` times the largest size. -/
theorem Reach.sum_le {ps : List Nat} {hi : Nat} (hhi : ∀ x ∈ ps, x ≤ hi) {k i : Nat}
    (h : Reach ps k i) : i ≤ hi * k := by
  obtain ⟨c, hc, hs, hl⟩ := h
  subst hs hl
  induction c with
  | nil => simp
  | cons p c ih =>
    have h1 : p ≤ hi := hhi p (hc p (List.mem_cons_self _ _))
    have h2 := ih (fun x hx => hc x (List.mem_cons_of_mem _ hx))
    simp only [List.sum_cons, List.length_cons]
    rw [Nat.mul_add]
    omega

theorem Reach.replicate {ps : List Nat} {p : Nat} (hp : p ∈ ps) (k : Nat) :
    Reach ps k (k * p) := by
  refine ⟨List.replicate k p, ?_, by simp, by simp⟩
  intro x hx
  rw [List.eq_of_mem_replicate hx]
  exact hp

theorem Reach.add {ps : List Nat} {k i l j : Nat} (h1 : Reach ps k i) (h2 : Reach ps l j) :
    Reach ps (k + l) (i + j) := by
  obtain ⟨c, hc, hs, hl⟩ := h1
  obtain ⟨d, hd, hs2, hl2⟩ := h2
  refine ⟨c ++ d, ?_, by simp [hs, hs2], by simp [hl, hl2]⟩
  intro x hx
  rcases List.mem_append.1 hx with h | h
  · exact hc x h
  · exact hd x h

/-! ## The table after the dynamic-programming loop -/

theorem relaxPacks_spec (i : Nat) (dp0 frm0 : List Nat) (hlen : frm0.length = dp0.length)
    (hi : i < dp0.length) :
    ∀ (rest done dp frm : List Nat),
      (∀ x ∈ done, 0 < x ∧ x ≤ i) → (∀ x ∈ rest, 0 < x) →
      (∀ x ∈ done, ∀ y ∈ rest, x ≤ y) → List.Sorted (fun a b => a ≤ b) rest →
      RelaxInv i dp0 frm0 done dp frm →
      ∃ dp1 frm1 done1 rest1, relaxPacks i rest (dp, frm) = some (dp1, frm1) ∧
        done ++ rest = done1 ++ rest1 ∧ (∀ x ∈ done1, 0 < x ∧ x ≤ i) ∧ (∀ y ∈ rest1, i < y) ∧
        RelaxInv i dp0 frm0 done1 dp1 frm1 := by
  intro rest
  induction rest with
  | nil =>
    intro done dp frm hd _ _ _ hinv
    exact ⟨dp, frm, done, [], rfl, rfl, hd, by simp, hinv⟩
  | cons p rest ih =>
    intro done dp frm hd hr hdr hs hinv
    have hs2 := List.sorted_cons.1 hs
    by_cases hpi : p > i
    · refine ⟨dp, frm, done, p :: rest, by simp [relaxPacks, hpi], rfl, hd, ?_, hinv⟩
      intro y hy
      rcases List.mem_cons.1 hy with rfl | hy
      · exact hpi
      · have := hs2.1 y hy
        omega
    · have hppos : 0 < p := hr p (List.mem_cons_self _ _)
      have hple : p ≤ i := by omega
      obtain ⟨hl1, hl2, hframe, b, hb, hbinf, hmin, hfrom⟩ := hinv
      have hne : i - p ≠ i := by omega
      have hlt : i - p < dp0.length := by omega
      obtain ⟨a, ha⟩ : ∃ a, dp0[i - p]? = some a := ⟨dp0[i - p], List.getElem?_eq_getElem hlt⟩
      have ha1 : dp[i - p]? = some a := by rw [(hframe _ hne).1, ha]
      -- the recursive call always sees `done ++ [p]`
      have hd1 : ∀ x ∈ done ++ [p], 0 < x ∧ x ≤ i := by
        intro x hx
        rcases List.mem_append.1 hx with h | h
        · exact hd x h
        · rw [List.mem_singleton.1 h]; exact ⟨hppos, hple⟩
      have hr1 : ∀ x ∈ rest, 0 < x := fun x hx => hr x (List.mem_cons_of_mem _ hx)
      have hdr1 : ∀ x ∈ done ++ [p], ∀ y ∈ rest, x ≤ y := by
        intro x hx y hy
        rcases List.mem_append.1 hx with h | h
        · exact hdr x h y (List.mem_cons_of_mem _ hy)
        · rw [List.mem_singleton.1 h]; exact hs2.1 y hy
      have happ : done ++ p :: rest = (done ++ [p]) ++ rest := by simp
      have hdp : ∀ q ∈ done, q ≤ p := fun q hq => hdr q hq p (List.mem_cons_self _ _)
      by_cases hainf : a < inf
      · by_cases hab : a + 1 < b
        · -- the cell is overwritten
          have hif : i < frm.length := by omega
          have hid : i < dp.length := by omega
          have key : RelaxInv i dp0 frm0 (done ++ [p]) (dp.set i (a + 1)) (frm.set i p) := by
            refine ⟨by simp [hl1], by simp [hl2], ?_, a + 1, ?_, by omega, ?_, ?_⟩
            · intro j hj
              rw [List.getElem?_set_ne (Ne.symm hj), List.getElem?_set_ne (Ne.symm hj)]
              exact hframe j hj
            · exact List.getElem?_set_self hid
            · intro q hq u hu hu2
              rcases List.mem_append.1 hq with h | h
              · have := hmin q h u hu hu2
                omega
              · rw [List.mem_singleton.1 h, ha] at hu
                cases hu
                exact Nat.le_refl _
            · intro _
              refine ⟨p, List.getElem?_set_self hif, by simp, ⟨a, ha, rfl⟩, ?_⟩
              intro q hq hqp u hu
              rcases List.mem_append.1 hq with h | h
              · by_cases hu2 : u < inf
                · have := hmin q h u hu hu2
                  omega
                · omega
              · rw [List.mem_singleton.1 h] at hqp
                omega
          obtain ⟨dp1, frm1, done1, rest1, h1, h2, h3, h4, h5⟩ :=
            ih (done ++ [p]) _ _ hd1 hr1 hdr1 hs2.2 key
          refine ⟨dp1, frm1, done1, rest1, ?_, by rw [happ, h2], h3, h4, h5⟩
          simp [relaxPacks, hpi, ha1, hainf, hb, hab, hif, h1]
        · -- the cell is kept
          have key : RelaxInv i dp0 frm0 (done ++ [p]) dp frm := by
            refine ⟨hl1, hl2, hframe, b, hb, hbinf, ?_, ?_⟩
            · intro q hq u hu hu2
              rcases List.mem_append.1 hq with h | h
              · exact hmin q h u hu hu2
              · rw [List.mem_singleton.1 h, ha] at hu
                cases hu
                omega
            · intro hbi
              obtain ⟨f, hf1, hf2, hf3, hf4⟩ := hfrom hbi
              refine ⟨f, hf1, List.mem_append_left _ hf2, hf3, ?_⟩
              intro q hq hqf u hu
              rcases List.mem_append.1 hq with h | h
              · exact hf4 q h hqf u hu
              · rw [List.mem_singleton.1 h] at hqf
                have := hdp f hf2
                omega
          obtain ⟨dp1, frm1, done1, rest1, h1, h2, h3, h4, h5⟩ :=
            ih (done ++ [p]) _ _ hd1 hr1 hdr1 hs2.2 key
          refine ⟨dp1, frm1, done1, rest1, ?_, by rw [happ, h2], h3, h4, h5⟩
          simp [relaxPacks, hpi, ha1, hainf, hb, hab, h1]
      · -- the source cell holds the sentinel
        have key : RelaxInv i dp0 frm0 (done ++ [p]) dp frm := by
          refine ⟨hl1, hl2, hframe, b, hb, hbinf, ?_, ?_⟩
          · intro q hq u hu hu2
            rcases List.mem_append.1 hq with h | h
            · exact hmin q h u hu hu2
            · rw [List.mem_singleton.1 h, ha] at hu
              cases hu
              omega
          · intro hbi
            obtain ⟨f, hf1, hf2, hf3, hf4⟩ := hfrom hbi
            refine ⟨f, hf1, List.mem_append_left _ hf2, hf3, ?_⟩
            intro q hq hqf u hu
            rcases List.mem_append.1 hq with h | h
            · exact hf4 q h hqf u hu
            · rw [List.mem_singleton.1 h] at hqf
              have := hdp f hf2
              omega
        obtain ⟨dp1, frm1, done1, rest1, h1, h2, h3, h4, h5⟩ :=
          ih (done ++ [p]) _ _ hd1 hr1 hdr1 hs2.2 key
        refine ⟨dp1, frm1, done1, rest1, ?_, by rw [happ, h2], h3, h4, h5⟩
        simp [relaxPacks, hpi, ha1, hainf, h1]

theorem CellOK.frame {ps dp0 frm0 dp frm : List Nat} {i j : Nat} (hj : j < i)
    (hframe : ∀ l, l ≠ i → dp[l]? = dp0[l]? ∧ frm[l]? = frm0[l]?)
    (h : CellOK ps dp0 frm0 j) : CellOK ps dp frm j := by
  obtain ⟨v, h1, h2, h3, h4, h5⟩ := h
  refine ⟨v, by rw [(hframe j (by omega)).1, h1], h2, h3, h4, ?_⟩
  intro hv hjpos
  obtain ⟨p, hp1, hp2, hp3, hp4, ⟨u, hu1, hu2⟩, hp6⟩ := h5 hv hjpos
  refine ⟨p, by rw [(hframe j (by omega)).2, hp1], hp2, hp3, hp4,
    ⟨u, by rw [(hframe _ (by omega)).1, hu1], hu2⟩, ?_⟩
  intro q hq hqp u1 hu1
  rw [(hframe _ (by omega)).1] at hu1
  exact hp6 q hq hqp u1 hu1

/-- One iteration of the outer loop settles cell `i` and touches no other cell. -/
theorem relaxPacks_cell {ps : List Nat} (hsort : List.Sorted (fun a b => a ≤ b) ps)
    (hpos : ∀ x ∈ ps, 0 < x) {mt i : Nat} {dp0 frm0 : List Nat}
    (hl1 : dp0.length = mt + 1) (hl2 : frm0.length = mt + 1) (hi1 : 0 < i) (hi2 : i ≤ mt)
    (hbelow : ∀ j, j < i → CellOK ps dp0 frm0 j)
    (habove : ∀ j, i ≤ j → j ≤ mt → dp0[j]? = some inf) :
    ∃ dp1 frm1, relaxPacks i ps (dp0, frm0) = some (dp1, frm1) ∧
      dp1.length = mt + 1 ∧ frm1.length = mt + 1 ∧
      (∀ j, j < i + 1 → CellOK ps dp1 frm1 j) ∧
      (∀ j, i + 1 ≤ j → j ≤ mt → dp1[j]? = some inf) := by
  have hinit : RelaxInv i dp0 frm0 [] dp0 frm0 := by
    refine ⟨rfl, rfl, fun _ _ => ⟨rfl, rfl⟩, inf, habove i (Nat.le_refl _) hi2,
      Nat.le_refl _, by simp, ?_⟩
    intro h
    omega
  obtain ⟨dp1, frm1, done1, rest1, h1, h2, h3, h4, h5⟩ :=
    relaxPacks_spec i dp0 frm0 (by omega) (by omega) ps [] dp0 frm0 (by simp) hpos (by simp)
      hsort hinit
  obtain ⟨hl1a, hl2a, hframe, b, hb, hbinf, hmin, hfrom⟩ := h5
  have hps : ps = done1 ++ rest1 := by simpa using h2
  have hdone : ∀ q ∈ ps, q ≤ i → q ∈ done1 := by
    intro q hq hqi
    rw [hps] at hq
    rcases List.mem_append.1 hq with h | h
    · exact h
    · have := h4 q h
      omega
  have hdone2 : ∀ q ∈ done1, q ∈ ps := by
    intro q hq
    rw [hps]
    exact List.mem_append_left _ hq
  refine ⟨dp1, frm1, h1, by omega, by omega, ?_, ?_⟩
  · intro j hj
    by_cases hji : j < i
    · exact CellOK.frame hji hframe (hbelow j hji)
    · have hjeq : j = i := by omega
      subst hjeq
      refine ⟨b, hb, hbinf, ?_, ?_, ?_⟩
      · intro hbi
        obtain ⟨f, _, hf2, ⟨u, hu1, hu2⟩, _⟩ := hfrom hbi
        have hfi := h3 f hf2
        obtain ⟨v, hv1, _, hv3, _, _⟩ := hbelow (j - f) (by omega)
        rw [hu1] at hv1
        cases hv1
        have := Reach.cons (hdone2 f hf2) (hv3 (by omega))
        rw [hu2] at this
        have he : f + (j - f) = j := by omega
        rw [he] at this
        exact this
      · intro k hk
        obtain ⟨p, hp1, hp2, hp3, hp4⟩ := hk.uncons hi1
        have hp0 := hpos p hp1
        obtain ⟨v, hv1, _, _, hv4, _⟩ := hbelow (j - p) (by omega)
        have hvk := hv4 _ hp4
        by_cases hv : v < inf
        · have := hmin p (hdone p hp1 hp2) v hv1 hv
          omega
        · omega
      · intro hbi _
        obtain ⟨f, hf1, hf2, ⟨u, hu1, hu2⟩, hf4⟩ := hfrom hbi
        have hfi := h3 f hf2
        refine ⟨f, hf1, hdone2 f hf2, hfi.1, hfi.2,
          ⟨u, by rw [(hframe _ (by omega)).1, hu1], hu2⟩, ?_⟩
        intro q hq hqf u1 hu1
        have hq0 := hpos q hq
        rw [(hframe _ (by omega)).1] at hu1
        exact hf4 q (hdone q hq (by omega)) hqf u1 hu1
  · intro j hj1 hj2
    rw [(hframe j (by omega)).1]
    exact habove j (by omega) hj2

theorem fillTable_spec {ps : List Nat} (hsort : List.Sorted (fun a b => a ≤ b) ps)
    (hpos : ∀ x ∈ ps, 0 < x) (mt : Nat) :
    ∀ (n i : Nat) (dp0 frm0 : List Nat), 0 < i → i + n = mt + 1 →
      dp0.length = mt + 1 → frm0.length = mt + 1 →
      (∀ j, j < i → CellOK ps dp0 frm0 j) →
      (∀ j, i ≤ j → j ≤ mt → dp0[j]? = some inf) →
      ∃ dp frm, fillTable ps n i (dp0, frm0) = some (dp, frm) ∧ TableOK ps mt dp frm := by
  intro n
  induction n with
  | zero =>
    intro i dp0 frm0 _ hin hl1 hl2 hbelow _
    exact ⟨dp0, frm0, rfl, hl1, hl2, fun j hj => hbelow j (by omega)⟩
  | succ n ih =>
    intro i dp0 frm0 hi hin hl1 hl2 hbelow habove
    obtain ⟨dp1, frm1, h1, h2, h3, h4, h5⟩ :=
      relaxPacks_cell hsort hpos hl1 hl2 hi (by omega) hbelow habove
    obtain ⟨dp, frm, h6, h7⟩ := ih (i + 1) dp1 frm1 (by omega) (by omega) h2 h3 h4 h5
    exact ⟨dp, frm, by simp [fillTable, h1, h6], h7⟩

/-- The dynamic-programming loop returns, and every cell of its tables is as `CellOK`
says. -/
theorem buildTable_spec {ps : List Nat} (hsort : List.Sorted (fun a b => a ≤ b) ps)
    (hpos : ∀ x ∈ ps, 0 < x) (mt : Nat) :
    ∃ dp frm, buildTable ps mt = some (dp, frm) ∧ TableOK ps mt dp frm := by
  unfold buildTable
  apply fillTable_spec hsort hpos mt mt 1 _ _ (by omega) (by omega)
  · simp [initDp]
  · simp [initFrom]
  · intro j hj
    have hj0 : j = 0 := by omega
    subst hj0
    refine ⟨0, by simp [initDp], by simp [inf], fun _ => Reach.zero ps, fun _ _ => Nat.zero_le _,
      ?_⟩
    intro _ h
    omega
  · intro j hj1 hj2
    simp only [initDp]
    rw [List.getElem?_set_ne (by omega)]
    exact List.getElem?_replicate_of_lt (by omega)

/-! ### Reading the finished table -/

theorem TableOK.get {ps : List Nat} {mt : Nat} {dp frm : List Nat} (h : TableOK ps mt dp frm)
    {i : Nat} (hi : i ≤ mt) : ∃ v, dp[i]? = some v :=
  let ⟨v, hv, _⟩ := h.2.2 i hi
  ⟨v, hv⟩

theorem TableOK.reach {ps : List Nat} {mt : Nat} {dp frm : List Nat}
    (h : TableOK ps mt dp frm) {i v : Nat} (hv : dp[i]? = some v) (hlt : v < inf) :
    Reach ps v i := by
  have hi : i ≤ mt := by
    have := (List.getElem?_eq_some.1 hv).1
    have := h.1
    omega
  obtain ⟨w, hw, _, h3, _⟩ := h.2.2 i hi
  rw [hv] at hw
  cases hw
  exact h3 hlt

theorem TableOK.le_of_reach {ps : List Nat} {mt : Nat} {dp frm : List Nat}
    (h : TableOK ps mt dp frm) {i v k : Nat} (hv : dp[i]? = some v) (hk : Reach ps k i) :
    v ≤ k := by
  have hi : i ≤ mt := by
    have := (List.getElem?_eq_some.1 hv).1
    have := h.1
    omega
  obtain ⟨w, hw, _, _, h4, _⟩ := h.2.2 i hi
  rw [hv] at hw
  cases hw
  exact h4 k hk

theorem TableOK.cell_zero {ps : List Nat} {mt : Nat} {dp frm : List Nat}
    (h : TableOK ps mt dp frm) : dp[0]? = some 0 := by
  obtain ⟨v, hv, _, _, h4, _⟩ := h.2.2 0 (Nat.zero_le _)
  have := h4 0 (Reach.zero ps)
  have hv0 : v = 0 := by omega
  rw [hv, hv0]

/-! ## The search loop -/

theorem scanWindow_spec {dp : List Nat} {mt : Nat} (hlen : dp.length = mt + 1) :
    ∀ (n t : Nat), t + n ≤ mt + 1 →
      (scanWindow dp n t = some none ∧
        ∀ j, t ≤ j → j < t + n → ∀ v, dp[j]? = some v → inf ≤ v) ∨
      (∃ t1 d, scanWindow dp n t = some (some (t1, d)) ∧ t ≤ t1 ∧ t1 < t + n ∧
        dp[t1]? = some d ∧ d < inf ∧
        ∀ j, t ≤ j → j < t1 → ∀ v, dp[j]? = some v → inf ≤ v) := by
  intro n
  induction n with
  | zero =>
    intro t _
    left
    refine ⟨rfl, ?_⟩
    intro j h1 h2
    omega
  | succ n ih =>
    intro t ht
    have hlt : t < dp.length := by omega
    have hd : dp[t]? = some dp[t] := List.getElem?_eq_getElem hlt
    by_cases hinf : dp[t] < inf
    · right
      refine ⟨t, dp[t], by simp [scanWindow, hd, hinf], Nat.le_refl _, by omega, hd, hinf, ?_⟩
      intro j h1 h2
      omega
    · have hrec : scanWindow dp (n + 1) t = scanWindow dp n (t + 1) := by
        simp [scanWindow, hd, hinf]
      have hcur : ∀ v, dp[t]? = some v → inf ≤ v := by
        intro v hv
        rw [hd] at hv
        cases hv
        omega
      rcases ih (t + 1) (by omega) with ⟨h1, h2⟩ | ⟨t1, d, h1, h2, h3, h4, h5, h6⟩
      · left
        refine ⟨by rw [hrec, h1], ?_⟩
        intro j hj1 hj2 v hv
        by_cases hjt : j = t
        · subst hjt
          exact hcur v hv
        · exact h2 j (by omega) (by omega) v hv
      · right
        refine ⟨t1, d, by rw [hrec, h1], by omega, by omega, h4, h5, ?_⟩
        intro j hj1 hj2 v hv
        by_cases hjt : j = t
        · subst hjt
          exact hcur v hv
        · exact h6 j (by omega) hj2 v hv

theorem LexLE.refl (a : Exact.solution) : LexLE a a := Or.inr ⟨rfl, Nat.le_refl _⟩

theorem LexLE.trans {a b c : Exact.solution} (h1 : LexLE a b) (h2 : LexLE b c) : LexLE a c := by
  unfold LexLE at *
  omega

theorem keepBest_some (best : Option Exact.solution) (cand : Exact.solution) :
    ∃ s, Exact.keepBest best cand = some s ∧ LexLE s cand ∧ (s = cand ∨ best = some s) ∧
      ∀ b, best = some b → LexLE s b := by
  cases best with
  | none => exact ⟨cand, rfl, LexLE.refl _, Or.inl rfl, by simp⟩
  | some b =>
    by_cases h : cand.totalItems < b.totalItems ∨
        (cand.totalItems = b.totalItems ∧ cand.totalPacks < b.totalPacks)
    · refine ⟨cand, by simp [Exact.keepBest, h], LexLE.refl _, Or.inl rfl, ?_⟩
      intro b1 hb1
      cases hb1
      unfold LexLE
      omega
    · refine ⟨b, by simp [Exact.keepBest, h], ?_, Or.inr rfl, ?_⟩
      · unfold LexLE
        omega
      · intro b1 hb1
        cases hb1
        exact LexLE.refl _

theorem CandAt.unique {dp : List Nat} {minPack maxPack base eff mt extra : Nat}
    {s1 s2 : Exact.solution} (h1 : CandAt dp minPack maxPack base eff mt extra s1)
    (h2 : CandAt dp minPack maxPack base eff mt extra s2) : s1 = s2 := by
  obtain ⟨_, _, a3, _, a5, a6, a7, d1, a8, a9, a10⟩ := h1
  obtain ⟨_, _, b3, _, b5, b6, b7, d2, b8, b9, b10⟩ := h2
  have ht : s1.dpAmount = s2.dpAmount := by
    rcases Nat.lt_trichotomy s1.dpAmount s2.dpAmount with h | h | h
    · have := b5 _ a3 h d1 a8
      omega
    · exact h
    · have := a5 _ b3 h d2 b8
      omega
  rw [ht, b8] at a8
  cases a8
  cases s1
  cases s2
  simp_all

/-- The search loop returns; what it holds at the end is the initial value or a candidate
of one of the iterations run, and it is ranked no later than the initial value and every
candidate of the iterations run. -/
theorem searchLoop_spec {dp : List Nat} {minPack maxPack base eff mt : Nat}
    (hlen : dp.length = mt + 1) (hmin : 0 < minPack) :
    ∀ (n e0 : Nat) (b0 : Option Exact.solution),
      ∃ best, Exact.searchLoop dp minPack maxPack base eff mt n e0 b0 = some best ∧
        (best = b0 ∨ ∃ s e, best = some s ∧ e0 ≤ e ∧ e < e0 + n ∧
          CandAt dp minPack maxPack base eff mt e s) ∧
        (∀ s0, b0 = some s0 → ∃ s, best = some s ∧ LexLE s s0) ∧
        (∀ e s1, e0 ≤ e → e < e0 + n → CandAt dp minPack maxPack base eff mt e s1 →
          ∃ s, best = some s ∧ LexLE s s1) := by
  intro n
  induction n with
  | zero =>
    intro e0 b0
    refine ⟨b0, rfl, Or.inl rfl, fun s0 h => ⟨s0, h, LexLE.refl _⟩, ?_⟩
    intro e s1 h1 h2
    omega
  | succ n ih =>
    intro e0 b0
    by_cases hbrk : eff < e0 * maxPack
    · refine ⟨b0, by simp [Exact.searchLoop, hbrk], Or.inl rfl, fun s0 h => ⟨s0, h, LexLE.refl _⟩,
        ?_⟩
      intro e s1 h1 _ hc
      have h3 := hc.1
      have : e0 * maxPack ≤ e * maxPack := Nat.mul_le_mul_right _ h1
      omega
    · by_cases hskip : eff - e0 * maxPack + minPack - 1 > mt
      · obtain ⟨best, h1, h2, h3, h4⟩ := ih (e0 + 1) b0
        refine ⟨best, by simp [Exact.searchLoop, hbrk, hskip, h1], ?_, h3, ?_⟩
        · rcases h2 with h | ⟨s, e, h5, h6, h7, h8⟩
          · exact Or.inl h
          · exact Or.inr ⟨s, e, h5, by omega, by omega, h8⟩
        · intro e s1 he1 he2 hc
          by_cases hee : e = e0
          · subst hee
            have := hc.2.1
            omega
          · exact h4 e s1 (by omega) (by omega) hc
      · have hwin : eff - e0 * maxPack + minPack - 1 + 1 - (eff - e0 * maxPack) = minPack := by
          omega
        rcases scanWindow_spec hlen minPack (eff - e0 * maxPack) (by omega) with
          ⟨hs1, hs2⟩ | ⟨t1, d, hs1, hs2, hs3, hs4, hs5, hs6⟩
        · obtain ⟨best, h1, h2, h3, h4⟩ := ih (e0 + 1) b0
          refine ⟨best, by simp [Exact.searchLoop, hbrk, hskip, hwin, hs1, h1], ?_, h3, ?_⟩
          · rcases h2 with h | ⟨s, e, h5, h6, h7, h8⟩
            · exact Or.inl h
            · exact Or.inr ⟨s, e, h5, by omega, by omega, h8⟩
          · intro e s1 he1 he2 hc
            by_cases hee : e = e0
            · subst hee
              obtain ⟨_, _, c3, c4, _, _, _, d1, c8, c9, _⟩ := hc
              have := hs2 _ c3 (by omega) d1 c8
              omega
            · exact h4 e s1 (by omega) (by omega) hc
        · have hcand : CandAt dp minPack maxPack base eff mt e0
              { dpAmount := t1, largePacks := base + e0,
                totalItems := (base + e0) * maxPack + t1,
                totalPacks := base + e0 + d } :=
            ⟨by omega, by omega, hs2, by simp only; omega, hs6, rfl, rfl, d, hs4, hs5, rfl⟩
          obtain ⟨k, hk1, hk2, hk3, hk4⟩ := keepBest_some b0
            { dpAmount := t1, largePacks := base + e0,
              totalItems := (base + e0) * maxPack + t1,
              totalPacks := base + e0 + d }
          obtain ⟨best, h1, h2, h3, h4⟩ := ih (e0 + 1) (some k)
          obtain ⟨s, hs, hsk⟩ := h3 k rfl
          refine ⟨best, by simp [Exact.searchLoop, hbrk, hskip, hwin, hs1, hk1, h1], ?_, ?_, ?_⟩
          · rcases h2 with h | ⟨s2, e, h5, h6, h7, h8⟩
            · rcases hk3 with hk | hk
              · right
                exact ⟨k, e0, h, Nat.le_refl _, by omega, by rw [hk]; exact hcand⟩
              · left
                rw [h, hk]
            · exact Or.inr ⟨s2, e, h5, by omega, by omega, h8⟩
          · intro s0 hs0
            exact ⟨s, hs, hsk.trans (hk4 s0 hs0)⟩
          · intro e s1 he1 he2 hc
            by_cases hee : e = e0
            · subst hee
              have := CandAt.unique hc hcand
              subst this
              exact ⟨s, hs, hsk.trans hk2⟩
            · exact h4 e s1 (by omega) (by omega) hc

/-! ## The result map and the reconstruction walk -/

theorem shipped_incr (p : Nat) (m : List (Nat × Nat)) : shipped (incr p m) = shipped m + p := by
  induction m with
  | nil => simp [incr, shipped]
  | cons e m ih =>
    obtain ⟨k, c⟩ := e
    by_cases h : k = p
    · subst h
      simp only [incr, if_true, shipped, List.map_cons, List.sum_cons]
      rw [Nat.mul_add]
      omega
    · simp only [shipped] at ih
      simp only [incr, h, if_false, shipped, List.map_cons, List.sum_cons, ih]
      omega

theorem packCount_incr (p : Nat) (m : List (Nat × Nat)) :
    packCount (incr p m) = packCount m + 1 := by
  induction m with
  | nil => simp [incr, packCount]
  | cons e m ih =>
    obtain ⟨k, c⟩ := e
    by_cases h : k = p
    · subst h
      simp only [incr, if_true, packCount, List.map_cons, List.sum_cons]
      omega
    · simp only [packCount] at ih
      simp only [incr, h, if_false, packCount, List.map_cons, List.sum_cons, ih]
      omega

theorem mem_incr {p : Nat} {m : List (Nat × Nat)} {e : Nat × Nat} (h : e ∈ incr p m) :
    (e.1 = p ∧ 0 < e.2) ∨ e ∈ m := by
  induction m with
  | nil =>
    simp only [incr, List.mem_singleton] at h
    subst h
    left
    exact ⟨rfl, Nat.one_pos⟩
  | cons a m ih =>
    obtain ⟨k, c⟩ := a
    by_cases hk : k = p
    · simp only [incr, hk, if_true, List.mem_cons] at h
      rcases h with h | h
      · subst h
        left
        exact ⟨rfl, Nat.succ_pos _⟩
      · right
        exact List.mem_cons_of_mem _ h
    · simp only [incr, hk, if_false, List.mem_cons] at h
      rcases h with h | h
      · right
        rw [h]
        exact List.mem_cons_self _ _
      · rcases ih h with h1 | h1
        · exact Or.inl h1
        · exact Or.inr (List.mem_cons_of_mem _ h1)

theorem keys_incr (p : Nat) (m : List (Nat × Nat)) :
    (incr p m).map Prod.fst =
      if p ∈ m.map Prod.fst then m.map Prod.fst else m.map Prod.fst ++ [p] := by
  induction m with
  | nil => simp [incr]
  | cons a m ih =>
    obtain ⟨k, c⟩ := a
    by_cases hk : k = p
    · subst hk
      simp [incr]
    · have hk2 : ¬ p = k := fun h => hk h.symm
      simp only [incr, hk, if_false, List.map_cons, ih, List.mem_cons, hk2, false_or]
      split <;> simp

theorem nodup_keys_incr {p : Nat} {m : List (Nat × Nat)} (h : (m.map Prod.fst).Nodup) :
    ((incr p m).map Prod.fst).Nodup := by
  rw [keys_incr]
  split
  · exact h
  · rename_i hp
    rw [List.nodup_append]
    refine ⟨h, List.nodup_singleton _, ?_⟩
    intro a ha hb
    rw [List.mem_singleton] at hb
    subst hb
    exact hp ha

theorem shipped_applyPacks (w : List Nat) (m : List (Nat × Nat)) :
    shipped (applyPacks w m) = shipped m + w.sum := by
  induction w generalizing m with
  | nil => simp [applyPacks]
  | cons p w ih =>
    have := ih (incr p m)
    simp only [applyPacks, List.foldl_cons] at this ⊢
    rw [this, shipped_incr, List.sum_cons]
    omega

theorem packCount_applyPacks (w : List Nat) (m : List (Nat × Nat)) :
    packCount (applyPacks w m) = packCount m + w.length := by
  induction w generalizing m with
  | nil => simp [applyPacks]
  | cons p w ih =>
    have := ih (incr p m)
    simp only [applyPacks, List.foldl_cons] at this ⊢
    rw [this, packCount_incr, List.length_cons]
    omega

theorem mem_applyPacks {w : List Nat} {m : List (Nat × Nat)} {e : Nat × Nat}
    (h : e ∈ applyPacks w m) : (e.1 ∈ w ∧ 0 < e.2) ∨ e ∈ m := by
  induction w generalizing m with
  | nil => exact Or.inr h
  | cons p w ih =>
    have h1 : e ∈ applyPacks w (incr p m) := h
    rcases ih h1 with h2 | h2
    · exact Or.inl ⟨List.mem_cons_of_mem _ h2.1, h2.2⟩
    · rcases mem_incr h2 with h3 | h3
      · left
        exact ⟨by rw [h3.1]; exact List.mem_cons_self _ _, h3.2⟩
      · exact Or.inr h3

theorem nodup_keys_applyPacks {w : List Nat} {m : List (Nat × Nat)}
    (h : (m.map Prod.fst).Nodup) : ((applyPacks w m).map Prod.fst).Nodup := by
  induction w generalizing m with
  | nil => exact h
  | cons p w ih => exact ih (nodup_keys_incr h)

theorem applyPacks_replicate_single (p c : Nat) : ∀ k,
    applyPacks (List.replicate k p) [(p, c)] = [(p, c + k)] := by
  intro k
  induction k generalizing c with
  | zero => simp [applyPacks]
  | succ k ih =>
    have h := ih (c + 1)
    simp only [applyPacks, List.replicate_succ, List.foldl_cons, incr, if_true] at h ⊢
    rw [h]
    simp only [List.cons.injEq, Prod.mk.injEq, true_and, and_true]
    omega

theorem applyPacks_replicate_nil (p : Nat) : ∀ k, 0 < k →
    applyPacks (List.replicate k p) [] = [(p, k)] := by
  intro k hk
  obtain ⟨n, rfl⟩ : ∃ n, k = n + 1 := ⟨k - 1, by omega⟩
  have h := applyPacks_replicate_single p 1 n
  simp only [applyPacks, List.replicate_succ, List.foldl_cons, incr] at h ⊢
  rw [h]
  simp only [List.cons.injEq, Prod.mk.injEq, true_and, and_true]
  omega

/-- The reconstruction walk returns when started at a cell below `inf` with enough fuel:
it has run `result[pack]++` for the packs of a combination totalling the start amount,
with exactly `dp[start]` packs. -/
theorem walk_spec {ps : List Nat} {mt : Nat} {dp frm : List Nat} (htab : TableOK ps mt dp frm) :
    ∀ (fuel t d : Nat) (m : List (Nat × Nat)), t ≤ fuel → dp[t]? = some d → d < inf →
      ∃ w : List Nat, walk frm fuel t m = some (applyPacks w m) ∧
        (∀ x ∈ w, x ∈ ps) ∧ w.sum = t ∧ w.length = d := by
  intro fuel
  induction fuel with
  | zero =>
    intro t d m ht hd _
    have ht0 : t = 0 := by omega
    subst ht0
    rw [htab.cell_zero] at hd
    cases hd
    exact ⟨[], by simp [walk, applyPacks], by simp, rfl, rfl⟩
  | succ fuel ih =>
    intro t d m ht hd hlt
    rcases Nat.eq_zero_or_pos t with ht0 | htpos
    · subst ht0
      rw [htab.cell_zero] at hd
      cases hd
      exact ⟨[], by simp [walk, applyPacks], by simp, rfl, rfl⟩
    · have htm : t ≤ mt := by
        have := (List.getElem?_eq_some.1 hd).1
        have := htab.1
        omega
      obtain ⟨v, hv, _, _, _, h5⟩ := htab.2.2 t htm
      rw [hd] at hv
      cases hv
      obtain ⟨p, hp1, hp2, hp3, hp4, ⟨u, hu1, hu2⟩, _⟩ := h5 hlt htpos
      obtain ⟨w, hw1, hw2, hw3, hw4⟩ := ih (t - p) u (incr p m) (by omega) hu1 (by omega)
      refine ⟨p :: w, ?_, ?_, ?_, ?_⟩
      · simp only [walk, htpos, if_true, hp1, hw1]
        rfl
      · intro x hx
        rcases List.mem_cons.1 hx with rfl | hx
        · exact hp2
        · exact hw2 x hx
      · simp only [List.sum_cons, hw3]
        omega
      · simp only [List.length_cons, hw4]
        omega

/-! ## The sorted pack sizes -/

theorem sortInts_sorted (l : List Nat) : List.Sorted (fun a b => a ≤ b) (sortInts l) :=
  List.sorted_insertionSort (fun a b => a ≤ b) l

theorem sortInts_perm (l : List Nat) : (sortInts l).Perm l :=
  List.perm_insertionSort (fun a b => a ≤ b) l

theorem mem_sortInts {l : List Nat} {x : Nat} : x ∈ sortInts l ↔ x ∈ l :=
  (sortInts_perm l).mem_iff

/-- On a non-empty slice `packSizes[0]` and `packSizes[len-1]` of the sorted slice exist and
are the least and the greatest pack size. -/
theorem sortInts_ends {l : List Nat} (hne : l ≠ []) :
    ∃ minPack maxPack, (sortInts l).head? = some minPack ∧
      (sortInts l).getLast? = some maxPack ∧ minPack ∈ l ∧ maxPack ∈ l ∧
      ∀ x ∈ l, minPack ≤ x ∧ x ≤ maxPack := by
  have hs := sortInts_sorted l
  have hne2 : sortInts l ≠ [] := by
    intro h
    have := (sortInts_perm l).length_eq
    rw [h] at this
    exact hne (List.length_eq_zero.1 this.symm)
  refine ⟨(sortInts l).head hne2, (sortInts l).getLast hne2, List.head?_eq_head hne2,
    List.getLast?_eq_getLast _ hne2, mem_sortInts.1 (List.head_mem hne2),
    mem_sortInts.1 (List.getLast_mem hne2), ?_⟩
  intro x hx
  have hx2 : x ∈ sortInts l := mem_sortInts.2 hx
  constructor
  · generalize sortInts l = s at hs hne2 hx2
    cases s with
    | nil => exact absurd rfl hne2
    | cons a s =>
      simp only [List.head_cons]
      rcases List.mem_cons.1 hx2 with h | h
      · omega
      · exact (List.sorted_cons.1 hs).1 x h
  · generalize sortInts l = s at hs hne2 hx2
    obtain ⟨i, hi, rfl⟩ := List.getElem_of_mem hx2
    rw [List.getLast_eq_getElem]
    rcases Nat.lt_or_ge i (s.length - 1) with h | h
    · exact List.pairwise_iff_getElem.1 hs i (s.length - 1) hi (by omega) h
    · have : i = s.length - 1 := by omega
      subst this
      exact Nat.le_refl _

/-! ## The large-order reduction -/

theorem dpLimit_ge (minPack maxPack : Nat) :
    maxPack + minPack ≤ Exact.dpLimit minPack maxPack ∧ minPack * maxPack ≤
        Exact.dpLimit minPack maxPack := by
  unfold Exact.dpLimit
  split <;> omega

theorem base_mul_le (orderSize minPack maxPack : Nat) :
    Exact.baseLargePacks orderSize minPack maxPack * maxPack + Exact.dpLimit minPack maxPack ≤
        orderSize ∨
      Exact.baseLargePacks orderSize minPack maxPack = 0 := by
  unfold Exact.baseLargePacks
  split
  · left
    have := Nat.div_mul_le_self (orderSize - Exact.dpLimit minPack maxPack) maxPack
    omega
  · right
    rfl

/-- The reduction is exact: `orderSize = Exact.baseLargePacks * maxPack + Exact.effOrder`. -/
theorem base_add_eff (orderSize minPack maxPack : Nat) :
    Exact.baseLargePacks orderSize minPack maxPack * maxPack + Exact.effOrder orderSize minPack
        maxPack =
      orderSize := by
  unfold Exact.effOrder
  rcases base_mul_le orderSize minPack maxPack with h | h
  · omega
  · rw [h]
    omega

theorem eff_ge_of_base_pos {orderSize minPack maxPack : Nat}
    (h : 0 < Exact.baseLargePacks orderSize minPack maxPack) :
    Exact.dpLimit minPack maxPack ≤ Exact.effOrder orderSize minPack maxPack := by
  unfold Exact.effOrder
  rcases base_mul_le orderSize minPack maxPack with h1 | h1
  · omega
  · omega

theorem eff_le (orderSize minPack maxPack : Nat) (hmax : 0 < maxPack) :
    Exact.effOrder orderSize minPack maxPack < Exact.dpLimit minPack maxPack + maxPack ∨
      (Exact.effOrder orderSize minPack maxPack = orderSize ∧ orderSize ≤
          Exact.dpLimit minPack maxPack) := by
  unfold Exact.effOrder Exact.baseLargePacks
  split
  · left
    rename_i h
    have h1 := Nat.div_add_mod (orderSize - Exact.dpLimit minPack maxPack) maxPack
    have h2 := Nat.mod_lt (orderSize - Exact.dpLimit minPack maxPack) hmax
    rw [Nat.mul_comm] at h1
    omega
  · right
    omega

theorem eff_pos {orderSize minPack maxPack : Nat} (ho : 0 < orderSize) (hmax : 0 < maxPack) :
    0 < Exact.effOrder orderSize minPack maxPack := by
  rcases Nat.eq_zero_or_pos (Exact.baseLargePacks orderSize minPack maxPack) with h | h
  · have := base_add_eff orderSize minPack maxPack
    rw [h] at this
    omega
  · have := eff_ge_of_base_pos h
    have := dpLimit_ge minPack maxPack
    omega

/-! ## One run of the solver on valid input -/

theorem reach_sortInts {l : List Nat} {k i : Nat} : Reach (sortInts l) k i ↔ Reach l k i := by
  constructor
  · rintro ⟨c, hc, h⟩
    exact ⟨c, fun x hx => mem_sortInts.1 (hc x hx), h⟩
  · rintro ⟨c, hc, h⟩
    exact ⟨c, fun x hx => mem_sortInts.2 (hc x hx), h⟩

theorem run_exists (orderSize : Nat) (packSizes : List Nat) (hne : packSizes ≠ [])
    (hpos : ∀ x ∈ packSizes, 0 < x) :
    ∃ minPack maxPack dp frm best, Run orderSize packSizes minPack maxPack dp frm best := by
  obtain ⟨minPack, maxPack, h1, h2, h3, h4, h5⟩ := sortInts_ends hne
  have hmin : 0 < minPack := hpos _ h3
  have hmax : 0 < maxPack := hpos _ h4
  obtain ⟨dp, frm, ht1, ht2⟩ := buildTable_spec (sortInts_sorted packSizes)
    (fun x hx => hpos x (mem_sortInts.1 hx)) (Exact.maxTarget orderSize minPack maxPack)
  obtain ⟨best, hb1, hb2, _, hb4⟩ := @searchLoop_spec dp minPack maxPack
    (Exact.baseLargePacks orderSize minPack maxPack) (Exact.effOrder orderSize minPack maxPack)
    (Exact.maxTarget orderSize minPack maxPack) ht2.1 hmin
    (Exact.effOrder orderSize minPack maxPack / maxPack + 1) 0 none
  refine ⟨minPack, maxPack, dp, frm, best, h1, h2, hmin, h3, h4, h5, ht2, ?_, ?_, ?_⟩
  · rcases hb2 with h | ⟨s, e, h6, _, _, h7⟩
    · exact Or.inl h
    · exact Or.inr ⟨s, e, h6, h7⟩
  · intro e s1 hc
    refine hb4 e s1 (Nat.zero_le _) ?_ hc
    have := hc.1
    have : e ≤ Exact.effOrder orderSize minPack maxPack / maxPack :=
      (Nat.le_div_iff_mul_le hmax).2 this
    omega
  · have hmax0 : ¬ maxPack = 0 := by omega
    simp only [Exact.calculateOptimalPacks, h1, h2, hmax0, if_false, ht1, hb1]

/-- A candidate ships at least the order and overshoots it by less than `minPack`. -/
theorem CandAt.items_bounds {orderSize minPack maxPack e : Nat} {dp : List Nat} {s : Exact.solution}
    (hmin : 0 < minPack)
    (hc : CandAt dp minPack maxPack (Exact.baseLargePacks orderSize minPack maxPack)
      (Exact.effOrder orderSize minPack maxPack) (Exact.maxTarget orderSize minPack maxPack) e s) :
    orderSize ≤ s.totalItems ∧ s.totalItems ≤ orderSize + minPack - 1 ∧
      s.totalItems = s.largePacks * maxPack + s.dpAmount := by
  obtain ⟨c1, _, c3, c4, _, c6, c7, _⟩ := hc
  have h := base_add_eff orderSize minPack maxPack
  have h7 : s.totalItems = Exact.baseLargePacks orderSize minPack maxPack * maxPack + e * maxPack +
      s.dpAmount := by rw [c7, Nat.add_mul]
  have h8 : s.largePacks * maxPack = Exact.baseLargePacks orderSize minPack maxPack * maxPack +
      e * maxPack := by rw [c6, Nat.add_mul]
  omega

theorem shipped_startMap (maxPack : Nat) (s : Exact.solution) :
    shipped (startMap maxPack s) = s.largePacks * maxPack := by
  unfold startMap
  split
  · simp [shipped, Nat.mul_comm]
  · have : s.largePacks = 0 := by omega
    simp [shipped, this]

theorem packCount_startMap (maxPack : Nat) (s : Exact.solution) :
    packCount (startMap maxPack s) = s.largePacks := by
  unfold startMap
  split
  · simp [packCount]
  · have : s.largePacks = 0 := by omega
    simp [packCount, this]

/-- The two ways a run ends: the fallback map when no candidate was found, or the start map
of the retained candidate `s` after `result[pack]++` for each pack of a combination `w`
totalling `s.dpAmount` in `dp[s.dpAmount]` packs. -/
theorem Run.outcome {orderSize : Nat} {packSizes : List Nat} {minPack maxPack : Nat}
    {dp frm : List Nat} {best : Option Exact.solution}
    (r : Run orderSize packSizes minPack maxPack dp frm best) :
    (best = none ∧ Exact.calculateOptimalPacks orderSize packSizes =
        some [(minPack, (orderSize + minPack - 1) / minPack)]) ∨
    (∃ s e w d, best = some s ∧
      CandAt dp minPack maxPack (Exact.baseLargePacks orderSize minPack maxPack)
        (Exact.effOrder orderSize minPack maxPack) (Exact.maxTarget orderSize minPack maxPack) e s ∧
      dp[s.dpAmount]? = some d ∧ d < inf ∧ s.totalPacks = s.largePacks + d ∧
      (∀ x ∈ w, x ∈ packSizes) ∧ w.sum = s.dpAmount ∧ w.length = d ∧
      Exact.calculateOptimalPacks orderSize packSizes = some (applyPacks w (startMap maxPack s))) :=
          by
  rcases r.isCand with h | ⟨s, e, h1, h2⟩
  · left
    refine ⟨h, ?_⟩
    have hm : ¬ minPack = 0 := by have := r.minPos; omega
    rw [r.result, h]
    simp [Exact.finish, hm]
  · right
    obtain ⟨d, hd1, hd2, hd3⟩ := h2.2.2.2.2.2.2.2
    obtain ⟨w, hw1, hw2, hw3, hw4⟩ :=
      walk_spec r.table s.dpAmount s.dpAmount d (startMap maxPack s) (Nat.le_refl _) hd1 hd2
    refine ⟨s, e, w, d, h1, h2, hd1, hd2, ?_, fun x hx => mem_sortInts.1 (hw2 x hx), hw3, hw4, ?_⟩
    · rw [hd3, h2.2.2.2.2.2.1]
    · rw [r.result, h1]
      exact hw1

/-! ## Amounts at or above `minPack * maxPack`

A combination of `a` or more packs contains a run of consecutive packs whose total is a
multiple of `a`; dropping the run leaves a smaller total in the same class modulo `a`.
Hence every class that holds a combination holds one of at most `(a - 1) * b`, and from
`a * b` on the totals are closed under subtracting `b`. -/

theorem sum_take_add_sum_drop (c : List Nat) (i : Nat) :
    (c.take i).sum + (c.drop i).sum = c.sum := by
  rw [← List.sum_append, List.take_append_drop]

theorem sum_take_le_of_le (c : List Nat) {i j : Nat} (h : i ≤ j) :
    (c.take i).sum ≤ (c.take j).sum := by
  have h1 := sum_take_add_sum_drop (c.take j) i
  rw [List.take_take, Nat.min_eq_left h] at h1
  omega

/-- A combination of at least `a` packs has a strictly shorter sub-combination with
a total in the same class modulo `a`. -/
theorem exists_shorter {ps : List Nat} {a : Nat} (ha : 0 < a) {c : List Nat}
    (hc : ∀ x ∈ c, x ∈ ps) (hlen : a ≤ c.length) :
    ∃ c1 : List Nat, (∀ x ∈ c1, x ∈ ps) ∧ c1.length < c.length ∧ c1.sum ≤ c.sum ∧
      c1.sum % a = c.sum % a := by
  have hcard : (Finset.range a).card < (Finset.range (a + 1)).card := by simp
  obtain ⟨i, hi, j, hj, hij, hf⟩ :=
    Finset.exists_ne_map_eq_of_card_lt_of_maps_to hcard
      (f := fun i => (c.take i).sum % a)
      (fun i _ => Finset.mem_range.2 (Nat.mod_lt _ ha))
  have key : ∀ i j : Nat, i < j → j ≤ a → (c.take i).sum % a = (c.take j).sum % a →
      ∃ c1 : List Nat, (∀ x ∈ c1, x ∈ ps) ∧ c1.length < c.length ∧ c1.sum ≤ c.sum ∧
        c1.sum % a = c.sum % a := by
    intro i j hlt hja hmod
    refine ⟨c.take i ++ c.drop j, ?_, ?_, ?_, ?_⟩
    · intro x hx
      rcases List.mem_append.1 hx with h | h
      · exact hc x (List.mem_of_mem_take h)
      · exact hc x (List.mem_of_mem_drop h)
    · simp only [List.length_append, List.length_take, List.length_drop]
      omega
    · have h1 := sum_take_add_sum_drop c j
      have h2 := sum_take_le_of_le c (Nat.le_of_lt hlt)
      rw [List.sum_append]
      omega
    · have h1 := sum_take_add_sum_drop c j
      rw [List.sum_append, ← h1, Nat.add_mod, hmod, ← Nat.add_mod]
  simp only [Finset.mem_range] at hi hj
  rcases Nat.lt_or_gt_of_ne hij with h | h
  · exact key i j h (by omega) hf
  · exact key j i h (by omega) hf.symm

/-- Every class modulo `a` that holds a combination holds one with fewer than `a` packs. -/
theorem exists_short_combination {ps : List Nat} {a : Nat} (ha : 0 < a) :
    ∀ (n : Nat) (c : List Nat), c.length ≤ n → (∀ x ∈ c, x ∈ ps) →
      ∃ c1 : List Nat, (∀ x ∈ c1, x ∈ ps) ∧ c1.length < a ∧ c1.sum ≤ c.sum ∧
        c1.sum % a = c.sum % a := by
  intro n
  induction n with
  | zero =>
    intro c hlen hc
    refine ⟨c, hc, by omega, Nat.le_refl _, rfl⟩
  | succ n ih =>
    intro c hlen hc
    by_cases hshort : c.length < a
    · exact ⟨c, hc, hshort, Nat.le_refl _, rfl⟩
    · obtain ⟨c1, h1, h2, h3, h4⟩ := exists_shorter ha hc (by omega)
      obtain ⟨c2, g1, g2, g3, g4⟩ := ih c1 (by omega) h1
      exact ⟨c2, g1, g2, by omega, by rw [g4, h4]⟩

/-- From `a * b` on, the totals of combinations are closed under subtracting `b`, when `a`
and `b` are pack sizes and no pack size exceeds `b`. -/
theorem reachable_sub_max {ps : List Nat} {a b : Nat} (ha : 0 < a) (hamem : a ∈ ps)
    (hbmem : b ∈ ps) (hb : ∀ x ∈ ps, x ≤ b) {T : Nat} (hT : Reachable ps T)
    (hge : a * b ≤ T) : Reachable ps (T - b) := by
  obtain ⟨c, hc, hs⟩ := hT
  -- `T + (a - 1) * b` is a total in the class of `T - b`
  have hbig : ∀ x ∈ c ++ List.replicate (a - 1) b, x ∈ ps := by
    intro x hx
    rcases List.mem_append.1 hx with h | h
    · exact hc x h
    · rw [List.eq_of_mem_replicate h]
      exact hbmem
  obtain ⟨c1, h1, h2, _, h4⟩ := exists_short_combination ha _ _ (Nat.le_refl _) hbig
  have hsum : (c ++ List.replicate (a - 1) b).sum = T + (a - 1) * b := by
    simp [hs]
  have hc1 : c1.sum ≤ (a - 1) * b := by
    have := Reach.sum_le hb (⟨c1, h1, rfl, rfl⟩ : Reach ps c1.length c1.sum)
    have h5 : b * c1.length ≤ b * (a - 1) := Nat.mul_le_mul_left _ (by omega)
    rw [Nat.mul_comm b (a - 1)] at h5
    omega
  have hab : a * b = (a - 1) * b + b := by
    obtain ⟨k, rfl⟩ : ∃ k, a = k + 1 := ⟨a - 1, by omega⟩
    simp [Nat.add_mul]
  have hcls : c1.sum % a = (T - b) % a := by
    rw [h4, hsum]
    have : T + (a - 1) * b = (T - b) + a * b := by omega
    rw [this, Nat.add_mul_mod_self_left]
  -- `T - b = c1.sum + a * m`
  have hle : c1.sum ≤ T - b := by omega
  have hdvd : a ∣ (T - b) - c1.sum := (Nat.modEq_iff_dvd' hle).1 hcls
  obtain ⟨m, hm⟩ := hdvd
  refine ⟨c1 ++ List.replicate m a, ?_, ?_⟩
  · intro x hx
    rcases List.mem_append.1 hx with h | h
    · exact h1 x h
    · rw [List.eq_of_mem_replicate h]
      exact hamem
  · simp only [List.sum_append, List.sum_replicate, smul_eq_mul]
    rw [Nat.mul_comm m a]
    omega

/-- Iterated form: `k` largest packs can be taken out of a total that stays at or above
`a * b`. -/
theorem reachable_sub_mul_max {ps : List Nat} {a b : Nat} (ha : 0 < a) (hamem : a ∈ ps)
    (hbmem : b ∈ ps) (hb : ∀ x ∈ ps, x ≤ b) :
    ∀ (k T : Nat), Reachable ps T → k * b + a * b ≤ T + b → Reachable ps (T - k * b) := by
  intro k
  induction k with
  | zero =>
    intro T hT _
    simpa using hT
  | succ k ih =>
    intro T hT hge
    rw [Nat.add_mul, Nat.one_mul] at hge
    have h1 := ih T hT (by omega)
    have h2 := reachable_sub_max ha hamem hbmem hb h1 (by omega)
    have : T - (k + 1) * b = T - k * b - b := by
      rw [Nat.add_mul, Nat.one_mul]
      omega
    rw [this]
    exact h2

/-! ## Consequences for a run -/

theorem ceil_mul_bounds (orderSize minPack : Nat) (hmin : 0 < minPack) (ho : 0 < orderSize) :
    orderSize ≤ minPack * ((orderSize + minPack - 1) / minPack) ∧
      minPack * ((orderSize + minPack - 1) / minPack) ≤ orderSize + minPack - 1 := by
  have h1 := Nat.div_add_mod (orderSize + minPack - 1) minPack
  have h2 := Nat.mod_lt (orderSize + minPack - 1) hmin
  omega

theorem shipped_single (p k : Nat) : shipped [(p, k)] = p * k := by
  simp [shipped]

theorem Run.maxPos {orderSize : Nat} {packSizes : List Nat} {minPack maxPack : Nat}
    {dp frm : List Nat} {best : Option Exact.solution}
    (r : Run orderSize packSizes minPack maxPack dp frm best) : 0 < maxPack := by
  have := (r.bounds minPack r.minMem).2
  have := r.minPos
  omega

theorem Run.maxTarget_eq {orderSize : Nat} {packSizes : List Nat} {minPack maxPack : Nat}
    {dp frm : List Nat} {best : Option Exact.solution}
    (r : Run orderSize packSizes minPack maxPack dp frm best) :
    Exact.maxTarget orderSize minPack maxPack + 1 =
        Exact.effOrder orderSize minPack maxPack + minPack := by
  have := r.minPos
  unfold Exact.maxTarget
  omega

/-- What the map returned by a run ships: the fallback total, or the items of the retained
candidate. -/
theorem Run.shipped_eq {orderSize : Nat} {packSizes : List Nat} {minPack maxPack : Nat}
    {dp frm : List Nat} {best : Option Exact.solution}
    (r : Run orderSize packSizes minPack maxPack dp frm best) :
    ∃ m, Exact.calculateOptimalPacks orderSize packSizes = some m ∧ (∀ e ∈ m, e.1 ∈ packSizes) ∧
      ((best = none ∧ shipped m = minPack * ((orderSize + minPack - 1) / minPack)) ∨
        (∃ s e, best = some s ∧
          CandAt dp minPack maxPack (Exact.baseLargePacks orderSize minPack maxPack)
            (Exact.effOrder orderSize minPack maxPack) (Exact.maxTarget orderSize minPack maxPack)
                e s ∧
          shipped m = s.totalItems ∧ packCount m = s.totalPacks)) := by
  rcases r.outcome with ⟨h1, h2⟩ | ⟨s, e, w, d, h1, h2, h3, h4, h5, h6, h7, h8, h9⟩
  · refine ⟨_, h2, ?_, Or.inl ⟨h1, shipped_single _ _⟩⟩
    intro e he
    rw [List.mem_singleton.1 he]
    exact r.minMem
  · refine ⟨_, h9, ?_, Or.inr ⟨s, e, h1, h2, ?_, ?_⟩⟩
    · intro x hx
      rcases mem_applyPacks hx with h | h
      · exact h6 _ h.1
      · unfold startMap at h
        split at h
        · rw [List.mem_singleton.1 h]
          exact r.maxMem
        · simp at h
    · rw [shipped_applyPacks, shipped_startMap, h7, (h2.items_bounds r.minPos).2.2]
    · rw [packCount_applyPacks, packCount_startMap, h8, h5]

/-- The bounds on the shipped quantity that hold for every run. -/
theorem Run.shipped_bounds {orderSize : Nat} {packSizes : List Nat} {minPack maxPack : Nat}
    {dp frm : List Nat} {best : Option Exact.solution}
    (r : Run orderSize packSizes minPack maxPack dp frm best) (ho : 0 < orderSize) :
    ∃ m, Exact.calculateOptimalPacks orderSize packSizes = some m ∧ orderSize ≤ shipped m ∧
      shipped m ≤ orderSize + minPack - 1 := by
  obtain ⟨m, h1, _, h3⟩ := r.shipped_eq
  refine ⟨m, h1, ?_⟩
  rcases h3 with ⟨_, h⟩ | ⟨s, e, _, hc, h, _⟩
  · rw [h]
    exact ceil_mul_bounds orderSize minPack r.minPos ho
  · rw [h]
    exact ⟨(hc.items_bounds r.minPos).1, (hc.items_bounds r.minPos).2.1⟩

/-- With every pack size at most `1073741822` no combination that fits the table has `inf`
packs or more. -/
theorem Run.count_lt_inf {orderSize : Nat} {packSizes : List Nat} {minPack maxPack : Nat}
    {dp frm : List Nat} {best : Option Exact.solution}
    (r : Run orderSize packSizes minPack maxPack dp frm best)
    (hsmall : ∀ x ∈ packSizes, x ≤ 1073741822) {k i : Nat} (hk : Reach packSizes k i)
    (hi : i ≤ Exact.maxTarget orderSize minPack maxPack) : k < inf := by
  have h1 : minPack * k ≤ i := Reach.le_sum (fun x hx => (r.bounds x hx).1) hk
  have h2 := hsmall maxPack r.maxMem
  have h3 := r.maxTarget_eq
  have hmin := r.minPos
  have hmax := r.maxPos
  have hmm : minPack ≤ maxPack := (r.bounds minPack r.minMem).2
  have h4 : maxPack ≤ minPack * maxPack := Nat.le_mul_of_pos_left _ hmin
  have h5 : Exact.effOrder orderSize minPack maxPack ≤ minPack * maxPack + minPack + maxPack := by
    rcases eff_le orderSize minPack maxPack hmax with h | ⟨h, h6⟩
    · have : Exact.dpLimit minPack maxPack ≤ minPack * maxPack + minPack := by
        unfold Exact.dpLimit
        split <;> omega
      omega
    · have : Exact.dpLimit minPack maxPack ≤ minPack * maxPack + minPack := by
        unfold Exact.dpLimit
        split <;> omega
      omega
  by_contra hcon
  have hk2 : 2 * maxPack + 2 ≤ k := by
    unfold inf at hcon
    omega
  have h6 : minPack * (2 * maxPack + 2) ≤ minPack * k := Nat.mul_le_mul_left _ hk2
  have h7 : minPack * (2 * maxPack + 2) = 2 * (minPack * maxPack) + 2 * minPack := by ring
  omega

/-- With every pack size at most `1073741822` the search finds a candidate at `extra = 0`,
at the least total of a combination that is not below `Exact.effOrder`. -/
theorem Run.cand_zero {orderSize : Nat} {packSizes : List Nat} {minPack maxPack : Nat}
    {dp frm : List Nat} {best : Option Exact.solution}
    (r : Run orderSize packSizes minPack maxPack dp frm best)
    (hsmall : ∀ x ∈ packSizes, x ≤ 1073741822) :
    ∃ s0, CandAt dp minPack maxPack (Exact.baseLargePacks orderSize minPack maxPack)
        (Exact.effOrder orderSize minPack maxPack) (Exact.maxTarget orderSize minPack maxPack) 0 s0
            ∧
      ∀ T, Reachable packSizes T → Exact.effOrder orderSize minPack maxPack ≤ T → s0.dpAmount ≤ T :=
          by
  have hmin := r.minPos
  have hmt := r.maxTarget_eq
  -- a reachable amount inside the window keeps its cell below `inf`
  have hflag : ∀ T, Reachable packSizes T → T ≤ Exact.maxTarget orderSize minPack maxPack →
      ∀ v, dp[T]? = some v → v < inf := by
    intro T hT hle v hv
    obtain ⟨c, hc, hs⟩ := hT
    have hreach : Reach packSizes c.length T := ⟨c, hc, hs, rfl⟩
    have h1 := r.count_lt_inf hsmall hreach hle
    have h2 := r.table.le_of_reach hv (reach_sortInts.2 hreach)
    omega
  rcases scanWindow_spec r.table.1 minPack (Exact.effOrder orderSize minPack maxPack) (by omega)
      with
    ⟨_, hs2⟩ | ⟨t1, d, _, hs2, hs3, hs4, hs5, hs6⟩
  · exfalso
    -- the multiple of `minPack` in the window is reachable
    obtain ⟨hm1, hm2⟩ : Exact.effOrder orderSize minPack maxPack ≤
          minPack * ((Exact.effOrder orderSize minPack maxPack + minPack - 1) / minPack) ∧
        minPack * ((Exact.effOrder orderSize minPack maxPack + minPack - 1) / minPack) ≤
          Exact.effOrder orderSize minPack maxPack + minPack - 1 := by
      have h1 := Nat.div_add_mod (Exact.effOrder orderSize minPack maxPack + minPack - 1) minPack
      have h2 := Nat.mod_lt (Exact.effOrder orderSize minPack maxPack + minPack - 1) hmin
      omega
    have hre : Reachable packSizes
        (minPack * ((Exact.effOrder orderSize minPack maxPack + minPack - 1) / minPack)) := by
      have := (Reach.replicate r.minMem
        ((Exact.effOrder orderSize minPack maxPack + minPack - 1) / minPack)).reachable
      rw [Nat.mul_comm] at this
      exact this
    obtain ⟨v, hv⟩ := r.table.get (i := minPack *
      ((Exact.effOrder orderSize minPack maxPack + minPack - 1) / minPack)) (by omega)
    have h3 := hs2 _ hm1 (by omega) v hv
    have h4 := hflag _ hre (by omega) v hv
    omega
  · refine ⟨{ dpAmount := t1, largePacks := Exact.baseLargePacks orderSize minPack maxPack + 0,
              totalItems := (Exact.baseLargePacks orderSize minPack maxPack + 0) * maxPack + t1,
              totalPacks := Exact.baseLargePacks orderSize minPack maxPack + 0 + d }, ?_, ?_⟩
    · refine ⟨by omega, by simp only [Nat.zero_mul]; omega, by simpa using hs2,
        by simp only [Nat.zero_mul]; omega, ?_, rfl, rfl, d, hs4, hs5, rfl⟩
      intro j hj1 hj2 v hv
      exact hs6 j (by simpa using hj1) hj2 v hv
    · intro T hT hge
      by_contra hcon
      have hlt : T < t1 := by simpa using hcon
      obtain ⟨v, hv⟩ := r.table.get (i := T) (by omega)
      have h3 := hs6 T hge hlt v hv
      have h4 := hflag T hT (by omega) v hv
      omega

/-! ## The contract of `Exact.calculateOptimalPacks` -/

/-- Over unbounded integers: for every order size above zero and every non-empty list of
positive pack sizes, `Exact.calculateOptimalPacks` returns a mapping, and its shipped
quantity, the sum of `size * count` over its entries, is at least the order size. -/
theorem exact_ships_order (orderSize : Nat) (packSizes : List Nat) (ho : 0 < orderSize)
    (hne : packSizes ≠ []) (hpos : ∀ x ∈ packSizes, 0 < x) :
    ∃ m, Exact.calculateOptimalPacks orderSize packSizes = some m ∧
      shipped m = (m.map (fun e => e.1 * e.2)).sum ∧ orderSize ≤ shipped m := by
  obtain ⟨minPack, maxPack, dp, frm, best, r⟩ := run_exists orderSize packSizes hne hpos
  obtain ⟨m, h1, h2, _⟩ := r.shipped_bounds ho
  exact ⟨m, h1, rfl, h2⟩

/-- Over unbounded integers: for every order size above zero and every non-empty list of positive
pack sizes, none above `1073741822`, the mapping returned by `Exact.calculateOptimalPacks` has
pack sizes for keys, ships at least the order, and no combination of the pack sizes has a
total `T` with `orderSize ≤ T < shipped`; this holds with and without pre-allocated
largest packs. -/
theorem exact_ships_least (orderSize : Nat) (packSizes : List Nat) (ho : 0 < orderSize)
    (hne : packSizes ≠ []) (hpos : ∀ x ∈ packSizes, 0 < x)
    (hsmall : ∀ x ∈ packSizes, x ≤ 1073741822) :
    ∃ m, Exact.calculateOptimalPacks orderSize packSizes = some m ∧ (∀ e ∈ m, e.1 ∈ packSizes) ∧
      orderSize ≤ shipped m ∧
      ∀ c : List Nat, (∀ x ∈ c, x ∈ packSizes) → orderSize ≤ c.sum → shipped m ≤ c.sum := by
  obtain ⟨minPack, maxPack, dp, frm, best, r⟩ := run_exists orderSize packSizes hne hpos
  obtain ⟨s0, hc0, hleast⟩ := r.cand_zero hsmall
  obtain ⟨s, hs, hlex⟩ := r.isLeast 0 s0 hc0
  obtain ⟨m, h1, h2, h3⟩ := r.shipped_eq
  have hbnd := r.shipped_bounds ho
  rw [h1] at hbnd
  obtain ⟨m1, hm1, hge, _⟩ := hbnd
  cases hm1
  refine ⟨m, h1, h2, hge, ?_⟩
  intro c hc hsum
  rcases h3 with ⟨h, _⟩ | ⟨s1, e, hb, _, hship, _⟩
  · rw [h] at hs
    cases hs
  · rw [hs] at hb
    cases hb
    have hitems : s.totalItems ≤ Exact.baseLargePacks orderSize minPack maxPack * maxPack +
        s0.dpAmount := by
      have h0 := hc0.2.2.2.2.2.2.1
      simp only [Nat.add_zero] at h0
      unfold LexLE at hlex
      omega
    have hexact := base_add_eff orderSize minPack maxPack
    have hT : Reachable packSizes (c.sum - Exact.baseLargePacks orderSize minPack maxPack *
        maxPack) := by
      rcases Nat.eq_zero_or_pos (Exact.baseLargePacks orderSize minPack maxPack) with hz | hp
      · rw [hz]
        simpa using (⟨c, hc, rfl⟩ : Reachable packSizes c.sum)
      · have hge2 := eff_ge_of_base_pos hp
        have hdp := (dpLimit_ge minPack maxPack).2
        exact reachable_sub_mul_max r.minPos r.minMem r.maxMem (fun x hx => (r.bounds x hx).2)
          _ _ ⟨c, hc, rfl⟩ (by omega)
    have := hleast _ hT (by omega)
    omega

/-- Over unbounded integers: for every order size above zero and every non-empty list of
positive pack sizes, the result of `Exact.calculateOptimalPacks` overshoots the order by at
most `p - 1` for every pack size `p`, the smallest included; so by less than the largest pack
size. -/
theorem exact_overshoot (orderSize : Nat) (packSizes : List Nat) (ho : 0 < orderSize)
    (hne : packSizes ≠ []) (hpos : ∀ x ∈ packSizes, 0 < x) :
    ∃ m, Exact.calculateOptimalPacks orderSize packSizes = some m ∧ orderSize ≤ shipped m ∧
      ∀ p ∈ packSizes, shipped m - orderSize ≤ p - 1 ∧ shipped m - orderSize < p := by
  obtain ⟨minPack, maxPack, dp, frm, best, r⟩ := run_exists orderSize packSizes hne hpos
  obtain ⟨m, h1, h2, h3⟩ := r.shipped_bounds ho
  refine ⟨m, h1, h2, ?_⟩
  intro p hp
  have := (r.bounds p hp).1
  have := r.minPos
  omega

/-! ## The sentinel on very large pack sizes -/

theorem two_sizes (a b : Nat) (c : List Nat) (hc : ∀ x ∈ c, x ∈ [a, b]) :
    ∃ x y, c.sum = a * x + b * y ∧ c.length = x + y := by
  induction c with
  | nil => exact ⟨0, 0, by simp, by simp⟩
  | cons p c ih =>
    obtain ⟨x, y, h1, h2⟩ := ih (fun z hz => hc z (List.mem_cons_of_mem _ hz))
    have hp := hc p (List.mem_cons_self _ _)
    simp only [List.mem_cons, List.mem_singleton, List.not_mem_nil, or_false] at hp
    rcases hp with hp | hp
    · refine ⟨x + 1, y, ?_, ?_⟩
      · simp only [List.sum_cons, h1, hp, Nat.mul_add]
        omega
      · simp only [List.length_cons, h2]
        omega
    · refine ⟨x, y + 1, ?_, ?_⟩
      · simp only [List.sum_cons, h1, hp, Nat.mul_add]
        omega
      · simp only [List.length_cons, h2]
        omega

theorem one_large_pack (a b n : Nat) :
    ∃ c : List Nat, (∀ x ∈ c, x ∈ [a, b]) ∧ c.sum = b + n * a := by
  refine ⟨b :: List.replicate n a, ?_, by simp⟩
  intro x hx
  rcases List.mem_cons.1 hx with h | h
  · simp [h]
  · simp [List.eq_of_mem_replicate h]

/-- Over unbounded integers: on order `8589934591` with pack sizes `2` and `4294967297` every
window cell of the search holds `inf`, because each of those amounts is no combination at
all or needs `2147483647` packs or more; so the fallback map is returned.  It ships
`8589934592`, yet `4294967297 + 2147483647 * 2` is exactly the order. -/
theorem exact_fallback_at_8589934591 :
    Exact.calculateOptimalPacks 8589934591 [2, 4294967297] = some [(2, 4294967296)] ∧
      ∃ c : List Nat, (∀ x ∈ c, x ∈ [2, 4294967297]) ∧ 8589934591 ≤ c.sum ∧
        c.sum < shipped [(2, 4294967296)] := by
  constructor
  · obtain ⟨minPack, maxPack, dp, frm, best, r⟩ :=
      run_exists 8589934591 [2, 4294967297] (by simp)
        (by intro x hx; simp at hx; omega)
    have hsort : sortInts [2, 4294967297] = [2, 4294967297] := by
      simp [sortInts, List.insertionSort, List.orderedInsert]
    have hmin : minPack = 2 := by
      have := r.headEq
      rw [hsort] at this
      simpa using this.symm
    have hmax : maxPack = 4294967297 := by
      have := r.lastEq
      rw [hsort] at this
      simpa using this.symm
    subst hmin hmax
    have hbase : Exact.baseLargePacks 8589934591 2 4294967297 = 0 := by
      simp [Exact.baseLargePacks, Exact.dpLimit]
    have heff : Exact.effOrder 8589934591 2 4294967297 = 8589934591 := by
      simp [Exact.effOrder, hbase]
    have hmt : Exact.maxTarget 8589934591 2 4294967297 = 8589934592 := by
      simp [Exact.maxTarget, heff]
    rcases r.outcome with ⟨_, h2⟩ | ⟨s, e, w, d, _, hc, hd, hlt, _, _, _, _, _⟩
    · rw [h2]
    · exfalso
      rw [hbase, heff, hmt] at hc
      obtain ⟨c1, _, c3, c4, _, _, _, _⟩ := hc
      have hreach := reach_sortInts.1 (r.table.reach hd hlt)
      obtain ⟨c, hcm, hsum, hlen⟩ := hreach
      obtain ⟨x, y, hx, hy⟩ := two_sizes 2 4294967297 c hcm
      unfold inf at hlt
      omega
  · obtain ⟨c, h1, h2⟩ := one_large_pack 2 4294967297 2147483647
    have h3 : shipped [(2, 4294967296)] = 2 * 4294967296 := shipped_single _ _
    exact ⟨c, h1, by omega, by omega⟩

/-! ## Order of the pack sizes -/

theorem sortInts_eq_of_perm {l1 l2 : List Nat} (h : l1.Perm l2) : sortInts l1 = sortInts l2 :=
  List.eq_of_perm_of_sorted (r := fun a b : Nat => a ≤ b)
    (((sortInts_perm l1).trans h).trans (sortInts_perm l2).symm)
    (sortInts_sorted l1) (sortInts_sorted l2)

/-! ## Shape of the returned map -/

/-- The map returned by a run has distinct keys, each a pack size, and positive counts. -/
theorem Run.wellformed {orderSize : Nat} {packSizes : List Nat} {minPack maxPack : Nat}
    {dp frm : List Nat} {best : Option Exact.solution}
    (r : Run orderSize packSizes minPack maxPack dp frm best) (ho : 0 < orderSize) :
    ∃ m, Exact.calculateOptimalPacks orderSize packSizes = some m ∧ (m.map Prod.fst).Nodup ∧
      ∀ e ∈ m, e.1 ∈ packSizes ∧ 0 < e.2 := by
  rcases r.outcome with ⟨_, h2⟩ | ⟨s, e, w, d, _, _, _, _, _, h6, _, _, h9⟩
  · refine ⟨_, h2, by simp, ?_⟩
    intro e he
    rw [List.mem_singleton.1 he]
    refine ⟨r.minMem, ?_⟩
    have h := (ceil_mul_bounds orderSize minPack r.minPos ho).1
    rcases Nat.eq_zero_or_pos ((orderSize + minPack - 1) / minPack) with hz | hp
    · rw [hz] at h
      omega
    · exact hp
  · refine ⟨_, h9, ?_, ?_⟩
    · apply nodup_keys_applyPacks
      unfold startMap
      split <;> simp
    · intro x hx
      rcases mem_applyPacks hx with h | h
      · exact ⟨h6 _ h.1, h.2⟩
      · unfold startMap at h
        split at h
        · rename_i hl
          rw [List.mem_singleton.1 h]
          exact ⟨r.maxMem, hl⟩
        · simp at h

/-! ## Closed forms -/

theorem eq_replicate_of_sum_eq {b : Nat} :
    ∀ (w : List Nat), (∀ x ∈ w, x ≤ b) → w.sum = w.length * b → w = List.replicate w.length b := by
  intro w
  induction w with
  | nil => intro _ _; rfl
  | cons x w ih =>
    intro hb hs
    have hx := hb x (List.mem_cons_self _ _)
    have hw : ∀ y ∈ w, y ≤ b := fun y hy => hb y (List.mem_cons_of_mem _ hy)
    have hle : w.sum ≤ b * w.length :=
      @Reach.sum_le w b (fun y hy => hw y hy) w.length w.sum ⟨w, fun _ h => h, rfl, rfl⟩
    simp only [List.sum_cons, List.length_cons, Nat.add_mul, Nat.one_mul] at hs
    rw [Nat.mul_comm] at hle
    have hxb : x = b := by omega
    have hws : w.sum = w.length * b := by omega
    simp only [List.length_cons, List.replicate_succ]
    rw [← ih hw hws, hxb]

/-- The map built from `s` largest packs already set aside and `d` more packs of the same
size `p` is the one-entry map with count `l + d`. -/
theorem applyPacks_same (p d : Nat) (s : Exact.solution) (h : 0 < s.largePacks + d) :
    applyPacks (List.replicate d p) (startMap p s) = [(p, s.largePacks + d)] := by
  unfold startMap
  split
  · exact applyPacks_replicate_single p s.largePacks d
  · have hz : s.largePacks = 0 := by omega
    rw [hz, Nat.zero_add]
    exact applyPacks_replicate_nil p d (by omega)

/-- Over unbounded integers: with a single pack size `p > 0`, every order above zero is served
by the one-entry mapping with `ceil(orderSize / p)` packs of size `p`, whether or not largest
packs were pre-allocated. -/
theorem exact_single_size (orderSize p : Nat) (ho : 0 < orderSize) (hp : 0 < p) :
    Exact.calculateOptimalPacks orderSize [p] = some [(p, (orderSize + p - 1) / p)] := by
  obtain ⟨minPack, maxPack, dp, frm, best, r⟩ :=
    run_exists orderSize [p] (by simp)
      (by intro x hx; rw [List.mem_singleton.1 hx]; exact hp)
  have hmin : p = minPack := (List.mem_singleton.1 r.minMem).symm
  have hmax : p = maxPack := (List.mem_singleton.1 r.maxMem).symm
  subst hmin
  subst hmax
  rcases r.outcome with ⟨_, h2⟩ | ⟨s, e, w, d, _, hc, _, _, h5, h6, h7, h8, h9⟩
  · exact h2
  · have hw : w = List.replicate d p := by
      rw [← h8]
      exact List.eq_replicate_iff.2 ⟨rfl, fun x hx => List.mem_singleton.1 (h6 x hx)⟩
    have hsum : s.dpAmount = d * p := by
      rw [← h7, hw]
      simp
    obtain ⟨b1, b2, b3⟩ := hc.items_bounds r.minPos
    have htot : s.totalItems = (s.largePacks + d) * p := by
      rw [b3, hsum, Nat.add_mul]
    have hposc : 0 < s.largePacks + d := by
      rcases Nat.eq_zero_or_pos (s.largePacks + d) with hz | hpz
      · rw [hz] at htot
        omega
      · exact hpz
    have hq : (orderSize + p - 1) / p = s.largePacks + d := by
      apply Nat.div_eq_of_lt_le
      · omega
      · rw [Nat.add_mul, Nat.one_mul]
        omega
    rw [h9, hw, applyPacks_same p d s hposc, hq]

/-- Over unbounded integers: when the order equals one of the pack sizes `p`, the result is
the one-entry mapping with a single pack of size `p`. -/
theorem exact_order_is_size (packSizes : List Nat) (p : Nat) (hpos : ∀ x ∈ packSizes, 0 < x)
    (hp : p ∈ packSizes) : Exact.calculateOptimalPacks p packSizes = some [(p, 1)] := by
  have hne : packSizes ≠ [] := List.ne_nil_of_mem hp
  have hppos : 0 < p := hpos p hp
  obtain ⟨minPack, maxPack, dp, frm, best, r⟩ := run_exists p packSizes hne hpos
  have hmin := r.minPos
  have hpmax : p ≤ maxPack := (r.bounds p hp).2
  have hbase : Exact.baseLargePacks p minPack maxPack = 0 := by
    have := (dpLimit_ge minPack maxPack).1
    unfold Exact.baseLargePacks
    rw [if_neg (by omega)]
  have heff : Exact.effOrder p minPack maxPack = p := by
    simp [Exact.effOrder, hbase]
  have hmt : Exact.maxTarget p minPack maxPack = p + minPack - 1 := by
    simp [Exact.maxTarget, heff]
  -- the candidate of `extra = 0` sits at the amount `p` itself
  obtain ⟨v, hv⟩ := r.table.get (i := p) (by rw [hmt]; omega)
  have hv1 : v ≤ 1 := by
    have h := Reach.replicate (mem_sortInts.2 hp) 1
    rw [Nat.one_mul] at h
    exact r.table.le_of_reach hv h
  have hc0 : CandAt dp minPack maxPack (Exact.baseLargePacks p minPack maxPack)
      (Exact.effOrder p minPack maxPack) (Exact.maxTarget p minPack maxPack) 0
      { dpAmount := p, largePacks := Exact.baseLargePacks p minPack maxPack + 0,
        totalItems := (Exact.baseLargePacks p minPack maxPack + 0) * maxPack + p,
        totalPacks := Exact.baseLargePacks p minPack maxPack + 0 + v } := by
    refine ⟨by omega, by rw [heff, hmt]; omega, by rw [heff]; simp, by rw [heff]; simp; omega,
      ?_, rfl, rfl, v, hv, by unfold inf; omega, rfl⟩
    intro j hj1 hj2
    rw [heff] at hj1
    simp only [Nat.zero_mul, Nat.sub_zero] at hj1
    simp only at hj2
    omega
  obtain ⟨s, hs, hlex⟩ := r.isLeast 0 _ hc0
  rcases r.outcome with ⟨h1, _⟩ | ⟨s1, e, w, d, h1, hc, _, _, h5, h6, h7, h8, h9⟩
  · rw [h1] at hs
    cases hs
  · rw [hs] at h1
    cases h1
    obtain ⟨b1, _, b3⟩ := hc.items_bounds r.minPos
    have hlarge : s.largePacks = e := by
      rw [hc.2.2.2.2.2.1, hbase, Nat.zero_add]
    simp only [LexLE, hbase, Nat.zero_add, Nat.zero_mul] at hlex
    have hitems : s.totalItems = p := by omega
    have hpacks : s.largePacks + d ≤ 1 := by omega
    rw [h9]
    rcases Nat.eq_zero_or_pos d with hd | hd
    · -- no walked pack: one largest pack, of size `p`
      have hw : w = [] := List.length_eq_zero.1 (by omega)
      have hamt : s.dpAmount = 0 := by rw [← h7, hw]; rfl
      have hl1 : s.largePacks = 1 := by
        rcases Nat.eq_zero_or_pos s.largePacks with hz | hz
        · rw [hz, hamt] at b3
          omega
        · omega
      have hmp : maxPack = p := by
        rw [hl1, hamt] at b3
        omega
      rw [hw, ← hmp]
      simp [applyPacks, startMap, hl1]
    · -- one walked pack, of size `p`
      have hd1 : d = 1 := by omega
      have hl0 : s.largePacks = 0 := by omega
      obtain ⟨x, hx⟩ : ∃ x, w = [x] := List.length_eq_one.1 (by omega)
      have hxp : x = p := by
        rw [hl0, ← h7, hx] at b3
        simp at b3
        omega
      rw [hx, hxp]
      simp [applyPacks, startMap, hl0, incr]

/-- Over unbounded integers: when the order is `k ≥ 1` times the largest pack size `maxPack`,
the result is the one-entry mapping with `k` packs of size `maxPack`. -/
theorem exact_multiple (packSizes : List Nat) (maxPack k : Nat)
    (hpos : ∀ x ∈ packSizes, 0 < x) (hmem : maxPack ∈ packSizes)
    (hmax : ∀ x ∈ packSizes, x ≤ maxPack) (hk : 1 ≤ k) :
    Exact.calculateOptimalPacks (k * maxPack) packSizes = some [(maxPack, k)] := by
  have hne : packSizes ≠ [] := List.ne_nil_of_mem hmem
  have hmpos : 0 < maxPack := hpos _ hmem
  obtain ⟨minPack, maxPack1, dp, frm, best, r⟩ :=
    run_exists (k * maxPack) packSizes hne hpos
  have hsame : maxPack = maxPack1 :=
    Nat.le_antisymm (r.bounds _ hmem).2 (hmax _ r.maxMem)
  subst hsame
  have hmin := r.minPos
  have hexact := base_add_eff (k * maxPack) minPack maxPack
  have hbk : Exact.baseLargePacks (k * maxPack) minPack maxPack ≤ k := by
    have h1 : Exact.baseLargePacks (k * maxPack) minPack maxPack * maxPack ≤ k * maxPack := by omega
    exact Nat.le_of_mul_le_mul_right h1 hmpos
  have heff : Exact.effOrder (k * maxPack) minPack maxPack =
      (k - Exact.baseLargePacks (k * maxPack) minPack maxPack) * maxPack := by
    rw [Nat.sub_mul]
    omega
  have hbk2 : Exact.baseLargePacks (k * maxPack) minPack maxPack +
      (k - Exact.baseLargePacks (k * maxPack) minPack maxPack) = k := by omega
  -- the candidate that uses largest packs only
  have hc0 : CandAt dp minPack maxPack (Exact.baseLargePacks (k * maxPack) minPack maxPack)
      (Exact.effOrder (k * maxPack) minPack maxPack) (Exact.maxTarget (k * maxPack) minPack maxPack)
      (k - Exact.baseLargePacks (k * maxPack) minPack maxPack)
      { dpAmount := 0,
        largePacks := Exact.baseLargePacks (k * maxPack) minPack maxPack +
          (k - Exact.baseLargePacks (k * maxPack) minPack maxPack),
        totalItems := (Exact.baseLargePacks (k * maxPack) minPack maxPack +
          (k - Exact.baseLargePacks (k * maxPack) minPack maxPack)) * maxPack + 0,
        totalPacks := Exact.baseLargePacks (k * maxPack) minPack maxPack +
          (k - Exact.baseLargePacks (k * maxPack) minPack maxPack) + 0 } := by
    have hmt := r.maxTarget_eq
    refine ⟨by rw [heff], by rw [← heff]; omega, by rw [← heff]; simp, Nat.zero_le _, ?_, rfl,
      rfl, 0, r.table.cell_zero, by unfold inf; omega, rfl⟩
    intro j _ hj2
    simp only at hj2
    omega
  obtain ⟨s, hs, hlex⟩ := r.isLeast _ _ hc0
  rcases r.outcome with ⟨h1, _⟩ | ⟨s1, e, w, d, h1, hc, _, _, h5, h6, h7, h8, h9⟩
  · rw [h1] at hs
    cases hs
  · rw [hs] at h1
    cases h1
    obtain ⟨b1, _, b3⟩ := hc.items_bounds r.minPos
    simp only [LexLE, hbk2, Nat.add_zero] at hlex
    have hitems : s.totalItems = k * maxPack := by omega
    have hpacks : s.largePacks + d ≤ k := by omega
    have hwle : w.sum ≤ maxPack * w.length :=
      Reach.sum_le hmax (⟨w, h6, rfl, rfl⟩ : Reach packSizes w.length w.sum)
    rw [h8, Nat.mul_comm] at hwle
    have h10 : (s.largePacks + d) * maxPack ≤ k * maxPack := Nat.mul_le_mul_right _ hpacks
    rw [Nat.add_mul] at h10
    have hsum : w.sum = d * maxPack := by omega
    have hcount : s.largePacks + d = k := by
      have h11 : (s.largePacks + d) * maxPack = k * maxPack := by
        rw [Nat.add_mul]
        omega
      exact Nat.eq_of_mul_eq_mul_right hmpos h11
    have hw : w = List.replicate d maxPack := by
      rw [← h8]
      exact eq_replicate_of_sum_eq w (fun x hx => hmax x (h6 x hx)) (by rw [h8]; exact hsum)
    rw [h9, hw, applyPacks_same maxPack d s (by omega), hcount]

/-! ## The use case -/

theorem collectResults_eq {m : List (Nat × Nat)} (h : ∀ e ∈ m, 0 < e.2) :
    Exact.collectResults m = m.map toPackResult := by
  unfold Exact.collectResults
  rw [List.filter_eq_self.2 (fun e he => by simpa using h e he)]
  rfl

theorem sortBySizeDesc_perm (l : List PackResult) : (sortBySizeDesc l).Perm l :=
  List.perm_insertionSort _ l

theorem sortBySizeDesc_sorted (l : List PackResult) :
    (sortBySizeDesc l).Pairwise (fun a b => a.Size ≥ b.Size) := by
  haveI : IsTotal PackResult (fun a b => a.Size ≥ b.Size) := ⟨fun a b => Int.le_total b.Size a.Size⟩
  haveI : IsTrans PackResult (fun a b => a.Size ≥ b.Size) :=
    ⟨fun a b c h1 h2 => Int.le_trans h2 h1⟩
  exact List.sorted_insertionSort (fun a b : PackResult => a.Size ≥ b.Size) l

theorem sum_toPackResult (m : List (Nat × Nat)) :
    ((m.map toPackResult).map (fun r => r.Size * r.Count)).sum = (shipped m : Int) := by
  induction m with
  | nil => simp [shipped]
  | cons e m ih =>
    simp only [shipped] at ih
    simp only [List.map_cons, List.sum_cons, ih, shipped, toPackResult]
    push_cast
    rfl

/-- On a positive order and a non-empty repository slice `Exact.Execute` returns what the solver
returns on the same values, collected and sorted, with a nil error. -/
theorem Execute_eq {repo : Repository} {orderSize : Int} (ho : 0 < orderSize)
    (hne : repo.packSizes ≠ []) :
    Exact.Execute repo orderSize =
      (Exact.calculateOptimalPacks orderSize.toNat (repo.packSizes.map Int.toNat)).map
        (fun result => ((sortBySizeDesc (Exact.collectResults result), none),
          { repo with reads := repo.reads + 1 })) := by
  have h1 : ¬ orderSize ≤ 0 := by omega
  have h2 : ¬ repo.packSizes.length = 0 := fun h => hne (List.length_eq_zero.1 h)
  simp only [Exact.Execute, h1, if_false, Repository.GetPackSizes, h2]
  cases Exact.calculateOptimalPacks orderSize.toNat (repo.packSizes.map Int.toNat) <;> rfl

/-- Over unbounded integers: on a positive order and a non-empty repository slice of positive
sizes, the slice returned by `Exact.Execute` is non-empty, strictly descending in `Size`, has
positive counts and sizes taken from the repository, holds exactly the entries of the mapping
returned by `Exact.calculateOptimalPacks`, and its sum of `Size * Count` is the shipped
quantity of that mapping. -/
theorem exact_execute_slice (repo : Repository) (orderSize : Int) (ho : 0 < orderSize)
    (hne : repo.packSizes ≠ []) (hpos : ∀ x ∈ repo.packSizes, 0 < x) :
    ∃ m out repo1,
      Exact.calculateOptimalPacks orderSize.toNat (repo.packSizes.map Int.toNat) = some m ∧
      Exact.Execute repo orderSize = some ((out, none), repo1) ∧ out ≠ [] ∧
      out.Pairwise (fun a b => a.Size > b.Size) ∧
      (∀ r ∈ out, 0 < r.Count ∧ r.Size ∈ repo.packSizes) ∧
      out.Perm (m.map (fun e => { Size := (e.1 : Int), Count := (e.2 : Int) })) ∧
      (out.map (fun r => r.Size * r.Count)).sum = (shipped m : Int) := by
  have hoN : 0 < orderSize.toNat := by omega
  obtain ⟨minPack, maxPack, dp, frm, best, r⟩ :=
    run_exists orderSize.toNat (repo.packSizes.map Int.toNat)
      (by simpa using hne)
      (by
        intro x hx
        obtain ⟨z, hz, rfl⟩ := List.mem_map.1 hx
        have := hpos z hz
        omega)
  obtain ⟨m, hm, hnd, hwf⟩ := r.wellformed hoN
  obtain ⟨m1, hm1, hship, _⟩ := r.shipped_bounds hoN
  rw [hm] at hm1
  cases hm1
  have hcol : Exact.collectResults m = m.map toPackResult :=
    collectResults_eq (fun e he => (hwf e he).2)
  have hperm : (sortBySizeDesc (m.map toPackResult)).Perm (m.map toPackResult) :=
    sortBySizeDesc_perm _
  refine ⟨m, sortBySizeDesc (m.map toPackResult), { repo with reads := repo.reads + 1 }, hm,
    ?_, ?_, ?_, ?_, hperm, ?_⟩
  · rw [Execute_eq ho hne, hm, ← hcol]
    rfl
  · intro h
    rw [h] at hperm
    have hnil : m.map toPackResult = [] := List.eq_nil_of_length_eq_zero hperm.length_eq.symm
    have hmnil : m = [] := List.map_eq_nil_iff.1 hnil
    rw [hmnil] at hship
    simp [shipped] at hship
    omega
  · have hsorted := sortBySizeDesc_sorted (m.map toPackResult)
    have hnd2 : ((sortBySizeDesc (m.map toPackResult)).map (fun r => r.Size)).Nodup := by
      refine (hperm.map _).nodup_iff.2 ?_
      have : (m.map toPackResult).map (fun r => r.Size) =
          (m.map Prod.fst).map (fun n : Nat => (n : Int)) := by
        simp [toPackResult, Function.comp_def]
      rw [this]
      exact hnd.map Nat.cast_injective
    have hne2 : (sortBySizeDesc (m.map toPackResult)).Pairwise
        (fun a b => a.Size ≠ b.Size) := List.pairwise_map.1 hnd2
    refine (hsorted.and hne2).imp ?_
    intro a b hab
    have h1 := hab.1
    have h2 := hab.2
    omega
  · intro x hx
    have hx2 : x ∈ m.map toPackResult := hperm.mem_iff.1 hx
    obtain ⟨e, he, rfl⟩ := List.mem_map.1 hx2
    obtain ⟨h1, h2⟩ := hwf e he
    obtain ⟨z, hz, hze⟩ := List.mem_map.1 h1
    have hzpos := hpos z hz
    refine ⟨by simp only [toPackResult]; omega, ?_⟩
    have : ((e.1 : Nat) : Int) = z := by omega
    simp only [toPackResult, this]
    exact hz
  · rw [(hperm.map _).sum_eq]
    exact sum_toPackResult m

/-! ## Pack count of the result -/

theorem three_sizes (a b c : Nat) (l : List Nat) (hl : ∀ x ∈ l, x ∈ [a, b, c]) :
    ∃ x y z, l.sum = a * x + b * y + c * z ∧ l.length = x + y + z := by
  induction l with
  | nil => exact ⟨0, 0, 0, by simp, by simp⟩
  | cons p l ih =>
    obtain ⟨x, y, z, h1, h2⟩ := ih (fun q hq => hl q (List.mem_cons_of_mem _ hq))
    have hp := hl p (List.mem_cons_self _ _)
    simp only [List.mem_cons, List.mem_singleton, List.not_mem_nil, or_false] at hp
    rcases hp with hp | hp | hp
    · refine ⟨x + 1, y, z, ?_, ?_⟩
      · simp only [List.sum_cons, h1, hp, Nat.mul_add]
        omega
      · simp only [List.length_cons, h2]
        omega
    · refine ⟨x, y + 1, z, ?_, ?_⟩
      · simp only [List.sum_cons, h1, hp, Nat.mul_add]
        omega
      · simp only [List.length_cons, h2]
        omega
    · refine ⟨x, y, z + 1, ?_, ?_⟩
      · simp only [List.sum_cons, h1, hp, Nat.mul_add]
        omega
      · simp only [List.length_cons, h2]
        omega

/-- The same defect at `orderSize = 297`, `packSizes = [1, 99, 100]`: the returned map
ships `297` in at least `99` packs, although `99 + 99 + 99` ships `297` in three packs. -/
theorem exact_packs_for_297 :
    (∃ m, Exact.calculateOptimalPacks 297 [1, 99, 100] = some m ∧ shipped m = 297 ∧
      99 ≤ packCount m) ∧
      (∀ x ∈ [99, 99, 99], x ∈ [1, 99, 100]) ∧ [99, 99, 99].sum = 297 ∧
      [99, 99, 99].length = 3 := by
  refine ⟨?_, by decide, by decide, by decide⟩
  obtain ⟨minPack, maxPack, dp, frm, best, r⟩ :=
    run_exists 297 [1, 99, 100] (by simp)
      (by intro x hx; simp at hx; omega)
  have hsort : sortInts [1, 99, 100] = [1, 99, 100] := by
    simp [sortInts, List.insertionSort, List.orderedInsert]
  have hmin : 1 = minPack := by
    have := r.headEq
    rw [hsort] at this
    simpa using this
  have hmax : 100 = maxPack := by
    have := r.lastEq
    rw [hsort] at this
    simpa using this
  subst hmin hmax
  have hbase : Exact.baseLargePacks 297 1 100 = 1 := by
    simp [Exact.baseLargePacks, Exact.dpLimit]
  have heff : Exact.effOrder 297 1 100 = 197 := by
    simp [Exact.effOrder, hbase]
  obtain ⟨m, h1, _, h3⟩ := r.shipped_eq
  refine ⟨m, h1, ?_⟩
  rcases h3 with ⟨hnone, _⟩ | ⟨s, e, _, hc, hship, hcount⟩
  · rcases r.outcome with ⟨_, h2⟩ | ⟨s, e, w, d, hb, _⟩
    · rw [h1] at h2
      cases h2
      decide
    · rw [hnone] at hb
      cases hb
  · obtain ⟨b1, b2, _⟩ := hc.items_bounds r.minPos
    rw [hbase, heff] at hc
    obtain ⟨c1, _, c3, c4, _, _, c7, d, hd, hlt, c10⟩ := hc
    obtain ⟨l, hl, hsum, hlen⟩ := reach_sortInts.1 (r.table.reach hd hlt)
    obtain ⟨x, y, z, hx, hy⟩ := three_sizes 1 99 100 l hl
    rw [hship, hcount]
    unfold inf at hlt
    have he : e = 0 ∨ e = 1 := by omega
    have hyz : y + z ≤ 1 := by omega
    constructor
    · omega
    · rcases he with he | he
      · subst he
        omega
      · subst he
        have hy0 : y = 0 := by omega
        have hz0 : z = 0 := by omega
        subst hy0 hz0
        omega

/-! ## The map as a function from pack size to count -/

theorem countOf_eq_zero {m : List (Nat × Nat)} {k : Nat} (h : k ∉ m.map Prod.fst) :
    countOf m k = 0 := by
  induction m with
  | nil => rfl
  | cons e m ih =>
    obtain ⟨k0, c0⟩ := e
    simp only [List.map_cons, List.mem_cons, not_or] at h
    have hne : ¬ k0 = k := fun h1 => h.1 h1.symm
    simp [countOf, hne, ih h.2]

theorem countOf_of_mem {m : List (Nat × Nat)} (hnd : (m.map Prod.fst).Nodup) {k v : Nat}
    (h : (k, v) ∈ m) : countOf m k = v := by
  induction m with
  | nil => cases h
  | cons e m ih =>
    obtain ⟨k0, c0⟩ := e
    simp only [List.map_cons, List.nodup_cons] at hnd
    rcases List.mem_cons.1 h with h1 | h1
    · cases h1
      simp [countOf, countOf_eq_zero hnd.1]
    · have hk : ¬ k0 = k := by
        intro h2
        subst h2
        exact hnd.1 (List.mem_map.2 ⟨(k0, v), h1, rfl⟩)
      simp [countOf, hk, ih hnd.2 h1]

theorem mem_of_countOf_pos {m : List (Nat × Nat)} (hnd : (m.map Prod.fst).Nodup) {k : Nat}
    (h : 0 < countOf m k) : (k, countOf m k) ∈ m := by
  induction m with
  | nil => simp [countOf] at h
  | cons e m ih =>
    obtain ⟨k0, c0⟩ := e
    simp only [List.map_cons, List.nodup_cons] at hnd
    by_cases hk : k0 = k
    · subst hk
      simp [countOf, countOf_eq_zero hnd.1]
    · simp only [countOf, hk, if_false, Nat.zero_add] at h ⊢
      exact List.mem_cons_of_mem _ (ih hnd.2 h)

/-- Two maps with positive counts that hold the same count for every pack size have the
same entries. -/
theorem perm_of_countOf_eq {ps : List Nat} {m1 m2 : List (Nat × Nat)}
    (hnd1 : (m1.map Prod.fst).Nodup) (hnd2 : (m2.map Prod.fst).Nodup)
    (hk1 : ∀ e ∈ m1, e.1 ∈ ps ∧ 0 < e.2) (hk2 : ∀ e ∈ m2, e.1 ∈ ps ∧ 0 < e.2)
    (h : ∀ k ∈ ps, countOf m1 k = countOf m2 k) : m1.Perm m2 := by
  refine (List.perm_ext_iff_of_nodup (List.Nodup.of_map _ hnd1) (List.Nodup.of_map _ hnd2)).2 ?_
  rintro ⟨k, v⟩
  constructor
  · intro hm
    have h1 := countOf_of_mem hnd1 hm
    have h2 := hk1 _ hm
    have h3 := h k h2.1
    have h4 : 0 < countOf m2 k := by
      rw [← h3, h1]
      exact h2.2
    have := mem_of_countOf_pos hnd2 h4
    rw [← h3, h1] at this
    exact this
  · intro hm
    have h1 := countOf_of_mem hnd2 hm
    have h2 := hk2 _ hm
    have h3 := h k h2.1
    have h4 : 0 < countOf m1 k := by
      rw [h3, h1]
      exact h2.2
    have := mem_of_countOf_pos hnd1 h4
    rw [h3, h1] at this
    exact this

theorem sum_indicator {ps : List Nat} (hnd : ps.Nodup) {k : Nat} (hk : k ∈ ps) (v : Nat) :
    (ps.map (fun p => if k = p then v else 0)).sum = v := by
  induction ps with
  | nil => cases hk
  | cons p ps ih =>
    simp only [List.nodup_cons] at hnd
    rcases List.mem_cons.1 hk with h | h
    · subst h
      have hz : (ps.map (fun p => if k = p then v else 0)).sum = 0 := by
        apply List.sum_eq_zero
        intro x hx
        obtain ⟨q, hq, rfl⟩ := List.mem_map.1 hx
        have : ¬ k = q := by
          intro h1
          subst h1
          exact hnd.1 hq
        simp [this]
      simp [hz]
    · have hne : ¬ k = p := by
        intro h1
        subst h1
        exact hnd.1 h
      simp [hne, ih hnd.2 h]

/-- The shipped quantity and the pack count of a map whose keys are among the distinct
sizes `ps`, as sums over `ps`. -/
theorem sums_by_countOf {ps : List Nat} (hnd : ps.Nodup) :
    ∀ m : List (Nat × Nat), (∀ e ∈ m, e.1 ∈ ps) →
      shipped m = (ps.map (fun p => p * countOf m p)).sum ∧
        packCount m = (ps.map (fun p => countOf m p)).sum := by
  intro m
  induction m with
  | nil =>
    intro _
    simp [shipped, packCount, countOf]
  | cons e m ih =>
    intro hk
    obtain ⟨k, v⟩ := e
    obtain ⟨h1, h2⟩ := ih (fun x hx => hk x (List.mem_cons_of_mem _ hx))
    have hkm : k ∈ ps := hk (k, v) (List.mem_cons_self _ _)
    have e1 : (ps.map (fun p => p * countOf ((k, v) :: m) p)).sum =
        (ps.map (fun p => if k = p then k * v else 0)).sum +
          (ps.map (fun p => p * countOf m p)).sum := by
      rw [← List.sum_map_add]
      congr 1
      apply List.map_congr_left
      intro p _
      simp only [countOf]
      by_cases hp : k = p
      · subst hp
        simp [Nat.mul_add]
      · simp [hp]
    have e2 : (ps.map (fun p => countOf ((k, v) :: m) p)).sum =
        (ps.map (fun p => if k = p then v else 0)).sum +
          (ps.map (fun p => countOf m p)).sum := by
      rw [← List.sum_map_add]
      rfl
    rw [e1, e2, sum_indicator hnd hkm, sum_indicator hnd hkm]
    simp only [shipped, packCount, List.map_cons, List.sum_cons] at h1 h2 ⊢
    omega

/-! ## The sorted slice is determined by its entries -/

theorem sortBySizeDesc_strict {l : List PackResult} (hnd : (l.map (fun r => r.Size)).Nodup) :
    (sortBySizeDesc l).Pairwise (fun a b => a.Size > b.Size) := by
  have hsorted := sortBySizeDesc_sorted l
  have hnd2 : ((sortBySizeDesc l).map (fun r => r.Size)).Nodup :=
    ((sortBySizeDesc_perm l).map _).nodup_iff.2 hnd
  have hne2 : (sortBySizeDesc l).Pairwise (fun a b => a.Size ≠ b.Size) :=
    List.pairwise_map.1 hnd2
  refine (hsorted.and hne2).imp ?_
  intro a b hab
  have h1 := hab.1
  have h2 := hab.2
  omega

/-- A descending rearrangement of a slice with distinct sizes is the one that
`sortBySizeDesc` returns, whatever the order of the slice and whatever the sorting
procedure. -/
theorem eq_sortBySizeDesc {l out : List PackResult} (hnd : (l.map (fun r => r.Size)).Nodup)
    (hperm : out.Perm l) (hsorted : out.Pairwise (fun a b => a.Size ≥ b.Size)) :
    out = sortBySizeDesc l := by
  haveI : IsAntisymm PackResult (fun a b => a.Size > b.Size) :=
    ⟨fun a b h1 h2 => absurd h1 (by omega)⟩
  have hnd2 : (out.map (fun r => r.Size)).Nodup := (hperm.map _).nodup_iff.2 hnd
  have hne2 : out.Pairwise (fun a b => a.Size ≠ b.Size) := List.pairwise_map.1 hnd2
  have hstrict : out.Pairwise (fun a b => a.Size > b.Size) := by
    refine (hsorted.and hne2).imp ?_
    intro a b hab
    have h1 := hab.1
    have h2 := hab.2
    omega
  exact List.eq_of_perm_of_sorted (r := fun a b : PackResult => a.Size > b.Size)
    (hperm.trans (sortBySizeDesc_perm l).symm) hstrict (sortBySizeDesc_strict hnd)

theorem sortBySizeDesc_eq_of_perm {l1 l2 : List PackResult}
    (hnd : (l2.map (fun r => r.Size)).Nodup) (hperm : l1.Perm l2) :
    sortBySizeDesc l1 = sortBySizeDesc l2 :=
  eq_sortBySizeDesc hnd ((sortBySizeDesc_perm l1).trans hperm) (sortBySizeDesc_sorted l1)

theorem sizes_nodup_of_keys {m : List (Nat × Nat)} (hnd : (m.map Prod.fst).Nodup) :
    ((Exact.collectResults m).map (fun r => r.Size)).Nodup := by
  unfold Exact.collectResults
  have h1 : ((m.filter (fun e => decide (e.2 > 0))).map Prod.fst).Nodup :=
    (List.filter_sublist m).map Prod.fst |>.nodup hnd
  have h2 : (((m.filter (fun e => decide (e.2 > 0))).map Prod.fst).map
      (fun n : Nat => (n : Int))).Nodup := h1.map Nat.cast_injective
  simpa [List.map_map, Function.comp_def] using h2

theorem collectResults_perm {m1 m2 : List (Nat × Nat)} (h : m1.Perm m2) :
    (Exact.collectResults m1).Perm (Exact.collectResults m2) := by
  unfold Exact.collectResults
  exact (h.filter _).map _

/-! ## The run with its intermediate values -/

/-- A run as in `run_exists`, together with the calls that produce its tables and its
value of `best`. -/
theorem run_trace (orderSize : Nat) (packSizes : List Nat) (hne : packSizes ≠ [])
    (hpos : ∀ x ∈ packSizes, 0 < x) :
    ∃ minPack maxPack dp frm best, Run orderSize packSizes minPack maxPack dp frm best ∧
      buildTable (sortInts packSizes) (Exact.maxTarget orderSize minPack maxPack) = some (dp, frm) ∧
      Exact.searchLoop dp minPack maxPack (Exact.baseLargePacks orderSize minPack maxPack)
        (Exact.effOrder orderSize minPack maxPack) (Exact.maxTarget orderSize minPack maxPack)
        (Exact.effOrder orderSize minPack maxPack / maxPack + 1) 0 none = some best := by
  obtain ⟨minPack, maxPack, h1, h2, h3, h4, h5⟩ := sortInts_ends hne
  have hmin : 0 < minPack := hpos _ h3
  have hmax : 0 < maxPack := hpos _ h4
  obtain ⟨dp, frm, ht1, ht2⟩ := buildTable_spec (sortInts_sorted packSizes)
    (fun x hx => hpos x (mem_sortInts.1 hx)) (Exact.maxTarget orderSize minPack maxPack)
  obtain ⟨best, hb1, hb2, _, hb4⟩ := @searchLoop_spec dp minPack maxPack
    (Exact.baseLargePacks orderSize minPack maxPack) (Exact.effOrder orderSize minPack maxPack)
    (Exact.maxTarget orderSize minPack maxPack) ht2.1 hmin
    (Exact.effOrder orderSize minPack maxPack / maxPack + 1) 0 none
  refine ⟨minPack, maxPack, dp, frm, best,
    ⟨h1, h2, hmin, h3, h4, h5, ht2, ?_, ?_, ?_⟩, ht1, hb1⟩
  · rcases hb2 with h | ⟨s, e, h6, _, _, h7⟩
    · exact Or.inl h
    · exact Or.inr ⟨s, e, h6, h7⟩
  · intro e s1 hc
    refine hb4 e s1 (Nat.zero_le _) ?_ hc
    have := hc.1
    have : e ≤ Exact.effOrder orderSize minPack maxPack / maxPack :=
      (Nat.le_div_iff_mul_le hmax).2 this
    omega
  · have hmax0 : ¬ maxPack = 0 := by omega
    simp only [Exact.calculateOptimalPacks, h1, h2, hmax0, if_false, ht1, hb1]

/-- The total of a candidate is the total of a combination of the pack sizes. -/
theorem Run.cand_reachable {orderSize : Nat} {packSizes : List Nat} {minPack maxPack : Nat}
    {dp frm : List Nat} {best : Option Exact.solution}
    (r : Run orderSize packSizes minPack maxPack dp frm best) {e : Nat} {s : Exact.solution}
    (hc : CandAt dp minPack maxPack (Exact.baseLargePacks orderSize minPack maxPack)
      (Exact.effOrder orderSize minPack maxPack) (Exact.maxTarget orderSize minPack maxPack) e s) :
    Reachable packSizes (s.totalItems - Exact.baseLargePacks orderSize minPack maxPack * maxPack) :=
        by
  obtain ⟨_, _, _, _, _, _, c7, d, hd, hlt, _⟩ := hc
  have h1 := reach_sortInts.1 (r.table.reach hd hlt)
  have h2 := (Reach.replicate r.maxMem e).add h1
  have h3 : s.totalItems - Exact.baseLargePacks orderSize minPack maxPack * maxPack =
      e * maxPack + s.dpAmount := by
    rw [c7, Nat.add_mul]
    omega
  rw [h3]
  exact h2.reachable

/-- With every pack size at most `1073741822` the returned map is well formed, ships the
least total of a combination that covers the order, and uses at most
`Exact.baseLargePacks + k` packs whenever the part of that total above the largest packs set
aside is the total of `k` packs. -/
theorem Run.optimal_small {orderSize : Nat} {packSizes : List Nat} {minPack maxPack : Nat}
    {dp frm : List Nat} {best : Option Exact.solution}
    (r : Run orderSize packSizes minPack maxPack dp frm best) (ho : 0 < orderSize)
    (hsmall : ∀ x ∈ packSizes, x ≤ 1073741822) :
    ∃ m, Exact.calculateOptimalPacks orderSize packSizes = some m ∧ (m.map Prod.fst).Nodup ∧
      (∀ e ∈ m, e.1 ∈ packSizes ∧ 0 < e.2) ∧ orderSize ≤ shipped m ∧
      (∀ c : List Nat, (∀ x ∈ c, x ∈ packSizes) → orderSize ≤ c.sum → shipped m ≤ c.sum) ∧
      (∀ k, Reach packSizes k
          (shipped m - Exact.baseLargePacks orderSize minPack maxPack * maxPack) →
        packCount m ≤ Exact.baseLargePacks orderSize minPack maxPack + k) := by
  obtain ⟨s0, hc0, hleast⟩ := r.cand_zero hsmall
  obtain ⟨s, hs, hlex⟩ := r.isLeast 0 s0 hc0
  obtain ⟨m, h1, hnd, hwf⟩ := r.wellformed ho
  obtain ⟨m1, hm1, _, h3⟩ := r.shipped_eq
  rw [h1] at hm1
  cases hm1
  have hbnd := r.shipped_bounds ho
  rw [h1] at hbnd
  obtain ⟨m1, hm1, hge, _⟩ := hbnd
  cases hm1
  rcases h3 with ⟨h, _⟩ | ⟨s1, e, hb, hc, hship, hcount⟩
  · rw [h] at hs
    cases hs
  · rw [hs] at hb
    cases hb
    have hexact := base_add_eff orderSize minPack maxPack
    have h0 := hc0.2.2.2.2.2.2.1
    simp only [Nat.add_zero] at h0
    obtain ⟨d0, hd0, _, hp0⟩ := hc0.2.2.2.2.2.2.2
    simp only [Nat.add_zero] at hp0
    have hsb := (hc.items_bounds r.minPos).1
    -- the retained candidate ships exactly what the candidate of `extra = 0` ships
    have hreach := r.cand_reachable hc
    have hlow := hleast _ hreach (by omega)
    have hitems : s.totalItems = Exact.baseLargePacks orderSize minPack maxPack * maxPack +
        s0.dpAmount := by
      unfold LexLE at hlex
      omega
    have hpacks : s.totalPacks ≤ Exact.baseLargePacks orderSize minPack maxPack + d0 := by
      unfold LexLE at hlex
      omega
    refine ⟨m, h1, hnd, hwf, hge, ?_, ?_⟩
    · intro c hc1 hsum
      have hT : Reachable packSizes
          (c.sum - Exact.baseLargePacks orderSize minPack maxPack * maxPack) := by
        rcases Nat.eq_zero_or_pos (Exact.baseLargePacks orderSize minPack maxPack) with hz | hp
        · rw [hz]
          simpa using (⟨c, hc1, rfl⟩ : Reachable packSizes c.sum)
        · have hge2 := eff_ge_of_base_pos hp
          have hdp := (dpLimit_ge minPack maxPack).2
          exact reachable_sub_mul_max r.minPos r.minMem r.maxMem
            (fun x hx => (r.bounds x hx).2) _ _ ⟨c, hc1, rfl⟩ (by omega)
      have := hleast _ hT (by omega)
      omega
    · intro k hk
      have he : shipped m - Exact.baseLargePacks orderSize minPack maxPack * maxPack =
          s0.dpAmount := by omega
      rw [he] at hk
      have := r.table.le_of_reach hd0 (reach_sortInts.2 hk)
      omega

/-! ## Distinct keys on every input -/

theorem walk_nodup_keys (frm : List Nat) :
    ∀ (fuel t : Nat) (m0 m : List (Nat × Nat)), walk frm fuel t m0 = some m →
      (m0.map Prod.fst).Nodup → (m.map Prod.fst).Nodup := by
  intro fuel
  induction fuel with
  | zero =>
    intro t m0 m h hnd
    unfold walk at h
    split at h
    · cases h
    · cases h
      exact hnd
  | succ fuel ih =>
    intro t m0 m h hnd
    unfold walk at h
    split at h
    · split at h
      · cases h
      · exact ih _ _ _ h (nodup_keys_incr hnd)
    · cases h
      exact hnd

/-- Whatever the input, a map returned by `Exact.calculateOptimalPacks` has distinct keys. -/
theorem calculateOptimalPacks_nodup_keys {orderSize : Nat} {packSizes : List Nat}
    {m : List (Nat × Nat)} (h : Exact.calculateOptimalPacks orderSize packSizes = some m) :
    (m.map Prod.fst).Nodup := by
  simp only [Exact.calculateOptimalPacks] at h
  cases hh : (sortInts packSizes).head? with
  | none => simp [hh] at h
  | some minPack =>
    cases hl : (sortInts packSizes).getLast? with
    | none => simp [hh, hl] at h
    | some maxPack =>
      simp only [hh, hl] at h
      by_cases hz : maxPack = 0
      · simp [hz] at h
      · simp only [hz, if_false] at h
        cases hb : buildTable (sortInts packSizes) (Exact.maxTarget orderSize minPack maxPack) with
        | none => simp [hb] at h
        | some tabs =>
          obtain ⟨dp, frm⟩ := tabs
          simp only [hb] at h
          cases hs : Exact.searchLoop dp minPack maxPack (Exact.baseLargePacks orderSize minPack
              maxPack)
              (Exact.effOrder orderSize minPack maxPack) (Exact.maxTarget orderSize minPack maxPack)
              (Exact.effOrder orderSize minPack maxPack / maxPack + 1) 0 none with
          | none => simp [hs] at h
          | some best =>
            simp only [hs] at h
            cases best with
            | none =>
              by_cases hm : minPack = 0
              · simp [Exact.finish, hm] at h
              · simp only [Exact.finish, hm, if_false, Option.some.injEq] at h
                rw [← h]
                simp
            | some b =>
              simp only [Exact.finish] at h
              refine walk_nodup_keys _ _ _ _ _ h ?_
              split <;> simp

/-! ## Concrete orders -/

/-- What `Exact.Execute` returns once the solver's map is known up to the order of its
entries. -/
theorem Execute_of_perm (repo : Repository) (orderSize : Int) (ho : 0 < orderSize)
    (hne : repo.packSizes ≠ []) {m target : List (Nat × Nat)}
    (hm : Exact.calculateOptimalPacks orderSize.toNat (repo.packSizes.map Int.toNat) = some m)
    (hpos : ∀ e ∈ m, 0 < e.2) (hperm : m.Perm target) :
    Exact.Execute repo orderSize =
      some ((sortBySizeDesc (target.map toPackResult), none),
        { repo with reads := repo.reads + 1 }) := by
  have hnd := calculateOptimalPacks_nodup_keys hm
  have hpos2 : ∀ e ∈ target, 0 < e.2 := fun e he => hpos e (hperm.mem_iff.2 he)
  have hnd2 : (target.map Prod.fst).Nodup := (hperm.map _).nodup_iff.1 hnd
  have h1 : sortBySizeDesc (Exact.collectResults m) =
      sortBySizeDesc (Exact.collectResults target) :=
    sortBySizeDesc_eq_of_perm (sizes_nodup_of_keys hnd2) (collectResults_perm hperm)
  rw [Execute_eq ho hne, hm, Option.map_some', h1, collectResults_eq hpos2]

/-- The facts about a run on small distinct pack sizes from which a concrete result is
read off: the map is well formed, ships the least covering total, obeys the pack bound of
`Run.optimal_small`, and its two sums are sums over the pack sizes. -/
theorem solve_small (orderSize : Nat) (packSizes : List Nat) (ho : 0 < orderSize)
    (hne : packSizes ≠ []) (hpos : ∀ x ∈ packSizes, 0 < x)
    (hsmall : ∀ x ∈ packSizes, x ≤ 1073741822) (hnd : packSizes.Nodup) :
    ∃ m minPack maxPack, (sortInts packSizes).head? = some minPack ∧
      (sortInts packSizes).getLast? = some maxPack ∧
      Exact.calculateOptimalPacks orderSize packSizes = some m ∧ (m.map Prod.fst).Nodup ∧
      (∀ e ∈ m, e.1 ∈ packSizes ∧ 0 < e.2) ∧ orderSize ≤ shipped m ∧
      (∀ k T, Reach packSizes k T → orderSize ≤ T → shipped m ≤ T) ∧
      (∀ k, Reach packSizes k
          (shipped m - Exact.baseLargePacks orderSize minPack maxPack * maxPack) →
        packCount m ≤ Exact.baseLargePacks orderSize minPack maxPack + k) ∧
      shipped m = (packSizes.map (fun p => p * countOf m p)).sum ∧
      packCount m = (packSizes.map (fun p => countOf m p)).sum := by
  obtain ⟨minPack, maxPack, dp, frm, best, r⟩ := run_exists orderSize packSizes hne hpos
  obtain ⟨m, h1, h2, h3, h4, h5, h6⟩ := r.optimal_small ho hsmall
  obtain ⟨h7, h8⟩ := sums_by_countOf hnd m (fun e he => (h3 e he).1)
  refine ⟨m, minPack, maxPack, r.headEq, r.lastEq, h1, h2, h3, h4, ?_, h6, h7, h8⟩
  intro k T hk hT
  obtain ⟨c, hc, hs, _⟩ := hk
  rw [← hs] at hT ⊢
  exact h5 c hc hT

theorem reach_of_list (ps c : List Nat) (hc : ∀ x ∈ c, x ∈ ps) : Reach ps c.length c.sum :=
  ⟨c, hc, rfl, rfl⟩

theorem counts_17_31_47 (a b c : Nat) (h1 : 17 * a + 31 * b + 47 * c = 5000)
    (h2 : a + b + c ≤ 108) : a = 2 ∧ b = 1 ∧ c = 105 := by
  have hc1 : 104 ≤ c := by omega
  have hc2 : c ≤ 106 := by omega
  have hb : b ≤ 4 := by omega
  interval_cases c <;> interval_cases b <;> omega

/-- Over unbounded integers: for pack sizes `17, 31, 47` and order `5000`, above
`Exact.dpLimit = 799` so that `89` largest packs are set aside, `Exact.Execute` returns
exactly `47 × 105, 31 × 1, 17 × 2`, which ships `5000` in `108` packs. -/
theorem exact_execute_5000 (reads : Nat) :
    Exact.dpLimit 17 47 = 799 ∧ Exact.baseLargePacks 5000 17 47 = 89 ∧
      Exact.Execute ⟨[17, 31, 47], reads⟩ 5000 =
        some (([⟨47, 105⟩, ⟨31, 1⟩, ⟨17, 2⟩], none), ⟨[17, 31, 47], reads + 1⟩) ∧
      (([⟨47, 105⟩, ⟨31, 1⟩, ⟨17, 2⟩] : List PackResult).map (fun r => r.Size * r.Count)).sum =
        5000 ∧
      (([⟨47, 105⟩, ⟨31, 1⟩, ⟨17, 2⟩] : List PackResult).map (fun r => r.Count)).sum = 108 := by
  have hlim : Exact.dpLimit 17 47 = 799 := by decide
  have hbase : Exact.baseLargePacks 5000 17 47 = 89 := by decide
  refine ⟨hlim, hbase, ?_, by decide, by decide⟩
  obtain ⟨m, minPack, maxPack, hh, hl, hm, hnd, hwf, hge, hleast, hpk, hs1, hs2⟩ :=
    solve_small 5000 [17, 31, 47] (by decide) (by decide) (by decide) (by decide) (by decide)
  have hsort : sortInts [17, 31, 47] = [17, 31, 47] := by decide
  rw [hsort] at hh hl
  have hmin : 17 = minPack := by simpa using hh
  have hmax : 47 = maxPack := by simpa using hl
  subst hmin hmax
  rw [hbase] at hpk
  have hship : shipped m = 5000 := by
    have h1 := hleast _ _
      (reach_of_list [17, 31, 47] (List.replicate 105 47 ++ [31, 17, 17]) (by decide))
      (by decide)
    have h2 : (List.replicate 105 47 ++ [31, 17, 17]).sum = 5000 := by decide
    omega
  have hcount : packCount m ≤ 108 := by
    have h1 := hpk _ (by
      rw [hship]
      exact reach_of_list [17, 31, 47] (List.replicate 16 47 ++ [31, 17, 17]) (by decide))
    have h2 : (List.replicate 16 47 ++ [31, 17, 17]).length = 19 := by decide
    omega
  simp only [List.map_cons, List.map_nil, List.sum_cons, List.sum_nil] at hs1 hs2
  have hc : countOf m 17 = 2 ∧ countOf m 31 = 1 ∧ countOf m 47 = 105 :=
    counts_17_31_47 _ _ _ (by omega) (by omega)
  have hperm : m.Perm [(47, 105), (31, 1), (17, 2)] := by
    refine perm_of_countOf_eq hnd (by decide) hwf (by decide) ?_
    intro k hk
    simp only [List.mem_cons, List.mem_singleton, List.not_mem_nil, or_false] at hk
    rcases hk with rfl | rfl | rfl
    · rw [hc.1]; rfl
    · rw [hc.2.1]; rfl
    · rw [hc.2.2]; rfl
  have hex := Execute_of_perm ⟨[17, 31, 47], reads⟩ 5000
    (by decide) (by simp) hm (fun e he => (hwf e he).2) hperm
  rw [hex]
  rfl

/-- The run on the pack sizes `250, 500, 1000, 2000, 5000` for an order within
`Exact.dpLimit = 1250000`, where no largest pack is set aside. -/
theorem standard_sizes_run (orderSize : Nat) (ho : 0 < orderSize) (hle : orderSize ≤ 1250000) :
    ∃ m, Exact.calculateOptimalPacks orderSize [250, 500, 1000, 2000, 5000] = some m ∧
      (m.map Prod.fst).Nodup ∧
      (∀ e ∈ m, e.1 ∈ [250, 500, 1000, 2000, 5000] ∧ 0 < e.2) ∧ orderSize ≤ shipped m ∧
      (∀ c : List Nat, (∀ x ∈ c, x ∈ [250, 500, 1000, 2000, 5000]) → orderSize ≤ c.sum →
        shipped m ≤ c.sum ∧ (c.sum = shipped m → packCount m ≤ c.length)) ∧
      shipped m = 250 * countOf m 250 + 500 * countOf m 500 + 1000 * countOf m 1000 +
        2000 * countOf m 2000 + 5000 * countOf m 5000 ∧
      packCount m = countOf m 250 + countOf m 500 + countOf m 1000 + countOf m 2000 +
        countOf m 5000 := by
  obtain ⟨m, minPack, maxPack, hh, hl, hm, hnd, hwf, hge, hleast, hpk, hs1, hs2⟩ :=
    solve_small orderSize [250, 500, 1000, 2000, 5000] ho (by decide) (by decide) (by decide)
      (by decide)
  have hsort : sortInts [250, 500, 1000, 2000, 5000] = [250, 500, 1000, 2000, 5000] := by decide
  rw [hsort] at hh hl
  have hmin : 250 = minPack := by simpa using hh
  have hmax : 5000 = maxPack := by simpa using hl
  subst hmin hmax
  have hlim : Exact.dpLimit 250 5000 = 1250000 := by decide
  have hbase : Exact.baseLargePacks orderSize 250 5000 = 0 := by
    unfold Exact.baseLargePacks
    rw [hlim, if_neg (by omega)]
  rw [hbase] at hpk
  simp only [Nat.zero_mul, Nat.sub_zero, Nat.zero_add] at hpk
  simp only [List.map_cons, List.map_nil, List.sum_cons, List.sum_nil] at hs1 hs2
  refine ⟨m, hm, hnd, hwf, hge, ?_, by omega, by omega⟩
  intro c hc hsum
  refine ⟨hleast _ _ (reach_of_list _ c hc) hsum, ?_⟩
  intro heq
  apply hpk
  rw [← heq]
  exact reach_of_list _ c hc

/-- Over unbounded integers: for pack sizes `250, 500, 1000, 2000, 5000`, `Exact.Execute`
returns `500 × 1` for order `251`, `500 × 1, 250 × 1` for order `501`, `5000 × 2` for order
`9999`, and `5000 × 2, 2000 × 1, 250 × 1` for order `12001`. -/
theorem exact_execute_standard (reads : Nat) :
    Exact.Execute ⟨[250, 500, 1000, 2000, 5000], reads⟩ 251 =
        some (([⟨500, 1⟩], none), ⟨[250, 500, 1000, 2000, 5000], reads + 1⟩) ∧
      Exact.Execute ⟨[250, 500, 1000, 2000, 5000], reads⟩ 501 =
        some (([⟨500, 1⟩, ⟨250, 1⟩], none), ⟨[250, 500, 1000, 2000, 5000], reads + 1⟩) ∧
      Exact.Execute ⟨[250, 500, 1000, 2000, 5000], reads⟩ 9999 =
        some (([⟨5000, 2⟩], none), ⟨[250, 500, 1000, 2000, 5000], reads + 1⟩) ∧
      Exact.Execute ⟨[250, 500, 1000, 2000, 5000], reads⟩ 12001 =
        some (([⟨5000, 2⟩, ⟨2000, 1⟩, ⟨250, 1⟩], none),
          ⟨[250, 500, 1000, 2000, 5000], reads + 1⟩) := by
  refine ⟨?_, ?_, ?_, ?_⟩
  · obtain ⟨m, hm, hnd, hwf, hge, hbest, hs1, hs2⟩ :=
      standard_sizes_run 251 (by decide) (by decide)
    obtain ⟨h1, h2⟩ := hbest [500] (by decide) (by decide)
    simp only [List.sum_cons, List.sum_nil, List.length_cons, List.length_nil] at h1 h2
    have hship : shipped m = 500 := by omega
    have hcnt := h2 hship.symm
    have hc : countOf m 250 = 0 ∧ countOf m 500 = 1 ∧ countOf m 1000 = 0 ∧
        countOf m 2000 = 0 ∧ countOf m 5000 = 0 := by omega
    have hperm : m.Perm [(500, 1)] := by
      refine perm_of_countOf_eq hnd (by decide) hwf (by decide) ?_
      intro k hk
      simp only [List.mem_cons, List.mem_singleton, List.not_mem_nil, or_false] at hk
      rcases hk with rfl | rfl | rfl | rfl | rfl
      · rw [hc.1]; rfl
      · rw [hc.2.1]; rfl
      · rw [hc.2.2.1]; rfl
      · rw [hc.2.2.2.1]; rfl
      · rw [hc.2.2.2.2]; rfl
    rw [Execute_of_perm ⟨[250, 500, 1000, 2000, 5000], reads⟩ 251 (by decide) (by simp) hm
      (fun e he => (hwf e he).2) hperm]
    rfl
  · obtain ⟨m, hm, hnd, hwf, hge, hbest, hs1, hs2⟩ :=
      standard_sizes_run 501 (by decide) (by decide)
    obtain ⟨h1, h2⟩ := hbest [500, 250] (by decide) (by decide)
    simp only [List.sum_cons, List.sum_nil, List.length_cons, List.length_nil] at h1 h2
    have hship : shipped m = 750 := by omega
    have hcnt := h2 hship.symm
    have hc : countOf m 250 = 1 ∧ countOf m 500 = 1 ∧ countOf m 1000 = 0 ∧
        countOf m 2000 = 0 ∧ countOf m 5000 = 0 := by omega
    have hperm : m.Perm [(500, 1), (250, 1)] := by
      refine perm_of_countOf_eq hnd (by decide) hwf (by decide) ?_
      intro k hk
      simp only [List.mem_cons, List.mem_singleton, List.not_mem_nil, or_false] at hk
      rcases hk with rfl | rfl | rfl | rfl | rfl
      · rw [hc.1]; rfl
      · rw [hc.2.1]; rfl
      · rw [hc.2.2.1]; rfl
      · rw [hc.2.2.2.1]; rfl
      · rw [hc.2.2.2.2]; rfl
    rw [Execute_of_perm ⟨[250, 500, 1000, 2000, 5000], reads⟩ 501 (by decide) (by simp) hm
      (fun e he => (hwf e he).2) hperm]
    rfl
  · obtain ⟨m, hm, hnd, hwf, hge, hbest, hs1, hs2⟩ :=
      standard_sizes_run 9999 (by decide) (by decide)
    obtain ⟨h1, h2⟩ := hbest [5000, 5000] (by decide) (by decide)
    simp only [List.sum_cons, List.sum_nil, List.length_cons, List.length_nil] at h1 h2
    have hship : shipped m = 10000 := by omega
    have hcnt := h2 hship.symm
    have hc : countOf m 250 = 0 ∧ countOf m 500 = 0 ∧ countOf m 1000 = 0 ∧
        countOf m 2000 = 0 ∧ countOf m 5000 = 2 := by omega
    have hperm : m.Perm [(5000, 2)] := by
      refine perm_of_countOf_eq hnd (by decide) hwf (by decide) ?_
      intro k hk
      simp only [List.mem_cons, List.mem_singleton, List.not_mem_nil, or_false] at hk
      rcases hk with rfl | rfl | rfl | rfl | rfl
      · rw [hc.1]; rfl
      · rw [hc.2.1]; rfl
      · rw [hc.2.2.1]; rfl
      · rw [hc.2.2.2.1]; rfl
      · rw [hc.2.2.2.2]; rfl
    rw [Execute_of_perm ⟨[250, 500, 1000, 2000, 5000], reads⟩ 9999 (by decide) (by simp) hm
      (fun e he => (hwf e he).2) hperm]
    rfl
  · obtain ⟨m, hm, hnd, hwf, hge, hbest, hs1, hs2⟩ :=
      standard_sizes_run 12001 (by decide) (by decide)
    obtain ⟨h1, h2⟩ := hbest [5000, 5000, 2000, 250] (by decide) (by decide)
    simp only [List.sum_cons, List.sum_nil, List.length_cons, List.length_nil] at h1 h2
    have hship : shipped m = 12250 := by omega
    have hcnt := h2 hship.symm
    have hc : countOf m 250 = 1 ∧ countOf m 500 = 0 ∧ countOf m 1000 = 0 ∧
        countOf m 2000 = 1 ∧ countOf m 5000 = 2 := by omega
    have hperm : m.Perm [(5000, 2), (2000, 1), (250, 1)] := by
      refine perm_of_countOf_eq hnd (by decide) hwf (by decide) ?_
      intro k hk
      simp only [List.mem_cons, List.mem_singleton, List.not_mem_nil, or_false] at hk
      rcases hk with rfl | rfl | rfl | rfl | rfl
      · rw [hc.1]; rfl
      · rw [hc.2.1]; rfl
      · rw [hc.2.2.1]; rfl
      · rw [hc.2.2.2.1]; rfl
      · rw [hc.2.2.2.2]; rfl
    rw [Execute_of_perm ⟨[250, 500, 1000, 2000, 5000], reads⟩ 12001 (by decide) (by simp) hm
      (fun e he => (hwf e he).2) hperm]
    rfl

/-! ## Validation and normalisation of new pack sizes -/

theorem checkSizes_none_iff (sizes : List Int) :
    checkSizes sizes = none ↔ ∀ x ∈ sizes, 0 < x ∧ x ≤ 1000000 := by
  induction sizes with
  | nil => simp [checkSizes]
  | cons s rest ih =>
    by_cases h : s ≤ 0 ∨ s > maxPackSize
    · simp only [checkSizes, h, if_true, List.mem_cons, forall_eq_or_imp]
      constructor
      · intro h1
        cases h1
      · intro h1
        unfold maxPackSize at h
        omega
    · simp only [checkSizes, h, if_false, ih, List.mem_cons, forall_eq_or_imp]
      unfold maxPackSize at h
      constructor
      · intro h1
        exact ⟨by omega, h1⟩
      · intro h1
        exact h1.2

theorem checkSizes_some (sizes : List Int) (h : ¬ ∀ x ∈ sizes, 0 < x ∧ x ≤ 1000000) :
    checkSizes sizes = some DomainError.ErrInvalidPackSize := by
  induction sizes with
  | nil => simp at h
  | cons s rest ih =>
    by_cases h1 : s ≤ 0 ∨ s > maxPackSize
    · simp [checkSizes, h1]
    · simp only [checkSizes, h1, if_false]
      apply ih
      intro h2
      apply h
      intro x hx
      rcases List.mem_cons.1 hx with rfl | hx
      · unfold maxPackSize at h1
        omega
      · exact h2 x hx

theorem dedupLoop_spec : ∀ (sizes seen unique : List Int),
    (∀ x, x ∈ seen ↔ x ∈ unique) → unique.Nodup →
      (dedupLoop sizes seen unique).Nodup ∧
        ∀ x, x ∈ dedupLoop sizes seen unique ↔ x ∈ unique ∨ x ∈ sizes := by
  intro sizes
  induction sizes with
  | nil =>
    intro seen unique _ hnd
    simp [dedupLoop, hnd]
  | cons s rest ih =>
    intro seen unique hsame hnd
    by_cases hs : s ∈ seen
    · obtain ⟨h1, h2⟩ := ih seen unique hsame hnd
      simp only [dedupLoop, hs, if_true]
      refine ⟨h1, ?_⟩
      intro x
      rw [h2 x, List.mem_cons]
      constructor
      · rintro (h | h)
        · exact Or.inl h
        · exact Or.inr (Or.inr h)
      · rintro (h | h | h)
        · exact Or.inl h
        · left
          rw [h]
          exact (hsame s).1 hs
        · exact Or.inr h
    · have hsu : s ∉ unique := fun h => hs ((hsame s).2 h)
      obtain ⟨h1, h2⟩ := ih (s :: seen) (unique ++ [s])
        (by
          intro x
          simp only [List.mem_cons, List.mem_append, List.not_mem_nil, or_false, hsame x]
          constructor
          · rintro (h | h)
            · exact Or.inr h
            · exact Or.inl h
          · rintro (h | h)
            · exact Or.inr h
            · exact Or.inl h)
        (by
          rw [List.nodup_append]
          refine ⟨hnd, List.nodup_singleton _, ?_⟩
          intro a ha hb
          rw [List.mem_singleton] at hb
          subst hb
          exact hsu ha)
      simp only [dedupLoop, hs, if_false]
      refine ⟨h1, ?_⟩
      intro x
      rw [h2 x, List.mem_cons, List.mem_append, List.mem_singleton]
      constructor
      · rintro ((h | h) | h)
        · exact Or.inl h
        · exact Or.inr (Or.inl h)
        · exact Or.inr (Or.inr h)
      · rintro (h | h | h)
        · exact Or.inl (Or.inl h)
        · exact Or.inl (Or.inr h)
        · exact Or.inr h

/-- The slice that `UpdatePackSizes` hands to the repository: strictly ascending, with the
values of the input, as many as the input has distinct values. -/
theorem normalised_spec (sizes : List Int) :
    (sortSizes (dedupLoop sizes [] [])).Pairwise (fun a b => a < b) ∧
      (∀ x, x ∈ sortSizes (dedupLoop sizes [] []) ↔ x ∈ sizes) ∧
      (sortSizes (dedupLoop sizes [] [])).length = sizes.dedup.length := by
  obtain ⟨h1, h2⟩ := dedupLoop_spec sizes [] [] (fun _ => Iff.rfl) List.nodup_nil
  have hperm : (sortSizes (dedupLoop sizes [] [])).Perm (dedupLoop sizes [] []) :=
    List.perm_insertionSort _ _
  have hsorted : (sortSizes (dedupLoop sizes [] [])).Pairwise (fun a b => a ≤ b) :=
    List.sorted_insertionSort (fun a b : Int => a ≤ b) _
  have hnd : (sortSizes (dedupLoop sizes [] [])).Nodup := hperm.nodup_iff.2 h1
  refine ⟨?_, ?_, ?_⟩
  · refine (hsorted.and hnd).imp ?_
    intro a b hab
    have := hab.1
    have := hab.2
    omega
  · intro x
    rw [hperm.mem_iff, h2 x]
    simp
  · rw [hperm.length_eq]
    apply List.Perm.length_eq
    refine (List.perm_ext_iff_of_nodup h1 (List.nodup_dedup sizes)).2 ?_
    intro x
    rw [h2 x, List.mem_dedup]
    simp

/-- The four ways `UpdatePackSizes` ends, by the first test that fires. -/
theorem updatePackSizes_cases (repo : UpdateRepository) (sizes : List Int) :
    (sizes = [] ∧
      PackSizesUseCase.UpdatePackSizes repo sizes =
        (some DomainError.ErrEmptyPackSizes, repo)) ∨
    (sizes ≠ [] ∧ (¬ ∀ x ∈ sizes, 0 < x ∧ x ≤ 1000000) ∧
      PackSizesUseCase.UpdatePackSizes repo sizes =
        (some DomainError.ErrInvalidPackSize, repo)) ∨
    (sizes ≠ [] ∧ (∀ x ∈ sizes, 0 < x ∧ x ≤ 1000000) ∧ 20 < sizes.dedup.length ∧
      PackSizesUseCase.UpdatePackSizes repo sizes =
        (some DomainError.ErrTooManyPackSizes, repo)) ∨
    (sizes ≠ [] ∧ (∀ x ∈ sizes, 0 < x ∧ x ≤ 1000000) ∧ sizes.dedup.length ≤ 20 ∧
      PackSizesUseCase.UpdatePackSizes repo sizes =
        (repo.answer (sortSizes (dedupLoop sizes [] [])),
          { repo with calls := repo.calls ++ [sortSizes (dedupLoop sizes [] [])] })) := by
  by_cases h1 : sizes = []
  · left
    subst h1
    exact ⟨rfl, rfl⟩
  · right
    have hlen : ¬ sizes.length = 0 := fun h => h1 (List.length_eq_zero.1 h)
    by_cases h2 : ∀ x ∈ sizes, 0 < x ∧ x ≤ 1000000
    · right
      have hchk := (checkSizes_none_iff sizes).2 h2
      have hl := (normalised_spec sizes).2.2
      by_cases h3 : 20 < sizes.dedup.length
      · left
        refine ⟨h1, h2, h3, ?_⟩
        simp only [PackSizesUseCase.UpdatePackSizes, hlen, if_false, hchk, hl, maxPackCount]
        rw [if_pos h3]
      · right
        refine ⟨h1, h2, by omega, ?_⟩
        simp only [PackSizesUseCase.UpdatePackSizes, hlen, if_false, hchk, hl, maxPackCount]
        rw [if_neg h3]
        rfl
    · left
      refine ⟨h1, h2, ?_⟩
      simp only [PackSizesUseCase.UpdatePackSizes, hlen, if_false, checkSizes_some sizes h2]

theorem invalid_iff (sizes : List Int) :
    (¬ ∀ x ∈ sizes, 0 < x ∧ x ≤ 1000000) ↔ ∃ x ∈ sizes, x ≤ 0 ∨ 1000000 < x := by
  constructor
  · intro h
    by_contra hcon
    apply h
    intro x hx
    by_contra h2
    exact hcon ⟨x, hx, by omega⟩
  · rintro ⟨x, hx, h1⟩ h2
    have := h2 x hx
    omega

/-- C14: `UpdatePackSizes` rejects in a fixed order and leaves the repository untouched:
an empty list gives `ErrEmptyPackSizes`; otherwise an element `<= 0` or `> 1000000` gives
`ErrInvalidPackSize`; otherwise more than `20` distinct values give `ErrTooManyPackSizes`;
in these cases the repository is returned as it was, with no call recorded.  In the one
remaining case the repository is called once.  Each rejection happens exactly under its
condition, and with a repository that answers nil the returned error alone tells the
case. -/
theorem update_rejects (repo : UpdateRepository) (sizes : List Int) :
    (sizes = [] →
      PackSizesUseCase.UpdatePackSizes repo sizes =
        (some DomainError.ErrEmptyPackSizes, repo)) ∧
    (sizes ≠ [] → (∃ x ∈ sizes, x ≤ 0 ∨ 1000000 < x) →
      PackSizesUseCase.UpdatePackSizes repo sizes =
        (some DomainError.ErrInvalidPackSize, repo)) ∧
    (sizes ≠ [] → (∀ x ∈ sizes, 0 < x ∧ x ≤ 1000000) → 20 < sizes.dedup.length →
      PackSizesUseCase.UpdatePackSizes repo sizes =
        (some DomainError.ErrTooManyPackSizes, repo)) ∧
    (sizes ≠ [] → (∀ x ∈ sizes, 0 < x ∧ x ≤ 1000000) → sizes.dedup.length ≤ 20 →
      ∃ unique, PackSizesUseCase.UpdatePackSizes repo sizes =
        (repo.answer unique, { repo with calls := repo.calls ++ [unique] })) ∧
    (((PackSizesUseCase.UpdatePackSizes repo sizes).1 = some DomainError.ErrEmptyPackSizes ∧
        (PackSizesUseCase.UpdatePackSizes repo sizes).2.calls = repo.calls) ↔ sizes = []) ∧
    (((PackSizesUseCase.UpdatePackSizes repo sizes).1 = some DomainError.ErrInvalidPackSize ∧
        (PackSizesUseCase.UpdatePackSizes repo sizes).2.calls = repo.calls) ↔
      (sizes ≠ [] ∧ ∃ x ∈ sizes, x ≤ 0 ∨ 1000000 < x)) ∧
    (((PackSizesUseCase.UpdatePackSizes repo sizes).1 = some DomainError.ErrTooManyPackSizes ∧
        (PackSizesUseCase.UpdatePackSizes repo sizes).2.calls = repo.calls) ↔
      (sizes ≠ [] ∧ (∀ x ∈ sizes, 0 < x ∧ x ≤ 1000000) ∧ 20 < sizes.dedup.length)) ∧
    ((∀ l, repo.answer l = none) →
      ((PackSizesUseCase.UpdatePackSizes repo sizes).1 = some DomainError.ErrEmptyPackSizes ↔
        sizes = []) ∧
      ((PackSizesUseCase.UpdatePackSizes repo sizes).1 = some DomainError.ErrInvalidPackSize ↔
        (sizes ≠ [] ∧ ∃ x ∈ sizes, x ≤ 0 ∨ 1000000 < x)) ∧
      ((PackSizesUseCase.UpdatePackSizes repo sizes).1 = some DomainError.ErrTooManyPackSizes ↔
        (sizes ≠ [] ∧ (∀ x ∈ sizes, 0 < x ∧ x ≤ 1000000) ∧ 20 < sizes.dedup.length))) := by
  rcases updatePackSizes_cases repo sizes with ⟨h1, hU⟩ | ⟨h1, h2, hU⟩ | ⟨h1, h2, h3, hU⟩ |
    ⟨h1, h2, h3, hU⟩
  · rw [hU]
    subst h1
    simp
  · have h2e := (invalid_iff sizes).1 h2
    rw [hU]
    refine ⟨fun h => absurd h h1, fun _ _ => rfl, fun _ h => absurd h h2,
      fun _ h => absurd h h2, ?_, ?_, ?_, ?_⟩
    · simp [h1]
    · simp only [true_and, and_self, ne_eq, h1, not_false_eq_true, h2e]
    · simp [h2]
    · intro _
      refine ⟨by simp [h1], by simp only [true_and, ne_eq, h1, not_false_eq_true, h2e], ?_⟩
      simp [h2]
  · have h2n : ¬ ∃ x ∈ sizes, x ≤ 0 ∨ 1000000 < x := fun h => (invalid_iff sizes).2 h h2
    rw [hU]
    refine ⟨fun h => absurd h h1, fun _ h => absurd h h2n, fun _ _ _ => rfl,
      fun _ _ h => absurd h (by omega), ?_, ?_, ?_, ?_⟩
    · simp [h1]
    · simp only [reduceCtorEq, Option.some.injEq, false_and, h2n, and_false]
    · simp only [true_and, and_self, ne_eq, h1, not_false_eq_true, h3, and_true]
      exact ⟨fun _ => h2, fun _ => trivial⟩
    · intro _
      refine ⟨by simp [h1], by simp only [reduceCtorEq, Option.some.injEq, h2n, and_false], ?_⟩
      simp only [true_and, ne_eq, h1, not_false_eq_true, h3, and_true]
      exact ⟨fun _ => h2, fun _ => trivial⟩
  · have h2n : ¬ ∃ x ∈ sizes, x ≤ 0 ∨ 1000000 < x := fun h => (invalid_iff sizes).2 h h2
    have h3n : ¬ 20 < sizes.dedup.length := by omega
    have hcalls : ¬ repo.calls ++ [sortSizes (dedupLoop sizes [] [])] = repo.calls := by
      intro h
      have := congrArg List.length h
      simp at this
    rw [hU]
    refine ⟨fun h => absurd h h1, fun _ h => absurd h h2n, fun _ _ h => absurd h h3n,
      fun _ _ _ => ⟨_, rfl⟩, ?_, ?_, ?_, ?_⟩
    · simp only [hcalls, and_false, h1]
    · simp only [hcalls, and_false, h2n]
    · simp only [hcalls, and_false, h3n]
    · intro hnil
      simp only [hnil, reduceCtorEq, h1, h2n, h3n, and_false]
      exact ⟨trivial, trivial, trivial⟩

theorem update_rejects_witness :
    PackSizesUseCase.UpdatePackSizes ⟨fun _ => none, []⟩ [] =
        (some DomainError.ErrEmptyPackSizes, ⟨fun _ => none, []⟩) ∧
      PackSizesUseCase.UpdatePackSizes ⟨fun _ => none, []⟩ [250, -1] =
        (some DomainError.ErrInvalidPackSize, ⟨fun _ => none, []⟩) ∧
      PackSizesUseCase.UpdatePackSizes ⟨fun _ => none, []⟩ [1000001] =
        (some DomainError.ErrInvalidPackSize, ⟨fun _ => none, []⟩) ∧
      PackSizesUseCase.UpdatePackSizes ⟨fun _ => none, []⟩
          [1, 2, 3, 4, 5, 6, 7, 8, 9, 10, 11, 12, 13, 14, 15, 16, 17, 18, 19, 20, 21] =
        (some DomainError.ErrTooManyPackSizes, ⟨fun _ => none, []⟩) ∧
      ∃ unique, PackSizesUseCase.UpdatePackSizes ⟨fun _ => none, []⟩
          (1000000 :: List.replicate 21 250) =
        ((fun _ => none) unique, ⟨fun _ => none, [] ++ [unique]⟩) :=
  ⟨(update_rejects ⟨fun _ => none, []⟩ []).1 rfl,
    (update_rejects ⟨fun _ => none, []⟩ [250, -1]).2.1 (by decide) (by decide),
    (update_rejects ⟨fun _ => none, []⟩ [1000001]).2.1 (by decide) (by decide),
    (update_rejects ⟨fun _ => none, []⟩
      [1, 2, 3, 4, 5, 6, 7, 8, 9, 10, 11, 12, 13, 14, 15, 16, 17, 18, 19, 20, 21]).2.2.1
      (by decide) (by decide) (by decide),
    (update_rejects ⟨fun _ => none, []⟩ (1000000 :: List.replicate 21 250)).2.2.2.1
      (by decide) (by decide) (by decide)⟩

/-- C15: when `UpdatePackSizes` accepts its input, the slice it passes to the repository is
strictly ascending, has exactly the values of the input, is non-empty, has at most `20`
elements, each in `(0, 1000000]`; the repository is called once with it and its answer is
returned. -/
theorem update_stores_normalised (repo : UpdateRepository) (sizes : List Int)
    (hne : sizes ≠ []) (hok : ∀ x ∈ sizes, 0 < x ∧ x ≤ 1000000)
    (hcnt : sizes.dedup.length ≤ 20) :
    ∃ unique, PackSizesUseCase.UpdatePackSizes repo sizes =
        (repo.answer unique, { repo with calls := repo.calls ++ [unique] }) ∧
      unique.Pairwise (fun a b => a < b) ∧ (∀ x, x ∈ unique ↔ x ∈ sizes) ∧ unique ≠ [] ∧
      unique.length ≤ 20 ∧ ∀ x ∈ unique, 0 < x ∧ x ≤ 1000000 := by
  obtain ⟨h1, h2, h3⟩ := normalised_spec sizes
  refine ⟨sortSizes (dedupLoop sizes [] []), ?_, h1, h2, ?_, by omega, ?_⟩
  · rcases updatePackSizes_cases repo sizes with ⟨g1, _⟩ | ⟨_, g2, _⟩ | ⟨_, _, g3, _⟩ |
      ⟨_, _, _, hU⟩
    · exact absurd g1 hne
    · exact absurd hok g2
    · omega
    · exact hU
  · intro h
    obtain ⟨x, hx⟩ := List.exists_mem_of_ne_nil sizes hne
    have := (h2 x).2 hx
    rw [h] at this
    cases this
  · intro x hx
    exact hok x ((h2 x).1 hx)

theorem update_stores_normalised_witness :
    (∃ unique, PackSizesUseCase.UpdatePackSizes ⟨fun _ => none, []⟩ [500, 250, 1000] =
        ((fun _ => none) unique, ⟨fun _ => none, [] ++ [unique]⟩) ∧
      unique.Pairwise (fun a b => a < b) ∧ (∀ x, x ∈ unique ↔ x ∈ [500, 250, 1000]) ∧
      unique ≠ [] ∧ unique.length ≤ 20 ∧ ∀ x ∈ unique, 0 < x ∧ x ≤ 1000000) ∧
      (PackSizesUseCase.UpdatePackSizes ⟨fun _ => none, []⟩ [500, 250, 1000]).2.calls =
        [[250, 500, 1000]] ∧
      (PackSizesUseCase.UpdatePackSizes ⟨fun _ => none, []⟩ [250, 500, 250]).2.calls =
        [[250, 500]] :=
  ⟨update_stores_normalised ⟨fun _ => none, []⟩ [500, 250, 1000] (by decide) (by decide)
    (by decide), by decide, by decide⟩

/-! ## The in-memory repository -/

theorem Heap.contents_copyOf_new (h : Heap) (s : Slice) :
    (h.copyOf s).2.contents (h.copyOf s).1 = h.contents s := by
  simp [Heap.copyOf, Heap.contents]

theorem Heap.contents_copyOf_old (h : Heap) (s t : Slice) (ht : h.Valid t) :
    (h.copyOf s).2.contents t = h.contents t := by
  cases t with
  | none => rfl
  | some a =>
    have ha := ht a rfl
    simp [Heap.copyOf, Heap.contents, List.getElem?_append_left ha]

theorem Heap.valid_copyOf (h : Heap) (s t : Slice) (ht : h.Valid t) :
    (h.copyOf s).2.Valid t := by
  intro a ha
  have := ht a ha
  simp [Heap.copyOf]
  omega

theorem Heap.valid_copyOf_new (h : Heap) (s : Slice) : (h.copyOf s).2.Valid (h.copyOf s).1 := by
  intro a ha
  simp only [Heap.copyOf, Option.some.injEq] at ha
  simp [Heap.copyOf]
  omega

theorem Heap.copyOf_fresh (h : Heap) (s t : Slice) (ht : h.Valid t) : (h.copyOf s).1 ≠ t := by
  intro heq
  have := ht h.arrays.length (by rw [← heq]; rfl)
  omega

/-- A store through one slice changes neither the elements nor the validity of a slice
over another backing array. -/
theorem Heap.store_frame {h h2 : Heap} {s t : Slice} {i : Nat} {v : Int}
    (hst : h.store s i v = some h2) (hne : t ≠ s) :
    h2.contents t = h.contents t ∧ (h.Valid t → h2.Valid t) := by
  cases s with
  | none => simp [Heap.store] at hst
  | some a =>
    simp only [Heap.store] at hst
    cases hx : h.arrays[a]? with
    | none => simp [hx] at hst
    | some xs =>
      simp only [hx] at hst
      split at hst
      · simp only [Option.some.injEq] at hst
        subst hst
        constructor
        · cases t with
          | none => rfl
          | some b =>
            have hab : a ≠ b := by
              intro h1
              apply hne
              rw [h1]
            simp [Heap.contents, List.getElem?_set_ne hab]
        · intro hv b hb
          have := hv b hb
          simpa using this
      · cases hst

/-- C16: the repository keeps its own copy of what it is given and hands out copies.
After the constructor or `UpdatePackSizes` (which returns nil) the stored list is the list
passed in; `GetPackSizes` returns a list equal to the stored one and leaves it as it was;
and a later store through the slice that was passed in, or through a slice that
`GetPackSizes` returned, does not change what the next `GetPackSizes` returns. -/
theorem repository_keeps_copies (h : Heap) (r : MemoryPackSizeRepository) (s : Slice)
    (hr : h.Valid r.packSizes) (hs : h.Valid s) :
    ((NewMemoryPackSizeRepository h s).2.contents
          (NewMemoryPackSizeRepository h s).1.packSizes = h.contents s ∧
      (NewMemoryPackSizeRepository h s).2.Valid (NewMemoryPackSizeRepository h s).1.packSizes ∧
      ∀ i v h2, (NewMemoryPackSizeRepository h s).2.store s i v = some h2 →
        ((NewMemoryPackSizeRepository h s).1.GetPackSizes h2).2.contents
          ((NewMemoryPackSizeRepository h s).1.GetPackSizes h2).1 = h.contents s) ∧
    ((r.UpdatePackSizes h s).1.1 = none ∧
      (r.UpdatePackSizes h s).2.contents (r.UpdatePackSizes h s).1.2.packSizes =
        h.contents s ∧
      (r.UpdatePackSizes h s).2.Valid (r.UpdatePackSizes h s).1.2.packSizes ∧
      ∀ i v h2, (r.UpdatePackSizes h s).2.store s i v = some h2 →
        ((r.UpdatePackSizes h s).1.2.GetPackSizes h2).2.contents
          ((r.UpdatePackSizes h s).1.2.GetPackSizes h2).1 = h.contents s) ∧
    ((r.GetPackSizes h).2.contents (r.GetPackSizes h).1 = h.contents r.packSizes ∧
      (r.GetPackSizes h).2.contents r.packSizes = h.contents r.packSizes ∧
      (r.GetPackSizes h).2.Valid r.packSizes ∧
      ∀ i v h2, (r.GetPackSizes h).2.store (r.GetPackSizes h).1 i v = some h2 →
        (r.GetPackSizes h2).2.contents (r.GetPackSizes h2).1 = h.contents r.packSizes) := by
  have hcopy : ∀ i v h2, (h.copyOf s).2.store s i v = some h2 →
      (h2.copyOf (h.copyOf s).1).2.contents (h2.copyOf (h.copyOf s).1).1 = h.contents s := by
    intro i v h2 hst
    rw [Heap.contents_copyOf_new]
    rw [(Heap.store_frame hst (Heap.copyOf_fresh h s s hs)).1, Heap.contents_copyOf_new]
  refine ⟨⟨Heap.contents_copyOf_new h s, Heap.valid_copyOf_new h s, hcopy⟩,
    ⟨rfl, Heap.contents_copyOf_new h s, Heap.valid_copyOf_new h s, hcopy⟩,
    ⟨Heap.contents_copyOf_new h _, Heap.contents_copyOf_old h _ _ hr,
      Heap.valid_copyOf h _ _ hr, ?_⟩⟩
  intro i v h2 hst
  simp only [MemoryPackSizeRepository.GetPackSizes] at hst ⊢
  rw [Heap.contents_copyOf_new]
  rw [(Heap.store_frame hst (Heap.copyOf_fresh h _ _ hr).symm).1,
    Heap.contents_copyOf_old h _ _ hr]

theorem repository_keeps_copies_witness :
    (NewMemoryPackSizeRepository ⟨[[250], [100, 200]]⟩ (some 1)).2.contents
        (NewMemoryPackSizeRepository ⟨[[250], [100, 200]]⟩ (some 1)).1.packSizes = [100, 200] ∧
      ∀ h2, (NewMemoryPackSizeRepository ⟨[[250], [100, 200]]⟩ (some 1)).2.store (some 1) 0 9999 =
          some h2 →
        ((NewMemoryPackSizeRepository ⟨[[250], [100, 200]]⟩ (some 1)).1.GetPackSizes h2).2.contents
          ((NewMemoryPackSizeRepository ⟨[[250], [100, 200]]⟩ (some 1)).1.GetPackSizes h2).1 =
            [100, 200] :=
  ⟨(repository_keeps_copies ⟨[[250], [100, 200]]⟩ ⟨some 0⟩ (some 1) (by simp [Heap.Valid])
      (by simp [Heap.Valid])).1.1,
    fun h2 hst => (repository_keeps_copies ⟨[[250], [100, 200]]⟩ ⟨some 0⟩ (some 1)
      (by simp [Heap.Valid]) (by simp [Heap.Valid])).1.2.2 0 9999 h2 hst⟩

/-! ## Counts in the reconstructed map -/

theorem countOf_incr (p k : Nat) (m : List (Nat × Nat)) :
    countOf (incr p m) k = countOf m k + if p = k then 1 else 0 := by
  induction m with
  | nil => simp [incr, countOf]
  | cons e m ih =>
    obtain ⟨k0, c0⟩ := e
    by_cases h : k0 = p
    · subst h
      simp only [incr, if_true, countOf]
      split <;> omega
    · simp only [incr, h, if_false, countOf, ih]
      omega

theorem countOf_applyPacks (w : List Nat) (k : Nat) (m : List (Nat × Nat)) :
    countOf (applyPacks w m) k = countOf m k + w.count k := by
  induction w generalizing m with
  | nil => simp [applyPacks]
  | cons p w ih =>
    have h := ih (incr p m)
    simp only [applyPacks, List.foldl_cons] at h ⊢
    rw [h, countOf_incr, List.count_cons]
    by_cases hp : p = k
    · simp [hp]
      omega
    · simp [hp]

theorem countOf_startMap (maxPack k : Nat) (s : Exact.solution) :
    countOf (startMap maxPack s) k = if maxPack = k then s.largePacks else 0 := by
  unfold startMap
  split
  · simp [countOf]
  · have : s.largePacks = 0 := by omega
    simp [countOf, this]

/-! ## Totality, the table, the reduction and the reconstruction -/

theorem only_twos (x y : Nat) (hx : 4294967294 = 2 * x + 4294967297 * y) :
    y = 0 ∧ x = 2147483647 := by
  have hy : y = 0 := by
    rcases Nat.eq_zero_or_pos y with h | h
    · exact h
    · exfalso
      linarith
  subst hy
  simp only [Nat.mul_zero, Nat.add_zero] at hx
  omega

/-- Over unbounded integers: in the table built for order `8589934591` on pack sizes `2` and
`4294967297`, the cell of `4294967294` holds `inf`, although `4294967294` is the total of
`2147483647` packs of size `2`. -/
theorem exact_inf_cell :
    ∃ dp frm, buildTable (sortInts [2, 4294967297]) (Exact.maxTarget 8589934591 2 4294967297) =
        some (dp, frm) ∧
      dp[4294967294]? = some inf ∧ Reachable [2, 4294967297] 4294967294 := by
  have hsort : sortInts [2, 4294967297] = [2, 4294967297] := by
    simp [sortInts, List.insertionSort, List.orderedInsert]
  have hmt : Exact.maxTarget 8589934591 2 4294967297 = 8589934592 := by
    simp [Exact.maxTarget, Exact.effOrder, Exact.baseLargePacks, Exact.dpLimit]
  obtain ⟨dp, frm, h1, h2⟩ := buildTable_spec (sortInts_sorted [2, 4294967297])
    (by intro x hx; rw [hsort] at hx; simp at hx; omega) (Exact.maxTarget 8589934591 2 4294967297)
  refine ⟨dp, frm, h1, ?_, ?_⟩
  · obtain ⟨v, hv1, hv2, hv3, _⟩ := h2.2.2 4294967294 (by rw [hmt]; omega)
    rcases Nat.lt_or_ge v inf with hlt | hge
    · exfalso
      obtain ⟨c, hc, hsum, hlen⟩ := reach_sortInts.1 (hv3 hlt)
      obtain ⟨x, y, hx, hy⟩ := two_sizes 2 4294967297 c hc
      rw [hsum] at hx
      obtain ⟨hy0, hx0⟩ := only_twos x y hx
      subst hy0 hx0
      unfold inf at hlt
      omega
    · have hvi : v = inf := by omega
      subst hvi
      exact hv1
  · have h := (@Reach.replicate [2, 4294967297] 2 (by simp) 2147483647).reachable
    have he : 2147483647 * 2 = 4294967294 := by norm_num
    rw [he] at h
    exact h

/-- Over unbounded integers: the large-order reduction is exact and bounded.  With `minPack`
and `maxPack` the ends of the sorted pack sizes, `Exact.dpLimit = max(minPack*maxPack,
maxPack+minPack)` and `orderSize = Exact.baseLargePacks * maxPack + Exact.effOrder`; above
`Exact.dpLimit`, `Exact.baseLargePacks` is the largest `k` with `k * maxPack + Exact.dpLimit ≤
orderSize`, so that `Exact.dpLimit ≤ Exact.effOrder ≤ Exact.dpLimit + maxPack - 1`; otherwise
`Exact.baseLargePacks = 0` and `Exact.effOrder = orderSize`; and the table length
`Exact.maxTarget + 1 = Exact.effOrder + minPack` is at most `Exact.dpLimit + maxPack + minPack
- 1`. -/
theorem exact_reduction (orderSize : Nat) (packSizes : List Nat) (ho : 0 < orderSize)
    (hne : packSizes ≠ []) (hpos : ∀ x ∈ packSizes, 0 < x) :
    ∃ minPack maxPack, (sortInts packSizes).head? = some minPack ∧
      (sortInts packSizes).getLast? = some maxPack ∧
      Exact.dpLimit minPack maxPack = max (minPack * maxPack) (maxPack + minPack) ∧
      Exact.baseLargePacks orderSize minPack maxPack * maxPack + Exact.effOrder orderSize minPack
          maxPack =
        orderSize ∧
      (Exact.dpLimit minPack maxPack < orderSize →
        Exact.baseLargePacks orderSize minPack maxPack * maxPack + Exact.dpLimit minPack maxPack ≤
          orderSize ∧
        (∀ k, k * maxPack + Exact.dpLimit minPack maxPack ≤ orderSize →
          k ≤ Exact.baseLargePacks orderSize minPack maxPack) ∧
        Exact.dpLimit minPack maxPack ≤ Exact.effOrder orderSize minPack maxPack ∧
        Exact.effOrder orderSize minPack maxPack ≤ Exact.dpLimit minPack maxPack + maxPack - 1) ∧
      (orderSize ≤ Exact.dpLimit minPack maxPack →
        Exact.baseLargePacks orderSize minPack maxPack = 0 ∧
        Exact.effOrder orderSize minPack maxPack = orderSize) ∧
      0 < Exact.effOrder orderSize minPack maxPack ∧
      Exact.maxTarget orderSize minPack maxPack + 1 =
          Exact.effOrder orderSize minPack maxPack + minPack ∧
      Exact.maxTarget orderSize minPack maxPack + 1 ≤
        Exact.dpLimit minPack maxPack + maxPack + minPack - 1 := by
  obtain ⟨minPack, maxPack, h1, h2, h3, h4, _⟩ := sortInts_ends hne
  have hmin : 0 < minPack := hpos _ h3
  have hmax : 0 < maxPack := hpos _ h4
  have hexact := base_add_eff orderSize minPack maxPack
  have heffpos := @eff_pos orderSize minPack maxPack ho hmax
  have hmt : Exact.maxTarget orderSize minPack maxPack + 1 =
      Exact.effOrder orderSize minPack maxPack + minPack := by
    unfold Exact.maxTarget
    omega
  have hlarge : Exact.dpLimit minPack maxPack < orderSize →
      Exact.baseLargePacks orderSize minPack maxPack =
        (orderSize - Exact.dpLimit minPack maxPack) / maxPack := by
    intro h
    unfold Exact.baseLargePacks
    rw [if_pos h]
  have hsmall : orderSize ≤ Exact.dpLimit minPack maxPack →
      Exact.baseLargePacks orderSize minPack maxPack = 0 := by
    intro h
    unfold Exact.baseLargePacks
    rw [if_neg (by omega)]
  refine ⟨minPack, maxPack, h1, h2, ?_, hexact, ?_, ?_, heffpos, hmt, ?_⟩
  · unfold Exact.dpLimit
    split
    · rw [Nat.max_eq_right (by omega)]
    · rw [Nat.max_eq_left (by omega)]
  · intro h
    have hb := hlarge h
    have hd := Nat.div_add_mod (orderSize - Exact.dpLimit minPack maxPack) maxPack
    have hm := Nat.mod_lt (orderSize - Exact.dpLimit minPack maxPack) hmax
    rw [← hb, Nat.mul_comm] at hd
    refine ⟨by omega, ?_, by omega, by omega⟩
    intro k hk
    rw [hb]
    exact (Nat.le_div_iff_mul_le hmax).2 (by omega)
  · intro h
    have hb := hsmall h
    refine ⟨hb, ?_⟩
    rw [hb] at hexact
    omega
  · rcases Nat.lt_or_ge (Exact.dpLimit minPack maxPack) orderSize with h | h
    · have hb := hlarge h
      have hd := Nat.div_add_mod (orderSize - Exact.dpLimit minPack maxPack) maxPack
      have hm := Nat.mod_lt (orderSize - Exact.dpLimit minPack maxPack) hmax
      rw [← hb, Nat.mul_comm] at hd
      omega
    · have hb := hsmall h
      rw [hb] at hexact
      omega

/-- Over unbounded integers: the reconstruction is faithful to the retained candidate.
Whenever the search ends with a candidate `best`, the returned mapping is the start map
(`best.largePacks` packs of `maxPack`, when positive) after `result[pack]++` for the packs `w`
of the walk; its sum of `size * count` is `best.totalItems = best.largePacks * maxPack +
best.dpAmount`; its sum of counts is `best.totalPacks = best.largePacks + dp[best.dpAmount]`;
its keys are distinct pack sizes; its counts are positive; and the count of every size `k` is
the number of times the walk met `k`, plus `best.largePacks` for `maxPack`. -/
theorem exact_reconstruction (orderSize : Nat) (packSizes : List Nat) (hne : packSizes ≠ [])
    (hpos : ∀ x ∈ packSizes, 0 < x) :
    ∃ minPack maxPack dp frm best,
      (sortInts packSizes).head? = some minPack ∧
      (sortInts packSizes).getLast? = some maxPack ∧
      buildTable (sortInts packSizes) (Exact.maxTarget orderSize minPack maxPack) = some (dp, frm) ∧
      Exact.searchLoop dp minPack maxPack (Exact.baseLargePacks orderSize minPack maxPack)
        (Exact.effOrder orderSize minPack maxPack) (Exact.maxTarget orderSize minPack maxPack)
        (Exact.effOrder orderSize minPack maxPack / maxPack + 1) 0 none = some best ∧
      ∀ s, best = some s →
        ∃ m d w, Exact.calculateOptimalPacks orderSize packSizes = some m ∧
          dp[s.dpAmount]? = some d ∧ d < inf ∧
          m = applyPacks w (startMap maxPack s) ∧ w.sum = s.dpAmount ∧ w.length = d ∧
          shipped m = s.totalItems ∧
          s.totalItems = s.largePacks * maxPack + s.dpAmount ∧
          packCount m = s.totalPacks ∧ s.totalPacks = s.largePacks + d ∧
          (m.map Prod.fst).Nodup ∧ (∀ e ∈ m, e.1 ∈ packSizes ∧ 0 < e.2) ∧
          ∀ k, countOf m k = (if maxPack = k then s.largePacks else 0) + w.count k := by
  obtain ⟨minPack, maxPack, dp, frm, best, r, htab, hsearch⟩ :=
    run_trace orderSize packSizes hne hpos
  refine ⟨minPack, maxPack, dp, frm, best, r.headEq, r.lastEq, htab, hsearch, ?_⟩
  intro s hs
  rcases r.outcome with ⟨h1, _⟩ | ⟨s1, e, w, d, h1, hc, hd, hlt, h5, h6, h7, h8, h9⟩
  · rw [h1] at hs
    cases hs
  · rw [hs] at h1
    cases h1
    have hnd : ((applyPacks w (startMap maxPack s)).map Prod.fst).Nodup := by
      apply nodup_keys_applyPacks
      unfold startMap
      split <;> simp
    refine ⟨_, d, w, h9, hd, hlt, rfl, h7, h8, ?_, (hc.items_bounds r.minPos).2.2, ?_, h5, hnd,
      ?_, ?_⟩
    · rw [shipped_applyPacks, shipped_startMap, h7, (hc.items_bounds r.minPos).2.2]
    · rw [packCount_applyPacks, packCount_startMap, h8, h5]
    · intro x hx
      rcases mem_applyPacks hx with h | h
      · exact ⟨h6 _ h.1, h.2⟩
      · unfold startMap at h
        split at h
        · rename_i hl
          rw [List.mem_singleton.1 h]
          exact ⟨r.maxMem, hl⟩
        · simp at h
    · intro k
      rw [countOf_applyPacks, countOf_startMap]

/-! ## One iteration of the search, and ties -/

/-- An iteration that has a candidate hands `Exact.keepBest` of it to the next iteration. -/
theorem searchLoop_step_cand {dp : List Nat} {minPack maxPack base eff mt : Nat}
    (hlen : dp.length = mt + 1) (hmin : 0 < minPack) {e0 : Nat} {cand : Exact.solution}
    (hc : CandAt dp minPack maxPack base eff mt e0 cand) (n : Nat) (b0 : Option Exact.solution) :
    Exact.searchLoop dp minPack maxPack base eff mt (n + 1) e0 b0 =
      Exact.searchLoop dp minPack maxPack base eff mt n (e0 + 1) (Exact.keepBest b0 cand) := by
  have hbrk : ¬ eff < e0 * maxPack := by
    have := hc.1
    omega
  have hskip : ¬ eff - e0 * maxPack + minPack - 1 > mt := by
    have := hc.2.1
    omega
  have hwin : eff - e0 * maxPack + minPack - 1 + 1 - (eff - e0 * maxPack) = minPack := by
    omega
  rcases scanWindow_spec hlen minPack (eff - e0 * maxPack) (by omega) with
    ⟨_, hs2⟩ | ⟨t1, d, hs1, hs2, hs3, hs4, hs5, hs6⟩
  · exfalso
    obtain ⟨_, _, c3, c4, _, _, _, d1, c8, c9, _⟩ := hc
    have := hs2 _ c3 (by omega) d1 c8
    omega
  · have hcand : CandAt dp minPack maxPack base eff mt e0
        { dpAmount := t1, largePacks := base + e0,
          totalItems := (base + e0) * maxPack + t1,
          totalPacks := base + e0 + d } :=
      ⟨by omega, by omega, hs2, by simp only; omega, hs6, rfl, rfl, d, hs4, hs5, rfl⟩
    have heq := CandAt.unique hc hcand
    subst heq
    simp [Exact.searchLoop, hbrk, hskip, hwin, hs1]

/-- An iteration without a candidate leaves `best` as it is, or ends the loop with it. -/
theorem searchLoop_step_none {dp : List Nat} {minPack maxPack base eff mt : Nat}
    (hlen : dp.length = mt + 1) (hmin : 0 < minPack) {e0 : Nat}
    (hno : ∀ s, ¬ CandAt dp minPack maxPack base eff mt e0 s) (n : Nat)
    (b0 : Option Exact.solution) :
    Exact.searchLoop dp minPack maxPack base eff mt (n + 1) e0 b0 =
        Exact.searchLoop dp minPack maxPack base eff mt n (e0 + 1) b0 ∨
      Exact.searchLoop dp minPack maxPack base eff mt (n + 1) e0 b0 = some b0 := by
  by_cases hbrk : eff < e0 * maxPack
  · right
    simp [Exact.searchLoop, hbrk]
  · by_cases hskip : eff - e0 * maxPack + minPack - 1 > mt
    · left
      simp [Exact.searchLoop, hbrk, hskip]
    · have hwin : eff - e0 * maxPack + minPack - 1 + 1 - (eff - e0 * maxPack) = minPack := by
        omega
      rcases scanWindow_spec hlen minPack (eff - e0 * maxPack) (by omega) with
        ⟨hs1, _⟩ | ⟨t1, d, hs1, hs2, hs3, hs4, hs5, hs6⟩
      · left
        simp [Exact.searchLoop, hbrk, hskip, hwin, hs1]
      · exfalso
        exact hno _ (⟨by omega, by omega, hs2, by simp only; omega, hs6, rfl, rfl, d, hs4, hs5,
          rfl⟩ : CandAt dp minPack maxPack base eff mt e0
            { dpAmount := t1, largePacks := base + e0,
              totalItems := (base + e0) * maxPack + t1,
              totalPacks := base + e0 + d })

theorem keepBest_of_le {b cand : Exact.solution} (h : LexLE b cand) :
    Exact.keepBest (some b) cand = some b := by
  unfold LexLE at h
  have hn : ¬ (cand.totalItems < b.totalItems ∨
      (cand.totalItems = b.totalItems ∧ cand.totalPacks < b.totalPacks)) := by omega
  simp [Exact.keepBest, hn]

/-- A held candidate that no later candidate beats strictly is still held at the end. -/
theorem searchLoop_keeps {dp : List Nat} {minPack maxPack base eff mt : Nat}
    (hlen : dp.length = mt + 1) (hmin : 0 < minPack) (b : Exact.solution) :
    ∀ (n e0 : Nat),
      (∀ e s1, e0 ≤ e → CandAt dp minPack maxPack base eff mt e s1 → LexLE b s1) →
      Exact.searchLoop dp minPack maxPack base eff mt n e0 (some b) = some (some b) := by
  intro n
  induction n with
  | zero =>
    intro e0 _
    rfl
  | succ n ih =>
    intro e0 hle
    have hnext := ih (e0 + 1) (fun e s1 he hc => hle e s1 (by omega) hc)
    by_cases hex : ∃ cand, CandAt dp minPack maxPack base eff mt e0 cand
    · obtain ⟨cand, hc⟩ := hex
      rw [searchLoop_step_cand hlen hmin hc, keepBest_of_le (hle e0 cand (Nat.le_refl _) hc)]
      exact hnext
    · have hno : ∀ s, ¬ CandAt dp minPack maxPack base eff mt e0 s :=
        fun s hs => hex ⟨s, hs⟩
      rcases searchLoop_step_none hlen hmin hno n (some b) with h | h
      · rw [h]
        exact hnext
      · exact h

/-- When the candidate of `extra = 0` is beaten strictly by no candidate, the search ends
with it. -/
theorem search_extra_zero {dp : List Nat} {minPack maxPack base eff mt : Nat}
    (hlen : dp.length = mt + 1) (hmin : 0 < minPack) {s0 : Exact.solution}
    (hc0 : CandAt dp minPack maxPack base eff mt 0 s0)
    (hle : ∀ e s1, CandAt dp minPack maxPack base eff mt e s1 → LexLE s0 s1) (n : Nat) :
    Exact.searchLoop dp minPack maxPack base eff mt (n + 1) 0 none = some (some s0) := by
  rw [searchLoop_step_cand hlen hmin hc0]
  exact searchLoop_keeps hlen hmin s0 n 1 (fun e s1 _ hc => hle e s1 hc)

/-- The scan of the window of `extra = 0` returns the amount of the candidate of
`extra = 0` and its cell. -/
theorem scan_extra_zero {dp : List Nat} {minPack maxPack base eff mt : Nat}
    (hlen : dp.length = mt + 1) (hmin : 0 < minPack) {s0 : Exact.solution}
    (hc0 : CandAt dp minPack maxPack base eff mt 0 s0) :
    ∃ d, scanWindow dp minPack eff = some (some (s0.dpAmount, d)) ∧
      s0 = { dpAmount := s0.dpAmount, largePacks := base,
             totalItems := base * maxPack + s0.dpAmount, totalPacks := base + d } := by
  have hskip := hc0.2.1
  simp only [Nat.zero_mul, Nat.sub_zero] at hskip
  rcases scanWindow_spec hlen minPack eff (by omega) with
    ⟨_, hs2⟩ | ⟨t1, d, hs1, hs2, hs3, hs4, hs5, hs6⟩
  · exfalso
    obtain ⟨_, _, c3, c4, _, _, _, d1, c8, c9, _⟩ := hc0
    simp only [Nat.zero_mul, Nat.sub_zero] at c3 c4
    have := hs2 _ c3 (by omega) d1 c8
    omega
  · have hcand : CandAt dp minPack maxPack base eff mt 0
        { dpAmount := t1, largePacks := base + 0,
          totalItems := (base + 0) * maxPack + t1,
          totalPacks := base + 0 + d } :=
      ⟨by omega, by simp only [Nat.zero_mul, Nat.sub_zero]; omega, by simpa using hs2,
        by simp only [Nat.zero_mul, Nat.sub_zero]; omega,
        fun j hj1 hj2 v hv => hs6 j (by simpa using hj1) hj2 v hv, rfl, rfl, d, hs4, hs5, rfl⟩
    have heq := CandAt.unique hc0 hcand
    refine ⟨d, ?_, ?_⟩
    · rw [heq]
      exact hs1
    · rw [heq]
      rfl

/-- With the candidate of `extra = 0` at the least total that is not below `Exact.effOrder`, no
candidate of the sweep ships less, and none ships as much in fewer packs. -/
theorem Run.zero_le_all {orderSize : Nat} {packSizes : List Nat} {minPack maxPack : Nat}
    {dp frm : List Nat} {best : Option Exact.solution}
    (r : Run orderSize packSizes minPack maxPack dp frm best) {s0 : Exact.solution}
    (hc0 : CandAt dp minPack maxPack (Exact.baseLargePacks orderSize minPack maxPack)
      (Exact.effOrder orderSize minPack maxPack) (Exact.maxTarget orderSize minPack maxPack) 0 s0)
    (hleast : ∀ T, Reachable packSizes T → Exact.effOrder orderSize minPack maxPack ≤ T →
      s0.dpAmount ≤ T) :
    ∀ e s1, CandAt dp minPack maxPack (Exact.baseLargePacks orderSize minPack maxPack)
      (Exact.effOrder orderSize minPack maxPack) (Exact.maxTarget orderSize minPack maxPack) e s1 →
      LexLE s0 s1 := by
  intro e s1 hc
  have hreach := r.cand_reachable hc
  obtain ⟨c1, _, c3, _, _, _, c7, d1, hd1, hlt1, c10⟩ := hc
  obtain ⟨_, _, _, _, _, _, z7, d0, hd0, _, z10⟩ := hc0
  simp only [Nat.add_zero] at z7 z10
  have h7 : s1.totalItems = Exact.baseLargePacks orderSize minPack maxPack * maxPack + e * maxPack +
      s1.dpAmount := by rw [c7, Nat.add_mul]
  have hsub : s1.totalItems - Exact.baseLargePacks orderSize minPack maxPack * maxPack =
      e * maxPack + s1.dpAmount := by omega
  rw [hsub] at hreach
  have hlow := hleast _ hreach (by omega)
  unfold LexLE
  rcases Nat.lt_or_ge s0.totalItems s1.totalItems with h | h
  · exact Or.inl h
  · right
    have heq : s0.dpAmount = e * maxPack + s1.dpAmount := by omega
    have hre : Reach (sortInts packSizes) (e + d1) (e * maxPack + s1.dpAmount) :=
      (Reach.replicate (mem_sortInts.2 r.maxMem) e).add (r.table.reach hd1 hlt1)
    rw [← heq] at hre
    have := r.table.le_of_reach hd0 hre
    omega

/-! ## The retained candidate when no pack size exceeds `1073741822` -/

/-- With no pack size above `1073741822` the search ends with the candidate of `extra = 0`,
which sits at the least reachable amount that is not below `Exact.effOrder`. -/
theorem Run.best_is_first {orderSize : Nat} {packSizes : List Nat} {minPack maxPack : Nat}
    {dp frm : List Nat} {best : Option Exact.solution}
    (r : Run orderSize packSizes minPack maxPack dp frm best)
    (hsmall : ∀ x ∈ packSizes, x ≤ 1073741822)
    (hs : Exact.searchLoop dp minPack maxPack (Exact.baseLargePacks orderSize minPack maxPack)
      (Exact.effOrder orderSize minPack maxPack) (Exact.maxTarget orderSize minPack maxPack)
      (Exact.effOrder orderSize minPack maxPack / maxPack + 1) 0 none = some best) :
    ∃ s0, best = some s0 ∧
      CandAt dp minPack maxPack (Exact.baseLargePacks orderSize minPack maxPack)
        (Exact.effOrder orderSize minPack maxPack) (Exact.maxTarget orderSize minPack maxPack) 0 s0
            ∧
      (∀ T, Reachable packSizes T → Exact.effOrder orderSize minPack maxPack ≤ T →
        s0.dpAmount ≤ T) ∧
      ∀ e s1, CandAt dp minPack maxPack (Exact.baseLargePacks orderSize minPack maxPack)
        (Exact.effOrder orderSize minPack maxPack) (Exact.maxTarget orderSize minPack maxPack) e s1
            →
        LexLE s0 s1 := by
  obtain ⟨s0, hc0, hleast⟩ := r.cand_zero hsmall
  have hall := r.zero_le_all hc0 hleast
  have h := search_extra_zero r.table.1 r.minPos hc0 hall
    (Exact.effOrder orderSize minPack maxPack / maxPack)
  rw [h] at hs
  exact ⟨s0, (Option.some.inj hs).symm, hc0, hleast, hall⟩

/-- A map whose keys are pack sizes is a combination of its `packCount` packs that totals
its `shipped`. -/
theorem reach_of_map (ps : List Nat) (m : List (Nat × Nat)) (hm : ∀ e ∈ m, e.1 ∈ ps) :
    Reach ps (packCount m) (shipped m) := by
  induction m with
  | nil => exact Reach.zero ps
  | cons e m ih =>
    have h1 := Reach.replicate (hm e (List.mem_cons_self _ _)) e.2
    have h2 := ih (fun x hx => hm x (List.mem_cons_of_mem _ hx))
    have h3 := h1.add h2
    have hp : packCount (e :: m) = e.2 + packCount m := by simp [packCount]
    have hs : shipped (e :: m) = e.2 * e.1 + shipped m := by
      simp [shipped, Nat.mul_comm]
    rw [hp, hs]
    exact h3

/-- The multiple of `minPack` inside the window of `extra = 0`. -/
theorem multiple_in_window (eff minPack : Nat) (hmin : 0 < minPack) :
    eff ≤ minPack * ((eff + minPack - 1) / minPack) ∧
      minPack * ((eff + minPack - 1) / minPack) ≤ eff + minPack - 1 := by
  have h1 := Nat.div_add_mod (eff + minPack - 1) minPack
  have h2 := Nat.mod_lt (eff + minPack - 1) hmin
  constructor
  · omega
  · omega

/-! ## Runs on the pack sizes `2` and `4294967297` -/

theorem two_sizes_cases (x y t : Nat) (h : t = 2 * x + 4294967297 * y)
    (ht : t < 12884901891) :
    (y = 0 ∧ t = 2 * x) ∨ (y = 1 ∧ t = 2 * x + 4294967297) ∨
      (y = 2 ∧ t = 2 * x + 8589934594) := by
  have hy : y ≤ 2 := by
    by_contra hn
    have h3 : 3 ≤ y := by omega
    have h4 : 4294967297 * 3 ≤ 4294967297 * y := Nat.mul_le_mul_left _ h3
    linarith
  interval_cases y
  · exact Or.inl ⟨rfl, by simpa using h⟩
  · exact Or.inr (Or.inl ⟨rfl, by simpa using h⟩)
  · exact Or.inr (Or.inr ⟨rfl, by simpa using h⟩)

/-- Amounts that `2` and `4294967297` combine to only with `2147483647` packs or more, if
at all. -/
theorem flagged_amounts (x y t : Nat) (h : t = 2 * x + 4294967297 * y)
    (hlt : x + y < 2147483647) :
    t ≠ 4294967294 ∧ t ≠ 4294967295 ∧ t ≠ 4294967296 ∧ t ≠ 8589934589 ∧ t ≠ 8589934590 ∧
      t ≠ 8589934593 := by
  by_cases ht : t < 12884901891
  · rcases two_sizes_cases x y t h ht with ⟨h1, h2⟩ | ⟨h1, h2⟩ | ⟨h1, h2⟩
    · subst h1
      clear h
      omega
    · subst h1
      clear h
      omega
    · subst h1
      clear h
      omega
  · clear h
    omega

/-- The run of the solver on the pack sizes `2` and `4294967297` for an order that takes no
largest pack in advance. -/
theorem big_pair_run (orderSize : Nat) (hle : orderSize ≤ 8589934594) :
    ∃ dp frm best, Run orderSize [2, 4294967297] 2 4294967297 dp frm best ∧
      buildTable (sortInts [2, 4294967297]) (Exact.maxTarget orderSize 2 4294967297) =
        some (dp, frm) ∧
      Exact.searchLoop dp 2 4294967297 (Exact.baseLargePacks orderSize 2 4294967297)
        (Exact.effOrder orderSize 2 4294967297) (Exact.maxTarget orderSize 2 4294967297)
        (Exact.effOrder orderSize 2 4294967297 / 4294967297 + 1) 0 none = some best ∧
      Exact.baseLargePacks orderSize 2 4294967297 = 0 ∧
      Exact.effOrder orderSize 2 4294967297 = orderSize ∧
      Exact.maxTarget orderSize 2 4294967297 = orderSize + 1 ∧
      ∀ t d, dp[t]? = some d → d < inf →
        t ≠ 4294967294 ∧ t ≠ 4294967295 ∧ t ≠ 4294967296 ∧ t ≠ 8589934589 ∧
          t ≠ 8589934590 ∧ t ≠ 8589934593 := by
  obtain ⟨minPack, maxPack, dp, frm, best, r, htab, hsearch⟩ :=
    run_trace orderSize [2, 4294967297] (by simp) (by intro x hx; simp at hx; omega)
  have hsort : sortInts [2, 4294967297] = [2, 4294967297] := by
    simp [sortInts, List.insertionSort, List.orderedInsert]
  have hmin : minPack = 2 := by
    have := r.headEq
    rw [hsort] at this
    simpa using this.symm
  have hmax : maxPack = 4294967297 := by
    have := r.lastEq
    rw [hsort] at this
    simpa using this.symm
  subst hmin hmax
  have hlim : Exact.dpLimit 2 4294967297 = 8589934594 := by simp [Exact.dpLimit]
  have hbase : Exact.baseLargePacks orderSize 2 4294967297 = 0 := by
    unfold Exact.baseLargePacks
    rw [hlim]
    simp only [ite_eq_right_iff]
    intro h
    omega
  have heff : Exact.effOrder orderSize 2 4294967297 = orderSize := by
    simp [Exact.effOrder, hbase]
  have hmt : Exact.maxTarget orderSize 2 4294967297 = orderSize + 1 := by
    simp [Exact.maxTarget, heff]
  refine ⟨dp, frm, best, r, htab, hsearch, hbase, heff, hmt, ?_⟩
  intro t d hd hlt
  obtain ⟨c, hcm, hsum, hlen⟩ := reach_sortInts.1 (r.table.reach hd hlt)
  obtain ⟨x, y, hx, hy⟩ := two_sizes 2 4294967297 c hcm
  unfold inf at hlt
  exact flagged_amounts x y t (by rw [← hsum, hx]) (by omega)

/-- What `Exact.calculateOptimalPacksNoSweep` returns on the tables of a run when the scan of
the window finds nothing. -/
theorem Run.noSweep_none {orderSize : Nat} {packSizes : List Nat} {minPack maxPack : Nat}
    {dp frm : List Nat} {best : Option Exact.solution}
    (r : Run orderSize packSizes minPack maxPack dp frm best)
    (htab : buildTable (sortInts packSizes) (Exact.maxTarget orderSize minPack maxPack) =
      some (dp, frm))
    (hscan : scanWindow dp minPack (Exact.effOrder orderSize minPack maxPack) = some none) :
    Exact.calculateOptimalPacksNoSweep orderSize packSizes =
      some [(minPack, (orderSize + minPack - 1) / minPack)] := by
  have hmax0 : ¬ maxPack = 0 := by
    have := r.maxPos
    omega
  have hmin0 : ¬ minPack = 0 := by
    have := r.minPos
    omega
  unfold Exact.calculateOptimalPacksNoSweep
  simp only [r.headEq, r.lastEq, hmax0, if_false, htab, hscan, Exact.finish, hmin0]

/-- What `Exact.calculateOptimalPacksNoSweep` returns on the tables of a run when the scan of
the window finds an amount. -/
theorem Run.noSweep_some {orderSize : Nat} {packSizes : List Nat} {minPack maxPack : Nat}
    {dp frm : List Nat} {best : Option Exact.solution}
    (r : Run orderSize packSizes minPack maxPack dp frm best)
    (htab : buildTable (sortInts packSizes) (Exact.maxTarget orderSize minPack maxPack) =
      some (dp, frm)) {t d : Nat}
    (hscan : scanWindow dp minPack (Exact.effOrder orderSize minPack maxPack) =
        some (some (t, d))) :
    Exact.calculateOptimalPacksNoSweep orderSize packSizes =
      Exact.finish orderSize minPack maxPack frm
        (some { dpAmount := t, largePacks := Exact.baseLargePacks orderSize minPack maxPack,
                totalItems := Exact.baseLargePacks orderSize minPack maxPack * maxPack + t,
                totalPacks := Exact.baseLargePacks orderSize minPack maxPack + d }) := by
  have hmax0 : ¬ maxPack = 0 := by
    have := r.maxPos
    omega
  unfold Exact.calculateOptimalPacksNoSweep
  simp only [r.headEq, r.lastEq, hmax0, if_false, htab, hscan]

/-- With the search ending on the candidate of `extra = 0`, the solver and the solver
without the sweep return the same. -/
theorem Run.noSweep_same {orderSize : Nat} {packSizes : List Nat} {minPack maxPack : Nat}
    {dp frm : List Nat} {s0 : Exact.solution}
    (r : Run orderSize packSizes minPack maxPack dp frm (some s0))
    (htab : buildTable (sortInts packSizes) (Exact.maxTarget orderSize minPack maxPack) =
      some (dp, frm))
    (hc0 : CandAt dp minPack maxPack (Exact.baseLargePacks orderSize minPack maxPack)
      (Exact.effOrder orderSize minPack maxPack) (Exact.maxTarget orderSize minPack maxPack) 0 s0) :
    Exact.calculateOptimalPacks orderSize packSizes =
      Exact.calculateOptimalPacksNoSweep orderSize packSizes := by
  obtain ⟨d, hscan, hrec⟩ := scan_extra_zero r.table.1 r.minPos hc0
  rw [r.noSweep_some htab hscan, r.result, ← hrec]

/-- Over unbounded integers: the order `8589934593` on the pack sizes `2` and `4294967297` is
not above `Exact.dpLimit = 8589934594`, so no largest pack is set aside, and it is the total of
one pack of `4294967297` and `2147483648` packs of `2`; yet the map returned ships more
than the order, because that total needs `2147483647` packs or more and its cell holds
`inf`. -/
theorem exact_not_least_small :
    8589934593 ≤ Exact.dpLimit 2 4294967297 ∧ Exact.baseLargePacks 8589934593 2 4294967297 = 0 ∧
      Reachable [2, 4294967297] 8589934593 ∧
      ∃ m, Exact.calculateOptimalPacks 8589934593 [2, 4294967297] = some m ∧
        8589934593 < shipped m := by
  obtain ⟨dp, frm, best, r, _, _, hbase, heff, hmt, hflag⟩ :=
    big_pair_run 8589934593 (by omega)
  refine ⟨by simp [Exact.dpLimit], hbase, ?_, ?_⟩
  · obtain ⟨c, h1, h2⟩ := one_large_pack 2 4294967297 2147483648
    exact ⟨c, h1, by omega⟩
  · obtain ⟨m, hm, _, h3⟩ := r.shipped_eq
    refine ⟨m, hm, ?_⟩
    rcases h3 with ⟨_, h⟩ | ⟨s, e, _, hc, h, _⟩
    · rw [h]
      omega
    · rw [hbase, heff, hmt] at hc
      obtain ⟨c1, _, c3, _, _, _, c7, d, hd, hlt, _⟩ := hc
      obtain ⟨_, _, f3, _, _, f6⟩ := hflag _ _ hd hlt
      rw [h, c7]
      omega

/-- Over unbounded integers: when no pack size exceeds `1073741822`, for every non-empty slice of
positive pack sizes with smallest size `minPack` and largest size `maxPack` and every order
with `0 < orderSize ≤ Exact.dpLimit minPack maxPack`, no largest pack is set aside and
`Exact.calculateOptimalPacks` returns a map that is a combination of the pack sizes, ships the
least total of a combination that is not below the order, and has no more packs than any
combination with that total. -/
theorem exact_small_order (orderSize : Nat) (packSizes : List Nat) (minPack maxPack : Nat)
    (hpos : ∀ x ∈ packSizes, 0 < x) (hsmall : ∀ x ∈ packSizes, x ≤ 1073741822)
    (hmin : (sortInts packSizes).head? = some minPack)
    (hmax : (sortInts packSizes).getLast? = some maxPack)
    (ho : 0 < orderSize) (hle : orderSize ≤ Exact.dpLimit minPack maxPack) :
    Exact.baseLargePacks orderSize minPack maxPack = 0 ∧
      ∃ m, Exact.calculateOptimalPacks orderSize packSizes = some m ∧
        orderSize ≤ shipped m ∧ Reach packSizes (packCount m) (shipped m) ∧
        (∀ c : List Nat, (∀ x ∈ c, x ∈ packSizes) → orderSize ≤ c.sum → shipped m ≤ c.sum) ∧
        (∀ c : List Nat, (∀ x ∈ c, x ∈ packSizes) → c.sum = shipped m →
          packCount m ≤ c.length) := by
  have hne : packSizes ≠ [] := by
    intro h
    subst h
    simp [sortInts] at hmin
  obtain ⟨minPack1, maxPack1, dp, frm, best, r⟩ := run_exists orderSize packSizes hne hpos
  have h1 : minPack1 = minPack := by
    have := r.headEq
    rw [hmin] at this
    exact (Option.some.inj this).symm
  have h2 : maxPack1 = maxPack := by
    have := r.lastEq
    rw [hmax] at this
    exact (Option.some.inj this).symm
  subst h1 h2
  have hbase : Exact.baseLargePacks orderSize minPack1 maxPack1 = 0 := by
    unfold Exact.baseLargePacks
    rw [if_neg (by omega)]
  obtain ⟨m, hm, _, hmem, hge, hleast, hcount⟩ := r.optimal_small ho hsmall
  refine ⟨hbase, m, hm, hge, reach_of_map packSizes m (fun e he => (hmem e he).1), hleast, ?_⟩
  intro c hc hsum
  have := hcount c.length ⟨c, hc, by rw [hsum, hbase]; simp, rfl⟩
  omega

/-- Over unbounded integers: on the order `4294967294` with the pack sizes `2` and `4294967297`
the only iteration of the search, `extra = 0`, finds nothing, although the order is
`2147483647` packs of `2`: `best` is still `nil` after the loop and the fallback map
`{2: 2147483647}` is returned. -/
theorem exact_fallback_taken :
    ∃ dp frm,
      buildTable (sortInts [2, 4294967297]) (Exact.maxTarget 4294967294 2 4294967297) =
        some (dp, frm) ∧
      scanWindow dp 2 (Exact.effOrder 4294967294 2 4294967297) = some none ∧
      Exact.searchLoop dp 2 4294967297 (Exact.baseLargePacks 4294967294 2 4294967297)
        (Exact.effOrder 4294967294 2 4294967297) (Exact.maxTarget 4294967294 2 4294967297)
        (Exact.effOrder 4294967294 2 4294967297 / 4294967297 + 1) 0 none = some none ∧
      Exact.calculateOptimalPacks 4294967294 [2, 4294967297] = some [(2, 2147483647)] ∧
      Reachable [2, 4294967297] 4294967294 := by
  obtain ⟨dp, frm, best, r, htab, hsearch, hbase, heff, hmt, hflag⟩ :=
    big_pair_run 4294967294 (by omega)
  have hwin : ∀ t d, 4294967294 ≤ t → t ≤ 4294967295 → dp[t]? = some d → inf ≤ d := by
    intro t d h1 h2 hd
    by_contra hn
    obtain ⟨f1, f2, _⟩ := hflag t d hd (by omega)
    omega
  have hreach : Reachable [2, 4294967297] 4294967294 :=
    (Reach.replicate (by simp : 2 ∈ [2, 4294967297]) 2147483647).reachable
  have hlen := r.table.1
  rw [hmt] at hlen
  have hscan : scanWindow dp 2 (Exact.effOrder 4294967294 2 4294967297) = some none := by
    rw [heff]
    rcases scanWindow_spec hlen 2 4294967294 (by omega) with
      ⟨hs1, _⟩ | ⟨t1, d, _, hs2, hs3, hs4, hs5, _⟩
    · exact hs1
    · exfalso
      have := hwin t1 d hs2 (by omega) hs4
      omega
  rcases r.outcome with ⟨h1, h2⟩ | ⟨s, e, w, d, _, hc, hd, hlt, _⟩
  · rw [h1] at hsearch
    exact ⟨dp, frm, htab, hscan, hsearch, h2, hreach⟩
  · exfalso
    rw [hbase, heff, hmt] at hc
    obtain ⟨c1, _, c3, c4, _⟩ := hc
    have := hwin s.dpAmount d (by omega) (by omega) hd
    omega

/-- Over unbounded integers: on the order `8589934589` with the pack sizes `2` and `4294967297`
no largest pack is set aside and the iteration `extra = 0` finds nothing, while the
iteration `extra = 1` finds the amount `4294967292`: the candidate retained in `best` has
`largePacks = 1`, and `Exact.calculateOptimalPacks`, which ships the order exactly, differs from
the solver without the sweep, which returns the fallback map. -/
theorem exact_later_candidate :
    ∃ dp frm s,
      buildTable (sortInts [2, 4294967297]) (Exact.maxTarget 8589934589 2 4294967297) =
        some (dp, frm) ∧
      Exact.searchLoop dp 2 4294967297 (Exact.baseLargePacks 8589934589 2 4294967297)
        (Exact.effOrder 8589934589 2 4294967297) (Exact.maxTarget 8589934589 2 4294967297)
        (Exact.effOrder 8589934589 2 4294967297 / 4294967297 + 1) 0 none = some (some s) ∧
      Exact.baseLargePacks 8589934589 2 4294967297 = 0 ∧ s.largePacks = 1 ∧
      scanWindow dp 2 (Exact.effOrder 8589934589 2 4294967297) = some none ∧
      Exact.calculateOptimalPacksNoSweep 8589934589 [2, 4294967297] = some [(2, 4294967295)] ∧
      Exact.calculateOptimalPacks 8589934589 [2, 4294967297] ≠
        Exact.calculateOptimalPacksNoSweep 8589934589 [2, 4294967297] := by
  obtain ⟨dp, frm, best, r, htab, hsearch, hbase, heff, hmt, hflag⟩ :=
    big_pair_run 8589934589 (by omega)
  have hwin : ∀ t d, 8589934589 ≤ t → t ≤ 8589934590 → dp[t]? = some d → inf ≤ d := by
    intro t d h1 h2 hd
    by_contra hn
    obtain ⟨_, _, _, f4, f5, _⟩ := hflag t d hd (by omega)
    omega
  have hlen := r.table.1
  rw [hmt] at hlen
  have hscan : scanWindow dp 2 (Exact.effOrder 8589934589 2 4294967297) = some none := by
    rw [heff]
    rcases scanWindow_spec hlen 2 8589934589 (by omega) with
      ⟨hs1, _⟩ | ⟨t1, d, _, hs2, hs3, hs4, hs5, _⟩
    · exact hs1
    · exfalso
      have := hwin t1 d hs2 (by omega) hs4
      omega
  have hno := r.noSweep_none htab hscan
  -- the candidate of `extra = 1`
  have hi : 4294967292 ≤ Exact.maxTarget 8589934589 2 4294967297 := by omega
  obtain ⟨v, hv⟩ := r.table.get hi
  have hre : Reach [2, 4294967297] 2147483646 4294967292 :=
    Reach.replicate (by simp : 2 ∈ [2, 4294967297]) 2147483646
  have hvle := r.table.le_of_reach hv (reach_sortInts.2 hre)
  have hc1 : CandAt dp 2 4294967297 (Exact.baseLargePacks 8589934589 2 4294967297)
      (Exact.effOrder 8589934589 2 4294967297) (Exact.maxTarget 8589934589 2 4294967297) 1
      { dpAmount := 4294967292, largePacks := Exact.baseLargePacks 8589934589 2 4294967297 + 1,
        totalItems := (Exact.baseLargePacks 8589934589 2 4294967297 + 1) * 4294967297 + 4294967292,
        totalPacks := Exact.baseLargePacks 8589934589 2 4294967297 + 1 + v } := by
    rw [heff, hmt]
    refine ⟨by omega, by omega, by simp only; omega, by simp only; omega, ?_, rfl, rfl, v, hv,
      by unfold inf; omega, rfl⟩
    intro j hj1 hj2
    simp only at hj2
    omega
  obtain ⟨s, hs, hlex⟩ := r.isLeast 1 _ hc1
  subst hs
  have hitems : s.totalItems ≤ 8589934589 := by
    unfold LexLE at hlex
    simp only [hbase] at hlex
    omega
  obtain ⟨m, hm, _, h3⟩ := r.shipped_eq
  rcases h3 with ⟨h, _⟩ | ⟨s1, e, hs1, hc, hship, _⟩
  · cases h
  · cases hs1
    have hlarge : s.largePacks = 1 := by
      rw [hbase, heff, hmt] at hc
      obtain ⟨c1, _, c3, c4, _, c6, _, d, hd, hlt, _⟩ := hc
      have he : e = 1 := by
        rcases Nat.lt_or_ge e 1 with h0 | h0
        · exfalso
          have he0 : e = 0 := by omega
          subst he0
          have := hwin s.dpAmount d (by omega) (by omega) hd
          omega
        · omega
      rw [c6, he]
    refine ⟨dp, frm, s, htab, hsearch, hbase, hlarge, hscan, hno, ?_⟩
    rw [hno, hm]
    intro heq
    have hmeq : m = [(2, 4294967295)] := Option.some.inj heq
    have hsh : shipped m = 2 * 4294967295 := by
      rw [hmeq]
      exact shipped_single _ _
    omega

/-- Over unbounded integers: when no pack size exceeds `1073741822`, on every non-empty slice of
positive pack sizes the candidate retained in `best` is the one of the iteration
`extra = 0`: `best.largePacks = Exact.baseLargePacks`, and `best.dpAmount` is the smallest
combination of the pack sizes that is not below `Exact.effOrder`; no candidate of an iteration
`extra ≥ 1` has fewer `totalItems`, or as many `totalItems` and fewer `totalPacks`; and
`Exact.calculateOptimalPacks` returns what the solver without the sweep returns. -/
theorem exact_first_candidate (orderSize : Nat) (packSizes : List Nat) (hne : packSizes ≠ [])
    (hpos : ∀ x ∈ packSizes, 0 < x) (hsmall : ∀ x ∈ packSizes, x ≤ 1073741822) :
    ∃ minPack maxPack dp frm s,
      (sortInts packSizes).head? = some minPack ∧
      (sortInts packSizes).getLast? = some maxPack ∧
      buildTable (sortInts packSizes) (Exact.maxTarget orderSize minPack maxPack) = some (dp, frm) ∧
      Exact.searchLoop dp minPack maxPack (Exact.baseLargePacks orderSize minPack maxPack)
        (Exact.effOrder orderSize minPack maxPack) (Exact.maxTarget orderSize minPack maxPack)
        (Exact.effOrder orderSize minPack maxPack / maxPack + 1) 0 none = some (some s) ∧
      CandAt dp minPack maxPack (Exact.baseLargePacks orderSize minPack maxPack)
        (Exact.effOrder orderSize minPack maxPack) (Exact.maxTarget orderSize minPack maxPack) 0 s ∧
      s.largePacks = Exact.baseLargePacks orderSize minPack maxPack ∧
      Exact.effOrder orderSize minPack maxPack ≤ s.dpAmount ∧
      Reachable packSizes s.dpAmount ∧
      (∀ t, Reachable packSizes t → Exact.effOrder orderSize minPack maxPack ≤ t →
        s.dpAmount ≤ t) ∧
      (∀ e s1, 1 ≤ e →
        CandAt dp minPack maxPack (Exact.baseLargePacks orderSize minPack maxPack)
          (Exact.effOrder orderSize minPack maxPack) (Exact.maxTarget orderSize minPack maxPack) e
              s1 →
        ¬ (s1.totalItems < s.totalItems ∨
            (s1.totalItems = s.totalItems ∧ s1.totalPacks < s.totalPacks))) ∧
      Exact.calculateOptimalPacks orderSize packSizes =
        Exact.calculateOptimalPacksNoSweep orderSize packSizes := by
  obtain ⟨minPack, maxPack, dp, frm, best, r, htab, hsearch⟩ :=
    run_trace orderSize packSizes hne hpos
  obtain ⟨s, hbest, hc0, hleast, hall⟩ := r.best_is_first hsmall hsearch
  subst hbest
  have hsame := r.noSweep_same htab hc0
  refine ⟨minPack, maxPack, dp, frm, s, r.headEq, r.lastEq, htab, hsearch, hc0, ?_, ?_, ?_,
    hleast, ?_, hsame⟩
  · exact hc0.2.2.2.2.2.1
  · have := hc0.2.2.1
    simpa using this
  · obtain ⟨_, _, _, _, _, _, _, d, hd, hlt, _⟩ := hc0
    exact (reach_sortInts.1 (r.table.reach hd hlt)).reachable
  · intro e s1 _ hc
    have := hall e s1 hc
    unfold LexLE at this
    omega

/-- With `0 < minPack ≤ maxPack ≤ 1000000` the quotient that bounds the cells of the table
is at most `2000002`. -/
theorem cell_bound_small (minPack maxPack : Nat) (hmin : 0 < minPack)
    (hle : minPack ≤ maxPack) (hmax : maxPack ≤ 1000000) :
    (Exact.dpLimit minPack maxPack + maxPack + minPack - 2) / minPack ≤ 2000002 := by
  have h1 : maxPack ≤ minPack * maxPack := Nat.le_mul_of_pos_left maxPack hmin
  have h2 : minPack * maxPack ≤ minPack * 1000000 := Nat.mul_le_mul_left minPack hmax
  have h3 : Exact.dpLimit minPack maxPack ≤ minPack * maxPack + minPack := by
    unfold Exact.dpLimit
    split
    · omega
    · omega
  have h4 : Exact.dpLimit minPack maxPack + maxPack + minPack - 2 < 2000003 * minPack := by omega
  have := (Nat.div_lt_iff_lt_mul hmin).2 h4
  omega

/-! ## The 64-bit solver and the solver over unbounded integers -/

theorem wrap_eq {x : Int} (h1 : -9223372036854775808 ≤ x) (h2 : x < 9223372036854775808) :
    wrap x = x := by
  unfold wrap
  omega

theorem wrap_natCast {n : Nat} (h : n < 9223372036854775808) : wrap (n : Int) = n :=
  wrap_eq (by omega) (by omega)

theorem add64_natCast {a b : Nat} (h : a + b < 9223372036854775808) :
    add64 a b = ((a + b : Nat) : Int) := by
  unfold add64
  rw [← Nat.cast_add]
  exact wrap_natCast h

theorem sub64_natCast {a b : Nat} (hle : b ≤ a) (h : a < 9223372036854775808) :
    sub64 a b = ((a - b : Nat) : Int) := by
  unfold sub64
  rw [← Nat.cast_sub hle]
  exact wrap_natCast (by omega)

theorem mul64_natCast {a b : Nat} (h : a * b < 9223372036854775808) :
    mul64 a b = ((a * b : Nat) : Int) := by
  unfold mul64
  rw [← Nat.cast_mul]
  exact wrap_natCast h

theorem exact_dpLimit_le (minPack maxPack : Nat) (hmin : 0 < minPack) :
    Exact.dpLimit minPack maxPack ≤ minPack * maxPack + minPack := by
  have h1 : maxPack ≤ minPack * maxPack := Nat.le_mul_of_pos_left maxPack hmin
  unfold Exact.dpLimit
  split
  · omega
  · omega

theorem dpLimit_exact {minPack maxPack : Nat} (hmin : 0 < minPack)
    (h : minPack * maxPack + maxPack + 2 * minPack ≤ 9223372036854775808) :
    dpLimit minPack maxPack = (Exact.dpLimit minPack maxPack : Int) := by
  have h1 : mul64 minPack maxPack = ((minPack * maxPack : Nat) : Int) :=
    mul64_natCast (by omega)
  have h1m : maxPack ≤ minPack * maxPack := Nat.le_mul_of_pos_left maxPack hmin
  have h2 : add64 maxPack minPack = ((maxPack + minPack : Nat) : Int) :=
    add64_natCast (by omega)
  unfold dpLimit Exact.dpLimit
  rw [h1, h2]
  by_cases hc : minPack * maxPack < maxPack + minPack
  · rw [if_pos hc, if_pos (by exact_mod_cast hc)]
  · rw [if_neg hc, if_neg (by exact_mod_cast hc)]

theorem baseLargePacks_exact {orderSize minPack maxPack : Nat} (hmin : 0 < minPack)
    (h : minPack * maxPack + maxPack + 2 * minPack ≤ 9223372036854775808)
    (ho : orderSize < 9223372036854775808) :
    baseLargePacks orderSize minPack maxPack =
      (Exact.baseLargePacks orderSize minPack maxPack : Int) := by
  unfold baseLargePacks Exact.baseLargePacks
  rw [dpLimit_exact hmin h]
  by_cases hc : orderSize > Exact.dpLimit minPack maxPack
  · rw [if_pos hc, if_pos (by exact_mod_cast hc), sub64_natCast (by omega) (by omega)]
    exact (Int.ofNat_tdiv _ _).symm
  · rw [if_neg hc, if_neg (by exact_mod_cast hc)]
    rfl

theorem effOrder_exact {orderSize minPack maxPack : Nat} (hmin : 0 < minPack)
    (h : minPack * maxPack + maxPack + 2 * minPack ≤ 9223372036854775808)
    (ho : orderSize < 9223372036854775808) :
    effOrder orderSize minPack maxPack = (Exact.effOrder orderSize minPack maxPack : Int) := by
  unfold effOrder
  rw [baseLargePacks_exact hmin h ho, dpLimit_exact hmin h]
  have hb : Exact.baseLargePacks orderSize minPack maxPack * maxPack ≤ orderSize := by
    have := base_add_eff orderSize minPack maxPack
    omega
  by_cases hc : orderSize > Exact.dpLimit minPack maxPack
  · rw [if_pos (by exact_mod_cast hc), mul64_natCast (by omega),
      sub64_natCast hb (by omega)]
    rfl
  · rw [if_neg (by exact_mod_cast hc)]
    have hz : Exact.baseLargePacks orderSize minPack maxPack = 0 := by
      unfold Exact.baseLargePacks
      rw [if_neg hc]
    unfold Exact.effOrder
    rw [hz]
    simp

theorem table_length_lt {orderSize minPack maxPack : Nat} (hmin : 0 < minPack)
    (hmax : 0 < maxPack)
    (h2 : minPack * maxPack + maxPack + 2 * minPack ≤ 9223372036854775808) :
    Exact.effOrder orderSize minPack maxPack + minPack < 9223372036854775808 := by
  have h1 := exact_dpLimit_le minPack maxPack hmin
  rcases eff_le orderSize minPack maxPack hmax with h3 | ⟨h3, h4⟩
  · omega
  · omega

theorem maxTarget_exact {orderSize minPack maxPack : Nat} (hmin : 0 < minPack)
    (hmax : 0 < maxPack)
    (h : minPack * maxPack + maxPack + 2 * minPack ≤ 9223372036854775808)
    (ho : orderSize < 9223372036854775808) :
    maxTarget orderSize minPack maxPack =
      (Exact.maxTarget orderSize minPack maxPack : Int) := by
  have hl := @table_length_lt orderSize minPack maxPack hmin hmax h
  unfold maxTarget Exact.maxTarget
  rw [effOrder_exact hmin h ho, add64_natCast hl]
  have h1 : sub64 ((Exact.effOrder orderSize minPack maxPack + minPack : Nat) : Int)
      ((1 : Nat) : Int) =
      ((Exact.effOrder orderSize minPack maxPack + minPack - 1 : Nat) : Int) :=
    sub64_natCast (by omega) hl
  exact h1

theorem keepBest_toGo (b : Option Exact.solution) (c : Exact.solution) :
    keepBest (b.map toGo) (toGo c) = (Exact.keepBest b c).map toGo := by
  cases b with
  | none => rfl
  | some b0 =>
    simp only [Option.map, keepBest, Exact.keepBest, toGo]
    by_cases hc : c.totalItems < b0.totalItems ∨
        (c.totalItems = b0.totalItems ∧ c.totalPacks < b0.totalPacks)
    · have hc1 : (c.totalItems : Int) < b0.totalItems ∨
          ((c.totalItems : Int) = b0.totalItems ∧ (c.totalPacks : Int) < b0.totalPacks) := by
        omega
      rw [if_pos hc, if_pos hc1]
    · have hc1 : ¬ ((c.totalItems : Int) < b0.totalItems ∨
          ((c.totalItems : Int) = b0.totalItems ∧ (c.totalPacks : Int) < b0.totalPacks)) := by
        omega
      rw [if_neg hc, if_neg hc1]

/-- The cell of an amount `t` in a finished table of positive pack sizes holds at most `t`
when it is below `inf`. -/
theorem TableOK.cell_le {ps : List Nat} {mt : Nat} {dp frm : List Nat}
    (h : TableOK ps mt dp frm) (hps : ∀ x ∈ ps, 0 < x) {t d : Nat} (hd : dp[t]? = some d)
    (hlt : d < inf) : d ≤ t := by
  have h1 := Reach.le_sum (fun x hx => hps x hx) (h.reach hd hlt)
  omega

/-- The fields of a candidate, computed as Go computes them, are the exact values when
these stay below `2^63`. -/
theorem candidate_toGo {base e : Nat} (maxPack t d : Nat)
    (q1 : base + e < 9223372036854775808) (q2 : (base + e) * maxPack < 9223372036854775808)
    (q3 : (base + e) * maxPack + t < 9223372036854775808)
    (q4 : base + e + d < 9223372036854775808) :
    ({ dpAmount := t, largePacks := add64 base e,
       totalItems := add64 (mul64 (add64 base e) maxPack) t,
       totalPacks := add64 (add64 base e) d } : solution) =
      toGo ⟨t, base + e, (base + e) * maxPack + t, base + e + d⟩ := by
  rw [add64_natCast q1, mul64_natCast q2, add64_natCast q3, add64_natCast q4]
  rfl

/-- On an input on which nothing overflows, the 64-bit search and the search over unbounded
integers go through the same candidates. -/
theorem searchLoop_exact {ps dp frm : List Nat} {minPack maxPack base eff mt : Nat}
    (htab : TableOK ps mt dp frm) (hps : ∀ x ∈ ps, 0 < x) (hmin : 0 < minPack)
    (hmax : 0 < maxPack) (hlen : eff + minPack < 9223372036854775808)
    (hitems : base * maxPack + eff + minPack ≤ 9223372036854775808) :
    ∀ (n e : Nat) (b : Option Exact.solution), e + n ≤ eff / maxPack + 1 →
      searchLoop dp minPack maxPack base eff mt n e (b.map toGo) =
        (Exact.searchLoop dp minPack maxPack base eff mt n e b).map
          (Option.map toGo) := by
  intro n
  induction n with
  | zero =>
    intro e b _
    rfl
  | succ n ih =>
    intro e b hen
    have he : e ≤ eff / maxPack := by omega
    have hem : e * maxPack ≤ eff := (Nat.le_div_iff_mul_le hmax).1 he
    have hmul : mul64 e maxPack = ((e * maxPack : Nat) : Int) := mul64_natCast (by omega)
    have hrem : sub64 eff (mul64 e maxPack) = ((eff - e * maxPack : Nat) : Int) := by
      rw [hmul]
      exact sub64_natCast hem (by omega)
    have hend : sub64 (add64 ((eff - e * maxPack : Nat) : Int) minPack) 1 =
        ((eff - e * maxPack + minPack - 1 : Nat) : Int) := by
      rw [add64_natCast (by omega)]
      exact @sub64_natCast (eff - e * maxPack + minPack) 1 (by omega) (by omega)
    have hdiv : eff / maxPack ≤ eff := Nat.div_le_self _ _
    have hnext : add64 e 1 = ((e + 1 : Nat) : Int) :=
      @add64_natCast e 1 (by omega)
    have hbrk : ¬ eff < e * maxPack := by omega
    have hwin : (((eff - e * maxPack + minPack - 1 : Nat) : Int) + 1 -
        ((eff - e * maxPack : Nat) : Int)).toNat = minPack := by omega
    have hwin2 : eff - e * maxPack + minPack - 1 + 1 - (eff - e * maxPack) = minPack := by
      omega
    have hnn : ¬ ((eff - e * maxPack : Nat) : Int) < 0 := by omega
    rw [searchLoop, Exact.searchLoop]
    simp only [hrem, hend, hnext, hwin, hwin2, hnn, hbrk, if_false, Int.toNat_ofNat,
      Nat.cast_lt, gt_iff_lt]
    clear hwin hwin2 hend hrem hmul hnext hnn hbrk
    by_cases hskip : mt < eff - e * maxPack + minPack - 1
    · rw [if_pos hskip, if_pos hskip]
      exact ih (e + 1) b (by omega)
    · rw [if_neg hskip, if_neg hskip]
      rcases scanWindow_spec htab.1 minPack (eff - e * maxPack) (by omega) with
        ⟨hs1, _⟩ | ⟨t1, d, hs1, hs2, hs3, hs4, hs5, _⟩
      · rw [hs1]
        exact ih (e + 1) b (by omega)
      · rw [hs1]
        have hdt := htab.cell_le hps hs4 hs5
        have hadd : (base + e) * maxPack = base * maxPack + e * maxPack := Nat.add_mul _ _ _
        have hbe : base + e ≤ (base + e) * maxPack := Nat.le_mul_of_pos_right _ hmax
        have q3 : (base + e) * maxPack + t1 < 9223372036854775808 := by omega
        have q2 : (base + e) * maxPack < 9223372036854775808 := by omega
        have q1 : base + e < 9223372036854775808 := by omega
        have q4 : base + e + d < 9223372036854775808 := by omega
        have hcand := candidate_toGo maxPack t1 d q1 q2 q3 q4
        simp only []
        rw [hcand, keepBest_toGo]
        exact ih (e + 1) _ (by omega)

theorem sub64_add64 (a b c : Int) : sub64 (add64 a b) c = wrap (a + b - c) := by
  unfold sub64 add64 wrap
  omega

/-- The count of the fallback map is `ceil(orderSize / minPack)` when `orderSize + minPack`
does not exceed `2^63`. -/
theorem fallback_count_exact {orderSize minPack : Nat} (hmin : 0 < minPack)
    (h : orderSize + minPack ≤ 9223372036854775808) :
    Int.tdiv (sub64 (add64 orderSize minPack) 1) minPack =
      (((orderSize + minPack - 1) / minPack : Nat) : Int) := by
  have h1 : wrap ((orderSize : Int) + minPack - 1) = ((orderSize + minPack - 1 : Nat) : Int) := by
    rw [wrap_eq (by omega) (by omega)]
    omega
  rw [sub64_add64, h1]
  exact (Int.ofNat_tdiv _ _).symm

theorem finish_exact {orderSize minPack maxPack : Nat} (frm : List Nat) (hmin : 0 < minPack)
    (h : orderSize + minPack ≤ 9223372036854775808) (best : Option Exact.solution) :
    finish orderSize minPack maxPack frm (best.map toGo) =
      (Exact.finish orderSize minPack maxPack frm best).map intCounts := by
  have hm : ¬ minPack = 0 := by omega
  cases best with
  | none =>
    simp only [Option.map, finish, Exact.finish, if_neg hm, fallback_count_exact hmin h,
      intCounts, List.map]
  | some s =>
    simp only [Option.map, finish, Exact.finish, toGo, Int.toNat_ofNat]
    by_cases hl : s.largePacks > 0
    · rw [if_pos hl, if_pos (by exact_mod_cast hl)]
    · rw [if_neg hl, if_neg (by exact_mod_cast hl)]

/-- On an input on which no operation overflows, `calculateOptimalPacks` returns the map of
the solver over unbounded integers. -/
theorem calculateOptimalPacks_exact {orderSize : Nat} {packSizes : List Nat}
    {minPack maxPack : Nat} (hhead : (sortInts packSizes).head? = some minPack)
    (hlast : (sortInts packSizes).getLast? = some maxPack)
    (hpos : ∀ x ∈ packSizes, 0 < x) (hno : NoOverflow orderSize minPack maxPack) :
    calculateOptimalPacks orderSize packSizes =
      (Exact.calculateOptimalPacks orderSize packSizes).map intCounts := by
  have hne : packSizes ≠ [] := by
    intro h
    subst h
    simp [sortInts] at hhead
  obtain ⟨minPack1, maxPack1, dp, frm, best, r, htab, hsearch⟩ :=
    run_trace orderSize packSizes hne hpos
  have e1 : minPack1 = minPack := by
    have := r.headEq
    rw [hhead] at this
    exact (Option.some.inj this).symm
  have e2 : maxPack1 = maxPack := by
    have := r.lastEq
    rw [hlast] at this
    exact (Option.some.inj this).symm
  subst e1 e2
  have hmin := r.minPos
  have hmax := r.maxPos
  have hmax0 : ¬ maxPack1 = 0 := by omega
  have ho63 : orderSize < 9223372036854775808 := by
    have := hno.2
    omega
  have hl := @table_length_lt orderSize minPack1 maxPack1 hmin hmax hno.1
  have hbe := base_add_eff orderSize minPack1 maxPack1
  have hmt : Exact.maxTarget orderSize minPack1 maxPack1 + 1 =
      Exact.effOrder orderSize minPack1 maxPack1 + minPack1 := r.maxTarget_eq
  have hlen1 : ¬ add64 (Exact.maxTarget orderSize minPack1 maxPack1 : Int) 1 ≤ 0 := by
    have h1 : add64 (Exact.maxTarget orderSize minPack1 maxPack1 : Int) 1 =
        (Exact.maxTarget orderSize minPack1 maxPack1 : Int) + 1 := by
      unfold add64
      exact wrap_eq (by omega) (by omega)
    rw [h1]
    omega
  have hfuel : (Int.tdiv (Exact.effOrder orderSize minPack1 maxPack1 : Int) maxPack1 + 1).toNat =
      Exact.effOrder orderSize minPack1 maxPack1 / maxPack1 + 1 := by
    rw [← Int.ofNat_tdiv]
    have h1 : ((Exact.effOrder orderSize minPack1 maxPack1 / maxPack1 : Nat) : Int) + 1 =
        ((Exact.effOrder orderSize minPack1 maxPack1 / maxPack1 + 1 : Nat) : Int) := by
      push_cast
      rfl
    rw [h1, Int.toNat_ofNat]
  have hitems : Exact.baseLargePacks orderSize minPack1 maxPack1 * maxPack1 +
      Exact.effOrder orderSize minPack1 maxPack1 + minPack1 ≤ 9223372036854775808 := by
    have := hno.2
    omega
  have hs := searchLoop_exact r.table (fun x hx => hpos x (mem_sortInts.1 hx)) hmin hmax hl
    hitems (Exact.effOrder orderSize minPack1 maxPack1 / maxPack1 + 1) 0 none
    (by omega)
  rw [hsearch] at hs
  rw [r.result]
  unfold calculateOptimalPacks
  simp only [hhead, hlast, if_neg hmax0]
  rw [maxTarget_exact hmin hmax hno.1 ho63, if_neg hlen1, Int.toNat_ofNat, htab,
    Option.some_bind, effOrder_exact hmin hno.1 ho63, baseLargePacks_exact hmin hno.1 ho63, hfuel]
  have hs1 : searchLoop (dp, frm).1 minPack1 maxPack1
      (Exact.baseLargePacks orderSize minPack1 maxPack1 : Int)
      (Exact.effOrder orderSize minPack1 maxPack1 : Int)
      (Exact.maxTarget orderSize minPack1 maxPack1 : Int)
      (Exact.effOrder orderSize minPack1 maxPack1 / maxPack1 + 1) 0 none =
      some (best.map toGo) := hs
  rw [hs1, Option.some_bind]
  exact finish_exact frm hmin hno.2 best

/-! ## Inputs within the bounds -/

theorem size_bound {minPack maxPack : Nat} (h1 : minPack ≤ 3037000498)
    (h2 : maxPack ≤ 3037000498) :
    minPack * maxPack + maxPack + 2 * minPack ≤ 9223372036854775808 := by
  have h3 : minPack * maxPack ≤ 3037000498 * 3037000498 := Nat.mul_le_mul h1 h2
  omega

theorem intCounts_injective : Function.Injective intCounts := by
  intro a b h
  unfold intCounts at h
  refine List.map_injective_iff.2 ?_ h
  rintro ⟨x1, y1⟩ ⟨x2, y2⟩ hxy
  simp only [Prod.mk.injEq, Nat.cast_inj] at hxy
  rw [hxy.1, hxy.2]

/-! ## The 64-bit run on a table that was allocated -/

/-- The run of `calculateOptimalPacks` once the sizes keep the table length below `2^63`
and the order is a Go integer: the scalars are those of the solver over unbounded integers,
the tables are built, and the map comes from the search and the tail of the function. -/
theorem calculateOptimalPacks_run {orderSize : Nat} {packSizes : List Nat}
    {minPack maxPack : Nat} {dp frm : List Nat} {best : Option Exact.solution}
    (r : Run orderSize packSizes minPack maxPack dp frm best)
    (htab : buildTable (sortInts packSizes) (Exact.maxTarget orderSize minPack maxPack) =
      some (dp, frm))
    (h : minPack * maxPack + maxPack + 2 * minPack ≤ 9223372036854775808)
    (ho : orderSize < 9223372036854775808) :
    calculateOptimalPacks orderSize packSizes =
      (searchLoop dp minPack maxPack (Exact.baseLargePacks orderSize minPack maxPack : Int)
        (Exact.effOrder orderSize minPack maxPack : Int)
        (Exact.maxTarget orderSize minPack maxPack : Int)
        (Exact.effOrder orderSize minPack maxPack / maxPack + 1) 0 none).bind
        (fun b => finish orderSize minPack maxPack frm b) := by
  have hmin := r.minPos
  have hmax := r.maxPos
  have hmax0 : ¬ maxPack = 0 := by omega
  have hl := @table_length_lt orderSize minPack maxPack hmin hmax h
  have hmt : Exact.maxTarget orderSize minPack maxPack + 1 =
      Exact.effOrder orderSize minPack maxPack + minPack := r.maxTarget_eq
  have hlen1 : ¬ add64 (Exact.maxTarget orderSize minPack maxPack : Int) 1 ≤ 0 := by
    have h1 : add64 (Exact.maxTarget orderSize minPack maxPack : Int) 1 =
        (Exact.maxTarget orderSize minPack maxPack : Int) + 1 := by
      unfold add64
      exact wrap_eq (by omega) (by omega)
    rw [h1]
    omega
  have hfuel : (Int.tdiv (Exact.effOrder orderSize minPack maxPack : Int) maxPack + 1).toNat =
      Exact.effOrder orderSize minPack maxPack / maxPack + 1 := by
    rw [← Int.ofNat_tdiv]
    have h1 : ((Exact.effOrder orderSize minPack maxPack / maxPack : Nat) : Int) + 1 =
        ((Exact.effOrder orderSize minPack maxPack / maxPack + 1 : Nat) : Int) := by
      push_cast
      rfl
    rw [h1, Int.toNat_ofNat]
  unfold calculateOptimalPacks
  simp only [r.headEq, r.lastEq, if_neg hmax0]
  rw [maxTarget_exact hmin hmax h ho, if_neg hlen1, Int.toNat_ofNat, htab, Option.some_bind,
    effOrder_exact hmin h ho, baseLargePacks_exact hmin h ho, hfuel]

/-- The 64-bit search never panics on a table of `m + 1` cells, it keeps a candidate once it
holds one, and whatever it retains was built from a cell below `inf`. -/
theorem searchLoop_inv {dp : List Nat} {m : Nat} (hlen : dp.length = m + 1)
    (minPack maxPack : Nat) (base eff : Int) (P : solution → Prop)
    (hP : ∀ (t d : Nat) (e : Int), dp[t]? = some d → d < inf → t ≤ m →
      P { dpAmount := t, largePacks := add64 base e,
          totalItems := add64 (mul64 (add64 base e) maxPack) t,
          totalPacks := add64 (add64 base e) d }) :
    ∀ (n : Nat) (e : Int) (b : Option solution), (∀ s, b = some s → P s) →
      ∃ r, searchLoop dp minPack maxPack base eff m n e b = some r ∧
        (∀ s, r = some s → P s) ∧ (b ≠ none → r ≠ none) := by
  intro n
  induction n with
  | zero =>
    intro e b hb
    exact ⟨b, rfl, hb, fun h => h⟩
  | succ n ih =>
    intro e b hb
    rw [searchLoop]
    simp only []
    by_cases h1 : sub64 eff (mul64 e maxPack) < 0
    · rw [if_pos h1]
      exact ⟨b, rfl, hb, fun h => h⟩
    · rw [if_neg h1]
      by_cases h2 : sub64 (add64 (sub64 eff (mul64 e maxPack)) minPack) 1 > (m : Int)
      · rw [if_pos h2]
        exact ih _ b hb
      · rw [if_neg h2]
        by_cases h3 : (sub64 (add64 (sub64 eff (mul64 e maxPack)) minPack) 1 + 1 -
            sub64 eff (mul64 e maxPack)).toNat = 0
        · rw [h3]
          simp only [scanWindow]
          exact ih _ b hb
        · rcases scanWindow_spec hlen
              (sub64 (add64 (sub64 eff (mul64 e maxPack)) minPack) 1 + 1 -
                sub64 eff (mul64 e maxPack)).toNat
              (sub64 eff (mul64 e maxPack)).toNat (by omega) with
            ⟨hs1, _⟩ | ⟨t1, d, hs1, hs2, hs3, hs4, hs5, _⟩
          · rw [hs1]
            exact ih _ b hb
          · rw [hs1]
            simp only []
            have ht : t1 ≤ m := by omega
            have hc := hP t1 d e hs4 hs5 ht
            refine ih _ _ ?_ |>.imp fun r hr => ⟨hr.1, hr.2.1, fun _ => hr.2.2 ?_⟩
            · intro s hs
              cases b with
              | none =>
                simp only [keepBest] at hs
                cases hs
                exact hc
              | some b0 =>
                simp only [keepBest] at hs
                split at hs
                · cases hs
                  exact hc
                · cases hs
                  exact hb _ rfl
            · cases b with
              | none => simp [keepBest]
              | some b0 =>
                simp only [keepBest]
                split <;> simp

/-! ## A run whose fallback count overflows -/

/-- An iteration of the 64-bit search that leaves the loop, is skipped or finds no cell
below `inf` does not change `best`. -/
theorem searchLoop_unchanged {dp : List Nat} {minPack maxPack : Nat} {base eff mt : Int} :
    ∀ (n e : Nat) (b : Option solution), e + n < 9223372036854775808 →
      (∀ k : Nat, e ≤ k → k < e + n →
        sub64 eff (mul64 k maxPack) < 0 ∨
        sub64 (add64 (sub64 eff (mul64 k maxPack)) minPack) 1 > mt ∨
        scanWindow dp
          (sub64 (add64 (sub64 eff (mul64 k maxPack)) minPack) 1 + 1 -
            sub64 eff (mul64 k maxPack)).toNat
          (sub64 eff (mul64 k maxPack)).toNat = some none) →
      searchLoop dp minPack maxPack base eff mt n e b = some b := by
  intro n
  induction n with
  | zero =>
    intro e b _ _
    rfl
  | succ n ih =>
    intro e b hen hk
    have hnext : add64 e 1 = ((e + 1 : Nat) : Int) := @add64_natCast e 1 (by omega)
    have ih1 := ih (e + 1) b (by omega) (fun k h1 h2 => hk k (by omega) (by omega))
    rw [searchLoop]
    simp only []
    rcases hk e (Nat.le_refl _) (by omega) with h | h | h
    · rw [if_pos h]
    · by_cases h1 : sub64 eff (mul64 e maxPack) < 0
      · rw [if_pos h1]
      · rw [if_neg h1, if_pos h, hnext]
        exact ih1
    · by_cases h1 : sub64 eff (mul64 e maxPack) < 0
      · rw [if_pos h1]
      · rw [if_neg h1]
        by_cases h2 : sub64 (add64 (sub64 eff (mul64 e maxPack)) minPack) 1 > mt
        · rw [if_pos h2, hnext]
          exact ih1
        · rw [if_neg h2, h, hnext]
          exact ih1

theorem two_sizes_wrap_cases (x y t : Nat) (h : t = 2 * x + 4295080809 * y)
    (ht : t < 12885242427) :
    (y = 0 ∧ t = 2 * x) ∨ (y = 1 ∧ t = 2 * x + 4295080809) ∨
      (y = 2 ∧ t = 2 * x + 8590161618) := by
  have hy : y ≤ 2 := by
    by_contra hn
    have h3 : 3 ≤ y := by omega
    have h4 : 4295080809 * 3 ≤ 4295080809 * y := Nat.mul_le_mul_left _ h3
    linarith
  interval_cases y
  · exact Or.inl ⟨rfl, by simpa using h⟩
  · exact Or.inr (Or.inl ⟨rfl, by simpa using h⟩)
  · exact Or.inr (Or.inr ⟨rfl, by simpa using h⟩)

/-- Amounts that `2` and `4295080809` combine to only with `2147483647` packs or more, if
at all. -/
theorem flagged_wrap_amounts (x y t : Nat) (h : t = 2 * x + 4295080809 * y)
    (hlt : x + y < 2147483647) :
    t ≠ 12885221797 ∧ t ≠ 12885221798 ∧ t ≠ 8590140988 ∧ t ≠ 8590140989 ∧
      t ≠ 4295060179 ∧ t ≠ 4295060180 := by
  by_cases ht : t < 12885242427
  · rcases two_sizes_wrap_cases x y t h ht with ⟨h1, h2⟩ | ⟨h1, h2⟩ | ⟨h1, h2⟩
    · subst h1
      clear h
      omega
    · subst h1
      clear h
      omega
    · subst h1
      clear h
      omega
  · clear h
    omega

/-- On the order `2^63 - 1` with the pack sizes `2` and `4295080809` every cell that the
three iterations of the search look at holds `inf`, so `best` stays `nil`; the sum
`orderSize + minPack - 1` of the fallback overflows to `-2^63`, and the map returned holds
the count `-2^62` for the pack size `2`. -/
theorem wrapped_fallback_run :
    calculateOptimalPacks 9223372036854775807 [2, 4295080809] =
      some [(2, -4611686018427387904)] := by
  obtain ⟨minPack, maxPack, dp, frm, best, r, htab, _⟩ :=
    run_trace 9223372036854775807 [2, 4295080809] (by simp)
      (by intro x hx; simp at hx; omega)
  have hsort : sortInts [2, 4295080809] = [2, 4295080809] := by
    simp [sortInts, List.insertionSort, List.orderedInsert]
  have hmin : minPack = 2 := by
    have := r.headEq
    rw [hsort] at this
    simpa using this.symm
  have hmax : maxPack = 4295080809 := by
    have := r.lastEq
    rw [hsort] at this
    simpa using this.symm
  subst hmin hmax
  have hbase : Exact.baseLargePacks 9223372036854775807 2 4295080809 = 2147426890 := by
    decide
  have heff : Exact.effOrder 9223372036854775807 2 4295080809 = 12885221797 := by decide
  have hmt : Exact.maxTarget 9223372036854775807 2 4295080809 = 12885221798 := by decide
  have hrun := calculateOptimalPacks_run r htab (by decide) (by decide)
  rw [hbase, heff, hmt] at hrun
  have hlen := r.table.1
  rw [hmt] at hlen
  have hflag : ∀ t d, dp[t]? = some d → d < inf →
      t ≠ 12885221797 ∧ t ≠ 12885221798 ∧ t ≠ 8590140988 ∧ t ≠ 8590140989 ∧
        t ≠ 4295060179 ∧ t ≠ 4295060180 := by
    intro t d hd hlt
    obtain ⟨c, hcm, hsum, hcl⟩ := reach_sortInts.1 (r.table.reach hd hlt)
    obtain ⟨x, y, hx, hy⟩ := two_sizes 2 4295080809 c hcm
    unfold inf at hlt
    exact flagged_wrap_amounts x y t (by rw [← hsum, hx]) (by omega)
  have hscan : ∀ t, t = 12885221797 ∨ t = 8590140988 ∨ t = 4295060179 →
      scanWindow dp 2 t = some none := by
    intro t ht
    rcases scanWindow_spec hlen 2 t (by omega) with
      ⟨hs1, _⟩ | ⟨t1, d, _, hs2, hs3, hs4, hs5, _⟩
    · exact hs1
    · exfalso
      have := hflag t1 d hs4 hs5
      omega
  have hsearch : searchLoop dp 2 4295080809 ((2147426890 : Nat) : Int)
      ((12885221797 : Nat) : Int) ((12885221798 : Nat) : Int)
      (12885221797 / 4295080809 + 1) 0 none = some none := by
    have h3 : 12885221797 / 4295080809 + 1 = 3 := by decide
    rw [h3]
    refine @searchLoop_unchanged dp 2 4295080809 _ _ _ 3 0 none (by decide) ?_
    intro k hk1 hk2
    right
    right
    have hk : k = 0 ∨ k = 1 ∨ k = 2 := by omega
    rcases hk with h | h | h
    · subst h
      have e1 : sub64 ((12885221797 : Nat) : Int) (mul64 ((0 : Nat) : Int)
          ((4295080809 : Nat) : Int)) = 12885221797 := by decide
      have e2 : sub64 (add64 (12885221797 : Int) ((2 : Nat) : Int)) 1 = 12885221798 := by
        decide
      rw [e1, e2]
      exact hscan 12885221797 (Or.inl rfl)
    · subst h
      have e1 : sub64 ((12885221797 : Nat) : Int) (mul64 ((1 : Nat) : Int)
          ((4295080809 : Nat) : Int)) = 8590140988 := by decide
      have e2 : sub64 (add64 (8590140988 : Int) ((2 : Nat) : Int)) 1 = 8590140989 := by
        decide
      rw [e1, e2]
      exact hscan 8590140988 (Or.inr (Or.inl rfl))
    · subst h
      have e1 : sub64 ((12885221797 : Nat) : Int) (mul64 ((2 : Nat) : Int)
          ((4295080809 : Nat) : Int)) = 4295060179 := by decide
      have e2 : sub64 (add64 (4295060179 : Int) ((2 : Nat) : Int)) 1 = 4295060180 := by
        decide
      rw [e1, e2]
      exact hscan 4295060179 (Or.inr (Or.inr rfl))
  rw [hrun, hsearch, Option.some_bind]
  simp only [finish]
  decide

/-! ## The contract of `calculateOptimalPacks` -/

/-- On a non-empty slice of positive pack sizes, none above `3037000498`, and an order that
stays within `2^63` when the smallest pack size is added to it, `calculateOptimalPacks`
returns the map of the solver over unbounded integers. -/
theorem calculateOptimalPacks_bounded {orderSize : Nat} {packSizes : List Nat}
    (hne : packSizes ≠ []) (hpos : ∀ x ∈ packSizes, 0 < x)
    (hsz : ∀ x ∈ packSizes, x ≤ 3037000498)
    (hord : ∃ x ∈ packSizes, orderSize + x ≤ 9223372036854775808) :
    calculateOptimalPacks orderSize packSizes =
      (Exact.calculateOptimalPacks orderSize packSizes).map intCounts := by
  obtain ⟨minPack, maxPack, h1, h2, h3, h4, h5⟩ := sortInts_ends hne
  obtain ⟨x, hx, hox⟩ := hord
  have := (h5 x hx).1
  exact calculateOptimalPacks_exact h1 h2 hpos
    ⟨size_bound (hsz _ h3) (hsz _ h4), by omega⟩

theorem small_sizes_bounded {packSizes : List Nat} (hsmall : ∀ x ∈ packSizes, x ≤ 1073741822) :
    ∀ x ∈ packSizes, x ≤ 3037000498 := by
  intro x hx
  have := hsmall x hx
  omega

/-- With the pack sizes `2` and `4294967297` no operation of the solver overflows as long
as the order plus two stays within `2^63`. -/
theorem big_pair_exact (orderSize : Nat) (ho : orderSize + 2 ≤ 9223372036854775808) :
    calculateOptimalPacks orderSize [2, 4294967297] =
      (Exact.calculateOptimalPacks orderSize [2, 4294967297]).map intCounts :=
  @calculateOptimalPacks_exact orderSize [2, 4294967297] 2 4294967297
    (by simp [sortInts, List.insertionSort, List.orderedInsert])
    (by simp [sortInts, List.insertionSort, List.orderedInsert])
    (by intro x hx; simp at hx; omega) ⟨by omega, ho⟩

/-- C1, as amended: for every order size above zero and every non-empty list of positive
pack sizes, none above `3037000498`, with `orderSize + minPack ≤ 2^63` (some pack size can
be added to the order within `2^63`), `calculateOptimalPacks` returns a mapping with
non-negative counts, and its shipped quantity, the sum of `size * count` over its entries,
is at least the order size. -/
theorem shipped_ge_orderSize (orderSize : Nat) (packSizes : List Nat) (ho : 0 < orderSize)
    (hne : packSizes ≠ []) (hpos : ∀ x ∈ packSizes, 0 < x)
    (hsz : ∀ x ∈ packSizes, x ≤ 3037000498)
    (hord : ∃ x ∈ packSizes, orderSize + x ≤ 9223372036854775808) :
    ∃ m, calculateOptimalPacks orderSize packSizes = some (intCounts m) ∧
      shipped m = (m.map (fun e => e.1 * e.2)).sum ∧ orderSize ≤ shipped m := by
  obtain ⟨m, h1, h2, h3⟩ := exact_ships_order orderSize packSizes ho hne hpos
  refine ⟨m, ?_, h2, h3⟩
  rw [calculateOptimalPacks_bounded hne hpos hsz hord, h1, Option.map_some']

theorem shipped_ge_orderSize_witness :
    ∃ m, calculateOptimalPacks 12 [1, 4, 5] = some (intCounts m) ∧
      shipped m = (m.map (fun e => e.1 * e.2)).sum ∧ 12 ≤ shipped m :=
  shipped_ge_orderSize 12 [1, 4, 5] (by decide) (by decide) (by decide) (by decide)
    ⟨1, by decide, by decide⟩

/-- C1, counterexample: on the order `2^63 - 1` with the pack sizes `2` and `4295080809`
the map returned holds the single count `-2^62`, so the sum of `size * count` over its
entries is `-2^63`, below the order. -/
theorem shipped_below_order :
    0 < 9223372036854775807 ∧ (∀ x ∈ [2, 4295080809], 0 < x) ∧
      calculateOptimalPacks 9223372036854775807 [2, 4295080809] =
        some [(2, -4611686018427387904)] ∧
      ([((2 : Nat), (-4611686018427387904 : Int))].map (fun e => (e.1 : Int) * e.2)).sum <
        9223372036854775807 :=
  ⟨by decide, by decide, wrapped_fallback_run, by decide⟩

/-- C2, as amended: for every order size above zero and every non-empty list of positive
pack sizes, none above `1073741822`, with `orderSize + minPack ≤ 2^63`, the mapping
returned by `calculateOptimalPacks` has pack sizes for keys, ships at least the order, and
no combination of the pack sizes has a total `T` with `orderSize ≤ T < shipped`; this holds
with and without pre-allocated largest packs. -/
theorem shipped_least (orderSize : Nat) (packSizes : List Nat) (ho : 0 < orderSize)
    (hne : packSizes ≠ []) (hpos : ∀ x ∈ packSizes, 0 < x)
    (hsmall : ∀ x ∈ packSizes, x ≤ 1073741822)
    (hord : ∃ x ∈ packSizes, orderSize + x ≤ 9223372036854775808) :
    ∃ m, calculateOptimalPacks orderSize packSizes = some (intCounts m) ∧
      (∀ e ∈ m, e.1 ∈ packSizes) ∧ orderSize ≤ shipped m ∧
      ∀ c : List Nat, (∀ x ∈ c, x ∈ packSizes) → orderSize ≤ c.sum → shipped m ≤ c.sum := by
  obtain ⟨m, h1, h2, h3, h4⟩ := exact_ships_least orderSize packSizes ho hne hpos hsmall
  refine ⟨m, ?_, h2, h3, h4⟩
  rw [calculateOptimalPacks_bounded hne hpos (small_sizes_bounded hsmall) hord, h1,
    Option.map_some']

theorem shipped_least_witness :
    ∃ m, calculateOptimalPacks 12 [1, 4, 5] = some (intCounts m) ∧
      (∀ e ∈ m, e.1 ∈ [1, 4, 5]) ∧ 12 ≤ shipped m ∧
      ∀ c : List Nat, (∀ x ∈ c, x ∈ [1, 4, 5]) → 12 ≤ c.sum → shipped m ≤ c.sum :=
  shipped_least 12 [1, 4, 5] (by decide) (by decide) (by decide) (by decide)
    ⟨1, by decide, by decide⟩

/-- C2, counterexample, in two parts.  With the pack sizes `2` and `4294967297` and the
order `8589934591` every window cell of the search holds `inf`, so the fallback map is
returned; it ships `8589934592`, yet `4294967297 + 2147483647 * 2` is exactly the order.
With the pack sizes `3` and `5` and the order `2^63 - 2`, a multiple of `3`, the total of
the candidate with three extra largest packs overflows to `-2^63` and replaces the exact
candidate, so the map returned ships `2^63`, two more than the order. -/
theorem shipped_not_least :
    (calculateOptimalPacks 8589934591 [2, 4294967297] = some (intCounts [(2, 4294967296)]) ∧
      ∃ c : List Nat, (∀ x ∈ c, x ∈ [2, 4294967297]) ∧ 8589934591 ≤ c.sum ∧
        c.sum < shipped [(2, 4294967296)]) ∧
    (calculateOptimalPacks 9223372036854775806 [3, 5] =
        some (intCounts [(5, 1844674407370955161), (3, 1)]) ∧
      shipped [(5, 1844674407370955161), (3, 1)] = 9223372036854775808 ∧
      ∃ c : List Nat, (∀ x ∈ c, x ∈ [3, 5]) ∧ c.sum = 9223372036854775806) := by
  refine ⟨⟨?_, exact_fallback_at_8589934591.2⟩, by decide, by decide, ?_⟩
  · rw [big_pair_exact 8589934591 (by omega), exact_fallback_at_8589934591.1,
      Option.map_some']
  · obtain ⟨c, h1, h2, _⟩ := @Reach.replicate [3, 5] 3 (by simp) 3074457345618258602
    exact ⟨c, h1, h2⟩

/-- C3, refuted by the code: on `orderSize = 12` with `packSizes = [1, 4, 5]` the solver
returns `{5: 2, 1: 2}`, four packs that ship `12`, although `4 + 4 + 4` ships `12` in three
packs. -/
theorem packCount_not_least :
    calculateOptimalPacks 12 [1, 4, 5] = some (intCounts [(5, 2), (1, 2)]) ∧
      shipped [(5, 2), (1, 2)] = 12 ∧ packCount [(5, 2), (1, 2)] = 4 ∧
      (∀ x ∈ [4, 4, 4], x ∈ [1, 4, 5]) ∧ [4, 4, 4].sum = 12 ∧ [4, 4, 4].length = 3 := by
  decide

/-- The same defect at `orderSize = 297`, `packSizes = [1, 99, 100]`: the returned map
ships `297` in at least `99` packs, although `99 + 99 + 99` ships `297` in three packs. -/
theorem many_packs_at_297 :
    (∃ m, calculateOptimalPacks 297 [1, 99, 100] = some (intCounts m) ∧ shipped m = 297 ∧
      99 ≤ packCount m) ∧
      (∀ x ∈ [99, 99, 99], x ∈ [1, 99, 100]) ∧ [99, 99, 99].sum = 297 ∧
      [99, 99, 99].length = 3 := by
  obtain ⟨⟨m, h1, h2, h3⟩, h4⟩ := exact_packs_for_297
  refine ⟨⟨m, ?_, h2, h3⟩, h4⟩
  rw [calculateOptimalPacks_bounded (by decide) (by decide) (by decide)
    ⟨1, by decide, by decide⟩, h1, Option.map_some']

/-- C7, as amended: for every order size above zero and every non-empty list of positive
pack sizes, none above `3037000498`, with `orderSize + minPack ≤ 2^63`, the result of
`calculateOptimalPacks` overshoots the order by at most `p - 1` for every pack size `p`,
the smallest included; so by less than the largest pack size. -/
theorem overshoot_lt_pack (orderSize : Nat) (packSizes : List Nat) (ho : 0 < orderSize)
    (hne : packSizes ≠ []) (hpos : ∀ x ∈ packSizes, 0 < x)
    (hsz : ∀ x ∈ packSizes, x ≤ 3037000498)
    (hord : ∃ x ∈ packSizes, orderSize + x ≤ 9223372036854775808) :
    ∃ m, calculateOptimalPacks orderSize packSizes = some (intCounts m) ∧
      orderSize ≤ shipped m ∧
      ∀ p ∈ packSizes, shipped m - orderSize ≤ p - 1 ∧ shipped m - orderSize < p := by
  obtain ⟨m, h1, h2, h3⟩ := exact_overshoot orderSize packSizes ho hne hpos
  refine ⟨m, ?_, h2, h3⟩
  rw [calculateOptimalPacks_bounded hne hpos hsz hord, h1, Option.map_some']

theorem overshoot_lt_pack_witness :
    ∃ m, calculateOptimalPacks 12 [1, 4, 5] = some (intCounts m) ∧ 12 ≤ shipped m ∧
      ∀ p ∈ [1, 4, 5], shipped m - 12 ≤ p - 1 ∧ shipped m - 12 < p :=
  overshoot_lt_pack 12 [1, 4, 5] (by decide) (by decide) (by decide) (by decide)
    ⟨1, by decide, by decide⟩

/-- C7, counterexample, in two parts.  On the order `12` with the single pack size
`2^63 - 3` the table length `maxTarget + 1` overflows to a negative number, `make` panics
and no map is returned, so there is no shipped quantity to bound.  On the order `2^63 - 1`
with the pack sizes `2` and `4295080809` the map returned holds the single count `-2^62`:
its sum of `size * count` is `-2^63`, below the order, so that it does not overshoot the
order at all. -/
theorem overshoot_no_result :
    (0 < 12 ∧ (∀ x ∈ [9223372036854775805], 0 < x) ∧
      maxTarget 12 9223372036854775805 9223372036854775805 = -9223372036854775800 ∧
      calculateOptimalPacks 12 [9223372036854775805] = none) ∧
    (calculateOptimalPacks 9223372036854775807 [2, 4295080809] =
        some [(2, -4611686018427387904)] ∧
      ([((2 : Nat), (-4611686018427387904 : Int))].map (fun e => (e.1 : Int) * e.2)).sum -
        9223372036854775807 < 0) :=
  ⟨by decide, wrapped_fallback_run, by decide⟩

/-- C8, as amended: with a single pack size `p`, `0 < p ≤ 3037000498`, every order above
zero with `orderSize + p ≤ 2^63` is served by the one-entry mapping with
`ceil(orderSize / p)` packs of size `p`, whether or not largest packs were
pre-allocated. -/
theorem single_pack_size (orderSize p : Nat) (ho : 0 < orderSize) (hp : 0 < p)
    (hsz : p ≤ 3037000498) (hord : orderSize + p ≤ 9223372036854775808) :
    calculateOptimalPacks orderSize [p] =
      some (intCounts [(p, (orderSize + p - 1) / p)]) := by
  rw [calculateOptimalPacks_bounded (by simp)
      (by intro x hx; rw [List.mem_singleton.1 hx]; exact hp)
      (by intro x hx; rw [List.mem_singleton.1 hx]; exact hsz)
      ⟨p, by simp, hord⟩,
    exact_single_size orderSize p ho hp, Option.map_some']

theorem single_pack_size_witness :
    calculateOptimalPacks 2500 [1000] = some (intCounts [(1000, (2500 + 1000 - 1) / 1000)]) ∧
      intCounts [(1000, (2500 + 1000 - 1) / 1000)] = [(1000, 3)] :=
  ⟨single_pack_size 2500 1000 (by decide) (by decide) (by decide) (by decide), by decide⟩

/-- C8, counterexample: with the single pack size `2^63 - 1` and the order `1` the table
length `maxTarget + 1` overflows to `-2^63`, `make` panics and no map is returned. -/
theorem single_pack_size_panics :
    0 < 1 ∧ 0 < 9223372036854775807 ∧
      add64 (maxTarget 1 9223372036854775807 9223372036854775807) 1 =
        -9223372036854775808 ∧
      calculateOptimalPacks 1 [9223372036854775807] = none := by
  decide

/-- C9, as amended: when no pack size exceeds `3037000498` and the order equals one of the
pack sizes `p`, the result is the one-entry mapping with a single pack of size `p`. -/
theorem exact_match (packSizes : List Nat) (p : Nat) (hpos : ∀ x ∈ packSizes, 0 < x)
    (hsz : ∀ x ∈ packSizes, x ≤ 3037000498) (hp : p ∈ packSizes) :
    calculateOptimalPacks p packSizes = some (intCounts [(p, 1)]) := by
  have hp1 := hsz p hp
  rw [calculateOptimalPacks_bounded (List.ne_nil_of_mem hp) hpos hsz ⟨p, hp, by omega⟩,
    exact_order_is_size packSizes p hpos hp, Option.map_some']

theorem exact_match_witness :
    calculateOptimalPacks 250 [250, 500, 1000, 2000, 5000] = some (intCounts [(250, 1)]) ∧
      calculateOptimalPacks 500 [250, 500, 1000, 2000, 5000] = some (intCounts [(500, 1)]) :=
  ⟨exact_match [250, 500, 1000, 2000, 5000] 250 (by decide) (by decide) (by decide),
    exact_match [250, 500, 1000, 2000, 5000] 500 (by decide) (by decide) (by decide)⟩

/-- C9, counterexample: the order `2^63 - 1` with the distinct pack sizes `1` and
`2^63 - 1` equals a pack size, but the table length `maxTarget + 1` overflows to `-2^63`,
`make` panics and no map is returned. -/
theorem exact_match_panics :
    [1, 9223372036854775807].Nodup ∧ (∀ x ∈ [1, 9223372036854775807], 0 < x) ∧
      9223372036854775807 ∈ [1, 9223372036854775807] ∧
      calculateOptimalPacks 9223372036854775807 [1, 9223372036854775807] = none := by
  decide

/-- C10, as amended: when no pack size exceeds `3037000498` and the order is `k ≥ 1` times
the largest pack size `maxPack`, with `k * maxPack + minPack ≤ 2^63`, the result is the
one-entry mapping with `k` packs of size `maxPack`. -/
theorem multiple_of_largest (packSizes : List Nat) (maxPack k : Nat)
    (hpos : ∀ x ∈ packSizes, 0 < x) (hmem : maxPack ∈ packSizes)
    (hmax : ∀ x ∈ packSizes, x ≤ maxPack) (hk : 1 ≤ k)
    (hsz : maxPack ≤ 3037000498)
    (hord : ∃ x ∈ packSizes, k * maxPack + x ≤ 9223372036854775808) :
    calculateOptimalPacks (k * maxPack) packSizes = some (intCounts [(maxPack, k)]) := by
  rw [calculateOptimalPacks_bounded (List.ne_nil_of_mem hmem) hpos
      (fun x hx => Nat.le_trans (hmax x hx) hsz) hord,
    exact_multiple packSizes maxPack k hpos hmem hmax hk, Option.map_some']

theorem multiple_of_largest_witness :
    calculateOptimalPacks (200 * 5000) [250, 500, 1000, 2000, 5000] =
      some (intCounts [(5000, 200)]) :=
  multiple_of_largest [250, 500, 1000, 2000, 5000] 5000 200 (by decide) (by decide)
    (by decide) (by decide) (by decide) ⟨250, by decide, by decide⟩

/-- C10, counterexample: with the pack sizes `2` and `2^63 - 1` the order
`1 * (2^63 - 1)` is a multiple of the largest pack size, but the table length
`maxTarget + 1` overflows to a negative number, `make` panics and no map is returned. -/
theorem multiple_of_largest_panics :
    (∀ x ∈ [2, 9223372036854775807], 0 < x ∧ x ≤ 9223372036854775807) ∧
      9223372036854775807 ∈ [2, 9223372036854775807] ∧
      calculateOptimalPacks (1 * 9223372036854775807) [2, 9223372036854775807] = none := by
  decide

/-! ## The use case `Execute` -/

/-- On a positive order and a non-empty repository slice `Execute` returns what the solver
returns on the same values, collected and sorted, with a nil error. -/
theorem Execute_solver {repo : Repository} {orderSize : Int} (ho : 0 < orderSize)
    (hne : repo.packSizes ≠ []) :
    Execute repo orderSize =
      (calculateOptimalPacks orderSize.toNat (repo.packSizes.map Int.toNat)).map
        (fun result => ((sortBySizeDesc (collectResults result), none),
          { repo with reads := repo.reads + 1 })) := by
  have h1 : ¬ orderSize ≤ 0 := by omega
  have h2 : ¬ repo.packSizes.length = 0 := fun h => hne (List.length_eq_zero.1 h)
  simp only [Execute, h1, if_false, Repository.GetPackSizes, h2]
  cases calculateOptimalPacks orderSize.toNat (repo.packSizes.map Int.toNat) <;> rfl

theorem collectResults_intCounts (m : List (Nat × Nat)) :
    collectResults (intCounts m) = Exact.collectResults m := by
  unfold collectResults Exact.collectResults intCounts
  induction m with
  | nil => rfl
  | cons e m ih =>
    by_cases h : e.2 > 0
    · have h2 : ((e.2 : Nat) : Int) > 0 := by exact_mod_cast h
      simp only [List.map_cons, List.filter_cons, h2, h, decide_True, if_true, ih]
    · have h2 : ¬ ((e.2 : Nat) : Int) > 0 := by exact_mod_cast h
      simp only [List.map_cons, List.filter_cons, h2, h, decide_False]
      exact ih

/-- Where the solver returns the map of the solver over unbounded integers, `Execute`
returns what `Exact.Execute` returns. -/
theorem Execute_exact {repo : Repository} {orderSize : Int} (ho : 0 < orderSize)
    (hne : repo.packSizes ≠ [])
    (hcalc : calculateOptimalPacks orderSize.toNat (repo.packSizes.map Int.toNat) =
      (Exact.calculateOptimalPacks orderSize.toNat (repo.packSizes.map Int.toNat)).map
        intCounts) :
    Execute repo orderSize = Exact.Execute repo orderSize := by
  rw [Execute_solver ho hne, Execute_eq ho hne, hcalc]
  cases Exact.calculateOptimalPacks orderSize.toNat (repo.packSizes.map Int.toNat) with
  | none => rfl
  | some m => simp only [Option.map_some', collectResults_intCounts]

/-- The bounds on a repository slice and an order, read on the natural numbers that the
solver is entered with. -/
theorem repository_bounds {repo : Repository} {orderSize : Int} (ho : 0 < orderSize)
    (hne : repo.packSizes ≠ []) (hpos : ∀ x ∈ repo.packSizes, 0 < x)
    (hsz : ∀ x ∈ repo.packSizes, x ≤ 3037000498)
    (hord : ∃ x ∈ repo.packSizes, orderSize + x ≤ 9223372036854775808) :
    repo.packSizes.map Int.toNat ≠ [] ∧ (∀ x ∈ repo.packSizes.map Int.toNat, 0 < x) ∧
      (∀ x ∈ repo.packSizes.map Int.toNat, x ≤ 3037000498) ∧
      ∃ x ∈ repo.packSizes.map Int.toNat, orderSize.toNat + x ≤ 9223372036854775808 := by
  refine ⟨by simpa using hne, ?_, ?_, ?_⟩
  · intro x hx
    obtain ⟨z, hz, rfl⟩ := List.mem_map.1 hx
    have := hpos z hz
    omega
  · intro x hx
    obtain ⟨z, hz, rfl⟩ := List.mem_map.1 hx
    have := hsz z hz
    omega
  · obtain ⟨z, hz, h⟩ := hord
    have := hpos z hz
    exact ⟨z.toNat, List.mem_map.2 ⟨z, hz, rfl⟩, by omega⟩

/-- Within the bounds `Execute` returns what `Exact.Execute` returns. -/
theorem Execute_bounded {repo : Repository} {orderSize : Int} (ho : 0 < orderSize)
    (hne : repo.packSizes ≠ []) (hpos : ∀ x ∈ repo.packSizes, 0 < x)
    (hsz : ∀ x ∈ repo.packSizes, x ≤ 3037000498)
    (hord : ∃ x ∈ repo.packSizes, orderSize + x ≤ 9223372036854775808) :
    Execute repo orderSize = Exact.Execute repo orderSize := by
  obtain ⟨h1, h2, h3, h4⟩ := repository_bounds ho hne hpos hsz hord
  exact Execute_exact ho hne (calculateOptimalPacks_bounded h1 h2 h3 h4)

/-- C4: `Execute` returns an error exactly when the order is not positive or the repository
slice is empty.  A non-positive order gives `ErrOrderSizePositive` with a nil result and
leaves the repository unread; a positive order on an empty slice gives `ErrNoPackSizes`
with a nil result; in every other case a returned error is nil, and on positive pack sizes
up to `3037000498` with `orderSize + minPack ≤ 2^63` `Execute` does return. -/
theorem execute_errors (repo : Repository) (orderSize : Int) :
    (orderSize ≤ 0 →
      Execute repo orderSize = some (([], some DomainError.ErrOrderSizePositive), repo)) ∧
    (0 < orderSize → repo.packSizes = [] →
      Execute repo orderSize =
        some (([], some DomainError.ErrNoPackSizes), { repo with reads := repo.reads + 1 })) ∧
    (0 < orderSize → repo.packSizes ≠ [] →
      ∀ out, Execute repo orderSize = some out → out.1.2 = none) ∧
    (0 < orderSize → repo.packSizes ≠ [] → (∀ x ∈ repo.packSizes, 0 < x) →
      (∀ x ∈ repo.packSizes, x ≤ 3037000498) →
      (∃ x ∈ repo.packSizes, orderSize + x ≤ 9223372036854775808) →
      ∃ res repo1, Execute repo orderSize = some ((res, none), repo1)) ∧
    (∀ out, Execute repo orderSize = some out →
      (out.1.2 ≠ none ↔ (orderSize ≤ 0 ∨ repo.packSizes = []))) := by
  have hA : orderSize ≤ 0 →
      Execute repo orderSize = some (([], some DomainError.ErrOrderSizePositive), repo) := by
    intro h
    simp [Execute, h]
  have hB : 0 < orderSize → repo.packSizes = [] →
      Execute repo orderSize =
        some (([], some DomainError.ErrNoPackSizes), { repo with reads := repo.reads + 1 }) := by
    intro h1 h2
    have h3 : ¬ orderSize ≤ 0 := by omega
    simp [Execute, h3, Repository.GetPackSizes, h2]
  have hC : 0 < orderSize → repo.packSizes ≠ [] →
      ∀ out, Execute repo orderSize = some out → out.1.2 = none := by
    intro h1 h2 out hout
    rw [Execute_solver h1 h2] at hout
    cases hcalc : calculateOptimalPacks orderSize.toNat (repo.packSizes.map Int.toNat) with
    | none => rw [hcalc] at hout; cases hout
    | some m =>
      rw [hcalc] at hout
      cases hout
      rfl
  refine ⟨hA, hB, hC, ?_, ?_⟩
  · intro h1 h2 h3 h4 h5
    obtain ⟨q1, q2, q3, q4⟩ := repository_bounds h1 h2 h3 h4 h5
    rw [Execute_solver h1 h2, calculateOptimalPacks_bounded q1 q2 q3 q4]
    obtain ⟨minPack, maxPack, dp, frm, best, r⟩ :=
      run_exists orderSize.toNat (repo.packSizes.map Int.toNat) q1 q2
    obtain ⟨m, hm, _⟩ := r.shipped_eq
    rw [hm]
    exact ⟨_, _, rfl⟩
  · intro out hout
    by_cases h1 : orderSize ≤ 0
    · rw [hA h1] at hout
      cases hout
      simp [h1]
    · by_cases h2 : repo.packSizes = []
      · rw [hB (by omega) h2] at hout
        cases hout
        simp [h2]
      · have := hC (by omega) h2 out hout
        simp [this, h1, h2]

theorem execute_errors_witness :
    Execute ⟨[], 0⟩ (-100) = some (([], some DomainError.ErrOrderSizePositive), ⟨[], 0⟩) ∧
      Execute ⟨[], 0⟩ 1000 = some (([], some DomainError.ErrNoPackSizes), ⟨[], 1⟩) ∧
      ∃ res repo1, Execute ⟨[1, 4, 5], 0⟩ 12 = some ((res, none), repo1) :=
  ⟨(execute_errors ⟨[], 0⟩ (-100)).1 (by decide),
    (execute_errors ⟨[], 0⟩ 1000).2.1 (by decide) rfl,
    (execute_errors ⟨[1, 4, 5], 0⟩ 12).2.2.2.1 (by decide) (by decide) (by decide)
      (by decide) ⟨1, by decide, by decide⟩⟩

/-- C5, as amended: on a positive order and a non-empty repository slice of positive
sizes, none above `3037000498`, with `orderSize + minPack ≤ 2^63`, the slice returned by
`Execute` is non-empty, strictly descending in `Size`, has positive counts and sizes taken
from the repository, holds exactly the entries of the mapping returned by
`calculateOptimalPacks`, and its sum of `Size * Count` is the shipped quantity of that
mapping. -/
theorem execute_result (repo : Repository) (orderSize : Int) (ho : 0 < orderSize)
    (hne : repo.packSizes ≠ []) (hpos : ∀ x ∈ repo.packSizes, 0 < x)
    (hsz : ∀ x ∈ repo.packSizes, x ≤ 3037000498)
    (hord : ∃ x ∈ repo.packSizes, orderSize + x ≤ 9223372036854775808) :
    ∃ m out repo1,
      calculateOptimalPacks orderSize.toNat (repo.packSizes.map Int.toNat) =
        some (intCounts m) ∧
      Execute repo orderSize = some ((out, none), repo1) ∧ out ≠ [] ∧
      out.Pairwise (fun a b => a.Size > b.Size) ∧
      (∀ r ∈ out, 0 < r.Count ∧ r.Size ∈ repo.packSizes) ∧
      out.Perm ((intCounts m).map (fun e => { Size := (e.1 : Int), Count := e.2 })) ∧
      (out.map (fun r => r.Size * r.Count)).sum = (shipped m : Int) := by
  obtain ⟨m, out, repo1, h1, h2, h3, h4, h5, h6, h7⟩ :=
    exact_execute_slice repo orderSize ho hne hpos
  obtain ⟨q1, q2, q3, q4⟩ := repository_bounds ho hne hpos hsz hord
  refine ⟨m, out, repo1, ?_, ?_, h3, h4, h5, ?_, h7⟩
  · rw [calculateOptimalPacks_bounded q1 q2 q3 q4, h1, Option.map_some']
  · rw [Execute_bounded ho hne hpos hsz hord, h2]
  · simpa [intCounts, List.map_map, Function.comp_def] using h6

theorem execute_result_witness :
    ∃ m out repo1,
      calculateOptimalPacks (12 : Int).toNat (([1, 4, 5] : List Int).map Int.toNat) =
        some (intCounts m) ∧
      Execute ⟨[1, 4, 5], 0⟩ 12 = some ((out, none), repo1) ∧ out ≠ [] ∧
      out.Pairwise (fun a b => a.Size > b.Size) ∧
      (∀ r ∈ out, 0 < r.Count ∧ r.Size ∈ ([1, 4, 5] : List Int)) ∧
      out.Perm ((intCounts m).map (fun e => { Size := (e.1 : Int), Count := e.2 })) ∧
      (out.map (fun r => r.Size * r.Count)).sum = (shipped m : Int) :=
  execute_result ⟨[1, 4, 5], 0⟩ 12 (by decide) (by decide) (by decide) (by decide)
    ⟨1, by decide, by decide⟩

/-- C5, counterexample: on the order `2^63 - 1` with the repository slice
`[2, 4295080809]` the solver's map holds the single count `-2^62`; the test `count > 0`
drops it, and `Execute` returns an empty slice with a nil error. -/
theorem execute_result_empty :
    (0 : Int) < 9223372036854775807 ∧ (∀ x ∈ ([2, 4295080809] : List Int), 0 < x) ∧
      Execute ⟨[2, 4295080809], 0⟩ 9223372036854775807 =
        some (([], none), ⟨[2, 4295080809], 1⟩) := by
  refine ⟨by decide, by decide, ?_⟩
  have h1 : (9223372036854775807 : Int).toNat = 9223372036854775807 := by decide
  have h2 : ([2, 4295080809] : List Int).map Int.toNat = [2, 4295080809] := by decide
  rw [Execute_solver (by decide) (by decide)]
  simp only []
  rw [h1, h2, wrapped_fallback_run]
  decide

/-! ## Rearranged pack sizes -/

/-- The solver reads its input only through the sorted slice. -/
theorem calculateOptimalPacks_of_sorted (orderSize : Nat) (l1 l2 : List Nat)
    (h : sortInts l1 = sortInts l2) :
    calculateOptimalPacks orderSize l1 = calculateOptimalPacks orderSize l2 := by
  unfold calculateOptimalPacks
  rw [h]

/-- C6: the results of `calculateOptimalPacks` and of `Execute` do not depend on the order
in which the pack sizes are supplied: lists that are permutations of each other give equal
results. -/
theorem result_independent_of_order (orderSize : Nat) (l1 l2 : List Nat) (h : l1.Perm l2)
    (order : Int) (repo1 repo2 : Repository) (hr : repo1.packSizes.Perm repo2.packSizes) :
    calculateOptimalPacks orderSize l1 = calculateOptimalPacks orderSize l2 ∧
      (Execute repo1 order).map (fun out => out.1) =
        (Execute repo2 order).map (fun out => out.1) := by
  refine ⟨calculateOptimalPacks_of_sorted orderSize l1 l2 (sortInts_eq_of_perm h), ?_⟩
  by_cases h1 : order ≤ 0
  · simp [Execute, h1]
  · have hlen := hr.length_eq
    by_cases h2 : repo1.packSizes = []
    · have h3 : repo2.packSizes = [] := by
        rw [h2] at hlen
        exact List.length_eq_zero.1 hlen.symm
      simp [Execute, h1, Repository.GetPackSizes, h2, h3]
    · have h3 : repo2.packSizes ≠ [] := by
        intro h4
        rw [h4] at hlen
        exact h2 (List.length_eq_zero.1 hlen)
      rw [Execute_solver (by omega) h2, Execute_solver (by omega) h3,
        calculateOptimalPacks_of_sorted order.toNat _ _
          (sortInts_eq_of_perm (hr.map Int.toNat))]
      simp [Option.map_map, Function.comp_def]

theorem result_independent_of_order_witness :
    calculateOptimalPacks 12001 [250, 1000, 500, 5000, 2000] =
        calculateOptimalPacks 12001 [250, 500, 1000, 2000, 5000] ∧
      (Execute ⟨[250, 1000, 500, 5000, 2000], 0⟩ 12001).map (fun out => out.1) =
        (Execute ⟨[250, 500, 1000, 2000, 5000], 0⟩ 12001).map (fun out => out.1) :=
  result_independent_of_order 12001 [250, 1000, 500, 5000, 2000] [250, 500, 1000, 2000, 5000]
    (by decide) 12001 ⟨[250, 1000, 500, 5000, 2000], 0⟩ ⟨[250, 500, 1000, 2000, 5000], 0⟩
    (by decide)

/-! ## Concrete orders -/

theorem Execute_bounded_slice (sizes : List Int) (reads : Nat) (orderSize : Int)
    (ho : 0 < orderSize) (hne : sizes ≠ []) (hpos : ∀ x ∈ sizes, 0 < x)
    (hsz : ∀ x ∈ sizes, x ≤ 3037000498)
    (hord : ∃ x ∈ sizes, orderSize + x ≤ 9223372036854775808) :
    Execute ⟨sizes, reads⟩ orderSize = Exact.Execute ⟨sizes, reads⟩ orderSize :=
  Execute_bounded ho hne hpos hsz hord

/-- C11: for pack sizes `17, 31, 47` and order `5000`, above `dpLimit = 799` so that `89`
largest packs are set aside, `Execute` returns exactly `47 × 105, 31 × 1, 17 × 2`, which
ships `5000` in `108` packs. -/
theorem execute_17_31_47 (reads : Nat) :
    dpLimit 17 47 = 799 ∧ baseLargePacks 5000 17 47 = 89 ∧
      Execute ⟨[17, 31, 47], reads⟩ 5000 =
        some (([⟨47, 105⟩, ⟨31, 1⟩, ⟨17, 2⟩], none), ⟨[17, 31, 47], reads + 1⟩) ∧
      (([⟨47, 105⟩, ⟨31, 1⟩, ⟨17, 2⟩] : List PackResult).map (fun r => r.Size * r.Count)).sum =
        5000 ∧
      (([⟨47, 105⟩, ⟨31, 1⟩, ⟨17, 2⟩] : List PackResult).map (fun r => r.Count)).sum = 108 := by
  refine ⟨by decide, by decide, ?_, by decide, by decide⟩
  rw [Execute_bounded_slice [17, 31, 47] reads 5000 (by decide) (by decide) (by decide)
    (by decide) ⟨17, by decide, by decide⟩]
  exact (exact_execute_5000 reads).2.2.1

/-- C12: for pack sizes `250, 500, 1000, 2000, 5000`, `Execute` returns `500 × 1` for order
`251`, `500 × 1, 250 × 1` for order `501`, `5000 × 2` for order `9999`, and
`5000 × 2, 2000 × 1, 250 × 1` for order `12001`. -/
theorem execute_standard_sizes (reads : Nat) :
    Execute ⟨[250, 500, 1000, 2000, 5000], reads⟩ 251 =
        some (([⟨500, 1⟩], none), ⟨[250, 500, 1000, 2000, 5000], reads + 1⟩) ∧
      Execute ⟨[250, 500, 1000, 2000, 5000], reads⟩ 501 =
        some (([⟨500, 1⟩, ⟨250, 1⟩], none), ⟨[250, 500, 1000, 2000, 5000], reads + 1⟩) ∧
      Execute ⟨[250, 500, 1000, 2000, 5000], reads⟩ 9999 =
        some (([⟨5000, 2⟩], none), ⟨[250, 500, 1000, 2000, 5000], reads + 1⟩) ∧
      Execute ⟨[250, 500, 1000, 2000, 5000], reads⟩ 12001 =
        some (([⟨5000, 2⟩, ⟨2000, 1⟩, ⟨250, 1⟩], none),
          ⟨[250, 500, 1000, 2000, 5000], reads + 1⟩) := by
  obtain ⟨h1, h2, h3, h4⟩ := exact_execute_standard reads
  refine ⟨?_, ?_, ?_, ?_⟩
  · rw [Execute_bounded_slice [250, 500, 1000, 2000, 5000] reads 251 (by decide) (by decide)
      (by decide) (by decide) ⟨250, by decide, by decide⟩]
    exact h1
  · rw [Execute_bounded_slice [250, 500, 1000, 2000, 5000] reads 501 (by decide) (by decide)
      (by decide) (by decide) ⟨250, by decide, by decide⟩]
    exact h2
  · rw [Execute_bounded_slice [250, 500, 1000, 2000, 5000] reads 9999 (by decide) (by decide)
      (by decide) (by decide) ⟨250, by decide, by decide⟩]
    exact h3
  · rw [Execute_bounded_slice [250, 500, 1000, 2000, 5000] reads 12001 (by decide) (by decide)
      (by decide) (by decide) ⟨250, by decide, by decide⟩]
    exact h4

/-! ## Determinism of `Execute` -/

theorem intCounts_keys (m : List (Nat × Nat)) :
    (intCounts m).map Prod.fst = m.map Prod.fst := by
  unfold intCounts
  rw [List.map_map]
  rfl

/-- A map returned by the tail of the solver has distinct keys. -/
theorem finish_nodup_keys {orderSize minPack maxPack : Nat} {frm : List Nat}
    {best : Option solution} {result : List (Nat × Int)}
    (h : finish orderSize minPack maxPack frm best = some result) :
    (result.map Prod.fst).Nodup := by
  cases best with
  | none =>
    rw [finish] at h
    by_cases hm : minPack = 0
    · rw [if_pos hm] at h
      cases h
    · rw [if_neg hm] at h
      rw [← Option.some.inj h]
      simp
  | some b =>
    rw [finish] at h
    obtain ⟨m, hm, hr⟩ := Option.map_eq_some'.1 h
    rw [← hr, intCounts_keys]
    refine walk_nodup_keys _ _ _ _ _ hm ?_
    split <;> simp

/-- A map returned by `calculateOptimalPacks` comes out of the tail of the function, on
the smallest and largest pack size. -/
theorem calculateOptimalPacks_finish {orderSize : Nat} {packSizes : List Nat}
    {result : List (Nat × Int)} (h : calculateOptimalPacks orderSize packSizes = some result) :
    ∃ minPack maxPack frm best, (sortInts packSizes).head? = some minPack ∧
      (sortInts packSizes).getLast? = some maxPack ∧
      finish orderSize minPack maxPack frm best = some result := by
  unfold calculateOptimalPacks at h
  cases hh : (sortInts packSizes).head? with
  | none => simp only [hh] at h; cases h
  | some minPack =>
    cases hl : (sortInts packSizes).getLast? with
    | none => simp only [hh, hl] at h; cases h
    | some maxPack =>
      simp only [hh, hl] at h
      by_cases hz : maxPack = 0
      · rw [if_pos hz] at h
        cases h
      · rw [if_neg hz] at h
        by_cases hlen : add64 (maxTarget orderSize minPack maxPack) 1 ≤ 0
        · rw [if_pos hlen] at h
          cases h
        · rw [if_neg hlen] at h
          obtain ⟨tabs, _, h2⟩ := Option.bind_eq_some.1 h
          obtain ⟨best, _, h3⟩ := Option.bind_eq_some.1 h2
          exact ⟨minPack, maxPack, tabs.2, best, rfl, rfl, h3⟩

/-- Whatever the input, a map returned by `calculateOptimalPacks` has distinct keys. -/
theorem calculateOptimalPacks_keys_nodup {orderSize : Nat} {packSizes : List Nat}
    {result : List (Nat × Int)} (h : calculateOptimalPacks orderSize packSizes = some result) :
    (result.map Prod.fst).Nodup := by
  obtain ⟨_, _, _, _, _, _, h1⟩ := calculateOptimalPacks_finish h
  exact finish_nodup_keys h1

theorem sizes_nodup_of_int_keys {m : List (Nat × Int)} (hnd : (m.map Prod.fst).Nodup) :
    ((collectResults m).map (fun r => r.Size)).Nodup := by
  unfold collectResults
  have h1 : ((m.filter (fun e => decide (e.2 > 0))).map Prod.fst).Nodup :=
    (List.filter_sublist m).map Prod.fst |>.nodup hnd
  have h2 : (((m.filter (fun e => decide (e.2 > 0))).map Prod.fst).map
      (fun n : Nat => (n : Int))).Nodup := h1.map Nat.cast_injective
  simpa [List.map_map, Function.comp_def] using h2

theorem collectResults_of_perm {m1 m2 : List (Nat × Int)} (h : m1.Perm m2) :
    (collectResults m1).Perm (collectResults m2) := by
  unfold collectResults
  exact (h.filter _).map _

/-- C13: `Execute` returns the same slice, entries and order, whatever the order in which
the entries of the solver's map are ranged over and whatever rearrangement the sorting
procedure goes through: for every order size and every repository content, `Execute` with
the range order `enum` left open returns what `Execute` returns, and every descending
rearrangement of the collected entries is the slice that `Execute` returns.  The solver
itself is a function of its input, so its ties are resolved alike on every run. -/
theorem execute_deterministic (repo : Repository) (orderSize : Int)
    (enum : List (Nat × Int) → List (Nat × Int)) (henum : ∀ m, (enum m).Perm m) :
    ExecuteRanged enum repo orderSize = Execute repo orderSize ∧
      ∀ m, calculateOptimalPacks orderSize.toNat (repo.packSizes.map Int.toNat) = some m →
        0 < orderSize → repo.packSizes ≠ [] →
        ∀ out : List PackResult, out.Perm (collectResults (enum m)) →
          out.Pairwise (fun a b => a.Size ≥ b.Size) →
          Execute repo orderSize =
            some ((out, none), { repo with reads := repo.reads + 1 }) := by
  have key : ∀ m, calculateOptimalPacks orderSize.toNat (repo.packSizes.map Int.toNat) = some m →
      ∀ out : List PackResult, out.Perm (collectResults (enum m)) →
        out.Pairwise (fun a b => a.Size ≥ b.Size) → out = sortBySizeDesc (collectResults m) := by
    intro m hm out hperm hsorted
    exact eq_sortBySizeDesc (sizes_nodup_of_int_keys (calculateOptimalPacks_keys_nodup hm))
      (hperm.trans (collectResults_of_perm (henum m))) hsorted
  constructor
  · by_cases h1 : orderSize ≤ 0
    · simp [ExecuteRanged, Execute, h1]
    · by_cases h2 : repo.packSizes.length = 0
      · simp [ExecuteRanged, Execute, h1, Repository.GetPackSizes, h2]
      · simp only [ExecuteRanged, Execute, h1, if_false, Repository.GetPackSizes, h2]
        cases hm : calculateOptimalPacks orderSize.toNat (repo.packSizes.map Int.toNat) with
        | none => rfl
        | some m =>
          simp only
          rw [key m hm _ (sortBySizeDesc_perm _) (sortBySizeDesc_sorted _)]
  · intro m hm h1 h2 out hperm hsorted
    rw [Execute_solver h1 h2, hm, key m hm out hperm hsorted]
    rfl

theorem execute_deterministic_witness :
    ExecuteRanged List.reverse ⟨[1, 4, 5], 0⟩ 12 = Execute ⟨[1, 4, 5], 0⟩ 12 ∧
      ∀ m, calculateOptimalPacks (12 : Int).toNat (([1, 4, 5] : List Int).map Int.toNat) =
          some m →
        (0 : Int) < 12 → ([1, 4, 5] : List Int) ≠ [] →
        ∀ out : List PackResult, out.Perm (collectResults (List.reverse m)) →
          out.Pairwise (fun a b => a.Size ≥ b.Size) →
          Execute ⟨[1, 4, 5], 0⟩ 12 = some ((out, none), ⟨[1, 4, 5], 0 + 1⟩) :=
  execute_deterministic ⟨[1, 4, 5], 0⟩ 12 List.reverse (fun m => List.reverse_perm m)

/-! ## The table length on every order -/

theorem tmod_bounds (x : Int) {M : Int} (hM : 0 < M) :
    -M < Int.tmod x M ∧ Int.tmod x M < M := by
  refine ⟨?_, Int.tmod_lt_of_pos x hM⟩
  rcases Int.le_total 0 x with h | h
  · have := Int.tmod_nonneg M h
    omega
  · have h1 : (-x).tmod M < M := Int.tmod_lt_of_pos _ hM
    have h2 := Int.tmod_def (-x) M
    have h3 := Int.tmod_def x M
    rw [Int.neg_tdiv] at h2
    have h4 : M * -x.tdiv M = -(M * x.tdiv M) := by ring
    rw [h4] at h2
    omega

/-- The 64-bit remainder `O - ((O - L) / M) * M` lies within `M` of `L`, whatever the
order `O`, also when `O - L` overflows. -/
theorem reduced_order_range (O L M : Int) (hM : 0 < M) (hML : M < L)
    (hLM : L + M ≤ 9223372036854775808) :
    L - M < sub64 O (mul64 (Int.tdiv (sub64 O L) M) M) ∧
      sub64 O (mul64 (Int.tdiv (sub64 O L) M) M) < L + M := by
  obtain ⟨h1, h2⟩ := tmod_bounds (sub64 O L) hM
  have h3 := Int.tdiv_add_tmod' (sub64 O L) M
  generalize Int.tmod (sub64 O L) M = r at h1 h2 h3
  unfold mul64
  generalize Int.tdiv (sub64 O L) M * M = P at h3 ⊢
  unfold sub64 wrap at *
  omega

/-- With sizes that keep the table length below `2^63`, the effective order lies between
`0` and `dpLimit + maxPack`, whatever the order. -/
theorem effOrder_range {orderSize minPack maxPack : Nat} (hmin : 0 < minPack)
    (hle : minPack ≤ maxPack)
    (h : minPack * maxPack + maxPack + 2 * minPack ≤ 9223372036854775808) :
    0 ≤ effOrder orderSize minPack maxPack ∧
      effOrder orderSize minPack maxPack <
        (Exact.dpLimit minPack maxPack : Int) + maxPack := by
  have hL1 := exact_dpLimit_le minPack maxPack hmin
  have hL2 := (dpLimit_ge minPack maxPack).1
  unfold effOrder baseLargePacks
  rw [dpLimit_exact hmin h]
  by_cases hc : (orderSize : Int) > (Exact.dpLimit minPack maxPack : Int)
  · rw [if_pos hc, if_pos hc]
    have key := reduced_order_range (orderSize : Int) (Exact.dpLimit minPack maxPack : Int)
      (maxPack : Int) (by omega) (by omega) (by omega)
    omega
  · rw [if_neg hc]
    omega

/-- With sizes that keep the table length below `2^63`, the last index of the table is at
most `dpLimit + maxPack + minPack - 2`, whatever the order. -/
theorem maxTarget_range {orderSize minPack maxPack : Nat} (hmin : 0 < minPack)
    (hle : minPack ≤ maxPack)
    (h : minPack * maxPack + maxPack + 2 * minPack ≤ 9223372036854775808) :
    (maxTarget orderSize minPack maxPack).toNat ≤
      Exact.dpLimit minPack maxPack + maxPack + minPack - 2 := by
  have hL1 := exact_dpLimit_le minPack maxPack hmin
  obtain ⟨h1, h2⟩ := @effOrder_range orderSize minPack maxPack hmin hle h
  unfold maxTarget
  generalize effOrder orderSize minPack maxPack = e at h1 h2
  have h3 : sub64 (add64 e minPack) 1 = e + minPack - 1 := by
    rw [sub64_add64]
    exact wrap_eq (by omega) (by omega)
  rw [h3]
  omega

/-! ## Orders within `dpLimit` -/

/-- C21, as amended: when no pack size exceeds `1073741822`, for every non-empty slice of
positive pack sizes with smallest size `minPack` and largest size `maxPack` and every order
with `0 < orderSize ≤ dpLimit minPack maxPack`, no largest pack is set aside and
`calculateOptimalPacks` returns a map that is a combination of the pack sizes, ships the
least total of a combination that is not below the order, and has no more packs than any
combination with that total. -/
theorem small_order_optimal (orderSize : Nat) (packSizes : List Nat) (minPack maxPack : Nat)
    (hpos : ∀ x ∈ packSizes, 0 < x) (hsmall : ∀ x ∈ packSizes, x ≤ 1073741822)
    (hmin : (sortInts packSizes).head? = some minPack)
    (hmax : (sortInts packSizes).getLast? = some maxPack)
    (ho : 0 < orderSize) (hle : (orderSize : Int) ≤ dpLimit minPack maxPack) :
    baseLargePacks orderSize minPack maxPack = 0 ∧
      ∃ m, calculateOptimalPacks orderSize packSizes = some (intCounts m) ∧
        orderSize ≤ shipped m ∧ Reach packSizes (packCount m) (shipped m) ∧
        (∀ c : List Nat, (∀ x ∈ c, x ∈ packSizes) → orderSize ≤ c.sum → shipped m ≤ c.sum) ∧
        (∀ c : List Nat, (∀ x ∈ c, x ∈ packSizes) → c.sum = shipped m →
          packCount m ≤ c.length) := by
  have hne : packSizes ≠ [] := by
    intro h
    subst h
    simp [sortInts] at hmin
  obtain ⟨a, b, h1, h2, h3, h4, _⟩ := sortInts_ends hne
  rw [hmin] at h1
  rw [hmax] at h2
  cases h1
  cases h2
  have hsz := size_bound (Nat.le_trans (hsmall _ h3) (by omega : 1073741822 ≤ 3037000498))
    (Nat.le_trans (hsmall _ h4) (by omega : 1073741822 ≤ 3037000498))
  have hminpos := hpos _ h3
  have hL := exact_dpLimit_le minPack maxPack hminpos
  rw [dpLimit_exact hminpos hsz] at hle
  have hleN : orderSize ≤ Exact.dpLimit minPack maxPack := by exact_mod_cast hle
  obtain ⟨hb, m, hm, q1, q2, q3, q4⟩ :=
    exact_small_order orderSize packSizes minPack maxPack hpos hsmall hmin hmax ho hleN
  refine ⟨?_, m, ?_, q1, q2, q3, q4⟩
  · rw [baseLargePacks_exact hminpos hsz (by omega), hb]
    rfl
  · rw [calculateOptimalPacks_exact hmin hmax hpos ⟨hsz, by omega⟩, hm, Option.map_some']

theorem small_order_optimal_witness :
    baseLargePacks 7 3 5 = 0 ∧
      ∃ m, calculateOptimalPacks 7 [3, 5] = some (intCounts m) ∧
        7 ≤ shipped m ∧ Reach [3, 5] (packCount m) (shipped m) ∧
        (∀ c : List Nat, (∀ x ∈ c, x ∈ [3, 5]) → 7 ≤ c.sum → shipped m ≤ c.sum) ∧
        (∀ c : List Nat, (∀ x ∈ c, x ∈ [3, 5]) → c.sum = shipped m →
          packCount m ≤ c.length) :=
  small_order_optimal 7 [3, 5] 3 5 (by decide) (by decide) (by decide) (by decide)
    (by decide) (by decide)

/-- C21, counterexample: the order `8589934593` on the pack sizes `2` and `4294967297` is
not above `dpLimit = 8589934594`, so no largest pack is set aside, and it is the total of
one pack of `4294967297` and `2147483648` packs of `2`; yet the map returned ships more
than the order, because that total needs `2147483647` packs or more and its cell holds
`inf`. -/
theorem not_least_below_dpLimit :
    8589934593 ≤ dpLimit 2 4294967297 ∧ baseLargePacks 8589934593 2 4294967297 = 0 ∧
      Reachable [2, 4294967297] 8589934593 ∧
      ∃ m, calculateOptimalPacks 8589934593 [2, 4294967297] = some (intCounts m) ∧
        8589934593 < shipped m := by
  obtain ⟨_, _, h3, m, h4, h5⟩ := exact_not_least_small
  refine ⟨by decide, by decide, h3, m, ?_, h5⟩
  rw [big_pair_exact 8589934593 (by omega), h4, Option.map_some']

/-! ## The table -/

/-- With every pack size at most `1073741822` no combination whose total is an index of the
table has `inf` packs or more. -/
theorem count_lt_inf_of_le {packSizes : List Nat} {minPack maxPack : Nat}
    (hmin : 0 < minPack) (hlo : ∀ x ∈ packSizes, minPack ≤ x)
    (hmax : maxPack ≤ 1073741822) {k i : Nat} (hk : Reach packSizes k i)
    (hi : i ≤ Exact.dpLimit minPack maxPack + maxPack + minPack - 2) : k < inf := by
  have h1 : minPack * k ≤ i := Reach.le_sum hlo hk
  have h2 := exact_dpLimit_le minPack maxPack hmin
  by_contra hcon
  have hk2 : 2 * maxPack + 2 ≤ k := by
    unfold inf at hcon
    omega
  have h6 : minPack * (2 * maxPack + 2) ≤ minPack * k := Nat.mul_le_mul_left _ hk2
  have h7 : minPack * (2 * maxPack + 2) = 2 * (minPack * maxPack) + 2 * minPack := by ring
  have h8 : maxPack ≤ minPack * maxPack := Nat.le_mul_of_pos_left _ hmin
  omega

/-- When the table is allocated, `maxTarget` is not negative. -/
theorem maxTarget_nonneg_of_alloc {orderSize minPack maxPack : Nat}
    (h : 0 < add64 (maxTarget orderSize minPack maxPack) 1) :
    ((maxTarget orderSize minPack maxPack).toNat : Int) = maxTarget orderSize minPack maxPack := by
  unfold maxTarget at h ⊢
  generalize add64 (effOrder orderSize minPack maxPack) minPack = e at h ⊢
  unfold add64 sub64 wrap at h
  unfold sub64 wrap
  omega

/-- C18, as amended: after the dynamic-programming loop `dp[0] = 0`, and for every amount
`i ≤ maxTarget` the cell `dp[i]` is below `inf` exactly when `i` is the total of a
combination of fewer than `2147483647` packs, which with no pack size above `1073741822`
is every combination; a cell below `inf` holds the least number of packs of a combination
totalling `i`, and for `i > 0` its `from[i]` is the smallest pack size `p ≤ i` with
`dp[i - p] + 1 = dp[i]`.  The table has `maxTarget + 1` cells, `maxTarget` being a natural
number whenever the table is allocated. -/
theorem dp_table_meaning (orderSize : Nat) (packSizes : List Nat) (hne : packSizes ≠ [])
    (hpos : ∀ x ∈ packSizes, 0 < x) :
    ∃ minPack maxPack dp frm,
      (sortInts packSizes).head? = some minPack ∧
      (sortInts packSizes).getLast? = some maxPack ∧
      (0 < add64 (maxTarget orderSize minPack maxPack) 1 →
        ((maxTarget orderSize minPack maxPack).toNat : Int) =
          maxTarget orderSize minPack maxPack) ∧
      buildTable (sortInts packSizes) (maxTarget orderSize minPack maxPack).toNat =
        some (dp, frm) ∧
      dp[0]? = some 0 ∧
      ∀ i, i ≤ (maxTarget orderSize minPack maxPack).toNat →
        ∃ v, dp[i]? = some v ∧ v ≤ inf ∧
          (v < inf ↔ ∃ k, k < inf ∧ Reach packSizes k i) ∧
          (v < inf → Reach packSizes v i ∧ ∀ k, Reach packSizes k i → v ≤ k) ∧
          (v < inf → 0 < i →
            ∃ p u, frm[i]? = some p ∧ p ∈ packSizes ∧ p ≤ i ∧ dp[i - p]? = some u ∧
              u + 1 = v ∧
              ∀ q ∈ packSizes, q < p → ∀ u1, dp[i - q]? = some u1 → u1 + 1 ≠ v) ∧
          ((∀ x ∈ packSizes, x ≤ 1073741822) → (v < inf ↔ Reachable packSizes i)) := by
  obtain ⟨minPack, maxPack, e1, e2, e3, e4, e5⟩ := sortInts_ends hne
  obtain ⟨dp, frm, htab, ht⟩ := buildTable_spec (sortInts_sorted packSizes)
    (fun x hx => hpos x (mem_sortInts.1 hx)) (maxTarget orderSize minPack maxPack).toNat
  refine ⟨minPack, maxPack, dp, frm, e1, e2, maxTarget_nonneg_of_alloc, htab, ht.cell_zero, ?_⟩
  intro i hi
  obtain ⟨v, hv1, hv2, hv3, hv4, hv5⟩ := ht.2.2 i hi
  have hmin : ∀ k, Reach packSizes k i → v ≤ k := fun k hk => hv4 k (reach_sortInts.2 hk)
  refine ⟨v, hv1, hv2, ?_, ?_, ?_, ?_⟩
  · constructor
    · intro hlt
      exact ⟨v, hlt, reach_sortInts.1 (hv3 hlt)⟩
    · rintro ⟨k, hk1, hk2⟩
      have := hmin k hk2
      omega
  · intro hlt
    exact ⟨reach_sortInts.1 (hv3 hlt), hmin⟩
  · intro hlt hipos
    obtain ⟨p, hp1, hp2, _, hp4, ⟨u, hu1, hu2⟩, hp6⟩ := hv5 hlt hipos
    refine ⟨p, u, hp1, mem_sortInts.1 hp2, hp4, hu1, hu2, ?_⟩
    intro q hq hqp u1 hu1
    have := hp6 q (mem_sortInts.2 hq) hqp u1 hu1
    omega
  · intro hsmall
    constructor
    · intro hlt
      exact (reach_sortInts.1 (hv3 hlt)).reachable
    · rintro ⟨c, hc, hs⟩
      have hreach : Reach packSizes c.length i := ⟨c, hc, hs, rfl⟩
      have hsz := size_bound
        (Nat.le_trans (hsmall _ e3) (by omega : 1073741822 ≤ 3037000498))
        (Nat.le_trans (hsmall _ e4) (by omega : 1073741822 ≤ 3037000498))
      have hr := @maxTarget_range orderSize minPack maxPack (hpos _ e3) (e5 _ e4).1 hsz
      have h1 := count_lt_inf_of_le (hpos _ e3) (fun x hx => (e5 x hx).1) (hsmall _ e4)
        hreach (by omega)
      have h2 := hmin _ hreach
      omega

theorem dp_table_meaning_witness :
    ∃ minPack maxPack dp frm,
      (sortInts [1, 4, 5]).head? = some minPack ∧
      (sortInts [1, 4, 5]).getLast? = some maxPack ∧
      (0 < add64 (maxTarget 12 minPack maxPack) 1 →
        ((maxTarget 12 minPack maxPack).toNat : Int) = maxTarget 12 minPack maxPack) ∧
      buildTable (sortInts [1, 4, 5]) (maxTarget 12 minPack maxPack).toNat = some (dp, frm) ∧
      dp[0]? = some 0 ∧
      ∀ i, i ≤ (maxTarget 12 minPack maxPack).toNat →
        ∃ v, dp[i]? = some v ∧ v ≤ inf ∧
          (v < inf ↔ ∃ k, k < inf ∧ Reach [1, 4, 5] k i) ∧
          (v < inf → Reach [1, 4, 5] v i ∧ ∀ k, Reach [1, 4, 5] k i → v ≤ k) ∧
          (v < inf → 0 < i →
            ∃ p u, frm[i]? = some p ∧ p ∈ [1, 4, 5] ∧ p ≤ i ∧ dp[i - p]? = some u ∧
              u + 1 = v ∧
              ∀ q ∈ [1, 4, 5], q < p → ∀ u1, dp[i - q]? = some u1 → u1 + 1 ≠ v) ∧
          ((∀ x ∈ [1, 4, 5], x ≤ 1073741822) → (v < inf ↔ Reachable [1, 4, 5] i)) :=
  dp_table_meaning 12 [1, 4, 5] (by decide) (by decide)

/-- C18, counterexample: in the table built for order `8589934591` on pack sizes `2` and
`4294967297`, the cell of `4294967294` holds `inf`, although `4294967294` is the total of
`2147483647` packs of size `2`. -/
theorem dp_inf_at_combination :
    ∃ dp frm,
      buildTable (sortInts [2, 4294967297]) (maxTarget 8589934591 2 4294967297).toNat =
        some (dp, frm) ∧
      dp[4294967294]? = some inf ∧ Reachable [2, 4294967297] 4294967294 := by
  have h : (maxTarget 8589934591 2 4294967297).toNat =
      Exact.maxTarget 8589934591 2 4294967297 := by decide
  rw [h]
  exact exact_inf_cell

/-! ## The sentinel under the bound of `UpdatePackSizes` -/

/-- C24: under the bound of `UpdatePackSizes`, every pack size positive and at most
`maxPackSize = 1000000`, the sentinel `inf = 2^31 - 1` is unambiguous in the table that
`calculateOptimalPacks` builds: `(dpLimit + maxPack + minPack - 2) / minPack` is below
`inf`, and for every amount `i ≤ maxTarget` a cell below `inf` satisfies
`dp[i] ≤ i / minPack ≤ (dpLimit + maxPack + minPack - 2) / minPack`, the cell is below
`inf` exactly when `i` is a combination of the pack sizes, and for such an `i` also
`dp[i] + 1` is below `inf`.  The scalars `dpLimit` and `maxTarget` are not negative here
and are read as natural numbers. -/
theorem sentinel_unambiguous (orderSize : Nat) (packSizes : List Nat) (hne : packSizes ≠ [])
    (hpos : ∀ x ∈ packSizes, 0 < x) (hbound : ∀ x ∈ packSizes, (x : Int) ≤ maxPackSize) :
    ∃ minPack maxPack dp frm,
      (sortInts packSizes).head? = some minPack ∧
      (sortInts packSizes).getLast? = some maxPack ∧
      0 ≤ dpLimit minPack maxPack ∧
      (0 < orderSize → orderSize < 9223372036854775808 →
        0 ≤ maxTarget orderSize minPack maxPack ∧
          0 < add64 (maxTarget orderSize minPack maxPack) 1) ∧
      buildTable (sortInts packSizes) (maxTarget orderSize minPack maxPack).toNat =
        some (dp, frm) ∧
      inf = 2 ^ 31 - 1 ∧
      ((dpLimit minPack maxPack).toNat + maxPack + minPack - 2) / minPack < inf ∧
      ∀ i, i ≤ (maxTarget orderSize minPack maxPack).toNat →
        ∃ v, dp[i]? = some v ∧
          (v < inf → v ≤ i / minPack) ∧
          i / minPack ≤ ((dpLimit minPack maxPack).toNat + maxPack + minPack - 2) / minPack ∧
          (v < inf ↔ Reachable packSizes i) ∧
          (Reachable packSizes i → v + 1 < inf) := by
  obtain ⟨minPack, maxPack, e1, e2, e3, e4, e5⟩ := sortInts_ends hne
  obtain ⟨dp, frm, htab, ht⟩ := buildTable_spec (sortInts_sorted packSizes)
    (fun x hx => hpos x (mem_sortInts.1 hx)) (maxTarget orderSize minPack maxPack).toNat
  have hmin := hpos _ e3
  have hmax := hpos _ e4
  have hmm : minPack ≤ maxPack := (e5 _ e4).1
  have hM : maxPack ≤ 1000000 := by
    have := hbound maxPack e4
    unfold maxPackSize at this
    omega
  have hsz := size_bound (by omega : minPack ≤ 3037000498) (by omega : maxPack ≤ 3037000498)
  have hq := cell_bound_small minPack maxPack hmin hmm hM
  have hmt := @maxTarget_range orderSize minPack maxPack hmin hmm hsz
  have hL := dpLimit_exact hmin hsz
  have hLn : (dpLimit minPack maxPack).toNat = Exact.dpLimit minPack maxPack := by
    rw [hL, Int.toNat_ofNat]
  refine ⟨minPack, maxPack, dp, frm, e1, e2, by rw [hL]; omega, ?_, htab, by simp [inf],
    by rw [hLn]; unfold inf; omega, ?_⟩
  · intro ho ho63
    have hl := @table_length_lt orderSize minPack maxPack hmin hmax hsz
    rw [maxTarget_exact hmin hmax hsz ho63]
    refine ⟨by omega, ?_⟩
    have h1 : add64 (Exact.maxTarget orderSize minPack maxPack : Int) 1 =
        (Exact.maxTarget orderSize minPack maxPack : Int) + 1 := by
      unfold add64
      have h2 : Exact.maxTarget orderSize minPack maxPack + 1 =
          Exact.effOrder orderSize minPack maxPack + minPack := by
        have := @eff_pos orderSize minPack maxPack ho hmax
        unfold Exact.maxTarget
        omega
      exact wrap_eq (by omega) (by omega)
    rw [h1]
    omega
  rw [hLn]
  intro i hi
  obtain ⟨v, hv⟩ := ht.get hi
  have hdiv : i / minPack ≤ (Exact.dpLimit minPack maxPack + maxPack + minPack - 2) / minPack :=
    Nat.div_le_div_right (by omega)
  have hcell : ∀ k, Reach packSizes k i → v ≤ k ∧ k ≤ i / minPack := by
    intro k hk
    have h1 := ht.le_of_reach hv (reach_sortInts.2 hk)
    have h2 : minPack * k ≤ i := Reach.le_sum (fun x hx => (e5 x hx).1) hk
    have h3 : k ≤ i / minPack := (Nat.le_div_iff_mul_le hmin).2 (by rw [Nat.mul_comm]; exact h2)
    exact ⟨h1, h3⟩
  have hfin : Reachable packSizes i → v + 1 < inf := by
    rintro ⟨c, hc, hs⟩
    have := hcell c.length ⟨c, hc, hs, rfl⟩
    unfold inf
    omega
  refine ⟨v, hv, ?_, hdiv, ⟨?_, ?_⟩, hfin⟩
  · intro hlt
    exact (hcell v (reach_sortInts.1 (ht.reach hv hlt))).2
  · intro hlt
    exact (reach_sortInts.1 (ht.reach hv hlt)).reachable
  · intro hr
    have := hfin hr
    omega

theorem sentinel_unambiguous_witness :
    ∃ minPack maxPack dp frm,
      (sortInts [250, 500, 1000, 2000, 5000]).head? = some minPack ∧
      (sortInts [250, 500, 1000, 2000, 5000]).getLast? = some maxPack ∧
      0 ≤ dpLimit minPack maxPack ∧
      (0 < 12001 → 12001 < 9223372036854775808 →
        0 ≤ maxTarget 12001 minPack maxPack ∧ 0 < add64 (maxTarget 12001 minPack maxPack) 1) ∧
      buildTable (sortInts [250, 500, 1000, 2000, 5000])
        (maxTarget 12001 minPack maxPack).toNat = some (dp, frm) ∧
      inf = 2 ^ 31 - 1 ∧
      ((dpLimit minPack maxPack).toNat + maxPack + minPack - 2) / minPack < inf ∧
      ∀ i, i ≤ (maxTarget 12001 minPack maxPack).toNat →
        ∃ v, dp[i]? = some v ∧
          (v < inf → v ≤ i / minPack) ∧
          i / minPack ≤ ((dpLimit minPack maxPack).toNat + maxPack + minPack - 2) / minPack ∧
          (v < inf ↔ Reachable [250, 500, 1000, 2000, 5000] i) ∧
          (Reachable [250, 500, 1000, 2000, 5000] i → v + 1 < inf) :=
  sentinel_unambiguous 12001 [250, 500, 1000, 2000, 5000] (by decide) (by decide) (by decide)

/-! ## The large-order reduction -/

/-- C19, as amended: for an order below `2^63` and pack sizes of at most `3037000498` the
large-order reduction is exact and bounded.  With `minPack` and `maxPack` the ends of the
sorted pack sizes, `dpLimit = max(minPack*maxPack, maxPack+minPack)`,
`baseLargePacks ≥ 0` and `orderSize = baseLargePacks * maxPack + effOrder`; above
`dpLimit`, `baseLargePacks` is the largest `k` with `k * maxPack + dpLimit ≤ orderSize`, so
that `dpLimit ≤ effOrder ≤ dpLimit + maxPack - 1`; otherwise `baseLargePacks = 0` and
`effOrder = orderSize`; and the table length `maxTarget + 1 = effOrder + minPack` is at
most `dpLimit + maxPack + minPack - 1`. -/
theorem reduction_exact (orderSize : Nat) (packSizes : List Nat) (ho : 0 < orderSize)
    (hne : packSizes ≠ []) (hpos : ∀ x ∈ packSizes, 0 < x)
    (hsz : ∀ x ∈ packSizes, x ≤ 3037000498) (ho63 : orderSize < 9223372036854775808) :
    ∃ minPack maxPack, (sortInts packSizes).head? = some minPack ∧
      (sortInts packSizes).getLast? = some maxPack ∧
      dpLimit minPack maxPack = max ((minPack : Int) * maxPack) (maxPack + minPack) ∧
      0 ≤ baseLargePacks orderSize minPack maxPack ∧
      baseLargePacks orderSize minPack maxPack * maxPack + effOrder orderSize minPack maxPack =
        orderSize ∧
      (dpLimit minPack maxPack < orderSize →
        baseLargePacks orderSize minPack maxPack * maxPack + dpLimit minPack maxPack ≤
          orderSize ∧
        (∀ k : Int, k * maxPack + dpLimit minPack maxPack ≤ orderSize →
          k ≤ baseLargePacks orderSize minPack maxPack) ∧
        dpLimit minPack maxPack ≤ effOrder orderSize minPack maxPack ∧
        effOrder orderSize minPack maxPack ≤ dpLimit minPack maxPack + maxPack - 1) ∧
      ((orderSize : Int) ≤ dpLimit minPack maxPack →
        baseLargePacks orderSize minPack maxPack = 0 ∧
        effOrder orderSize minPack maxPack = orderSize) ∧
      0 < effOrder orderSize minPack maxPack ∧
      maxTarget orderSize minPack maxPack + 1 = effOrder orderSize minPack maxPack + minPack ∧
      maxTarget orderSize minPack maxPack + 1 ≤
        dpLimit minPack maxPack + maxPack + minPack - 1 := by
  obtain ⟨minPack, maxPack, h1, h2, h3, h4, h5, h6, h7, h8, h9⟩ :=
    exact_reduction orderSize packSizes ho hne hpos
  obtain ⟨a, b, e1, e2, e3, e4, _⟩ := sortInts_ends hne
  rw [h1] at e1
  rw [h2] at e2
  cases e1
  cases e2
  have hmin := hpos _ e3
  have hmax := hpos _ e4
  have hs := size_bound (hsz _ e3) (hsz _ e4)
  refine ⟨minPack, maxPack, h1, h2, ?_⟩
  rw [dpLimit_exact hmin hs, baseLargePacks_exact hmin hs ho63, effOrder_exact hmin hs ho63,
    maxTarget_exact hmin hmax hs ho63]
  generalize Exact.dpLimit minPack maxPack = L at *
  generalize Exact.baseLargePacks orderSize minPack maxPack = B at *
  generalize Exact.effOrder orderSize minPack maxPack = E at *
  generalize Exact.maxTarget orderSize minPack maxPack = T at *
  have hprod : ((B * maxPack : Nat) : Int) = (B : Int) * maxPack := by push_cast; rfl
  refine ⟨?_, by omega, by omega, ?_, ?_, by omega, by omega, by omega⟩
  · rw [h3]
    push_cast
    rfl
  · intro hlt
    have hltN : L < orderSize := by exact_mod_cast hlt
    obtain ⟨q1, q2, q3, q4⟩ := h5 hltN
    refine ⟨by omega, ?_, by omega, by omega⟩
    intro k hk
    by_contra hcon
    have hk1 : (B : Int) + 1 ≤ k := by omega
    have hk2 : ((B : Int) + 1) * maxPack ≤ k * maxPack :=
      Int.mul_le_mul_of_nonneg_right hk1 (by omega)
    have hk3 : (B + 1) * maxPack + L ≤ orderSize := by
      have : (((B + 1) * maxPack + L : Nat) : Int) ≤ orderSize := by
        push_cast
        omega
      exact_mod_cast this
    have := q2 (B + 1) hk3
    omega
  · intro hle
    have hleN : orderSize ≤ L := by exact_mod_cast hle
    obtain ⟨q1, q2⟩ := h6 hleN
    exact ⟨by omega, by omega⟩

theorem reduction_exact_witness :
    ∃ minPack maxPack, (sortInts [17, 31, 47]).head? = some minPack ∧
      (sortInts [17, 31, 47]).getLast? = some maxPack ∧
      dpLimit minPack maxPack = max ((minPack : Int) * maxPack) (maxPack + minPack) ∧
      0 ≤ baseLargePacks 5000 minPack maxPack ∧
      baseLargePacks 5000 minPack maxPack * maxPack + effOrder 5000 minPack maxPack =
        (5000 : Nat) ∧
      (dpLimit minPack maxPack < (5000 : Nat) →
        baseLargePacks 5000 minPack maxPack * maxPack + dpLimit minPack maxPack ≤
          (5000 : Nat) ∧
        (∀ k : Int, k * maxPack + dpLimit minPack maxPack ≤ (5000 : Nat) →
          k ≤ baseLargePacks 5000 minPack maxPack) ∧
        dpLimit minPack maxPack ≤ effOrder 5000 minPack maxPack ∧
        effOrder 5000 minPack maxPack ≤ dpLimit minPack maxPack + maxPack - 1) ∧
      (((5000 : Nat) : Int) ≤ dpLimit minPack maxPack →
        baseLargePacks 5000 minPack maxPack = 0 ∧
        effOrder 5000 minPack maxPack = (5000 : Nat)) ∧
      0 < effOrder 5000 minPack maxPack ∧
      maxTarget 5000 minPack maxPack + 1 = effOrder 5000 minPack maxPack + minPack ∧
      maxTarget 5000 minPack maxPack + 1 ≤ dpLimit minPack maxPack + maxPack + minPack - 1 :=
  reduction_exact 5000 [17, 31, 47] (by decide) (by decide) (by decide) (by decide)
    (by decide)

/-- C19, counterexample: with the pack sizes `4294967296` and `4294967297` the product
`minPack * maxPack` overflows to `4294967296`, so `dpLimit` is the sum `8589934593` and not
the larger of product and sum, `18446744078004518912`. -/
theorem dpLimit_not_max :
    (∀ x ∈ [4294967296, 4294967297], 0 < x) ∧
      (sortInts [4294967296, 4294967297]).head? = some 4294967296 ∧
      (sortInts [4294967296, 4294967297]).getLast? = some 4294967297 ∧
      dpLimit 4294967296 4294967297 = 8589934593 ∧
      max ((4294967296 : Int) * 4294967297) (4294967297 + 4294967296) =
        18446744078004518912 := by
  decide

/-! ## The search on a table that was allocated -/

/-- The number of iterations of the search, on scalars that did not overflow. -/
theorem fuel_exact {orderSize minPack maxPack : Nat} (hmin : 0 < minPack)
    (h : minPack * maxPack + maxPack + 2 * minPack ≤ 9223372036854775808)
    (ho : orderSize < 9223372036854775808) :
    (Int.tdiv (effOrder orderSize minPack maxPack) maxPack + 1).toNat =
      Exact.effOrder orderSize minPack maxPack / maxPack + 1 := by
  rw [effOrder_exact hmin h ho, ← Int.ofNat_tdiv]
  have h1 : ((Exact.effOrder orderSize minPack maxPack / maxPack : Nat) : Int) + 1 =
      ((Exact.effOrder orderSize minPack maxPack / maxPack + 1 : Nat) : Int) := by
    push_cast
    rfl
  rw [h1, Int.toNat_ofNat]

/-- The table length on scalars that did not overflow. -/
theorem table_length_exact {orderSize minPack maxPack : Nat} (hmin : 0 < minPack)
    (hmax : 0 < maxPack)
    (h : minPack * maxPack + maxPack + 2 * minPack ≤ 9223372036854775808)
    (ho : orderSize < 9223372036854775808) :
    add64 (maxTarget orderSize minPack maxPack) 1 =
        ((Exact.maxTarget orderSize minPack maxPack + 1 : Nat) : Int) ∧
      (maxTarget orderSize minPack maxPack).toNat =
        Exact.maxTarget orderSize minPack maxPack := by
  have hl := @table_length_lt orderSize minPack maxPack hmin hmax h
  have hmt : Exact.maxTarget orderSize minPack maxPack + 1 ≤
      Exact.effOrder orderSize minPack maxPack + minPack := by
    unfold Exact.maxTarget
    omega
  rw [maxTarget_exact hmin hmax h ho, Int.toNat_ofNat]
  refine ⟨?_, rfl⟩
  unfold add64
  rw [wrap_eq (by omega) (by omega)]
  push_cast
  rfl

/-- The first iteration of the 64-bit search on a window that holds a cell below `inf`:
the search ends with a candidate, built from a cell below `inf`. -/
theorem searchLoop_first {dp : List Nat} {m : Nat} (hlen : dp.length = m + 1)
    (minPack maxPack : Nat) (base : Int) (E : Nat) (P : solution → Prop)
    (hP : ∀ (t d : Nat) (e : Int), dp[t]? = some d → d < inf → t ≤ m →
      P { dpAmount := t, largePacks := add64 base e,
          totalItems := add64 (mul64 (add64 base e) maxPack) t,
          totalPacks := add64 (add64 base e) d })
    (n : Nat) (hE : E + minPack = m + 1) (hm63 : m + 1 < 9223372036854775808)
    {t d : Nat} (hscan : scanWindow dp minPack E = some (some (t, d)))
    (hcell : dp[t]? = some d) (hd : d < inf) (ht : t ≤ m) :
    ∃ s, searchLoop dp minPack maxPack base (E : Int) (m : Int) (n + 1) 0 none =
      some (some s) ∧ P s := by
  have hrem : sub64 (E : Int) (mul64 0 maxPack) = E := by
    unfold sub64 mul64
    rw [Int.zero_mul]
    have h0 : wrap 0 = 0 := wrap_eq (by omega) (by omega)
    rw [h0, Int.sub_zero]
    exact wrap_eq (by omega) (by omega)
  have hend : sub64 (add64 (E : Int) minPack) 1 = m := by
    rw [sub64_add64, wrap_eq (by omega) (by omega)]
    omega
  have hw : ((m : Int) + 1 - E).toNat = minPack := by omega
  rw [searchLoop]
  simp only []
  rw [hrem, if_neg (by omega), hend, if_neg (lt_irrefl _), hw, Int.toNat_ofNat, hscan]
  simp only []
  have hc := hP t d 0 hcell hd ht
  obtain ⟨r, hr1, hr2, hr3⟩ := searchLoop_inv hlen minPack maxPack base (E : Int) P hP n
    (add64 0 1)
    (keepBest none
      { dpAmount := t, largePacks := add64 base 0,
        totalItems := add64 (mul64 (add64 base 0) maxPack) t,
        totalPacks := add64 (add64 base 0) d })
    (by
      intro s hs
      rw [keepBest] at hs
      cases hs
      exact hc)
  cases r with
  | none =>
    exfalso
    refine hr3 ?_ rfl
    rw [keepBest]
    exact Option.some_ne_none _
  | some s => exact ⟨s, hr1, hr2 s rfl⟩

/-- The reconstruction from a candidate that was built from a cell below `inf` returns a
map. -/
theorem finish_of_cell {ps : List Nat} {mt : Nat} {dp frm : List Nat}
    (htab : TableOK ps mt dp frm) (orderSize minPack maxPack : Nat) {s : solution}
    {d : Nat} (hd : dp[s.dpAmount.toNat]? = some d) (hlt : d < inf) :
    ∃ w : List Nat,
      walk frm s.dpAmount.toNat s.dpAmount.toNat
          (if s.largePacks > 0 then [(maxPack, s.largePacks.toNat)] else []) =
        some (applyPacks w (if s.largePacks > 0 then [(maxPack, s.largePacks.toNat)] else [])) ∧
      (∀ x ∈ w, x ∈ ps) ∧ w.sum = s.dpAmount.toNat ∧ w.length = d ∧
      finish orderSize minPack maxPack frm (some s) =
        some (intCounts
          (applyPacks w (if s.largePacks > 0 then [(maxPack, s.largePacks.toNat)] else []))) := by
  obtain ⟨w, hw1, hw2, hw3, hw4⟩ :=
    walk_spec htab s.dpAmount.toNat s.dpAmount.toNat d
      (if s.largePacks > 0 then [(maxPack, s.largePacks.toNat)] else []) (Nat.le_refl _) hd hlt
  refine ⟨w, hw1, hw2, hw3, hw4, ?_⟩
  rw [finish, hw1, Option.map_some']

/-! ## Totality -/

/-- C17, as amended: on a non-empty list of positive pack sizes, none above `3037000498`,
and an order below `2^63`, the solver returns a mapping whenever its table of
`maxTarget + 1` cells can be allocated.  The table length is positive; every read of `dp`
and `from` is bounds-checked in `buildTable`, `searchLoop` and `walk`, and all three
return; at every cell `r > 0` below `inf`, `from[r]` is a pack size with
`1 ≤ from[r] ≤ r` whose predecessor cell `r - from[r]` is below `inf` and the total of a
combination; and the walk from the retained candidate returns having subtracted packs
that total exactly `dpAmount`. -/
theorem solver_total (cells orderSize : Nat) (packSizes : List Nat)
    (hne : packSizes ≠ []) (hpos : ∀ x ∈ packSizes, 0 < x)
    (hsz : ∀ x ∈ packSizes, x ≤ 3037000498) (ho63 : orderSize < 9223372036854775808)
    (hcells : ∀ minPack maxPack, (sortInts packSizes).head? = some minPack →
      (sortInts packSizes).getLast? = some maxPack →
      add64 (maxTarget orderSize minPack maxPack) 1 ≤ cells) :
    ∃ minPack maxPack dp frm best result,
      (sortInts packSizes).head? = some minPack ∧
      (sortInts packSizes).getLast? = some maxPack ∧
      0 < add64 (maxTarget orderSize minPack maxPack) 1 ∧
      add64 (maxTarget orderSize minPack maxPack) 1 =
        ((maxTarget orderSize minPack maxPack).toNat : Int) + 1 ∧
      buildTable (sortInts packSizes) (maxTarget orderSize minPack maxPack).toNat =
        some (dp, frm) ∧
      dp.length = (maxTarget orderSize minPack maxPack).toNat + 1 ∧
      frm.length = (maxTarget orderSize minPack maxPack).toNat + 1 ∧
      searchLoop dp minPack maxPack (baseLargePacks orderSize minPack maxPack)
        (effOrder orderSize minPack maxPack) (maxTarget orderSize minPack maxPack)
        (Int.tdiv (effOrder orderSize minPack maxPack) maxPack + 1).toNat 0 none =
          some best ∧
      (∀ r v, 0 < r → dp[r]? = some v → v < inf →
        ∃ p u, frm[r]? = some p ∧ p ∈ packSizes ∧ 1 ≤ p ∧ p ≤ r ∧
          dp[r - p]? = some u ∧ u < inf ∧ Reachable packSizes (r - p)) ∧
      (∀ s, best = some s → 0 ≤ s.dpAmount ∧
        ∃ w : List Nat,
          walk frm s.dpAmount.toNat s.dpAmount.toNat
              (if s.largePacks > 0 then [(maxPack, s.largePacks.toNat)] else []) =
            some (applyPacks w
              (if s.largePacks > 0 then [(maxPack, s.largePacks.toNat)] else [])) ∧
          (∀ x ∈ w, x ∈ packSizes ∧ 1 ≤ x) ∧ w.sum = s.dpAmount.toNat) ∧
      calculateOptimalPacks orderSize packSizes = some result ∧
      calculateOptimalPacksWithin cells orderSize packSizes = some result := by
  obtain ⟨minPack, maxPack, dp, frm, bestE, r, htab, _⟩ :=
    run_trace orderSize packSizes hne hpos
  have hmin := r.minPos
  have hmax := r.maxPos
  have hs := size_bound (hsz _ r.minMem) (hsz _ r.maxMem)
  obtain ⟨hlen1, hlen2⟩ := table_length_exact hmin hmax hs ho63
  have hrun := calculateOptimalPacks_run r htab hs ho63
  obtain ⟨best, hbest, hPbest, _⟩ := searchLoop_inv r.table.1 minPack maxPack
    (Exact.baseLargePacks orderSize minPack maxPack : Int)
    (Exact.effOrder orderSize minPack maxPack : Int)
    (fun s => 0 ≤ s.dpAmount ∧ ∃ d, dp[s.dpAmount.toNat]? = some d ∧ d < inf)
    (fun t d e h1 h2 _ => ⟨Int.ofNat_nonneg t, d, by rw [Int.toNat_ofNat]; exact h1, h2⟩)
    (Exact.effOrder orderSize minPack maxPack / maxPack + 1) 0 none
    (fun s hs => by cases hs)
  rw [hbest, Option.some_bind] at hrun
  have hwalk : ∀ s, best = some s → 0 ≤ s.dpAmount ∧
      ∃ w : List Nat,
        walk frm s.dpAmount.toNat s.dpAmount.toNat
            (if s.largePacks > 0 then [(maxPack, s.largePacks.toNat)] else []) =
          some (applyPacks w
            (if s.largePacks > 0 then [(maxPack, s.largePacks.toNat)] else [])) ∧
        (∀ x ∈ w, x ∈ packSizes ∧ 1 ≤ x) ∧ w.sum = s.dpAmount.toNat := by
    intro s hs
    obtain ⟨h0, d, hd, hlt⟩ := hPbest s hs
    obtain ⟨w, hw1, hw2, hw3, _⟩ := finish_of_cell r.table orderSize minPack maxPack hd hlt
    exact ⟨h0, w, hw1,
      fun x hx => ⟨mem_sortInts.1 (hw2 x hx), hpos x (mem_sortInts.1 (hw2 x hx))⟩, hw3⟩
  have hres : ∃ result, calculateOptimalPacks orderSize packSizes = some result := by
    rw [hrun]
    cases best with
    | none =>
      rw [finish, if_neg (by omega)]
      exact ⟨_, rfl⟩
    | some s =>
      obtain ⟨h0, d, hd, hlt⟩ := hPbest s rfl
      obtain ⟨w, _, _, _, _, hw5⟩ := finish_of_cell r.table orderSize minPack maxPack hd hlt
      exact ⟨_, hw5⟩
  obtain ⟨result, hresult⟩ := hres
  have hfits := hcells minPack maxPack r.headEq r.lastEq
  refine ⟨minPack, maxPack, dp, frm, best, result, r.headEq, r.lastEq, ?_, ?_, ?_, ?_, ?_, ?_,
    ?_, hwalk, hresult, ?_⟩
  · rw [hlen1]
    omega
  · rw [hlen1, hlen2]
    push_cast
    rfl
  · rw [hlen2]
    exact htab
  · rw [hlen2]
    exact r.table.1
  · rw [hlen2]
    exact r.table.2.1
  · rw [fuel_exact hmin hs ho63, baseLargePacks_exact hmin hs ho63,
      effOrder_exact hmin hs ho63, maxTarget_exact hmin hmax hs ho63]
    exact hbest
  · intro i v hi hv hlt
    have him : i ≤ Exact.maxTarget orderSize minPack maxPack := by
      have := (List.getElem?_eq_some.1 hv).1
      have := r.table.1
      omega
    obtain ⟨v1, hv1, _, _, _, h5⟩ := r.table.2.2 i him
    rw [hv] at hv1
    cases hv1
    obtain ⟨p, hp1, hp2, hp3, hp4, ⟨u, hu1, hu2⟩, _⟩ := h5 hlt hi
    have hu : u < inf := by omega
    exact ⟨p, u, hp1, mem_sortInts.1 hp2, hp3, hp4, hu1, hu,
      (reach_sortInts.1 (r.table.reach hu1 hu)).reachable⟩
  · unfold calculateOptimalPacksWithin
    simp only [r.headEq, r.lastEq]
    rw [if_neg (by omega)]
    exact hresult

theorem solver_total_witness :
    ∃ minPack maxPack dp frm best result,
      (sortInts [1, 4, 5]).head? = some minPack ∧
      (sortInts [1, 4, 5]).getLast? = some maxPack ∧
      0 < add64 (maxTarget 12 minPack maxPack) 1 ∧
      add64 (maxTarget 12 minPack maxPack) 1 =
        ((maxTarget 12 minPack maxPack).toNat : Int) + 1 ∧
      buildTable (sortInts [1, 4, 5]) (maxTarget 12 minPack maxPack).toNat = some (dp, frm) ∧
      dp.length = (maxTarget 12 minPack maxPack).toNat + 1 ∧
      frm.length = (maxTarget 12 minPack maxPack).toNat + 1 ∧
      searchLoop dp minPack maxPack (baseLargePacks 12 minPack maxPack)
        (effOrder 12 minPack maxPack) (maxTarget 12 minPack maxPack)
        (Int.tdiv (effOrder 12 minPack maxPack) maxPack + 1).toNat 0 none = some best ∧
      (∀ r v, 0 < r → dp[r]? = some v → v < inf →
        ∃ p u, frm[r]? = some p ∧ p ∈ [1, 4, 5] ∧ 1 ≤ p ∧ p ≤ r ∧
          dp[r - p]? = some u ∧ u < inf ∧ Reachable [1, 4, 5] (r - p)) ∧
      (∀ s, best = some s → 0 ≤ s.dpAmount ∧
        ∃ w : List Nat,
          walk frm s.dpAmount.toNat s.dpAmount.toNat
              (if s.largePacks > 0 then [(maxPack, s.largePacks.toNat)] else []) =
            some (applyPacks w
              (if s.largePacks > 0 then [(maxPack, s.largePacks.toNat)] else [])) ∧
          (∀ x ∈ w, x ∈ [1, 4, 5] ∧ 1 ≤ x) ∧ w.sum = s.dpAmount.toNat) ∧
      calculateOptimalPacks 12 [1, 4, 5] = some result ∧
      calculateOptimalPacksWithin 1000 12 [1, 4, 5] = some result :=
  solver_total 1000 12 [1, 4, 5] (by decide) (by decide) (by decide) (by decide)
    (by
      intro minPack maxPack h1 h2
      have e1 : minPack = 1 := by
        have h : (sortInts [1, 4, 5]).head? = some 1 := by decide
        rw [h] at h1
        exact (Option.some.inj h1).symm
      have e2 : maxPack = 5 := by
        have h : (sortInts [1, 4, 5]).getLast? = some 5 := by decide
        rw [h] at h2
        exact (Option.some.inj h2).symm
      subst e1 e2
      decide)

/-- C17, counterexample: on the order `1000` with the single pack size `2^63 - 2` the
table length `maxTarget + 1` overflows to a negative number, so `make` panics and no
mapping is returned. -/
theorem solver_panics :
    0 < 1000 ∧ (∀ x ∈ [9223372036854775806], 0 < x) ∧
      add64 (maxTarget 1000 9223372036854775806 9223372036854775806) 1 =
        -9223372036854774810 ∧
      calculateOptimalPacks 1000 [9223372036854775806] = none := by
  decide

/-! ## The fallback -/

/-- C22, as amended: when no pack size exceeds `1073741822`, on every non-empty slice of
positive pack sizes and every order below `2^63` the iteration `extra = 0` of the search
does not leave the loop and is not skipped, its `searchEnd` being `maxTarget`; a multiple
of `minPack` lies in the window `effOrder .. effOrder + minPack - 1`, is a combination of
the pack sizes and has its cell below `inf`; the scan of that window returns a reachable
amount, the search ends with a candidate, and `calculateOptimalPacks` returns through the
reconstruction from that candidate, not through the fallback. -/
theorem fallback_unreachable (orderSize : Nat) (packSizes : List Nat) (hne : packSizes ≠ [])
    (hpos : ∀ x ∈ packSizes, 0 < x) (hsmall : ∀ x ∈ packSizes, x ≤ 1073741822)
    (ho63 : orderSize < 9223372036854775808) :
    ∃ minPack maxPack dp frm s t d m,
      (sortInts packSizes).head? = some minPack ∧
      (sortInts packSizes).getLast? = some maxPack ∧
      buildTable (sortInts packSizes) (maxTarget orderSize minPack maxPack).toNat =
        some (dp, frm) ∧
      ¬ sub64 (effOrder orderSize minPack maxPack) (mul64 0 maxPack) < 0 ∧
      sub64 (add64 (sub64 (effOrder orderSize minPack maxPack) (mul64 0 maxPack)) minPack) 1 =
        maxTarget orderSize minPack maxPack ∧
      (∃ k v : Nat, effOrder orderSize minPack maxPack ≤ ((minPack * k : Nat) : Int) ∧
        ((minPack * k : Nat) : Int) ≤ effOrder orderSize minPack maxPack + minPack - 1 ∧
        Reachable packSizes (minPack * k) ∧ dp[minPack * k]? = some v ∧ v < inf) ∧
      (scanWindow dp
          (maxTarget orderSize minPack maxPack + 1 - effOrder orderSize minPack maxPack).toNat
          (effOrder orderSize minPack maxPack).toNat = some (some (t, d)) ∧
        d < inf ∧ effOrder orderSize minPack maxPack ≤ (t : Int) ∧
        (t : Int) ≤ effOrder orderSize minPack maxPack + minPack - 1 ∧
        Reachable packSizes t) ∧
      searchLoop dp minPack maxPack (baseLargePacks orderSize minPack maxPack)
        (effOrder orderSize minPack maxPack) (maxTarget orderSize minPack maxPack)
        (Int.tdiv (effOrder orderSize minPack maxPack) maxPack + 1).toNat 0 none =
          some (some s) ∧
      walk frm s.dpAmount.toNat s.dpAmount.toNat
          (if s.largePacks > 0 then [(maxPack, s.largePacks.toNat)] else []) = some m ∧
      calculateOptimalPacks orderSize packSizes = some (intCounts m) := by
  obtain ⟨minPack, maxPack, dp, frm, bestE, r, htab, hsearchE⟩ :=
    run_trace orderSize packSizes hne hpos
  have hmin := r.minPos
  have hmax := r.maxPos
  have hs := size_bound
    (Nat.le_trans (hsmall _ r.minMem) (by omega : 1073741822 ≤ 3037000498))
    (Nat.le_trans (hsmall _ r.maxMem) (by omega : 1073741822 ≤ 3037000498))
  obtain ⟨hlen1, hlen2⟩ := table_length_exact hmin hmax hs ho63
  have hl := @table_length_lt orderSize minPack maxPack hmin hmax hs
  have hmt := r.maxTarget_eq
  have hrun := calculateOptimalPacks_run r htab hs ho63
  obtain ⟨sE, _, hc0, _, _⟩ := r.best_is_first hsmall hsearchE
  obtain ⟨d, hscan, _⟩ := scan_extra_zero r.table.1 hmin hc0
  obtain ⟨_, _, c3, c4, _, _, _, d1, hd1, hlt1, _⟩ := hc0
  simp only [Nat.zero_mul, Nat.sub_zero] at c3 c4
  have hdd : d1 = d := by
    rcases scanWindow_spec r.table.1 minPack (Exact.effOrder orderSize minPack maxPack)
        (by omega) with ⟨hs1, _⟩ | ⟨t1, d2, hs1, _, _, hs4, _, _⟩
    · rw [hs1] at hscan
      cases hscan
    · rw [hs1] at hscan
      cases hscan
      rw [hd1] at hs4
      exact Option.some.inj hs4
  subst hdd
  obtain ⟨s, hsearch, h0, d2, hd2, hlt2⟩ := searchLoop_first r.table.1 minPack maxPack
    (Exact.baseLargePacks orderSize minPack maxPack : Int)
    (Exact.effOrder orderSize minPack maxPack)
    (fun s => 0 ≤ s.dpAmount ∧ ∃ d, dp[s.dpAmount.toNat]? = some d ∧ d < inf)
    (fun t d e h1 h2 _ => ⟨Int.ofNat_nonneg t, d, by rw [Int.toNat_ofNat]; exact h1, h2⟩)
    (Exact.effOrder orderSize minPack maxPack / maxPack) (by omega) (by omega)
    hscan hd1 hlt1 (by omega)
  obtain ⟨w, hw1, _, _, _, hw5⟩ := finish_of_cell r.table orderSize minPack maxPack hd2 hlt2
  have hrem : sub64 (Exact.effOrder orderSize minPack maxPack : Int) (mul64 0 maxPack) =
      Exact.effOrder orderSize minPack maxPack := by
    unfold sub64 mul64
    rw [Int.zero_mul]
    have h0 : wrap 0 = 0 := wrap_eq (by omega) (by omega)
    rw [h0, Int.sub_zero]
    exact wrap_eq (by omega) (by omega)
  refine ⟨minPack, maxPack, dp, frm, s, sE.dpAmount, d1, _, r.headEq, r.lastEq, ?_, ?_, ?_,
    ?_, ?_, ?_, hw1, ?_⟩
  · rw [hlen2]
    exact htab
  · rw [effOrder_exact hmin hs ho63, hrem]
    exact Int.not_lt.2 (Int.ofNat_nonneg _)
  · rw [effOrder_exact hmin hs ho63, maxTarget_exact hmin hmax hs ho63, hrem, sub64_add64,
      wrap_eq (by omega) (by omega)]
    omega
  · rw [effOrder_exact hmin hs ho63]
    clear hrun hsearch hw5 hw1 hrem hlen1 hlen2 h0 hd2 hlt2
    obtain ⟨m1, m2⟩ := multiple_in_window (Exact.effOrder orderSize minPack maxPack) minPack hmin
    have hreach := Reach.replicate r.minMem
      ((Exact.effOrder orderSize minPack maxPack + minPack - 1) / minPack)
    rw [Nat.mul_comm] at hreach
    have hi : minPack * ((Exact.effOrder orderSize minPack maxPack + minPack - 1) / minPack) ≤
        Exact.maxTarget orderSize minPack maxPack := by omega
    obtain ⟨v, hv⟩ := r.table.get hi
    have h1 := r.table.le_of_reach hv (reach_sortInts.2 hreach)
    have h2 := r.count_lt_inf hsmall hreach hi
    exact ⟨_, v, by omega, by omega, hreach.reachable, hv, by omega⟩
  · rw [effOrder_exact hmin hs ho63, maxTarget_exact hmin hmax hs ho63, Int.toNat_ofNat]
    clear hrun hsearch hw5 hw1 hrem hlen1 hlen2 h0 hd2 hlt2
    have hw : ((Exact.maxTarget orderSize minPack maxPack : Int) + 1 -
        (Exact.effOrder orderSize minPack maxPack : Int)).toNat = minPack := by omega
    rw [hw]
    exact ⟨hscan, hlt1, by omega, by omega,
      (reach_sortInts.1 (r.table.reach hd1 hlt1)).reachable⟩
  · rw [fuel_exact hmin hs ho63, baseLargePacks_exact hmin hs ho63,
      effOrder_exact hmin hs ho63, maxTarget_exact hmin hmax hs ho63]
    exact hsearch
  · rw [hrun, hsearch, Option.some_bind]
    exact hw5

theorem fallback_unreachable_witness :
    ∃ minPack maxPack dp frm s t d m,
      (sortInts [1, 4, 5]).head? = some minPack ∧
      (sortInts [1, 4, 5]).getLast? = some maxPack ∧
      buildTable (sortInts [1, 4, 5]) (maxTarget 12 minPack maxPack).toNat = some (dp, frm) ∧
      ¬ sub64 (effOrder 12 minPack maxPack) (mul64 0 maxPack) < 0 ∧
      sub64 (add64 (sub64 (effOrder 12 minPack maxPack) (mul64 0 maxPack)) minPack) 1 =
        maxTarget 12 minPack maxPack ∧
      (∃ k v : Nat, effOrder 12 minPack maxPack ≤ ((minPack * k : Nat) : Int) ∧
        ((minPack * k : Nat) : Int) ≤ effOrder 12 minPack maxPack + minPack - 1 ∧
        Reachable [1, 4, 5] (minPack * k) ∧ dp[minPack * k]? = some v ∧ v < inf) ∧
      (scanWindow dp (maxTarget 12 minPack maxPack + 1 - effOrder 12 minPack maxPack).toNat
          (effOrder 12 minPack maxPack).toNat = some (some (t, d)) ∧
        d < inf ∧ effOrder 12 minPack maxPack ≤ (t : Int) ∧
        (t : Int) ≤ effOrder 12 minPack maxPack + minPack - 1 ∧
        Reachable [1, 4, 5] t) ∧
      searchLoop dp minPack maxPack (baseLargePacks 12 minPack maxPack)
        (effOrder 12 minPack maxPack) (maxTarget 12 minPack maxPack)
        (Int.tdiv (effOrder 12 minPack maxPack) maxPack + 1).toNat 0 none = some (some s) ∧
      walk frm s.dpAmount.toNat s.dpAmount.toNat
          (if s.largePacks > 0 then [(maxPack, s.largePacks.toNat)] else []) = some m ∧
      calculateOptimalPacks 12 [1, 4, 5] = some (intCounts m) :=
  fallback_unreachable 12 [1, 4, 5] (by decide) (by decide) (by decide) (by decide)

/-- C22, counterexample: on the order `4294967294` with the pack sizes `2` and `4294967297`
the only iteration of the search, `extra = 0`, finds nothing, although the order is
`2147483647` packs of `2`: `best` is still `nil` after the loop and the fallback map
`{2: 2147483647}` is returned. -/
theorem fallback_taken_large_sizes :
    ∃ dp frm,
      buildTable (sortInts [2, 4294967297]) (maxTarget 4294967294 2 4294967297).toNat =
        some (dp, frm) ∧
      scanWindow dp
          (maxTarget 4294967294 2 4294967297 + 1 - effOrder 4294967294 2 4294967297).toNat
          (effOrder 4294967294 2 4294967297).toNat = some none ∧
      searchLoop dp 2 4294967297 (baseLargePacks 4294967294 2 4294967297)
        (effOrder 4294967294 2 4294967297) (maxTarget 4294967294 2 4294967297)
        (Int.tdiv (effOrder 4294967294 2 4294967297) 4294967297 + 1).toNat 0 none =
          some none ∧
      calculateOptimalPacks 4294967294 [2, 4294967297] = some (intCounts [(2, 2147483647)]) ∧
      Reachable [2, 4294967297] 4294967294 := by
  obtain ⟨dp, frm, h1, h2, h3, h4, h5⟩ := exact_fallback_taken
  have e1 : (maxTarget 4294967294 2 4294967297).toNat =
      Exact.maxTarget 4294967294 2 4294967297 := by decide
  have e2 : (maxTarget 4294967294 2 4294967297 + 1 -
      effOrder 4294967294 2 4294967297).toNat = 2 := by decide
  have e3 : (effOrder 4294967294 2 4294967297).toNat =
      Exact.effOrder 4294967294 2 4294967297 := by decide
  have e4 : (Int.tdiv (effOrder 4294967294 2 4294967297) 4294967297 + 1).toNat =
      Exact.effOrder 4294967294 2 4294967297 / 4294967297 + 1 := by decide
  have hno : NoOverflow 4294967294 2 4294967297 := ⟨by omega, by omega⟩
  refine ⟨dp, frm, by rw [e1]; exact h1, by rw [e2, e3]; exact h2, ?_, ?_, h5⟩
  · obtain ⟨dp1, frm1, best, r, htab, hsearch, _⟩ := big_pair_run 4294967294 (by omega)
    rw [h1] at htab
    cases htab
    rw [h3] at hsearch
    cases hsearch
    have hl := @table_length_lt 4294967294 2 4294967297 (by omega) (by omega) hno.1
    have hbe := base_add_eff 4294967294 2 4294967297
    have hs := @searchLoop_exact (sortInts [2, 4294967297]) dp frm 2 4294967297
      (Exact.baseLargePacks 4294967294 2 4294967297) (Exact.effOrder 4294967294 2 4294967297)
      (Exact.maxTarget 4294967294 2 4294967297) r.table
      (fun x hx => by
        have := mem_sortInts.1 hx
        simp at this
        omega)
      (by omega) (by omega) hl (by omega)
      (Exact.effOrder 4294967294 2 4294967297 / 4294967297 + 1) 0 none (by omega)
    rw [h3] at hs
    rw [e4, baseLargePacks_exact (by omega) hno.1 (by omega),
      effOrder_exact (by omega) hno.1 (by omega),
      maxTarget_exact (by omega) (by omega) hno.1 (by omega)]
    exact hs
  · rw [big_pair_exact 4294967294 (by omega), h4, Option.map_some']

/-! ## Runs on which nothing overflows -/

/-- The run of the solver on a non-empty slice of positive pack sizes, none above
`3037000498`, and an order that stays within `2^63` when the smallest pack size is added:
the scalars, the table and the search are those of the solver over unbounded integers. -/
theorem bounded_run (orderSize : Nat) (packSizes : List Nat) (hne : packSizes ≠ [])
    (hpos : ∀ x ∈ packSizes, 0 < x) (hsz : ∀ x ∈ packSizes, x ≤ 3037000498)
    (hord : ∃ x ∈ packSizes, orderSize + x ≤ 9223372036854775808) :
    ∃ minPack maxPack dp frm best,
      Run orderSize packSizes minPack maxPack dp frm best ∧
      NoOverflow orderSize minPack maxPack ∧
      buildTable (sortInts packSizes) (Exact.maxTarget orderSize minPack maxPack) =
        some (dp, frm) ∧
      Exact.searchLoop dp minPack maxPack (Exact.baseLargePacks orderSize minPack maxPack)
        (Exact.effOrder orderSize minPack maxPack) (Exact.maxTarget orderSize minPack maxPack)
        (Exact.effOrder orderSize minPack maxPack / maxPack + 1) 0 none = some best ∧
      baseLargePacks orderSize minPack maxPack =
        (Exact.baseLargePacks orderSize minPack maxPack : Int) ∧
      effOrder orderSize minPack maxPack = (Exact.effOrder orderSize minPack maxPack : Int) ∧
      maxTarget orderSize minPack maxPack = (Exact.maxTarget orderSize minPack maxPack : Int) ∧
      (Int.tdiv (effOrder orderSize minPack maxPack) maxPack + 1).toNat =
        Exact.effOrder orderSize minPack maxPack / maxPack + 1 ∧
      searchLoop dp minPack maxPack (Exact.baseLargePacks orderSize minPack maxPack : Int)
        (Exact.effOrder orderSize minPack maxPack : Int)
        (Exact.maxTarget orderSize minPack maxPack : Int)
        (Exact.effOrder orderSize minPack maxPack / maxPack + 1) 0 none =
          some (best.map toGo) := by
  obtain ⟨minPack, maxPack, dp, frm, best, r, htab, hsearch⟩ :=
    run_trace orderSize packSizes hne hpos
  have hmin := r.minPos
  have hmax := r.maxPos
  have hs := size_bound (hsz _ r.minMem) (hsz _ r.maxMem)
  obtain ⟨x, hx, hox⟩ := hord
  have hxm := (r.bounds x hx).1
  have ho63 : orderSize < 9223372036854775808 := by omega
  have hno : NoOverflow orderSize minPack maxPack := ⟨hs, by omega⟩
  have hl := @table_length_lt orderSize minPack maxPack hmin hmax hs
  have hbe := base_add_eff orderSize minPack maxPack
  have hitems : Exact.baseLargePacks orderSize minPack maxPack * maxPack +
      Exact.effOrder orderSize minPack maxPack + minPack ≤ 9223372036854775808 := by
    omega
  have hsl := searchLoop_exact r.table (fun x hx => hpos x (mem_sortInts.1 hx)) hmin hmax hl
    hitems (Exact.effOrder orderSize minPack maxPack / maxPack + 1) 0 none (by omega)
  rw [hsearch] at hsl
  exact ⟨minPack, maxPack, dp, frm, best, r, hno, htab, hsearch,
    baseLargePacks_exact hmin hs ho63, effOrder_exact hmin hs ho63,
    maxTarget_exact hmin hmax hs ho63, fuel_exact hmin hs ho63, hsl⟩

/-! ## The reconstruction -/

/-- C20, as amended: on pack sizes of at most `3037000498` and an order with
`orderSize + minPack ≤ 2^63` the reconstruction is faithful to the retained candidate.
Whenever the search ends with a candidate `best`, the returned mapping is the start map
(`best.largePacks` packs of `maxPack`, when positive) after `result[pack]++` for the packs
`w` of the walk; its sum of `size * count` is
`best.totalItems = best.largePacks * maxPack + best.dpAmount`; its sum of counts is
`best.totalPacks = best.largePacks + dp[best.dpAmount]`; its keys are distinct pack sizes;
its counts are positive; and the count of every size `k` is the number of times the walk
met `k`, plus `best.largePacks` for `maxPack`. -/
theorem reconstruction_faithful (orderSize : Nat) (packSizes : List Nat) (hne : packSizes ≠ [])
    (hpos : ∀ x ∈ packSizes, 0 < x) (hsz : ∀ x ∈ packSizes, x ≤ 3037000498)
    (hord : ∃ x ∈ packSizes, orderSize + x ≤ 9223372036854775808) :
    ∃ minPack maxPack dp frm best,
      (sortInts packSizes).head? = some minPack ∧
      (sortInts packSizes).getLast? = some maxPack ∧
      buildTable (sortInts packSizes) (maxTarget orderSize minPack maxPack).toNat =
        some (dp, frm) ∧
      searchLoop dp minPack maxPack (baseLargePacks orderSize minPack maxPack)
        (effOrder orderSize minPack maxPack) (maxTarget orderSize minPack maxPack)
        (Int.tdiv (effOrder orderSize minPack maxPack) maxPack + 1).toNat 0 none =
          some best ∧
      ∀ s, best = some s →
        ∃ m d w, calculateOptimalPacks orderSize packSizes = some (intCounts m) ∧
          0 ≤ s.dpAmount ∧ dp[s.dpAmount.toNat]? = some d ∧ d < inf ∧
          m = applyPacks w (if s.largePacks > 0 then [(maxPack, s.largePacks.toNat)] else []) ∧
          (w.sum : Int) = s.dpAmount ∧ w.length = d ∧
          (shipped m : Int) = s.totalItems ∧
          s.totalItems = s.largePacks * maxPack + s.dpAmount ∧
          (packCount m : Int) = s.totalPacks ∧ s.totalPacks = s.largePacks + d ∧
          (m.map Prod.fst).Nodup ∧ (∀ e ∈ m, e.1 ∈ packSizes ∧ 0 < e.2) ∧
          ∀ k, (countOf m k : Int) =
            (if maxPack = k then s.largePacks else 0) + (w.count k : Nat) := by
  obtain ⟨minPack, maxPack, dp, frm, bestE, r, hno, htab, hsearch, hB, hE, hM, hfuel, hsl⟩ :=
    bounded_run orderSize packSizes hne hpos hsz hord
  obtain ⟨minPack1, maxPack1, dp1, frm1, best1, g1, g2, g3, g4, g5⟩ :=
    exact_reconstruction orderSize packSizes hne hpos
  rw [r.headEq] at g1
  rw [r.lastEq] at g2
  cases g1
  cases g2
  rw [htab] at g3
  cases g3
  rw [hsearch] at g4
  cases g4
  have hcalc := calculateOptimalPacks_exact r.headEq r.lastEq hpos hno
  refine ⟨minPack, maxPack, dp, frm, bestE.map toGo, r.headEq, r.lastEq, ?_, ?_, ?_⟩
  · rw [hM, Int.toNat_ofNat]
    exact htab
  · rw [hfuel, hB, hE, hM]
    exact hsl
  · intro s hs
    cases bestE with
    | none => cases hs
    | some sE =>
      have hsE : s = toGo sE := (Option.some.inj hs).symm
      obtain ⟨m, d, w, q1, q2, q3, q4, q5, q6, q7, q8, q9, q10, q11, q12, q13⟩ := g5 sE rfl
      have f1 : s.dpAmount = (sE.dpAmount : Int) := by rw [hsE]; rfl
      have f2 : s.largePacks = (sE.largePacks : Int) := by rw [hsE]; rfl
      have f3 : s.totalItems = (sE.totalItems : Int) := by rw [hsE]; rfl
      have f4 : s.totalPacks = (sE.totalPacks : Int) := by rw [hsE]; rfl
      have hstart : (if s.largePacks > 0 then [(maxPack, s.largePacks.toNat)] else []) =
          startMap maxPack sE := by
        rw [f2, Int.toNat_ofNat]
        unfold startMap
        by_cases hl : sE.largePacks > 0
        · rw [if_pos hl, if_pos (by exact_mod_cast hl)]
        · rw [if_neg hl, if_neg (by exact_mod_cast hl)]
      refine ⟨m, d, w, ?_, ?_, ?_, q3, ?_, ?_, q6, ?_, ?_, ?_, ?_, q11, q12, ?_⟩
      · rw [hcalc, q1, Option.map_some']
      · rw [f1]
        exact Int.ofNat_nonneg _
      · rw [f1, Int.toNat_ofNat]
        exact q2
      · rw [hstart]
        exact q4
      · rw [f1, q5]
      · rw [f3, q7]
      · rw [f3, f2, f1, q8]
        push_cast
        rfl
      · rw [f4, q9]
      · rw [f4, f2, q10]
        push_cast
        rfl
      · intro k
        rw [q13 k, f2]
        by_cases hk : maxPack = k
        · rw [if_pos hk, if_pos hk]
          push_cast
          rfl
        · rw [if_neg hk, if_neg hk]
          push_cast
          rfl

theorem reconstruction_faithful_witness :
    ∃ minPack maxPack dp frm best,
      (sortInts [1, 4, 5]).head? = some minPack ∧
      (sortInts [1, 4, 5]).getLast? = some maxPack ∧
      buildTable (sortInts [1, 4, 5]) (maxTarget 12 minPack maxPack).toNat = some (dp, frm) ∧
      searchLoop dp minPack maxPack (baseLargePacks 12 minPack maxPack)
        (effOrder 12 minPack maxPack) (maxTarget 12 minPack maxPack)
        (Int.tdiv (effOrder 12 minPack maxPack) maxPack + 1).toNat 0 none = some best ∧
      ∀ s, best = some s →
        ∃ m d w, calculateOptimalPacks 12 [1, 4, 5] = some (intCounts m) ∧
          0 ≤ s.dpAmount ∧ dp[s.dpAmount.toNat]? = some d ∧ d < inf ∧
          m = applyPacks w (if s.largePacks > 0 then [(maxPack, s.largePacks.toNat)] else []) ∧
          (w.sum : Int) = s.dpAmount ∧ w.length = d ∧
          (shipped m : Int) = s.totalItems ∧
          s.totalItems = s.largePacks * maxPack + s.dpAmount ∧
          (packCount m : Int) = s.totalPacks ∧ s.totalPacks = s.largePacks + d ∧
          (m.map Prod.fst).Nodup ∧ (∀ e ∈ m, e.1 ∈ [1, 4, 5] ∧ 0 < e.2) ∧
          ∀ k, (countOf m k : Int) =
            (if maxPack = k then s.largePacks else 0) + (w.count k : Nat) :=
  reconstruction_faithful 12 [1, 4, 5] (by decide) (by decide) (by decide)
    ⟨1, by decide, by decide⟩

/-! ## One iteration of the search -/

/-- An iteration of the search on scalars that did not overflow: its window is
`eff - e * maxPack .. eff - e * maxPack + minPack - 1`. -/
theorem iteration_eq {dp : List Nat} {minPack maxPack base eff mt : Nat} (hmin : 0 < minPack)
    (hmax : 0 < maxPack) (hlen : eff + minPack < 9223372036854775808) (e : Nat)
    (he : e ≤ eff / maxPack) :
    iteration dp minPack maxPack base eff mt e =
      if mt < eff - e * maxPack + minPack - 1 then none
      else
        (scanWindow dp minPack (eff - e * maxPack)).join.map fun td =>
          { dpAmount := td.1, largePacks := add64 base e,
            totalItems := add64 (mul64 (add64 base e) maxPack) td.1,
            totalPacks := add64 (add64 base e) td.2 } := by
  have hem : e * maxPack ≤ eff := (Nat.le_div_iff_mul_le hmax).1 he
  have hmul : mul64 e maxPack = ((e * maxPack : Nat) : Int) := mul64_natCast (by omega)
  have hrem : sub64 eff (mul64 e maxPack) = ((eff - e * maxPack : Nat) : Int) := by
    rw [hmul]
    exact sub64_natCast hem (by omega)
  have hend : sub64 (add64 ((eff - e * maxPack : Nat) : Int) minPack) 1 =
      ((eff - e * maxPack + minPack - 1 : Nat) : Int) := by
    rw [add64_natCast (by omega)]
    exact @sub64_natCast (eff - e * maxPack + minPack) 1 (by omega) (by omega)
  have hwin : (((eff - e * maxPack + minPack - 1 : Nat) : Int) + 1 -
      ((eff - e * maxPack : Nat) : Int)).toNat = minPack := by omega
  have hnn : ¬ ((eff - e * maxPack : Nat) : Int) < 0 := by omega
  rw [iteration]
  simp only [hrem, hend, hwin, hnn, if_false, Int.toNat_ofNat, Nat.cast_lt, gt_iff_lt]

/-- A candidate that an iteration builds on scalars that did not overflow is the candidate
of that iteration over unbounded integers. -/
theorem iteration_exact {ps dp frm : List Nat} {minPack maxPack base eff mt : Nat}
    (htab : TableOK ps mt dp frm) (hps : ∀ x ∈ ps, 0 < x) (hmin : 0 < minPack)
    (hmax : 0 < maxPack) (hlen : eff + minPack < 9223372036854775808)
    (hitems : base * maxPack + eff + minPack ≤ 9223372036854775808) (e : Nat)
    (he : e ≤ eff / maxPack) {s1 : solution}
    (h : iteration dp minPack maxPack base eff mt e = some s1) :
    ∃ sE, CandAt dp minPack maxPack base eff mt e sE ∧ s1 = toGo sE := by
  have hem : e * maxPack ≤ eff := (Nat.le_div_iff_mul_le hmax).1 he
  rw [iteration_eq hmin hmax hlen e he] at h
  by_cases hskip : mt < eff - e * maxPack + minPack - 1
  · rw [if_pos hskip] at h
    cases h
  · rw [if_neg hskip] at h
    rcases scanWindow_spec htab.1 minPack (eff - e * maxPack) (by omega) with
      ⟨hs1, _⟩ | ⟨t1, d, hs1, hs2, hs3, hs4, hs5, hs6⟩
    · rw [hs1] at h
      cases h
    · rw [hs1] at h
      have hdt := htab.cell_le hps hs4 hs5
      have hadd : (base + e) * maxPack = base * maxPack + e * maxPack := Nat.add_mul _ _ _
      have hbe : base + e ≤ (base + e) * maxPack := Nat.le_mul_of_pos_right _ hmax
      have q3 : (base + e) * maxPack + t1 < 9223372036854775808 := by omega
      have q2 : (base + e) * maxPack < 9223372036854775808 := by omega
      have q1 : base + e < 9223372036854775808 := by omega
      have q4 : base + e + d < 9223372036854775808 := by omega
      have hcand := candidate_toGo maxPack t1 d q1 q2 q3 q4
      simp only [Option.join, Option.bind, Option.map_some', id] at h
      rw [hcand] at h
      refine ⟨⟨t1, base + e, (base + e) * maxPack + t1, base + e + d⟩, ?_,
        (Option.some.inj h).symm⟩
      refine ⟨hem, by omega, hs2, ?_, hs6, rfl, rfl, d, hs4, hs5, rfl⟩
      show t1 ≤ eff - e * maxPack + minPack - 1
      omega

/-- The candidate of the iteration `extra = 0` over unbounded integers is the candidate
that the 64-bit iteration builds, on scalars that did not overflow. -/
theorem iteration_zero {ps dp frm : List Nat} {minPack maxPack base eff mt : Nat}
    (htab : TableOK ps mt dp frm) (hps : ∀ x ∈ ps, 0 < x) (hmin : 0 < minPack)
    (hmax : 0 < maxPack)
    (hlen : eff + minPack < 9223372036854775808)
    (hitems : base * maxPack + eff + minPack ≤ 9223372036854775808)
    {sE : Exact.solution} (hc0 : CandAt dp minPack maxPack base eff mt 0 sE) :
    iteration dp minPack maxPack base eff mt (0 : Nat) = some (toGo sE) := by
  obtain ⟨d, hscan, hrec⟩ := scan_extra_zero htab.1 hmin hc0
  have hfit := hc0.2.1
  have hd : ∃ d1, dp[sE.dpAmount]? = some d1 ∧ d1 < inf ∧ sE.totalPacks = base + 0 + d1 :=
    hc0.2.2.2.2.2.2.2
  have htot : sE.totalItems = (base + 0) * maxPack + sE.dpAmount := hc0.2.2.2.2.2.2.1
  have hle := hc0.2.2.2.1
  simp only [Nat.zero_mul, Nat.sub_zero, Nat.add_zero] at hfit hd htot hle
  obtain ⟨d1, hd1, hd2, hd3⟩ := hd
  have hdt := htab.cell_le hps hd1 hd2
  rw [iteration_eq hmin hmax hlen 0 (Nat.zero_le _)]
  simp only [Nat.zero_mul, Nat.sub_zero]
  rw [if_neg (by omega), hscan]
  have hbe : base ≤ base * maxPack := Nat.le_mul_of_pos_right _ hmax
  have hdd : base + d = sE.totalPacks := by
    rw [hrec]
  have hcand := @candidate_toGo base 0 maxPack sE.dpAmount d (by omega)
    (by rw [Nat.add_zero]; omega) (by rw [Nat.add_zero]; omega) (by omega)
  simp only [Option.join, Option.bind, Option.map_some', id]
  rw [hcand]
  simp only [Nat.add_zero]
  rw [← hrec]

/-! ## The solver without the sweep -/

/-- The run of the solver without the sweep once the sizes keep the table length below
`2^63` and the order is a Go integer. -/
theorem calculateOptimalPacksNoSweep_run {orderSize : Nat} {packSizes : List Nat}
    {minPack maxPack : Nat} {dp frm : List Nat} {best : Option Exact.solution}
    (r : Run orderSize packSizes minPack maxPack dp frm best)
    (htab : buildTable (sortInts packSizes) (Exact.maxTarget orderSize minPack maxPack) =
      some (dp, frm))
    (h : minPack * maxPack + maxPack + 2 * minPack ≤ 9223372036854775808)
    (ho : orderSize < 9223372036854775808) :
    calculateOptimalPacksNoSweep orderSize packSizes =
      (scanWindow dp minPack (Exact.effOrder orderSize minPack maxPack)).bind fun found =>
        finish orderSize minPack maxPack frm
          (found.map fun td =>
            { dpAmount := td.1,
              largePacks := (Exact.baseLargePacks orderSize minPack maxPack : Int),
              totalItems :=
                add64 (mul64 (Exact.baseLargePacks orderSize minPack maxPack : Int) maxPack)
                  td.1,
              totalPacks :=
                add64 (Exact.baseLargePacks orderSize minPack maxPack : Int) td.2 }) := by
  have hmin := r.minPos
  have hmax := r.maxPos
  have hmax0 : ¬ maxPack = 0 := by omega
  obtain ⟨hl1, hl2⟩ := table_length_exact hmin hmax h ho
  unfold calculateOptimalPacksNoSweep
  simp only [r.headEq, r.lastEq, if_neg hmax0]
  rw [hl1, if_neg (by omega), hl2, htab, Option.some_bind, effOrder_exact hmin h ho,
    baseLargePacks_exact hmin h ho, Int.toNat_ofNat]

/-! ## A retained candidate whose total overflowed -/

/-- C20, counterexample: on the order `2^63 - 2` with the pack sizes `3` and `5` the
search retains the candidate of `extra = 3`, whose `totalItems` overflowed to `-2^63`; the
map reconstructed from it holds `1844674407370955161` packs of `5` and one pack of `3`,
whose sum of `size * count` is `2^63`, not `best.totalItems`, and `best.totalItems` is not
`best.largePacks * maxPack + best.dpAmount`. -/
theorem reconstruction_total_wraps :
    ∃ dp frm s,
      buildTable (sortInts [3, 5]) (maxTarget 9223372036854775806 3 5).toNat =
        some (dp, frm) ∧
      searchLoop dp 3 5 (baseLargePacks 9223372036854775806 3 5)
        (effOrder 9223372036854775806 3 5) (maxTarget 9223372036854775806 3 5)
        (Int.tdiv (effOrder 9223372036854775806 3 5) 5 + 1).toNat 0 none = some (some s) ∧
      calculateOptimalPacks 9223372036854775806 [3, 5] =
        some (intCounts [(5, 1844674407370955161), (3, 1)]) ∧
      s.totalItems = -9223372036854775808 ∧
      (shipped [(5, 1844674407370955161), (3, 1)] : Int) = 9223372036854775808 ∧
      s.totalItems ≠ s.largePacks * 5 + s.dpAmount :=
  ⟨[0, 2147483647, 2147483647, 1, 2147483647, 1, 2, 2147483647, 2, 3, 2, 3, 4, 3, 4, 3, 4, 5, 4],
    [0, 0, 0, 3, 0, 5, 3, 0, 3, 3, 5, 3, 3, 3, 3, 5, 3, 3, 3],
    ⟨3, 1844674407370955161, -9223372036854775808, 1844674407370955162⟩,
    by decide, by decide, by decide, by decide, by decide, by decide⟩

/-! ## The sweep over extra largest packs -/

/-- C23, as amended: when no pack size exceeds `1073741822` and
`orderSize + minPack ≤ 2^63`, on every non-empty slice of positive pack sizes the
candidate retained in `best` is the one of the iteration `extra = 0`:
`best.largePacks = baseLargePacks`, and `best.dpAmount` is the smallest combination of the
pack sizes that is not below `effOrder`; no candidate of an iteration `1 ≤ extra ≤ maxExtra`
has fewer `totalItems`, or as many `totalItems` and fewer `totalPacks`; and
`calculateOptimalPacks` returns what the solver without the sweep returns. -/
theorem sweep_redundant (orderSize : Nat) (packSizes : List Nat) (hne : packSizes ≠ [])
    (hpos : ∀ x ∈ packSizes, 0 < x) (hsmall : ∀ x ∈ packSizes, x ≤ 1073741822)
    (hord : ∃ x ∈ packSizes, orderSize + x ≤ 9223372036854775808) :
    ∃ minPack maxPack dp frm s,
      (sortInts packSizes).head? = some minPack ∧
      (sortInts packSizes).getLast? = some maxPack ∧
      buildTable (sortInts packSizes) (maxTarget orderSize minPack maxPack).toNat =
        some (dp, frm) ∧
      searchLoop dp minPack maxPack (baseLargePacks orderSize minPack maxPack)
        (effOrder orderSize minPack maxPack) (maxTarget orderSize minPack maxPack)
        (Int.tdiv (effOrder orderSize minPack maxPack) maxPack + 1).toNat 0 none =
          some (some s) ∧
      iteration dp minPack maxPack (baseLargePacks orderSize minPack maxPack)
        (effOrder orderSize minPack maxPack) (maxTarget orderSize minPack maxPack) 0 =
          some s ∧
      s.largePacks = baseLargePacks orderSize minPack maxPack ∧
      effOrder orderSize minPack maxPack ≤ s.dpAmount ∧
      Reachable packSizes s.dpAmount.toNat ∧
      (∀ t : Nat, Reachable packSizes t → effOrder orderSize minPack maxPack ≤ (t : Int) →
        s.dpAmount ≤ (t : Int)) ∧
      (∀ (e : Nat) (s1 : solution), 1 ≤ e →
        (e : Int) ≤ Int.tdiv (effOrder orderSize minPack maxPack) maxPack →
        iteration dp minPack maxPack (baseLargePacks orderSize minPack maxPack)
          (effOrder orderSize minPack maxPack) (maxTarget orderSize minPack maxPack) e =
            some s1 →
        ¬ (s1.totalItems < s.totalItems ∨
            (s1.totalItems = s.totalItems ∧ s1.totalPacks < s.totalPacks))) ∧
      calculateOptimalPacks orderSize packSizes =
        calculateOptimalPacksNoSweep orderSize packSizes := by
  obtain ⟨minPack, maxPack, dp, frm, bestE, r, hno, htab, hsearch, hB, hE, hM, hfuel, hsl⟩ :=
    bounded_run orderSize packSizes hne hpos (small_sizes_bounded hsmall) hord
  obtain ⟨minPack1, maxPack1, dp1, frm1, sE, g1, g2, g3, g4, hc0, g6, g7, g8, g9, g10, _⟩ :=
    exact_first_candidate orderSize packSizes hne hpos hsmall
  rw [r.headEq] at g1
  rw [r.lastEq] at g2
  cases g1
  cases g2
  rw [htab] at g3
  cases g3
  rw [hsearch] at g4
  cases g4
  have hmin := r.minPos
  have hmax := r.maxPos
  have hps : ∀ x ∈ sortInts packSizes, 0 < x := fun x hx => hpos x (mem_sortInts.1 hx)
  have ho63 : orderSize < 9223372036854775808 := by
    have := hno.2
    omega
  have hl := @table_length_lt orderSize minPack maxPack hmin hmax hno.1
  have hbe := base_add_eff orderSize minPack maxPack
  have hitems : Exact.baseLargePacks orderSize minPack maxPack * maxPack +
      Exact.effOrder orderSize minPack maxPack + minPack ≤ 9223372036854775808 := by
    have := hno.2
    omega
  have hit0 := iteration_zero r.table hps hmin hmax hl hitems hc0
  rw [Nat.cast_zero] at hit0
  obtain ⟨d, hscan, hrec⟩ := scan_extra_zero r.table.1 hmin hc0
  have hrun := calculateOptimalPacks_run r htab hno.1 ho63
  have hns := calculateOptimalPacksNoSweep_run r htab hno.1 ho63
  have f1 : (toGo sE).dpAmount = (sE.dpAmount : Int) := rfl
  have f2 : (toGo sE).largePacks = (sE.largePacks : Int) := rfl
  have f3 : (toGo sE).totalItems = (sE.totalItems : Int) := rfl
  have f4 : (toGo sE).totalPacks = (sE.totalPacks : Int) := rfl
  refine ⟨minPack, maxPack, dp, frm, toGo sE, r.headEq, r.lastEq, ?_, ?_, ?_, ?_, ?_, ?_, ?_,
    ?_, ?_⟩
  · rw [hM, Int.toNat_ofNat]
    exact htab
  · rw [hfuel, hB, hE, hM]
    exact hsl
  · rw [hB, hE, hM]
    exact hit0
  · rw [f2, hB, g6]
  · rw [f1, hE]
    exact_mod_cast g7
  · rw [f1, Int.toNat_ofNat]
    exact g8
  · intro t ht hge
    rw [hE] at hge
    rw [f1]
    exact_mod_cast g9 t ht (by exact_mod_cast hge)
  · intro e s1 he1 hele hit
    rw [hE, ← Int.ofNat_tdiv] at hele
    have heN : e ≤ Exact.effOrder orderSize minPack maxPack / maxPack := by
      exact_mod_cast hele
    rw [hB, hE, hM] at hit
    obtain ⟨sE1, hc1, hs1⟩ := iteration_exact r.table hps hmin hmax hl hitems e heN hit
    have hnot := g10 e sE1 he1 hc1
    have k3 : s1.totalItems = (sE1.totalItems : Int) := by rw [hs1]; rfl
    have k4 : s1.totalPacks = (sE1.totalPacks : Int) := by rw [hs1]; rfl
    rw [k3, k4, f3, f4]
    intro hcon
    apply hnot
    rcases hcon with h | ⟨h1, h2⟩
    · left
      exact_mod_cast h
    · right
      exact ⟨by exact_mod_cast h1, by exact_mod_cast h2⟩
  · have hbm : Exact.baseLargePacks orderSize minPack maxPack ≤
        Exact.baseLargePacks orderSize minPack maxPack * maxPack :=
      Nat.le_mul_of_pos_right _ hmax
    obtain ⟨_, _, _, c4, _, _, _, d1, hd1, hd2, hd3⟩ := hc0
    simp only [Nat.zero_mul, Nat.sub_zero, Nat.add_zero] at c4 hd3
    have hdt := r.table.cell_le hps hd1 hd2
    have hdd : d1 = d := by
      have h1 : sE.totalPacks = Exact.baseLargePacks orderSize minPack maxPack + d := by
        rw [hrec]
      omega
    subst hdd
    have hc : solution.mk (sE.dpAmount : Int)
        (Exact.baseLargePacks orderSize minPack maxPack : Int)
        (add64 (mul64 (Exact.baseLargePacks orderSize minPack maxPack : Int) maxPack)
          sE.dpAmount)
        (add64 (Exact.baseLargePacks orderSize minPack maxPack : Int) d1) = toGo sE := by
      rw [mul64_natCast (by omega), add64_natCast (by omega), add64_natCast (by omega)]
      conv_rhs => rw [hrec]
      rfl
    rw [hrun, hsl, Option.map_some', Option.some_bind, hns, hscan, Option.some_bind,
      Option.map_some']
    exact congrArg (fun b => finish orderSize minPack maxPack frm (some b)) hc.symm

theorem sweep_redundant_witness :
    ∃ minPack maxPack dp frm s,
      (sortInts [1, 4, 5]).head? = some minPack ∧
      (sortInts [1, 4, 5]).getLast? = some maxPack ∧
      buildTable (sortInts [1, 4, 5]) (maxTarget 12 minPack maxPack).toNat = some (dp, frm) ∧
      searchLoop dp minPack maxPack (baseLargePacks 12 minPack maxPack)
        (effOrder 12 minPack maxPack) (maxTarget 12 minPack maxPack)
        (Int.tdiv (effOrder 12 minPack maxPack) maxPack + 1).toNat 0 none = some (some s) ∧
      iteration dp minPack maxPack (baseLargePacks 12 minPack maxPack)
        (effOrder 12 minPack maxPack) (maxTarget 12 minPack maxPack) 0 = some s ∧
      s.largePacks = baseLargePacks 12 minPack maxPack ∧
      effOrder 12 minPack maxPack ≤ s.dpAmount ∧
      Reachable [1, 4, 5] s.dpAmount.toNat ∧
      (∀ t : Nat, Reachable [1, 4, 5] t → effOrder 12 minPack maxPack ≤ (t : Int) →
        s.dpAmount ≤ (t : Int)) ∧
      (∀ (e : Nat) (s1 : solution), 1 ≤ e →
        (e : Int) ≤ Int.tdiv (effOrder 12 minPack maxPack) maxPack →
        iteration dp minPack maxPack (baseLargePacks 12 minPack maxPack)
          (effOrder 12 minPack maxPack) (maxTarget 12 minPack maxPack) e = some s1 →
        ¬ (s1.totalItems < s.totalItems ∨
            (s1.totalItems = s.totalItems ∧ s1.totalPacks < s.totalPacks))) ∧
      calculateOptimalPacks 12 [1, 4, 5] = calculateOptimalPacksNoSweep 12 [1, 4, 5] :=
  sweep_redundant 12 [1, 4, 5] (by decide) (by decide) (by decide) ⟨1, by decide, by decide⟩

/-- C23, counterexample, in two parts.  On the order `8589934589` with the pack sizes `2`
and `4294967297` no largest pack is set aside and the iteration `extra = 0` finds nothing,
while the iteration `extra = 1` finds the amount `4294967292`: the candidate retained in
`best` has `largePacks = 1`, and `calculateOptimalPacks`, which ships the order exactly,
differs from the solver without the sweep, which returns the fallback map.  On the order
`2^63 - 2` with the pack sizes `3` and `5` the iteration `extra = 0` finds the exact
candidate, but the `totalItems` of the candidate of `extra = 3` overflows to `-2^63`, so
that candidate is retained, and the two solvers return different maps. -/
theorem sweep_changes_outcome :
    (∃ dp frm s,
      buildTable (sortInts [2, 4294967297]) (maxTarget 8589934589 2 4294967297).toNat =
        some (dp, frm) ∧
      searchLoop dp 2 4294967297 (baseLargePacks 8589934589 2 4294967297)
        (effOrder 8589934589 2 4294967297) (maxTarget 8589934589 2 4294967297)
        (Int.tdiv (effOrder 8589934589 2 4294967297) 4294967297 + 1).toNat 0 none =
          some (some s) ∧
      baseLargePacks 8589934589 2 4294967297 = 0 ∧ s.largePacks = 1 ∧
      iteration dp 2 4294967297 (baseLargePacks 8589934589 2 4294967297)
        (effOrder 8589934589 2 4294967297) (maxTarget 8589934589 2 4294967297) 0 = none ∧
      calculateOptimalPacksNoSweep 8589934589 [2, 4294967297] =
        some (intCounts [(2, 4294967295)]) ∧
      calculateOptimalPacks 8589934589 [2, 4294967297] ≠
        calculateOptimalPacksNoSweep 8589934589 [2, 4294967297]) ∧
    (∃ dp frm s,
      buildTable (sortInts [3, 5]) (maxTarget 9223372036854775806 3 5).toNat =
        some (dp, frm) ∧
      searchLoop dp 3 5 (baseLargePacks 9223372036854775806 3 5)
        (effOrder 9223372036854775806 3 5) (maxTarget 9223372036854775806 3 5)
        (Int.tdiv (effOrder 9223372036854775806 3 5) 5 + 1).toNat 0 none = some (some s) ∧
      iteration dp 3 5 (baseLargePacks 9223372036854775806 3 5)
        (effOrder 9223372036854775806 3 5) (maxTarget 9223372036854775806 3 5) 0 =
          some ⟨16, 1844674407370955158, 9223372036854775806, 1844674407370955162⟩ ∧
      s.largePacks = baseLargePacks 9223372036854775806 3 5 + 3 ∧
      s.totalItems = -9223372036854775808 ∧
      calculateOptimalPacks 9223372036854775806 [3, 5] ≠
        calculateOptimalPacksNoSweep 9223372036854775806 [3, 5]) := by
  constructor
  · obtain ⟨dp, frm, sE, h1, h2, h3, h4, h5, h6, h7⟩ := exact_later_candidate
    obtain ⟨dp1, frm1, best, r, htab, hsearch, _⟩ := big_pair_run 8589934589 (by omega)
    rw [h1] at htab
    cases htab
    rw [h2] at hsearch
    cases hsearch
    have hno : NoOverflow 8589934589 2 4294967297 := ⟨by omega, by omega⟩
    have hl := @table_length_lt 8589934589 2 4294967297 (by omega) (by omega) hno.1
    have hbe := base_add_eff 8589934589 2 4294967297
    have hB := @baseLargePacks_exact 8589934589 2 4294967297 (by omega) hno.1 (by omega)
    have hE := @effOrder_exact 8589934589 2 4294967297 (by omega) hno.1 (by omega)
    have hM := @maxTarget_exact 8589934589 2 4294967297 (by omega) (by omega) hno.1
      (by omega)
    have hfuel : (Int.tdiv (effOrder 8589934589 2 4294967297) 4294967297 + 1).toNat =
        Exact.effOrder 8589934589 2 4294967297 / 4294967297 + 1 := by decide
    have hs := @searchLoop_exact (sortInts [2, 4294967297]) dp frm 2 4294967297
      (Exact.baseLargePacks 8589934589 2 4294967297) (Exact.effOrder 8589934589 2 4294967297)
      (Exact.maxTarget 8589934589 2 4294967297) r.table
      (fun x hx => by
        have := mem_sortInts.1 hx
        simp at this
        omega)
      (by omega) (by omega) hl (by omega)
      (Exact.effOrder 8589934589 2 4294967297 / 4294967297 + 1) 0 none (by omega)
    rw [h2] at hs
    have hit := @iteration_eq dp 2 4294967297 (Exact.baseLargePacks 8589934589 2 4294967297)
      (Exact.effOrder 8589934589 2 4294967297) (Exact.maxTarget 8589934589 2 4294967297)
      (by omega) (by omega) hl 0 (Nat.zero_le _)
    have hfit := r.maxTarget_eq
    simp only [Nat.zero_mul, Nat.sub_zero] at hit
    rw [if_neg (by omega), h5, Nat.cast_zero] at hit
    have hns := calculateOptimalPacksNoSweep_run r h1 hno.1 (by omega)
    rw [h5, Option.some_bind, Option.map_none', finish, if_neg (by omega)] at hns
    have hval : (some [((2 : Nat),
        Int.tdiv (sub64 (add64 ((8589934589 : Nat) : Int) ((2 : Nat) : Int)) 1)
          ((2 : Nat) : Int))] : Option (List (Nat × Int))) =
        some (intCounts [(2, 4294967295)]) := by decide
    rw [hval] at hns
    refine ⟨dp, frm, toGo sE, ?_, ?_, ?_, ?_, ?_, hns, ?_⟩
    · rw [hM, Int.toNat_ofNat]
      exact h1
    · rw [hfuel, hB, hE, hM]
      exact hs
    · rw [hB, h3]
      rfl
    · show ((sE.largePacks : Nat) : Int) = 1
      rw [h4]
      rfl
    · rw [hB, hE, hM]
      exact hit
    · rw [hns, big_pair_exact 8589934589 (by omega)]
      intro hc
      apply h7
      rw [h6]
      cases hx : Exact.calculateOptimalPacks 8589934589 [2, 4294967297] with
      | none =>
        rw [hx] at hc
        cases hc
      | some m =>
        rw [hx, Option.map_some'] at hc
        rw [intCounts_injective (Option.some.inj hc)]
  · exact
      ⟨[0, 2147483647, 2147483647, 1, 2147483647, 1, 2, 2147483647, 2, 3, 2, 3, 4, 3, 4, 3, 4,
          5, 4],
        [0, 0, 0, 3, 0, 5, 3, 0, 3, 3, 5, 3, 3, 3, 3, 5, 3, 3, 3],
        ⟨3, 1844674407370955161, -9223372036854775808, 1844674407370955162⟩,
        by decide, by decide, by decide, by decide, by decide, by decide⟩

end PackCalc
